import Mathlib

/-!
# Class hierarchy analysis of the HipHop compiler (`ClassScope`)

A shallow embedding of `src/compiler/analysis/class_scope.cpp`.

* Class scopes live in an arena (`AnalysisResult.classes`) and are referred to by their
  index; function scopes live in a second arena (`AnalysisResult.functions`).  A C++
  `ClassScopePtr` / `FunctionScopePtr` is an index into the arena, so that mutation through a
  shared pointer is an update of the arena.
* `hphp_string_set` is a list of strings used as a set.
* Recursive member functions take a `fuel` argument bounding the depth of nested calls and
  return `none` when the fuel is exhausted or when the C++ code would index a vector out of
  bounds.
-/

namespace HPHP

/-- `ClassScope::KindOf`. -/
inductive KindOf where
  | KindOfObjectClass
  | KindOfAbstractClass
  | KindOfFinalClass
  | KindOfInterface
  deriving DecidableEq, Repr

/-- `ClassScope::Derivation`. -/
inductive Derivation where
  | FromNormal
  | DirectFromRedeclared
  | IndirectFromRedeclared
  deriving DecidableEq, Repr

/-- The `CodeError::ErrorType` values used by `class_scope.cpp`. -/
inductive ErrorType where
  | InvalidDerivation
  | UnknownBaseClass
  | DeclaredFunctionTwice
  deriving DecidableEq, Repr

/-- One call of `CodeError::record(kind, construct, _, detail)`. -/
structure ErrorRecord where
  kind : ErrorType
  stmt : Nat
  detail : String
  deriving DecidableEq, Repr

/-- The part of `FunctionScope` that `class_scope.cpp` reads and writes. -/
structure FunctionScope where
  m_name : String
  m_private : Bool
  m_static : Bool
  m_abstract : Bool
  m_virtual : Bool
  m_dynamic : Bool
  m_redeclaring : Int
  m_system : Bool
  m_stmt : Nat
  deriving DecidableEq, Repr

/-- The requests `class_scope.cpp` issues to the `VariableTable` of a class:
`forceVariants(ar, AnyNonPrivateVars)` and `setAttribute(NeedGlobalPointer)`. -/
structure VariableTable where
  forcedNonPrivateVariants : Bool
  needGlobalPointer : Bool
  deriving DecidableEq, Repr

/-- Modelled from the spec: the names of the jump tables a class can mark as empty
(`ClassScope::JumpTableName` of the header, which is not part of the sources). -/
inductive JumpTableName where
  | JumpTableInvoke
  | JumpTableStaticInvoke
  deriving DecidableEq, Repr

/-- The fields of `ClassScope`. `m_functions` maps a method name to the declarations of that
name (indices into the function arena), `m_implemented` is the memo table of
`implementsAccessor`, `m_functionsVec` holds the declarations in the order of their
addition, `m_emptyJumpTables` is the set of the jump tables marked as empty. -/
structure ClassScope where
  m_name : String
  m_kindOf : KindOf
  m_parent : String
  m_bases : List String
  m_attribute : Nat
  m_dynamic : Bool
  m_redeclaring : Int
  m_volatile : Bool
  m_derivesFromRedeclaring : Derivation
  m_derivedByDynamic : Bool
  m_functions : List (String × List Nat)
  m_missingMethods : List String
  m_implemented : List (String × Int)
  m_variables : VariableTable
  m_stmt : Nat
  m_functionsVec : List Nat
  m_emptyJumpTables : List JumpTableName
  deriving DecidableEq, Repr

/-- The part of `AnalysisResult` the class analysis works on: the arena of class scopes, the
arena of function scopes, the recorded code errors and the names passed to
`declareUnknownClass`. -/
structure AnalysisResult where
  classes : List ClassScope
  functions : List FunctionScope
  errors : List ErrorRecord
  unknownClasses : List String
  deriving DecidableEq, Repr

/-- Modelled from the spec: `AnalysisResult::findClasses` (analysis_result.cpp is not part of
the sources): every declaration sharing the name, in declaration order. -/
def findClasses (ar : AnalysisResult) (name : String) : List Nat :=
  (List.range ar.classes.length).filter
    (fun i => (ar.classes[i]?).map (fun c => c.m_name) == some name)

/-- Modelled from the spec: `AnalysisResult::findClass`: a declaration of the name (the last
one when the name is declared several times), or none when the name is not declared. -/
def findClass (ar : AnalysisResult) (name : String) : Option Nat :=
  (findClasses ar name).getLast?

/-- Modelled from the spec: `AnalysisResult::findRedeclaredClasses`: the alternative
declarations of a redeclared name. -/
def findRedeclaredClasses (ar : AnalysisResult) (name : String) : List Nat :=
  findClasses ar name

/-- Modelled from the spec: `AnalysisResult::declareUnknownClass`. -/
def declareUnknownClass (ar : AnalysisResult) (name : String) : AnalysisResult :=
  { ar with unknownClasses := ar.unknownClasses ++ [name] }

/-- `ar->getCodeError()->record(kind, stmt, ConstructPtr(), detail)`. -/
def record (ar : AnalysisResult) (kind : ErrorType) (stmt : Nat) (detail : String) :
    AnalysisResult :=
  { ar with errors := ar.errors ++ [⟨kind, stmt, detail⟩] }

/-- Write through a `ClassScopePtr`. -/
def updateClass (ar : AnalysisResult) (self : Nat) (f : ClassScope → ClassScope) :
    AnalysisResult :=
  { ar with classes := ar.classes.modify f self }

/-- Write through a `FunctionScopePtr`. -/
def updateFunction (ar : AnalysisResult) (fid : Nat) (f : FunctionScope → FunctionScope) :
    AnalysisResult :=
  { ar with functions := ar.functions.modify f fid }

/-- `hphp_string_set::insert`. -/
def setInsert (seen : List String) (name : String) : List String :=
  if name ∈ seen then seen else name :: seen

/-- `hphp_string_set::erase`. -/
def setErase (seen : List String) (name : String) : List String :=
  seen.filter (fun x => x != name)

/-- `ClassScope::isRedeclaring`. -/
def ClassScope.isRedeclaring (c : ClassScope) : Bool := decide (0 ≤ c.m_redeclaring)

/-- `ClassScope::isInterface`. -/
def ClassScope.isInterface (c : ClassScope) : Bool := c.m_kindOf == KindOf.KindOfInterface

/-- `ClassScope::derivesFromRedeclaring` used as a condition: different from `FromNormal`. -/
def ClassScope.derivesFromRedeclaringB (c : ClassScope) : Bool :=
  c.m_derivesFromRedeclaring != Derivation.FromNormal

/-! ## `ClassScope::checkDerivation` -/

/-- The state `checkDerivation` works on: the analysis result and the `seen` set that is
passed by reference. -/
structure DerivState where
  ar : AnalysisResult
  seen : List String
  deriving DecidableEq, Repr

/-- The body of the `if` of `checkDerivation` (lines 192-198): record the error, clear
`m_parent` when the edge is the parent edge, erase `m_bases[i]`. The `ASSERT` of line 195 is a
debug check and has no effect here. -/
def derivationError (self i : Nat) (c : ClassScope) (base : String) (s : DerivState) :
    DerivState :=
  { s with
    ar := updateClass (record s.ar ErrorType.InvalidDerivation c.m_stmt base) self
      (fun c0 =>
        { c0 with
          m_parent := if i = 0 ∧ c0.m_parent ≠ "" then "" else c0.m_parent
          m_bases := c0.m_bases.eraseIdx i }) }

/-- The inner loop of `checkDerivation` (lines 204-206) over the declarations of one base;
`rec` is the recursive call. -/
def checkDerivationParents (rec : Nat → DerivState → Option DerivState) :
    List Nat → DerivState → Option DerivState
  | [], s => some s
  | p :: ps, s =>
    match rec p s with
    | none => none
    | some s1 => checkDerivationParents rec ps s1

/-- The outer loop of `checkDerivation` (lines 188-207): `n` is `i + 1`, `bases` is the local
set of the base names already accepted. -/
def checkDerivationBases (rec : Nat → DerivState → Option DerivState) (self : Nat) :
    Nat → List String → DerivState → Option DerivState
  | 0, _, s => some s
  | i + 1, bases, s =>
    match s.ar.classes[self]? with
    | none => none
    | some c =>
      match c.m_bases[i]? with
      | none => none
      | some base =>
        if base ∈ s.seen ∨ base ∈ bases then
          checkDerivationBases rec self i bases (derivationError self i c base s)
        else
          match checkDerivationParents rec (findClasses s.ar base) s with
          | none => none
          | some s1 => checkDerivationBases rec self i (setInsert bases base) s1

/-- `ClassScope::checkDerivation(ar, seen)` on the class scope with index `self`. -/
def checkDerivation : Nat → Nat → DerivState → Option DerivState
  | 0, _, _ => none
  | fuel + 1, self, s =>
    match s.ar.classes[self]? with
    | none => none
    | some c =>
      match checkDerivationBases (checkDerivation fuel) self c.m_bases.length []
          { s with seen := setInsert s.seen c.m_name } with
      | none => none
      | some s1 => some { s1 with seen := setErase s1.seen c.m_name }

/-! ## Construction and the parent invariant -/

/-- The user-class constructor `ClassScope::ClassScope` (lines 42-59); `isDynamicClass` is
`Option::IsDynamicClass(m_name)` and `allVolatile` is `Option::AllVolatile`. -/
def ClassScope.create (kindOf : KindOf) (name parent : String) (bases : List String)
    (isDynamicClass allVolatile : Bool) (stmt : Nat) : ClassScope :=
  { m_name := name
    m_kindOf := kindOf
    m_parent := parent
    m_bases := bases
    m_attribute := 0
    m_dynamic := isDynamicClass
    m_redeclaring := -1
    m_volatile := allVolatile || isDynamicClass
    m_derivesFromRedeclaring := Derivation.FromNormal
    m_derivedByDynamic := false
    m_functions := []
    m_missingMethods := []
    m_implemented := []
    m_variables := ⟨false, false⟩
    m_stmt := stmt
    m_functionsVec := []
    m_emptyJumpTables := [] }

/-- The assertion of the constructors (lines 58 and 84):
`m_parent.empty() || (!m_bases.empty() && m_bases[0] == m_parent)`. -/
def ClassScope.parentInvariant (c : ClassScope) : Prop :=
  c.m_parent = "" ∨ c.m_bases.head? = some c.m_parent

/-! ## Specification vocabulary for `checkDerivation` -/

/-- The names of the declared classes, in arena order. -/
def namesOf (a : AnalysisResult) : List String := a.classes.map (fun c => c.m_name)

/-- The number of base edges of the whole registry. -/
def totalEdges (a : AnalysisResult) : Nat := (a.classes.map (fun c => c.m_bases.length)).sum

/-- The bases that survive one pass over a base list read from the last index down to the
first: a base is dropped when its name is in `T` or occurs again at a higher index. -/
def survivingBases (T : List String) : List String → List String
  | [] => []
  | b :: rest =>
    if b ∈ T ∨ b ∈ rest then survivingBases T rest else b :: survivingBases T rest

/-- Whether the edge at index 0 is one of the dropped edges. -/
def headRemoved (T : List String) : List String → Bool
  | [] => false
  | b :: rest => decide (b ∈ T ∨ b ∈ rest)

/-- A base edge of the registry: `y` is a declaration of one of the base names of `x`
(the bases are resolved through `findClasses`). -/
def BaseEdge (a : AnalysisResult) (x y : Nat) : Prop :=
  ∃ c, a.classes[x]? = some c ∧ ∃ b ∈ c.m_bases, y ∈ findClasses a b

/-- The name of the class scope `x`, when `x` is in the arena. -/
def nameAt (a : AnalysisResult) (x : Nat) : Option String :=
  (a.classes[x]?).map (fun c => c.m_name)

/-- Every chain of base edges that starts at `x` avoids the names in `T`, the name of `x`,
and never meets a name twice. -/
inductive ChainFree (a : AnalysisResult) : List String → Nat → Prop where
  | mk (T : List String) (x : Nat) (c : ClassScope) :
      a.classes[x]? = some c →
      (∀ b ∈ c.m_bases, b ∉ T) →
      (∀ b ∈ c.m_bases, b ≠ c.m_name) →
      (∀ b ∈ c.m_bases, ∀ y ∈ findClasses a b, ChainFree a (c.m_name :: T) y) →
      ChainFree a T x

/-- What a run of `checkDerivation` may change in the registry: names stay, base lists only
lose entries, one error is recorded per lost entry, every recorded error is an
`InvalidDerivation`, and the classes whose name is in `T` and is not `n` are untouched. -/
structure Shrinks (T : List String) (n : String) (a a' : AnalysisResult) : Prop where
  names : namesOf a' = namesOf a
  sub : ∀ (k : Nat) (c c' : ClassScope), a.classes[k]? = some c → a'.classes[k]? = some c' →
    c'.m_bases.Sublist c.m_bases
  frame : ∀ (k : Nat) (c : ClassScope), a.classes[k]? = some c → c.m_name ∈ T → c.m_name ≠ n →
    a'.classes[k]? = some c
  count : a'.errors.length + totalEdges a' = a.errors.length + totalEdges a
  kinds : ∃ new, a'.errors = a.errors ++ new ∧
    ∀ r ∈ new, r.kind = ErrorType.InvalidDerivation
  functions : a'.functions = a.functions
  unknown : a'.unknownClasses = a.unknownClasses
  fields : ∀ (k : Nat) (c c' : ClassScope), a.classes[k]? = some c → a'.classes[k]? = some c' →
    { c' with m_bases := c.m_bases, m_parent := c.m_parent } = c
  inv : ∀ (k : Nat) (c c' : ClassScope), a.classes[k]? = some c → a'.classes[k]? = some c' →
    c.parentInvariant → c'.parentInvariant

/-- What one call `checkDerivation(p, seen)` that starts in `s0` and ends in `s1` achieves. -/
def CallPost (p : Nat) (s0 s1 : DerivState) : Prop :=
  ∃ c, s0.ar.classes[p]? = some c ∧
    Shrinks s0.seen c.m_name s0.ar s1.ar ∧
    s1.seen = setErase (setInsert s0.seen c.m_name) c.m_name ∧
    ChainFree s1.ar s0.seen p ∧
    s1.ar.classes[p]? = some
      { c with
        m_bases := survivingBases (setInsert s0.seen c.m_name) c.m_bases
        m_parent :=
          if headRemoved (setInsert s0.seen c.m_name) c.m_bases = true ∧ c.m_parent ≠ ""
          then "" else c.m_parent }

/-- The number of distinct class names of the registry that are not in the set `T`: the
bound on the depth of the nested calls of `checkDerivation`. -/
def unseenCount (a : AnalysisResult) (T : List String) : Nat :=
  ((namesOf a).dedup.filter (fun x => decide (x ∉ T))).length

/-! ## Example registries -/

/-- A registry with a cycle and a duplicate: `a extends b implements i, i` and `b extends a`. -/
def cyclicRegistry : AnalysisResult :=
  { classes :=
      [ ClassScope.create KindOf.KindOfObjectClass "a" "b" ["b", "i", "i"] false false 0,
        ClassScope.create KindOf.KindOfObjectClass "b" "a" ["a"] false false 1,
        ClassScope.create KindOf.KindOfInterface "i" "" [] false false 2 ]
    functions := []
    errors := []
    unknownClasses := [] }

/-- A well-formed class that lists the same interface twice: `a implements i, i`. -/
def duplicateRegistry : AnalysisResult :=
  { classes :=
      [ ClassScope.create KindOf.KindOfObjectClass "a" "" ["i", "i"] false false 0,
        ClassScope.create KindOf.KindOfInterface "i" "" [] false false 1 ]
    functions := []
    errors := []
    unknownClasses := [] }

/-! ## `ClassScope::collectMethods` -/

/-- The state `collectMethods` works on: the analysis result and the accumulator `funcs`
(`StringToFunctionScopePtrMap`, method name to chosen function) that is passed by
reference. -/
structure CollectState where
  ar : AnalysisResult
  funcs : List (String × Nat)
  deriving DecidableEq, Repr

/-- `FunctionScope::setVirtual` through a `FunctionScopePtr`. -/
def setVirtual (ar : AnalysisResult) (fid : Nat) : AnalysisResult :=
  updateFunction ar fid (fun f => { f with m_virtual := true })

/-- `funcs.insert(cur.begin(), cur.end())`: the entries of `cur` whose key is not yet a key of
`funcs` are added, the entries of `funcs` are kept. -/
def mapInsertAll (funcs : List (String × Nat)) : List (String × Nat) → List (String × Nat)
  | [] => funcs
  | (k, v) :: rest =>
    match funcs.lookup k with
    | some _ => mapInsertAll funcs rest
    | none => mapInsertAll (funcs ++ [(k, v)]) rest

/-- The body of the first loop of `collectMethods` (lines 221-228) for one method name and
its last declaration `f`. -/
def collectAdd (name : String) (f : Nat) (s : CollectState) : CollectState :=
  match s.funcs.lookup name with
  | none => { s with funcs := s.funcs ++ [(name, f)] }
  | some g => { s with ar := setVirtual (setVirtual s.ar g) f }

/-- The first loop of `collectMethods` (lines 217-229) over the entries of `m_functions`. -/
def collectOwn (collectPrivate : Bool) :
    List (String × List Nat) → CollectState → Option CollectState
  | [], s => some s
  | (name, decls) :: rest, s =>
    match decls.getLast? with
    | none => none
    | some f =>
      if collectPrivate then collectOwn collectPrivate rest (collectAdd name f s)
      else
        match s.ar.functions[f]? with
        | none => none
        | some fs =>
          if fs.m_private then collectOwn collectPrivate rest s
          else collectOwn collectPrivate rest (collectAdd name f s)

/-- The second loop of `collectMethods` (lines 231-237) over `m_missingMethods`. -/
def collectMissing : List String → CollectState → CollectState
  | [], s => s
  | miss :: rest, s =>
    match s.funcs.lookup miss with
    | some g => collectMissing rest { s with ar := setVirtual s.ar g }
    | none => collectMissing rest s

/-- The loop over the alternative declarations of a redeclared parent (lines 255-260). -/
def collectRedeclared (rec : Nat → CollectState → Option CollectState)
    (pristine : List (String × Nat)) : List Nat → CollectState → Option CollectState
  | [], s => some s
  | cls :: rest, s =>
    match rec cls
        ⟨updateClass s.ar cls (fun d => { d with m_derivedByDynamic := true }), pristine⟩ with
    | none => none
    | some s1 => collectRedeclared rec pristine rest ⟨s1.ar, mapInsertAll s.funcs s1.funcs⟩

/-- The assignments of lines 261-264 and 285-288: `DirectFromRedeclared`, both requests to the
variable table, volatile. -/
def markDirect (c : ClassScope) : ClassScope :=
  { c with
    m_derivesFromRedeclaring := Derivation.DirectFromRedeclared
    m_variables := { forcedNonPrivateVariants := true, needGlobalPointer := true }
    m_volatile := true }

/-- The assignments of lines 272-274: `IndirectFromRedeclared`, `forceVariants`, volatile. -/
def markIndirect (c : ClassScope) : ClassScope :=
  { c with
    m_derivesFromRedeclaring := Derivation.IndirectFromRedeclared
    m_variables := { c.m_variables with forcedNonPrivateVariants := true }
    m_volatile := true }

/-- The update of lines 290-293 on an unresolved base that is not the parent. -/
def dropUnknownBase (i : Nat) (d : ClassScope) : ClassScope :=
  { d with
    m_derivesFromRedeclaring :=
      if d.isInterface then Derivation.DirectFromRedeclared else d.m_derivesFromRedeclaring
    m_bases := d.m_bases.eraseIdx i }

/-- The body of the walk over the bases of `collectMethods` (lines 241-295) for the index
`i`; `rec` is the recursive call `collectMethods(ar, _, false, forInvoke)`. -/
def collectMethodsBase (rec : Nat → CollectState → Option CollectState) (forInvoke : Bool)
    (self i : Nat) (s : CollectState) : Option CollectState :=
  match s.ar.classes[self]? with
  | none => none
  | some c =>
    match c.m_bases[i]? with
    | none => none
    | some base =>
      if forInvoke && base != c.m_parent then some s
      else
        match findClass s.ar base with
        | some super =>
          match s.ar.classes[super]? with
          | none => none
          | some sup =>
            let ar1 :=
              if c.m_derivedByDynamic then
                updateClass s.ar super (fun d => { d with m_derivedByDynamic := true })
              else s.ar
            if sup.isRedeclaring then
              if base == c.m_parent then
                if forInvoke then some ⟨ar1, s.funcs⟩
                else
                  match collectRedeclared rec s.funcs (findRedeclaredClasses ar1 c.m_parent)
                      ⟨ar1, s.funcs⟩ with
                  | none => none
                  | some s2 => some ⟨updateClass s2.ar self markDirect, s2.funcs⟩
              else if c.isInterface then
                some ⟨updateClass ar1 self (fun d =>
                  { d with m_derivesFromRedeclaring := Derivation.DirectFromRedeclared }),
                  s.funcs⟩
              else some ⟨ar1, s.funcs⟩
            else
              match rec super ⟨ar1, s.funcs⟩ with
              | none => none
              | some s2 =>
                match s2.ar.classes[super]? with
                | none => none
                | some sup2 =>
                  if sup2.derivesFromRedeclaringB then
                    if base == c.m_parent then
                      some ⟨updateClass s2.ar self markIndirect, s2.funcs⟩
                    else if c.isInterface then
                      some ⟨updateClass s2.ar self (fun d =>
                        { d with
                          m_derivesFromRedeclaring := Derivation.IndirectFromRedeclared }),
                        s2.funcs⟩
                    else some s2
                  else some s2
        | none =>
          let ar1 := record s.ar ErrorType.UnknownBaseClass c.m_stmt base
          if base == c.m_parent then
            some ⟨updateClass (declareUnknownClass ar1 c.m_parent) self markDirect, s.funcs⟩
          else
            some ⟨updateClass ar1 self (dropUnknownBase i), s.funcs⟩

/-- The walk over the bases of `collectMethods` (lines 240-296), from the index `n - 1` down
to 0. -/
def collectMethodsBases (rec : Nat → CollectState → Option CollectState) (forInvoke : Bool)
    (self : Nat) : Nat → CollectState → Option CollectState
  | 0, s => some s
  | i + 1, s =>
    match collectMethodsBase rec forInvoke self i s with
    | none => none
    | some s1 => collectMethodsBases rec forInvoke self i s1

/-- `ClassScope::collectMethods(ar, funcs, collectPrivate, forInvoke)` on the class scope with
index `self`. -/
def collectMethods : Nat → Nat → Bool → Bool → CollectState → Option CollectState
  | 0, _, _, _, _ => none
  | fuel + 1, self, collectPrivate, forInvoke, s =>
    match s.ar.classes[self]? with
    | none => none
    | some c =>
      match collectOwn collectPrivate c.m_functions s with
      | none => none
      | some s1 =>
        collectMethodsBases (fun cls st => collectMethods fuel cls false forInvoke st) forInvoke
          self c.m_bases.length (collectMissing c.m_missingMethods s1)

/-! ## Specification vocabulary for `collectMethods` -/

/-- Two arenas of the same length whose entries at equal indices are related by `R`. -/
def Pointwise {α : Type} (R : α → α → Prop) (l l' : List α) : Prop :=
  l'.length = l.length ∧ ∀ (k : Nat) (x : α), l[k]? = some x → ∃ x', l'[k]? = some x' ∧ R x x'

/-- What the analysis may change in one class scope: the base list only loses entries, the
parent invariant is kept, `m_volatile`, `m_derivedByDynamic` and the requests to the variable
table are only ever raised, `m_derivesFromRedeclaring` never returns to `FromNormal`, and all
other fields stay. -/
structure ClassGrows (c c' : ClassScope) : Prop where
  same : { c' with
    m_bases := c.m_bases
    m_volatile := c.m_volatile
    m_derivesFromRedeclaring := c.m_derivesFromRedeclaring
    m_derivedByDynamic := c.m_derivedByDynamic
    m_variables := c.m_variables } = c
  bases : c'.m_bases.Sublist c.m_bases
  inv : c.parentInvariant → c'.parentInvariant
  volatile : c.m_volatile = true → c'.m_volatile = true
  derives : c.m_derivesFromRedeclaring ≠ Derivation.FromNormal →
    c'.m_derivesFromRedeclaring ≠ Derivation.FromNormal
  dynamic : c.m_derivedByDynamic = true → c'.m_derivedByDynamic = true
  forced : c.m_variables.forcedNonPrivateVariants = true →
    c'.m_variables.forcedNonPrivateVariants = true
  pointer : c.m_variables.needGlobalPointer = true → c'.m_variables.needGlobalPointer = true

/-- What the analysis may change in one function scope: `m_virtual` is only ever raised. -/
structure FuncGrows (f f' : FunctionScope) : Prop where
  same : { f' with m_virtual := f.m_virtual } = f
  virt : f.m_virtual = true → f'.m_virtual = true

/-- What `collectMethods` may change in the analysis result. -/
structure ArGrows (a a' : AnalysisResult) : Prop where
  classes : Pointwise ClassGrows a.classes a'.classes
  functions : Pointwise FuncGrows a.functions a'.functions
  errors : ∃ new, a'.errors = a.errors ++ new ∧
    ∀ r ∈ new, r.kind = ErrorType.UnknownBaseClass
  unknown : ∃ new, a'.unknownClasses = a.unknownClasses ++ new

/-- The accumulator only gains keys: an existing key keeps its function. -/
def AccGrows (m m' : List (String × Nat)) : Prop :=
  ∀ (k : String) (v : Nat), m.lookup k = some v → m'.lookup k = some v

/-- A change of the analysis result that records no error, declares no unknown class and
removes no base edge. -/
structure Calm (a a' : AnalysisResult) : Prop where
  length : a'.classes.length = a.classes.length
  errors : a'.errors = a.errors
  unknown : a'.unknownClasses = a.unknownClasses
  bases : ∀ (k : Nat) (c c' : ClassScope), a.classes[k]? = some c → a'.classes[k]? = some c' →
    c'.m_bases = c.m_bases

/-- A calm change that leaves the function arena alone and touches only classes whose name is
in `N`. -/
structure Quiet (N : List String) (a a' : AnalysisResult) : Prop where
  grows : ArGrows a a'
  calm : Calm a a'
  functions : a'.functions = a.functions
  frame : ∀ (k : Nat) (c : ClassScope), a.classes[k]? = some c → c.m_name ∉ N →
    a'.classes[k]? = some c

/-- An update of a class scope that only raises flags: the base list stays. -/
def FlagOnly (g : ClassScope → ClassScope) : Prop :=
  ∀ x, ClassGrows x (g x) ∧ (g x).m_bases = x.m_bases

/-- What a call of `collectMethods` may change in its state. -/
def Grows (s s' : CollectState) : Prop :=
  ArGrows s.ar s'.ar ∧ AccGrows s.funcs s'.funcs

/-- A change that touches only the function arena and the accumulator. -/
def FunctionsOnly (s s' : CollectState) : Prop :=
  s'.ar.classes = s.ar.classes ∧ s'.ar.errors = s.ar.errors ∧
    s'.ar.unknownClasses = s.ar.unknownClasses

instance (c : ClassScope) : Decidable c.parentInvariant := by
  unfold ClassScope.parentInvariant
  infer_instance

/-- A registry that satisfies the parent invariant and has an unresolved interface:
`c extends p implements ghost`, `p`. -/
def plainRegistry : AnalysisResult :=
  { classes :=
      [ ClassScope.create KindOf.KindOfObjectClass "c" "p" ["p", "ghost"] false false 0,
        ClassScope.create KindOf.KindOfObjectClass "p" "" [] false false 1 ]
    functions := []
    errors := []
    unknownClasses := [] }

/-- The function scope `fid` is marked virtual (a dangling `fid` has no flag to check). -/
def IsVirtual (a : AnalysisResult) (fid : Nat) : Prop :=
  ∀ fs, a.functions[fid]? = some fs → fs.m_virtual = true

/-- The own method `name` with last declaration `f` is one `collectMethods` collects from the
class `c`: the guard of line 219. -/
def Collected (a : AnalysisResult) (c : ClassScope) (collectPrivate : Bool) (name : String)
    (f : Nat) : Prop :=
  (∃ decls, (name, decls) ∈ c.m_functions ∧ decls.getLast? = some f) ∧
    (collectPrivate = true ∨ ∃ fs, a.functions[f]? = some fs ∧ fs.m_private = false)

/-- An acyclic hierarchy: `rank` strictly decreases along every base edge (from the name of a
class to each of its base names). -/
def Acyclic (rank : String → Nat) (a : AnalysisResult) : Prop :=
  ∀ (k : Nat) (c : ClassScope), a.classes[k]? = some c → ∀ b ∈ c.m_bases, rank b < rank c.m_name

/-- Every method table entry holds at least one declaration and its last declaration is a
function scope of the arena (what `addFunction` establishes). -/
def WellFormedFunctions (a : AnalysisResult) : Prop :=
  ∀ (k : Nat) (c : ClassScope), a.classes[k]? = some c →
    ∀ nd ∈ c.m_functions, ∃ f, nd.2.getLast? = some f ∧ f < a.functions.length

/-- The classes whose name has rank at least `r` are untouched. -/
def HighUnchanged (rank : String → Nat) (r : Nat) (a a' : AnalysisResult) : Prop :=
  ∀ (k : Nat) (c : ClassScope), a.classes[k]? = some c → r ≤ rank c.m_name →
    a'.classes[k]? = some c

/-- A function scope as the parser creates it: not virtual, not dynamic, not redeclaring. -/
def FunctionScope.create (name : String) (isPrivate isStatic isAbstract : Bool) :
    FunctionScope :=
  { m_name := name
    m_private := isPrivate
    m_static := isStatic
    m_abstract := isAbstract
    m_virtual := false
    m_dynamic := false
    m_redeclaring := -1
    m_system := false
    m_stmt := 0 }

/-- A class `c` with the methods `foo` (public) and `secret` (private); function 2 is a
method `foo` of some other class. -/
def methodsRegistry : AnalysisResult :=
  { classes :=
      [ { ClassScope.create KindOf.KindOfObjectClass "c" "" [] false false 0 with
          m_functions := [("foo", [0]), ("secret", [1])] } ]
    functions :=
      [ FunctionScope.create "foo" false false false,
        FunctionScope.create "secret" true false false,
        FunctionScope.create "foo" false false false ]
    errors := []
    unknownClasses := [] }

/-- Every base of every class whose name has rank below `r` resolves through `findClass`. -/
def AllResolveBelow (rank : String → Nat) (r : Nat) (a : AnalysisResult) : Prop :=
  ∀ (k : Nat) (c : ClassScope), a.classes[k]? = some c → rank c.m_name < r →
    ∀ b ∈ c.m_bases, findClass a b ≠ none

/-- The rank used for the example registries: the class `c` sits above everything else. -/
def exampleRank (name : String) : Nat := if name = "c" then 1 else 0

/-- A class with an undeclared parent and a resolved interface: `c extends ghost implements i`
and the interface `i`. -/
def ghostRegistry : AnalysisResult :=
  { classes :=
      [ ClassScope.create KindOf.KindOfObjectClass "c" "ghost" ["ghost", "i"] false false 0,
        ClassScope.create KindOf.KindOfInterface "i" "" [] false false 1 ]
    functions := []
    errors := []
    unknownClasses := [] }

/-- As `ghostRegistry`, but the interface `i` has itself an undeclared base:
`c extends ghost implements i` and `interface i extends ghost2`. -/
def ghostInterfaceRegistry : AnalysisResult :=
  { classes :=
      [ ClassScope.create KindOf.KindOfObjectClass "c" "ghost" ["ghost", "i"] false false 0,
        ClassScope.create KindOf.KindOfInterface "i" "" ["ghost2"] false false 1 ]
    functions := []
    errors := []
    unknownClasses := [] }

/-- A child `c extends p` with a public method `own` and a private method `secret`, whose
parent `p` is declared twice: one declaration defines `a`, the other defines `b`. -/
def redeclaredRegistry : AnalysisResult :=
  { classes :=
      [ { ClassScope.create KindOf.KindOfObjectClass "c" "p" ["p"] false false 0 with
          m_functions := [("own", [0]), ("secret", [1])] },
        { ClassScope.create KindOf.KindOfObjectClass "p" "" [] false false 1 with
          m_functions := [("a", [2])], m_redeclaring := 0, m_volatile := true },
        { ClassScope.create KindOf.KindOfObjectClass "p" "" [] false false 2 with
          m_functions := [("b", [3])], m_redeclaring := 1, m_volatile := true } ]
    functions :=
      [ FunctionScope.create "own" false false false,
        FunctionScope.create "secret" true false false,
        FunctionScope.create "a" false false false,
        FunctionScope.create "b" false false false ]
    errors := []
    unknownClasses := [] }

/-! ## `ClassScope::needsInvokeParent` -/

/-- The loop of `needsInvokeParent` (lines 303-306): whether the last declaration of some
method name is private. -/
def hasPrivateMethod (ar : AnalysisResult) : List (String × List Nat) → Option Bool
  | [] => some false
  | (_, decls) :: rest =>
    match decls.getLast? with
    | none => none
    | some f =>
      match ar.functions[f]? with
      | none => none
      | some fs => if fs.m_private then some true else hasPrivateMethod ar rest

/-- `ClassScope::needsInvokeParent(ar, considerSelf)` on the class scope with index `self`. -/
def needsInvokeParent : Nat → AnalysisResult → Nat → Bool → Option Bool
  | 0, _, _, _ => none
  | fuel + 1, ar, self, considerSelf =>
    match ar.classes[self]? with
    | none => none
    | some c =>
      match (if considerSelf then hasPrivateMethod ar c.m_functions else some false) with
      | none => none
      | some true => some true
      | some false =>
        if c.m_parent != "" then
          match findClass ar c.m_parent with
          | none => some true
          | some super =>
            match ar.classes[super]? with
            | none => none
            | some sup =>
              if sup.isRedeclaring then some true else needsInvokeParent fuel ar super true
        else some false

/-- An acyclic parent chain: `rank` strictly decreases from the name of a class to its
parent name. -/
def ParentAcyclic (rank : String → Nat) (a : AnalysisResult) : Prop :=
  ∀ (k : Nat) (c : ClassScope), a.classes[k]? = some c → c.m_parent ≠ "" →
    rank c.m_parent < rank c.m_name

/-- Some method name of the class has a private last declaration. -/
def HasPrivateLast (a : AnalysisResult) (c : ClassScope) : Prop :=
  ∃ nd ∈ c.m_functions, ∃ f fs, nd.2.getLast? = some f ∧ a.functions[f]? = some fs ∧
    fs.m_private = true

/-! ## `ClassScope::implementsAccessor` -/

/-- The C library function `strcasecmp` on two character sequences: 0 iff they are equal
ignoring case, otherwise the difference of the first two lower-cased characters that differ. -/
def strcasecmpAux : List Char → List Char → Int
  | [], [] => 0
  | [], b :: _ => -(b.toLower.toNat : Int)
  | a :: _, [] => (a.toLower.toNat : Int)
  | a :: as, b :: bs =>
    if a.toLower = b.toLower then strcasecmpAux as bs
    else (a.toLower.toNat : Int) - (b.toLower.toNat : Int)

/-- The C library function `strcasecmp`. -/
def strcasecmp (a b : String) : Int := strcasecmpAux a.data b.data

/-- `hphp_const_char_imap<int>::find`: the keys are compared ignoring case. -/
def imapFind (m : List (String × Int)) (name : String) : Option Int :=
  (m.find? (fun kv => strcasecmp kv.1 name == 0)).map Prod.snd

/-- `hphp_const_char_imap<int>::operator[]` followed by an assignment. -/
def imapSet : List (String × Int) → String → Int → List (String × Int)
  | [], name, v => [(name, v)]
  | (k, w) :: rest, name, v =>
    if strcasecmp k name == 0 then (k, v) :: rest else (k, w) :: imapSet rest name v

/-- The loop of `implementsAccessor` over the declarations of the parent (lines 163-174);
`rec` is the recursive call, `yes` and `no` are the two counters. -/
def implementsAccessorParents (rec : Nat → AnalysisResult → Option (Int × AnalysisResult)) :
    List Nat → Int → Int → AnalysisResult → Option (Int × Int × AnalysisResult)
  | [], yes, no, ar => some (yes, no, ar)
  | cls :: rest, yes, no, ar =>
    match rec cls ar with
    | none => none
    | some (a, ar1) =>
      if a < 0 then some (1, 1, ar1)
      else if a > 0 then implementsAccessorParents rec rest (yes + 1) no ar1
      else implementsAccessorParents rec rest yes (no + 1) ar1

/-- The loop of `implementsAccessor` over the own method table (lines 152-158). -/
def implementsAccessorOwn (name : String) : List (String × List Nat) → Int → Int
  | [], ret => ret
  | (k, _) :: rest, ret =>
    implementsAccessorOwn name rest (if strcasecmp k name ≠ 0 then 1 else ret)

/-- `ClassScope::implementsAccessor(ar, name)` on the class scope with index `self`: the
result and the analysis result with the updated memo tables. -/
def implementsAccessor : Nat → Nat → String → AnalysisResult → Option (Int × AnalysisResult)
  | 0, _, _, _ => none
  | fuel + 1, self, name, ar =>
    match ar.classes[self]? with
    | none => none
    | some c =>
      match imapFind c.m_implemented name with
      | some v => some (v, ar)
      | none =>
        let ret := implementsAccessorOwn name c.m_functions 0
        if c.m_parent != "" && ret == 0 then
          match implementsAccessorParents (fun cls a => implementsAccessor fuel cls name a)
              (findClasses ar c.m_parent) 0 0 ar with
          | none => none
          | some (yes, no, ar1) =>
            let ret1 : Int := if yes ≠ 0 then (if no ≠ 0 then -1 else 1) else ret
            some (ret1, updateClass ar1 self
              (fun d => { d with m_implemented := imapSet d.m_implemented name ret1 }))
        else
          some (ret, updateClass ar self
            (fun d => { d with m_implemented := imapSet d.m_implemented name ret }))

/-- What every declaration of a list yields for `implementsAccessor`, asked one after the
other. -/
def accessorYields (rec : Nat → AnalysisResult → Option (Int × AnalysisResult)) :
    List Nat → AnalysisResult → Option (List Int × AnalysisResult)
  | [], ar => some ([], ar)
  | cls :: rest, ar =>
    match rec cls ar with
    | none => none
    | some (a, ar1) =>
      match accessorYields rec rest ar1 with
      | none => none
      | some (vals, ar2) => some (a :: vals, ar2)

/-- A class `c` with the method `offsetget`, a class `d` with the method `foo`, and three
children: `k extends c`, `m extends d` and `e extends ghost`. -/
def accessorRegistry : AnalysisResult :=
  { classes :=
      [ { ClassScope.create KindOf.KindOfObjectClass "c" "" [] false false 0 with
          m_functions := [("offsetget", [0])] },
        { ClassScope.create KindOf.KindOfObjectClass "d" "" [] false false 1 with
          m_functions := [("foo", [1])] },
        ClassScope.create KindOf.KindOfObjectClass "k" "c" ["c"] false false 2,
        ClassScope.create KindOf.KindOfObjectClass "m" "d" ["d"] false false 3,
        ClassScope.create KindOf.KindOfObjectClass "e" "ghost" ["ghost"] false false 4 ]
    functions :=
      [ FunctionScope.create "offsetget" false false false,
        FunctionScope.create "foo" true false false ]
    errors := []
    unknownClasses := [] }

/-- A parent chain `k extends c`, `c` with a private method, and `j extends ghost`. -/
def invokeRegistry : AnalysisResult :=
  { classes :=
      [ { ClassScope.create KindOf.KindOfObjectClass "p" "" [] false false 0 with
          m_functions := [("hidden", [0])] },
        ClassScope.create KindOf.KindOfObjectClass "c" "p" ["p"] false false 1,
        ClassScope.create KindOf.KindOfObjectClass "j" "" [] false false 2 ]
    functions := [ FunctionScope.create "hidden" true false false ]
    errors := []
    unknownClasses := [] }

/-- A parent `p` that is declared twice, one declaration with a cached Yes for `offsetget`
and one with a cached No, and the child `k extends p` without own methods. -/
def mixedAccessorRegistry : AnalysisResult :=
  { classes :=
      [ { ClassScope.create KindOf.KindOfObjectClass "p" "" [] false false 0 with
          m_redeclaring := 0, m_implemented := [("offsetget", 1)] },
        { ClassScope.create KindOf.KindOfObjectClass "p" "" [] false false 1 with
          m_redeclaring := 1, m_implemented := [("offsetget", 0)] },
        ClassScope.create KindOf.KindOfObjectClass "k" "p" ["p"] false false 2 ]
    functions := []
    errors := []
    unknownClasses := [] }

/-! ## implementsArrayAccess -/

/-- The loop of `implementsArrayAccess` over the bases from index `s` on (lines 114-119): it
stops at the first base for which `strcasecmp` is non-zero. -/
def implementsArrayAccessBases : List String → Int
  | [] => 0
  | b :: rest => if strcasecmp b "arrayaccess" ≠ 0 then 1 else implementsArrayAccessBases rest

/-- `ClassScope::implementsArrayAccess(ar)` on the class scope with index `self` (lines
106-143): the result and the analysis result with the updated memo tables. -/
def implementsArrayAccess : Nat → Nat → AnalysisResult → Option (Int × AnalysisResult)
  | 0, _, _ => none
  | fuel + 1, self, ar =>
    match ar.classes[self]? with
    | none => none
    | some c =>
      match imapFind c.m_implemented "arrayaccess" with
      | some v => some (v, ar)
      | none =>
        let s : Nat := if c.m_parent == "" then 0 else 1
        let ret := implementsArrayAccessBases (c.m_bases.drop s)
        if s != 0 && ret == 0 then
          match implementsAccessorParents (fun cls a => implementsArrayAccess fuel cls a)
              (findClasses ar c.m_parent) 0 0 ar with
          | none => none
          | some (yes, no, ar1) =>
            let ret1 : Int := if yes ≠ 0 then (if no ≠ 0 then -1 else 1) else ret
            some (ret1, updateClass ar1 self
              (fun d => { d with m_implemented := imapSet d.m_implemented "arrayaccess" ret1 }))
        else
          some (ret, updateClass ar self
            (fun d => { d with m_implemented := imapSet d.m_implemented "arrayaccess" ret }))

/-- Two classes without parent: `a implements ArrayAccess` and `b implements Countable`. -/
def arrayAccessRegistry : AnalysisResult :=
  { classes :=
      [ ClassScope.create KindOf.KindOfObjectClass "a" "" ["arrayaccess"] false false 0,
        ClassScope.create KindOf.KindOfObjectClass "b" "" ["countable"] false false 1 ]
    functions := []
    errors := []
    unknownClasses := [] }

/-! ## derivesFrom and findCommonParent -/

/-- `ClassScope::derivesDirectlyFrom(ar, base)` (lines 317-323). -/
def ClassScope.derivesDirectlyFrom (c : ClassScope) (base : String) : Bool :=
  c.m_bases.any (fun base_i => base_i == base)

/-- The loop of `derivesFrom` over the bases (lines 330-340); `rec` is the recursive call on a
resolved base. -/
def derivesFromBases (rec : Nat → Option Bool) (ar : AnalysisResult) (strict dflt : Bool) :
    List String → Option Bool
  | [] => some false
  | base_i :: rest =>
    match findClass ar base_i with
    | none => derivesFromBases rec ar strict dflt rest
    | some cl =>
      match ar.classes[cl]? with
      | none => none
      | some ccl =>
        if strict && ccl.isRedeclaring then
          if dflt then some true else derivesFromBases rec ar strict dflt rest
        else
          match rec cl with
          | none => none
          | some true => some true
          | some false => derivesFromBases rec ar strict dflt rest

/-- `ClassScope::derivesFrom(ar, base, strict, def)` on the class scope with index `self`
(lines 325-342). -/
def derivesFrom : Nat → AnalysisResult → Nat → String → Bool → Bool → Option Bool
  | 0, _, _, _, _, _ => none
  | fuel + 1, ar, self, base, strict, dflt =>
    match ar.classes[self]? with
    | none => none
    | some c =>
      if c.derivesDirectlyFrom base then some true
      else derivesFromBases (fun cl => derivesFrom fuel ar cl base strict dflt) ar strict dflt
        c.m_bases

/-- The inner loop of `findCommonParent` over the bases of the second class (lines 356-359);
`rec` is the recursive call on two base names. -/
def findCommonParentInner (rec : String → String → Option String) (base1 : String) :
    List String → Option String
  | [] => some ""
  | base2 :: rest =>
    match rec base1 base2 with
    | none => none
    | some parent => if parent != "" then some parent else findCommonParentInner rec base1 rest

/-- The outer loop of `findCommonParent` over the bases of the first class (lines 355-360). -/
def findCommonParentOuter (rec : String → String → Option String) (bases2 : List String) :
    List String → Option String
  | [] => some ""
  | base1 :: rest =>
    match findCommonParentInner rec base1 bases2 with
    | none => none
    | some parent =>
      if parent != "" then some parent else findCommonParentOuter rec bases2 rest

/-- `ClassScope::findCommonParent(ar, cn1, cn2)` (lines 344-363); `dfuel` is the fuel of the
calls of `derivesFrom`. -/
def findCommonParent : Nat → Nat → AnalysisResult → String → String → Option String
  | 0, _, _, _, _ => none
  | fuel + 1, dfuel, ar, cn1, cn2 =>
    match findClass ar cn1 with
    | none => some cn2
    | some cls1 =>
      match derivesFrom dfuel ar cls1 cn2 true false with
      | none => none
      | some true => some cn2
      | some false =>
        match findClass ar cn2 with
        | none => some cn1
        | some cls2 =>
          match derivesFrom dfuel ar cls2 cn1 true false with
          | none => none
          | some true => some cn1
          | some false =>
            match ar.classes[cls1]?, ar.classes[cls2]? with
            | some c1, some c2 =>
              findCommonParentOuter (fun base1 base2 => findCommonParent fuel dfuel ar base1 base2)
                c2.m_bases c1.m_bases
            | _, _ => none

/-- A class `a` without bases and two children `b extends a` and `c extends a`. -/
def siblingRegistry : AnalysisResult :=
  { classes :=
      [ ClassScope.create KindOf.KindOfObjectClass "a" "" [] false false 0,
        ClassScope.create KindOf.KindOfObjectClass "b" "a" ["a"] false false 1,
        ClassScope.create KindOf.KindOfObjectClass "c" "a" ["a"] false false 2 ]
    functions := []
    errors := []
    unknownClasses := [] }

/-! ## setDynamic and setStaticDynamic -/

/-- `FunctionScope::setDynamic` through a `FunctionScopePtr`. -/
def setFunctionDynamic (ar : AnalysisResult) (fid : Nat) : AnalysisResult :=
  updateFunction ar fid (fun f => { f with m_dynamic := true })

/-- The statement `if (fs->isStatic()) fs->setDynamic();` through a `FunctionScopePtr`. -/
def setStaticFunctionDynamic (ar : AnalysisResult) (fid : Nat) : AnalysisResult :=
  updateFunction ar fid (fun f => if f.m_static then { f with m_dynamic := true } else f)

/-- The loops of `setDynamic` and `setStaticDynamic` over the declarations of the parent
(lines 446-449 and 468-471); `rec` is the recursive call. -/
def setDynamicParents (rec : Nat → AnalysisResult → Option AnalysisResult) :
    List Nat → AnalysisResult → Option AnalysisResult
  | [], ar => some ar
  | cl :: rest, ar =>
    match rec cl ar with
    | none => none
    | some ar1 => setDynamicParents rec rest ar1

/-- `ClassScope::setDynamic(ar, name)` on the class scope with index `self` (lines
458-478). -/
def setDynamic : Nat → Nat → String → AnalysisResult → Option AnalysisResult
  | 0, _, _, _ => none
  | fuel + 1, self, name, ar =>
    match ar.classes[self]? with
    | none => none
    | some c =>
      match c.m_functions.lookup name with
      | some decls => some (decls.foldl setFunctionDynamic ar)
      | none =>
        if c.m_parent != "" then
          if c.m_derivesFromRedeclaring == Derivation.DirectFromRedeclared then
            setDynamicParents (fun cl a => setDynamic fuel cl name a)
              (findRedeclaredClasses ar c.m_parent) ar
          else
            match findClass ar c.m_parent with
            | some parent => setDynamic fuel parent name ar
            | none => some ar
        else some ar

/-- The loop of `setStaticDynamic` over the own method table (lines 437-443). -/
def setStaticDynamicOwn (fns : List (String × List Nat)) (ar : AnalysisResult) :
    AnalysisResult :=
  fns.foldl (fun a nd => nd.2.foldl setStaticFunctionDynamic a) ar

/-- `ClassScope::setStaticDynamic(ar)` on the class scope with index `self` (lines
436-456). -/
def setStaticDynamic : Nat → Nat → AnalysisResult → Option AnalysisResult
  | 0, _, _ => none
  | fuel + 1, self, ar =>
    match ar.classes[self]? with
    | none => none
    | some c =>
      let ar1 := setStaticDynamicOwn c.m_functions ar
      if c.m_parent != "" then
        if c.m_derivesFromRedeclaring == Derivation.DirectFromRedeclared then
          setDynamicParents (fun cl a => setStaticDynamic fuel cl a)
            (findRedeclaredClasses ar1 c.m_parent) ar1
        else
          match findClass ar1 c.m_parent with
          | some parent => setStaticDynamic fuel parent ar1
          | none => some ar1
      else some ar1

/-! ## findFunction and findConstructor -/

/-- The assignment `m_derivesFromRedeclaring = DirectFromRedeclared` of line 388. -/
def setDirectFromRedeclared (ar : AnalysisResult) (self : Nat) : AnalysisResult :=
  updateClass ar self
    (fun d => { d with m_derivesFromRedeclaring := Derivation.DirectFromRedeclared })

/-- The loop of `findFunction` over the bases (lines 378-395); `rec` is the recursive call
`findFunction(ar, name, true, exclIntfBase)` on a resolved base. The result is `some f` when
the loop returns the function `f`, and `none` when the loop ends or is left by `break`. No
callee writes `m_bases`, so the loop runs over the bases read at its start. -/
def findFunctionBases (rec : Nat → AnalysisResult → Option (Option Nat × AnalysisResult))
    (exclIntfBase : Bool) (self : Nat) :
    List String → AnalysisResult → Option (Option Nat × AnalysisResult)
  | [], ar => some (none, ar)
  | base :: rest, ar =>
    match findClass ar base with
    | none => findFunctionBases rec exclIntfBase self rest ar
    | some super =>
      match ar.classes[super]? with
      | none => none
      | some sup =>
        if exclIntfBase && sup.isInterface then some (none, ar)
        else if sup.isRedeclaring then
          if !sup.isInterface then some (none, setDirectFromRedeclared ar self)
          else findFunctionBases rec exclIntfBase self rest ar
        else
          match rec super ar with
          | none => none
          | some (some func, ar1) => some (some func, ar1)
          | some (none, ar1) => findFunctionBases rec exclIntfBase self rest ar1

/-- The end of `findFunction` and of `findConstructor` (lines 397-401 and 429-433): when the
class derives directly from a redeclared class, `setDynamic(ar, name)`; nothing is found. -/
def findFallback (fuel self : Nat) (name : String) (ar : AnalysisResult) :
    Option (Option Nat × AnalysisResult) :=
  match ar.classes[self]? with
  | none => none
  | some c =>
    if c.m_derivesFromRedeclaring == Derivation.DirectFromRedeclared then
      match setDynamic fuel self name ar with
      | none => none
      | some ar1 => some (none, ar1)
    else some (none, ar)

/-- `ClassScope::findFunction(ar, name, recursive, exclIntfBase)` on the class scope with
index `self` (lines 365-402): the function found, if any, and the analysis result after the
call. -/
def findFunction : Nat → Nat → String → Bool → Bool → AnalysisResult →
    Option (Option Nat × AnalysisResult)
  | 0, _, _, _, _, _ => none
  | fuel + 1, self, name, recursive, exclIntfBase, ar =>
    match ar.classes[self]? with
    | none => none
    | some c =>
      match c.m_functions.lookup name with
      | some decls =>
        match decls.getLast? with
        | none => none
        | some func => some (some func, ar)
      | none =>
        if recursive then
          match findFunctionBases (fun super a => findFunction fuel super name true exclIntfBase a)
              exclIntfBase self c.m_bases ar with
          | none => none
          | some (some func, ar1) => some (some func, ar1)
          | some (none, ar1) => findFallback fuel self name ar1
        else findFallback fuel self name ar

/-- Modelled from the spec: the attribute bits of a class scope (`ClassScope::Attribute` of
the header, which is not part of the sources); the attribute word is a bit-set. -/
inductive Attribute where
  | System
  | Extension
  | HasConstructor
  | HasDestructor
  | HasUnknownMethodHandler
  | HasUnknownPropGetter
  | HasUnknownPropSetter
  | classNameConstructor
  deriving DecidableEq, Repr

/-- Modelled from the spec: the position of an attribute in the bit-set. -/
def Attribute.bit : Attribute → Nat
  | Attribute.System => 0
  | Attribute.Extension => 1
  | Attribute.HasConstructor => 2
  | Attribute.HasDestructor => 3
  | Attribute.HasUnknownMethodHandler => 4
  | Attribute.HasUnknownPropGetter => 5
  | Attribute.HasUnknownPropSetter => 6
  | Attribute.classNameConstructor => 7

/-- Modelled from the spec: `ClassScope::getAttribute` of the header. -/
def ClassScope.getAttribute (c : ClassScope) (attr : Attribute) : Bool :=
  c.m_attribute.testBit attr.bit

/-- Modelled from the spec: `ClassScope::setAttribute` of the header. -/
def ClassScope.setAttribute (c : ClassScope) (attr : Attribute) : ClassScope :=
  { c with m_attribute := c.m_attribute ||| 2 ^ attr.bit }

/-- Modelled from the spec: `ClassScope::classNameCtor` of the header, the test of the
attribute `classNameConstructor`. -/
def ClassScope.classNameCtor (c : ClassScope) : Bool :=
  c.getAttribute Attribute.classNameConstructor

/-- The name `findConstructor` looks up (lines 407-412). -/
def ClassScope.constructorName (c : ClassScope) : String :=
  if c.classNameCtor then c.m_name else "__construct"

/-- `ClassScope::findConstructor(ar, recursive)` on the class scope with index `self` (lines
404-434): the function found, if any, and the analysis result after the call. -/
def findConstructor : Nat → Nat → Bool → AnalysisResult → Option (Option Nat × AnalysisResult)
  | 0, _, _, _ => none
  | fuel + 1, self, recursive, ar =>
    match ar.classes[self]? with
    | none => none
    | some c =>
      let name := c.constructorName
      match c.m_functions.lookup name with
      | some decls =>
        match decls.getLast? with
        | none => none
        | some func => some (some func, ar)
      | none =>
        if recursive && c.m_derivesFromRedeclaring != Derivation.DirectFromRedeclared then
          match findClass ar c.m_parent with
          | none => findFallback fuel self name ar
          | some super =>
            match findConstructor fuel super true ar with
            | none => none
            | some (some func, ar1) => some (some func, ar1)
            | some (none, ar1) => findFallback fuel self name ar1
        else findFallback fuel self name ar

/-- The registry `accessorRegistry` after `implementsAccessor` was asked for `offsetget` on
the class `c`: the memo table of `c` holds the answer. -/
def memoRegistry : AnalysisResult :=
  updateClass accessorRegistry 0 (fun d => { d with m_implemented := [("offsetget", 0)] })

/-- A later state of `memoRegistry`: every other class is gone, the class `c` has got a parent
and another method table, its memo table is the same. -/
def changedRegistry : AnalysisResult :=
  { classes :=
      [ { ClassScope.create KindOf.KindOfObjectClass "c" "k" ["k"] false false 0 with
          m_functions := [("foo", [0])], m_implemented := [("offsetget", 0)] } ]
    functions := [ FunctionScope.create "foo" false false false ]
    errors := []
    unknownClasses := [] }

/-! ## Vocabulary of derivesFrom -/

/-- An edge of the walk of `derivesFrom`: some base of the class `x` resolves through
`findClass` to the class `y`, which with `strict` is not redeclaring. -/
def DerivesEdge (ar : AnalysisResult) (strict : Bool) (x y : Nat) : Prop :=
  ∃ cx cy b, ar.classes[x]? = some cx ∧ b ∈ cx.m_bases ∧ findClass ar b = some y ∧
    ar.classes[y]? = some cy ∧ (strict = true → cy.isRedeclaring = false)

/-- The name is one of the bases of the class `x`. -/
def HasBase (ar : AnalysisResult) (x : Nat) (name : String) : Prop :=
  ∃ cx, ar.classes[x]? = some cx ∧ name ∈ cx.m_bases

/-- Some base of the class `x` resolves to a redeclaring class. -/
def HasRedeclaringBase (ar : AnalysisResult) (x : Nat) : Prop :=
  ∃ cx, ar.classes[x]? = some cx ∧ ∃ b ∈ cx.m_bases, ∃ y cy, findClass ar b = some y ∧
    ar.classes[y]? = some cy ∧ cy.isRedeclaring = true

/-- What `derivesFrom` looks for along its walk from the class `e`: a class with the base
`name`, or, with `strict` and `dflt`, a class with a redeclaring base. -/
def DerivesSpec (ar : AnalysisResult) (name : String) (strict dflt : Bool) (e : Nat) : Prop :=
  ∃ x, Relation.ReflTransGen (DerivesEdge ar strict) e x ∧
    (HasBase ar x name ∨ (strict = true ∧ dflt = true ∧ HasRedeclaringBase ar x))

/-- A hierarchy with a redeclared class: `p` is declared twice, `q extends p`, `r extends q`,
`g` is a plain class and `h extends g`. -/
def strictRegistry : AnalysisResult :=
  { classes :=
      [ { ClassScope.create KindOf.KindOfObjectClass "p" "" ["i"] false false 0 with
          m_redeclaring := 0 },
        { ClassScope.create KindOf.KindOfObjectClass "p" "" ["j"] false false 1 with
          m_redeclaring := 1 },
        ClassScope.create KindOf.KindOfObjectClass "q" "p" ["p"] false false 2,
        ClassScope.create KindOf.KindOfObjectClass "r" "q" ["q"] false false 3,
        ClassScope.create KindOf.KindOfObjectClass "g" "" ["i"] false false 4,
        ClassScope.create KindOf.KindOfObjectClass "h" "g" ["g"] false false 5 ]
    functions := []
    errors := []
    unknownClasses := [] }

/-- A rank for `strictRegistry` and `siblingRegistry`: every base has a smaller rank. -/
def strictRank (name : String) : Nat :=
  if name = "r" then 3 else if name = "q" ∨ name = "h" then 2
  else if name = "p" ∨ name = "g" ∨ name = "b" ∨ name = "c" then 1 else 0

/-! ## Vocabulary of setDynamic and setStaticDynamic -/

/-- What `setDynamic` and `setStaticDynamic` may change in one function scope: `m_dynamic`
may be raised. -/
def FuncDynamic (f f' : FunctionScope) : Prop :=
  f' = f ∨ f' = { f with m_dynamic := true }

/-- A change of the analysis result that only raises `m_dynamic` flags of function scopes. -/
def DynamicOnly (a a' : AnalysisResult) : Prop :=
  a'.classes = a.classes ∧ a'.errors = a.errors ∧ a'.unknownClasses = a.unknownClasses ∧
    Pointwise FuncDynamic a.functions a'.functions

/-- The function scope `fid` is marked dynamic (a dangling `fid` has no flag to check). -/
def IsDynamic (a : AnalysisResult) (fid : Nat) : Prop :=
  ∀ fs, a.functions[fid]? = some fs → fs.m_dynamic = true

/-- The function scope `fid` is marked dynamic if it is static. -/
def StaticIsDynamic (a : AnalysisResult) (fid : Nat) : Prop :=
  ∀ fs, a.functions[fid]? = some fs → fs.m_static = true → fs.m_dynamic = true

/-- A step up the parent chain as `setDynamic` and `setStaticDynamic` take it: from the class
`x` to every declaration of its parent when `x` derives directly from a redeclared class, and
else to the class its parent resolves to. -/
def ParentStep (ar : AnalysisResult) (x y : Nat) : Prop :=
  ∃ cx, ar.classes[x]? = some cx ∧ cx.m_parent ≠ "" ∧
    ((cx.m_derivesFromRedeclaring = Derivation.DirectFromRedeclared ∧
        y ∈ findRedeclaredClasses ar cx.m_parent) ∨
      (cx.m_derivesFromRedeclaring ≠ Derivation.DirectFromRedeclared ∧
        findClass ar cx.m_parent = some y))

/-- A step of `setDynamic(ar, name)`: a step up the parent chain from a class whose own
method table has no entry for `name`. -/
def DynamicStep (ar : AnalysisResult) (name : String) (x y : Nat) : Prop :=
  ParentStep ar x y ∧ ∃ cx, ar.classes[x]? = some cx ∧ cx.m_functions.lookup name = none

/-- Every declaration of `name` in the classes that `setDynamic(ar, name)` reaches from the
class `e` is marked dynamic in `a'`. -/
def DynamicTargets (ar : AnalysisResult) (name : String) (e : Nat) (a' : AnalysisResult) :
    Prop :=
  ∀ (x : Nat) (cx : ClassScope) (decls : List Nat),
    Relation.ReflTransGen (DynamicStep ar name) e x → ar.classes[x]? = some cx →
    cx.m_functions.lookup name = some decls → ∀ f ∈ decls, IsDynamic a' f

/-- Every static function of the class `e` and of the classes up its parent chain is marked
dynamic in `a'`. -/
def StaticTargets (ar : AnalysisResult) (e : Nat) (a' : AnalysisResult) : Prop :=
  ∀ (x : Nat) (cx : ClassScope),
    Relation.ReflTransGen (ParentStep ar) e x → ar.classes[x]? = some cx →
    ∀ nd ∈ cx.m_functions, ∀ f ∈ nd.2, StaticIsDynamic a' f

/-- A parent `p` and its child `e extends p`; both declare the method `foo` and a static
method (`sp` and `se`). -/
def dynamicRegistry : AnalysisResult :=
  { classes :=
      [ { ClassScope.create KindOf.KindOfObjectClass "p" "" [] false false 0 with
          m_functions := [("foo", [0]), ("sp", [2])] },
        { ClassScope.create KindOf.KindOfObjectClass "e" "p" ["p"] false false 1 with
          m_functions := [("foo", [1]), ("se", [3])] } ]
    functions :=
      [ FunctionScope.create "foo" false false false,
        FunctionScope.create "foo" false false false,
        FunctionScope.create "sp" false true false,
        FunctionScope.create "se" false true false ]
    errors := []
    unknownClasses := [] }

/-- A rank for `dynamicRegistry`: the parent of a class has a smaller rank. -/
def dynamicRank (name : String) : Nat := if name = "e" then 1 else 0

/-- A class `c extends p implements i` with the own method `own`, its parent `p` with the
method `foo`, and the interface `i` with the method `bar`. -/
def lookupRegistry : AnalysisResult :=
  { classes :=
      [ { ClassScope.create KindOf.KindOfObjectClass "p" "" [] false false 0 with
          m_functions := [("foo", [0])] },
        { ClassScope.create KindOf.KindOfInterface "i" "" [] false false 1 with
          m_functions := [("bar", [2])] },
        { ClassScope.create KindOf.KindOfObjectClass "c" "p" ["p", "i"] false false 2 with
          m_functions := [("own", [1])] } ]
    functions :=
      [ FunctionScope.create "foo" false false false,
        FunctionScope.create "own" false false false,
        FunctionScope.create "bar" false false true ]
    errors := []
    unknownClasses := [] }

/-- A class `e extends p implements i` without own methods whose parent `p` is declared
twice: the first declaration has the method `foo` (function 0), the second one extends `g`,
which has the method `foo` (function 1); the interface `i` has the method `foo`
(function 2). -/
def redeclaredParentRegistry : AnalysisResult :=
  { classes :=
      [ { ClassScope.create KindOf.KindOfObjectClass "p" "" [] false false 0 with
          m_redeclaring := 0, m_functions := [("foo", [0])] },
        { ClassScope.create KindOf.KindOfObjectClass "p" "g" ["g"] false false 1 with
          m_redeclaring := 1 },
        { ClassScope.create KindOf.KindOfObjectClass "g" "" [] false false 2 with
          m_functions := [("foo", [1])] },
        { ClassScope.create KindOf.KindOfInterface "i" "" [] false false 3 with
          m_functions := [("foo", [2])] },
        ClassScope.create KindOf.KindOfObjectClass "e" "p" ["p", "i"] false false 4 ]
    functions :=
      [ FunctionScope.create "foo" false false false,
        FunctionScope.create "foo" false false false,
        FunctionScope.create "foo" false false true ]
    errors := []
    unknownClasses := [] }

/-- A rank for `redeclaredParentRegistry`: the parent of a class has a smaller rank. -/
def redeclaredRank (name : String) : Nat :=
  if name = "e" then 2 else if name = "p" then 1 else 0

/-- Three classes without parent: `c` declares the methods `c` and `__construct`, `d`
declares the method `d` and has the attribute `classNameConstructor`, and `o` declares the
method `o` only; `c` and `o` do not have the attribute. -/
def constructorRegistry : AnalysisResult :=
  { classes :=
      [ { ClassScope.create KindOf.KindOfObjectClass "c" "" [] false false 0 with
          m_functions := [("c", [0]), ("__construct", [1])] },
        { (ClassScope.create KindOf.KindOfObjectClass "d" "" [] false false 1).setAttribute
            Attribute.classNameConstructor with
          m_functions := [("d", [2])] },
        { ClassScope.create KindOf.KindOfObjectClass "o" "" [] false false 2 with
          m_functions := [("o", [3])] } ]
    functions :=
      [ FunctionScope.create "c" false false false,
        FunctionScope.create "__construct" false false false,
        FunctionScope.create "d" false false false,
        FunctionScope.create "o" false false false ]
    errors := []
    unknownClasses := [] }

/-! ## The functions marked by setDynamic and setStaticDynamic -/

/-- The function scopes a loop over the declarations of the parent marks: those of the
first declaration, then those of the second, and so on; `rec` gives the function scopes
marked for one declaration. -/
def targetsOfParents (rec : Nat → Option (List Nat)) : List Nat → Option (List Nat)
  | [] => some []
  | cl :: rest =>
    match rec cl with
    | none => none
    | some l => (targetsOfParents rec rest).map (fun ls => l ++ ls)

/-- The function scopes `setDynamic(ar, name)` marks on the class scope `self`, in the order
in which it marks them: the walk of `setDynamic` without its writes. -/
def dynamicTargets : Nat → AnalysisResult → Nat → String → Option (List Nat)
  | 0, _, _, _ => none
  | fuel + 1, ar, self, name =>
    match ar.classes[self]? with
    | none => none
    | some c =>
      match c.m_functions.lookup name with
      | some decls => some decls
      | none =>
        if c.m_parent != "" then
          if c.m_derivesFromRedeclaring == Derivation.DirectFromRedeclared then
            targetsOfParents (fun cl => dynamicTargets fuel ar cl name)
              (findRedeclaredClasses ar c.m_parent)
          else
            match findClass ar c.m_parent with
            | some parent => dynamicTargets fuel ar parent name
            | none => some []
        else some []

/-- The function scopes `setStaticDynamic(ar)` visits on the class scope `self`, in the
order in which it visits them: the walk of `setStaticDynamic` without its writes. -/
def staticTargets : Nat → AnalysisResult → Nat → Option (List Nat)
  | 0, _, _ => none
  | fuel + 1, ar, self =>
    match ar.classes[self]? with
    | none => none
    | some c =>
      let own := (c.m_functions.map Prod.snd).flatten
      if c.m_parent != "" then
        if c.m_derivesFromRedeclaring == Derivation.DirectFromRedeclared then
          (targetsOfParents (fun cl => staticTargets fuel ar cl)
            (findRedeclaredClasses ar c.m_parent)).map (fun ls => own ++ ls)
        else
          match findClass ar c.m_parent with
          | some parent => (staticTargets fuel ar parent).map (fun ls => own ++ ls)
          | none => some own
      else some own

/-! ## setRedeclaring and setSystem -/

/-- Modelled from the spec: `FunctionScope::setSystem` (function_scope.h is not part of the
sources) through a `FunctionScopePtr`. -/
def setFunctionSystem (ar : AnalysisResult) (fid : Nat) : AnalysisResult :=
  updateFunction ar fid (fun f => { f with m_system := true })

/-- The loop of `setSystem` over the method table (lines 483-486): `iter->second[0]` of
every entry. -/
def setSystemOwn : List (String × List Nat) → AnalysisResult → Option AnalysisResult
  | [], ar => some ar
  | (_, decls) :: rest, ar =>
    match decls.head? with
    | none => none
    | some f => setSystemOwn rest (setFunctionSystem ar f)

/-- `ClassScope::setSystem()` on the class scope with index `self` (lines 480-487). -/
def setSystem (self : Nat) (ar : AnalysisResult) : Option AnalysisResult :=
  match ar.classes[self]? with
  | none => none
  | some c =>
    setSystemOwn c.m_functions
      (updateClass ar self (fun d =>
        { d.setAttribute Attribute.System with m_volatile := false, m_dynamic := false }))

/-- `ClassScope::setRedeclaring(ar, redecId)` on the class scope with index `self` (lines
978-988). -/
def setRedeclaring (self : Nat) (redecId : Int) (ar : AnalysisResult) :
    Option AnalysisResult :=
  match ar.classes[self]? with
  | none => none
  | some c =>
    let ar1 := updateClass ar self
      (fun d => { d with m_redeclaring := redecId, m_volatile := true })
    let ar2 := c.m_functions.foldl (fun a nd => nd.2.foldl setFunctionDynamic a) ar1
    some (updateClass ar2 self
      (fun d => { d with m_variables := { d.m_variables with forcedNonPrivateVariants := true } }))

/-- What the operations on class scopes keep in one class scope: `m_derivesFromRedeclaring`
never returns to `FromNormal`, `m_volatile` and `m_dynamic` never return to false. -/
structure ClassKept (c c' : ClassScope) : Prop where
  derives : c.m_derivesFromRedeclaring ≠ Derivation.FromNormal →
    c'.m_derivesFromRedeclaring ≠ Derivation.FromNormal
  volatile : c.m_volatile = true → c'.m_volatile = true
  dynamic : c.m_dynamic = true → c'.m_dynamic = true

/-- Every class scope of the arena is still there and has kept its flags. -/
def FlagsKept (a a' : AnalysisResult) : Prop :=
  Pointwise ClassKept a.classes a'.classes

/-- No class scope of the arena has returned to `FromNormal`. -/
def DerivesKept (a a' : AnalysisResult) : Prop :=
  a'.classes.length = a.classes.length ∧
  ∀ (k : Nat) (c c' : ClassScope), a.classes[k]? = some c → a'.classes[k]? = some c' →
    c.m_derivesFromRedeclaring ≠ Derivation.FromNormal →
    c'.m_derivesFromRedeclaring ≠ Derivation.FromNormal

/-- No class scope of the arena has lost `m_volatile` or `m_dynamic`. -/
def VolatileKept (a a' : AnalysisResult) : Prop :=
  a'.classes.length = a.classes.length ∧
  ∀ (k : Nat) (c c' : ClassScope), a.classes[k]? = some c → a'.classes[k]? = some c' →
    (c.m_volatile = true → c'.m_volatile = true) ∧ (c.m_dynamic = true → c'.m_dynamic = true)

/-- A volatile, dynamic class `v` with one method. -/
def volatileRegistry : AnalysisResult :=
  { classes :=
      [ { ClassScope.create KindOf.KindOfObjectClass "v" "" [] true true 0 with
          m_derivesFromRedeclaring := Derivation.DirectFromRedeclared,
          m_functions := [("foo", [0])] } ]
    functions := [ FunctionScope.create "foo" false false false ]
    errors := []
    unknownClasses := [] }

/-! ## addFunction and findJumpTableMethods -/

/-- Modelled from the spec: `FunctionScope::setRedeclaring(redecId)` (function_scope.h is not
part of the sources) through a `FunctionScopePtr`. -/
def setFunctionRedeclaring (ar : AnalysisResult) (fid : Nat) (redecId : Int) :
    AnalysisResult :=
  updateFunction ar fid (fun f => { f with m_redeclaring := redecId })

/-- Modelled from the spec: `FunctionScope::isRedeclaring` of the header. -/
def FunctionScope.isRedeclaring (f : FunctionScope) : Bool := decide (0 ≤ f.m_redeclaring)

/-- The assignment to `m_functions[name]`: the entry of the key gets the new value, a
missing entry is added. -/
def tableSet (m : List (String × List Nat)) (name : String) (v : List Nat) :
    List (String × List Nat) :=
  if (m.lookup name).isSome then m.map (fun kv => if kv.1 == name then (kv.1, v) else kv)
  else m ++ [(name, v)]

/-- `ClassScope::addFunction(ar, funcScope)` on the class scope with index `self` (lines
1281-1296): the value returned and the analysis result after the call. The error is
recorded with the statement of `funcScope`; the statement of the first declaration, the
second construct of the record, is not kept. -/
def addFunction (self funcScope : Nat) (ar : AnalysisResult) : Option (Bool × AnalysisResult) :=
  match ar.classes[self]?, ar.functions[funcScope]? with
  | some c, some fs =>
    let funcs := (c.m_functions.lookup fs.m_name).getD []
    let ar1 :=
      if funcs.length = 1 then
        record (setFunctionRedeclaring ar (funcs.headD 0) 0) ErrorType.DeclaredFunctionTwice
          fs.m_stmt ""
      else ar
    let ar2 :=
      if funcs.length > 0 then setFunctionRedeclaring ar1 funcScope funcs.length else ar1
    some (true, updateClass ar2 self (fun d =>
      { d with
        m_functions := tableSet d.m_functions fs.m_name (funcs ++ [funcScope])
        m_functionsVec := d.m_functionsVec ++ [funcScope] }))
  | _, _ => none

/-- The test of lines 1304-1310 on the first declaration of a method name: the name enters
the jump table. -/
def jumpTableEligible (systemcpp staticOnly : Bool) (func : FunctionScope) : Bool :=
  !func.isRedeclaring &&
    !(func.m_abstract || (staticOnly && !func.m_static) ||
      !(systemcpp || func.m_dynamic || func.m_virtual))

/-- The loop of `findJumpTableMethods` over the method table (lines 1302-1313). -/
def findJumpTableMethodsLoop (ar : AnalysisResult) (systemcpp staticOnly : Bool) :
    List (String × List Nat) → List String → Option (List String)
  | [], funcs => some funcs
  | (name, decls) :: rest, funcs =>
    match decls.head? with
    | none => none
    | some f0 =>
      match ar.functions[f0]? with
      | none => none
      | some func =>
        if !func.isRedeclaring then
          if func.m_abstract || (staticOnly && !func.m_static) ||
              !(systemcpp || func.m_dynamic || func.m_virtual) then
            findJumpTableMethodsLoop ar systemcpp staticOnly rest funcs
          else findJumpTableMethodsLoop ar systemcpp staticOnly rest (funcs ++ [name])
        else findJumpTableMethodsLoop ar systemcpp staticOnly rest funcs

/-- `ClassScope::findJumpTableMethods(cg, ar, staticOnly, funcs)` on the class scope with
index `self` (lines 1298-1314); `systemcpp` is `cg.getOutput() == CodeGenerator::SystemCPP`.
The result is the vector `funcs` after the call. -/
def findJumpTableMethods (ar : AnalysisResult) (self : Nat) (systemcpp staticOnly : Bool)
    (funcs : List String) : Option (List String) :=
  match ar.classes[self]? with
  | none => none
  | some c => findJumpTableMethodsLoop ar systemcpp staticOnly c.m_functions funcs

/-- The part `// Create method` of `outputCPPSupportMethodsImpl` (lines 1209-1221): the
function scope on which `outputCPPCreateImpl` is called, if any, and the analysis result
after the call of `findConstructor`. -/
def outputCPPSupportMethodsImplCreate (fuel self : Nat) (ar : AnalysisResult) :
    Option (Option Nat × AnalysisResult) :=
  match ar.classes[self]? with
  | none => none
  | some c =>
    if c.getAttribute Attribute.HasConstructor ||
        c.getAttribute Attribute.classNameConstructor then
      match findConstructor fuel self false ar with
      | none => none
      | some (none, ar1) => some (none, ar1)
      | some (some func, ar1) =>
        match ar1.functions[func]?, ar1.classes[self]? with
        | some fs, some c1 =>
          if !fs.m_abstract && !c1.isInterface then some (some func, ar1)
          else some (none, ar1)
        | _, _ => none
    else some (none, ar)

/-- A class `c` with the method `foo` declared once (function 0) and a further function scope
`foo` (function 1) that is not yet in the method table. -/
def addRegistry : AnalysisResult :=
  { classes :=
      [ { ClassScope.create KindOf.KindOfObjectClass "c" "" [] false false 0 with
          m_functions := [("foo", [0])], m_functionsVec := [0] } ]
    functions :=
      [ { FunctionScope.create "foo" false false false with m_stmt := 10 },
        { FunctionScope.create "foo" false false false with m_stmt := 11 } ]
    errors := []
    unknownClasses := [] }

/-- A class with four methods: `once` is dynamic, `twice` is declared twice and both
declarations are dynamic, `plain` is neither dynamic nor virtual, `abs` is abstract and
virtual. -/
def jumpTableRegistry : AnalysisResult :=
  { classes :=
      [ { ClassScope.create KindOf.KindOfObjectClass "c" "" [] false false 0 with
          m_functions := [("once", [0]), ("twice", [1, 2]), ("plain", [3]), ("abs", [4])] } ]
    functions :=
      [ { FunctionScope.create "once" false false false with m_dynamic := true },
        { FunctionScope.create "twice" false false false with
          m_dynamic := true, m_redeclaring := 0 },
        { FunctionScope.create "twice" false false false with
          m_dynamic := true, m_redeclaring := 1 },
        FunctionScope.create "plain" false false false,
        { FunctionScope.create "abs" false false true with m_virtual := true } ]
    errors := []
    unknownClasses := [] }

/-- An abstract class `a` with a concrete constructor `__construct`, and an abstract class
`b` whose constructor is abstract; both have the attribute `HasConstructor`. -/
def abstractRegistry : AnalysisResult :=
  { classes :=
      [ { (ClassScope.create KindOf.KindOfAbstractClass "a" "" [] false false 0).setAttribute
            Attribute.HasConstructor with
          m_functions := [("__construct", [0])] },
        { (ClassScope.create KindOf.KindOfAbstractClass "b" "" [] false false 1).setAttribute
            Attribute.HasConstructor with
          m_functions := [("__construct", [1])] } ]
    functions :=
      [ FunctionScope.create "__construct" false false false,
        FunctionScope.create "__construct" false false true ]
    errors := []
    unknownClasses := [] }

/-- The method name enters the jump table: the first declaration of some entry of the name
is not redeclaring, not abstract, static when `staticOnly` is set, and the output is the
system output or the declaration is dynamic or virtual. -/
def EntersJumpTable (ar : AnalysisResult) (c : ClassScope) (systemcpp staticOnly : Bool)
    (name : String) : Prop :=
  ∃ decls f fs, (name, decls) ∈ c.m_functions ∧ decls.head? = some f ∧
    ar.functions[f]? = some fs ∧ fs.isRedeclaring = false ∧ fs.m_abstract = false ∧
    (staticOnly = true → fs.m_static = true) ∧
    (systemcpp = true ∨ fs.m_dynamic = true ∨ fs.m_virtual = true)

/-! ## What the walk of collectMethods leaves in the class itself -/

/-- The class scope after the body of the walk of `collectMethods` (lines 241-295, with
`forInvoke` false) for the base `base` at the index `i`, when no nested call changes the
class itself: `resolved` says that the base resolves, `redeclaring` that the class it
resolves to is redeclaring, `superDerives` that this class derives from a redeclared class
after its own `collectMethods`. -/
def baseStepClass (i : Nat) (c : ClassScope) (base : String)
    (resolved redeclaring superDerives : Bool) : ClassScope :=
  if resolved then
    if redeclaring then
      if base = c.m_parent then markDirect c
      else if c.isInterface then
        { c with m_derivesFromRedeclaring := Derivation.DirectFromRedeclared }
      else c
    else if superDerives then
      if base = c.m_parent then markIndirect c
      else if c.isInterface then
        { c with m_derivesFromRedeclaring := Derivation.IndirectFromRedeclared }
      else c
    else c
  else if base = c.m_parent then markDirect c
  else dropUnknownBase i c

/-- The class scope after the walk of `collectMethods` over the bases with the indices
`n - 1` down to 0, when no nested call changes the class itself; `flags j` are the two
findings `redeclaring` and `superDerives` for the base at the index `j`. -/
def stepsFold (a : AnalysisResult) (flags : Nat → Bool × Bool) : Nat → ClassScope → ClassScope
  | 0, c => c
  | j + 1, c =>
    stepsFold a flags j
      (match c.m_bases[j]? with
      | some base => baseStepClass j c base (findClass a base).isSome (flags j).1 (flags j).2
      | none => c)

/-- The `UnknownBaseClass` errors that the walk of `collectMethods` over the first `n` bases
of the class records for the class itself, in the order of the walk: one for every base
that resolves to no class. -/
def ownUnknownRecords (a : AnalysisResult) (c : ClassScope) (n : Nat) : List ErrorRecord :=
  ((c.m_bases.take n).reverse.filter (fun b => (findClass a b).isNone)).map
    (fun b => ⟨ErrorType.UnknownBaseClass, c.m_stmt, b⟩)

/-- A class with an undeclared parent, an undeclared interface and a declared interface:
`c extends ghost implements ghosti, i` and the interface `i`. -/
def unknownEdgesRegistry : AnalysisResult :=
  { classes :=
      [ ClassScope.create KindOf.KindOfObjectClass "c" "ghost" ["ghost", "ghosti", "i"]
          false false 0,
        ClassScope.create KindOf.KindOfInterface "i" "" [] false false 1 ]
    functions := []
    errors := []
    unknownClasses := [] }

/-- A class and an interface over the same interface: `class c implements i`,
`interface k extends i`, and the interface `i`, which is `DirectFromRedeclared`. -/
def interfaceEdgeRegistry : AnalysisResult :=
  { classes :=
      [ ClassScope.create KindOf.KindOfObjectClass "c" "" ["i"] false false 0,
        ClassScope.create KindOf.KindOfInterface "k" "" ["i"] false false 1,
        { ClassScope.create KindOf.KindOfInterface "i" "" [] false false 2 with
          m_derivesFromRedeclaring := Derivation.DirectFromRedeclared } ]
    functions := []
    errors := []
    unknownClasses := [] }

/-- The rank used for `interfaceEdgeRegistry`: the interface `i` sits below the others. -/
def edgeRank (name : String) : Nat := if name = "i" then 0 else 1

/-! ## `StringData` (runtime/base/string_data.cpp)

The header `string_data.h`, the allocator and `string_concat` are not part of the sources at
hand. A character pointer is modelled by the block of bytes it points to, `NULL` by `none`;
an access outside a block is undefined behaviour, for which the operations return `none`.
`ASSERT` is the assertion of debug builds and is left out. -/

/-- Modelled from the spec: the flag `IsLiteral` of `m_len` (string_data.h). -/
def IsLiteral : Nat := 2 ^ 31

/-- Modelled from the spec: the flag `IsShared` of `m_len` (string_data.h). -/
def IsShared : Nat := 2 ^ 30

/-- Modelled from the spec: the flag `IsLinear` of `m_len` (string_data.h). -/
def IsLinear : Nat := 2 ^ 29

/-- Modelled from the spec: `IsMask`, the three flag bits together (string_data.h). -/
def IsMask : Nat := IsLiteral ||| IsShared ||| IsLinear

/-- Modelled from the spec: the enumeration `StringDataMode` (string_data.h). -/
inductive StringDataMode where
  | AttachLiteral
  | AttachString
  | CopyString
  deriving DecidableEq, Repr

/-- The exceptions thrown by the operations of `StringData`, with the number they report. -/
inductive StringException where
  | InvalidArgumentException (len : Int)
  | FatalErrorException (len : Int)
  | OffsetOutOfRangeException
  deriving DecidableEq, Repr

/-- The 32-bit word of a C `int`. -/
def intWord (n : Int) : Nat := (n % 2 ^ 32).toNat

/-- Modelled from the spec: the fields of `StringData` (string_data.h): the block `m_data`
points to, the word `m_len` (length and flag bits), the cached hash, and the reference count
of the shared variant `m_shared` points to. -/
structure StringData where
  m_data : Option (List Nat)
  m_len : Nat
  m_hash : Int
  m_shared : Int
  deriving DecidableEq, Repr

/-- Modelled from the spec: `StringData::data` (string_data.h). -/
def StringData.data (sd : StringData) : Option (List Nat) := sd.m_data

/-- Modelled from the spec: `StringData::size`, `m_len & ~IsMask` (string_data.h). -/
def StringData.size (sd : StringData) : Nat := sd.m_len &&& (2 ^ 32 - 1 - IsMask)

/-- Modelled from the spec: `StringData::isShared` (string_data.h). -/
def StringData.isShared (sd : StringData) : Bool := sd.m_len &&& IsShared != 0

/-- Modelled from the spec: `StringData::isMalloced` (string_data.h). -/
def StringData.isMalloced (sd : StringData) : Bool := sd.m_len &&& IsMask == 0

/-- Modelled from the spec: `malloc`: a fresh block of `n` bytes. -/
def malloc (n : Nat) : List Nat := List.replicate n 0

/-- Modelled from the spec: `realloc`: a block of `n` bytes that starts with the bytes of the
old block. -/
def realloc (buf : Option (List Nat)) (n : Nat) : List Nat :=
  match buf with
  | none => malloc n
  | some b => b.take n ++ List.replicate (n - b.length) 0

/-- The assignment `buf[i] = v`; undefined outside the block. -/
def poke (buf : List Nat) (i v : Nat) : Option (List Nat) :=
  if i < buf.length then some (buf.set i v) else none

/-- Modelled from the spec: `memcpy(dst + off, src, n)`; undefined when it leaves one of the
two blocks. -/
def memcpy (dst : List Nat) (off : Nat) (src : Option (List Nat)) (n : Nat) :
    Option (List Nat) :=
  if n = 0 then some dst
  else
    match src with
    | none => none
    | some b =>
      if n ≤ b.length ∧ off + n ≤ dst.length then
        some (dst.take off ++ b.take n ++ dst.drop (off + n))
      else none

/-- Modelled from the spec: `string_concat(s1, len1, s2, len2, len)` (zend_string.cpp): a
fresh terminated block with the `len1` bytes of `s1` followed by the `len2` bytes of `s2`, and
their total length. -/
def string_concat (s1 : Option (List Nat)) (len1 : Nat) (s2 : Option (List Nat)) (len2 : Nat) :
    Option (List Nat × Nat) :=
  match memcpy (malloc (len1 + len2 + 1)) 0 s1 len1 with
  | none => none
  | some b1 =>
    match memcpy b1 len1 s2 len2 with
    | none => none
    | some b2 => (poke b2 (len1 + len2) 0).map (fun b => (b, len1 + len2))

/-- `StringData::releaseData` (lines 79-88); `free` leaves nothing to observe. -/
def StringData.releaseData (sd : StringData) : StringData :=
  if sd.m_len &&& (IsLinear ||| IsLiteral) = 0 then
    if sd.isShared then { sd with m_shared := sd.m_shared - 1, m_hash := 0 }
    else { sd with m_hash := 0 }
  else { sd with m_hash := 0 }

/-- `StringData::assign(data, len, mode)` (lines 95-138): the string afterwards and the
exception thrown, if any. -/
def StringData.assign (sd : StringData) (data : List Nat) (len : Int) (mode : StringDataMode) :
    Option (StringData × Option StringException) :=
  if len < 0 ∨ intWord len &&& IsMask ≠ 0 then
    some (sd, some (StringException.InvalidArgumentException len))
  else
    let sd1 := { sd.releaseData with m_hash := 0, m_len := intWord len }
    if sd1.m_len ≠ 0 then
      match mode with
      | StringDataMode.CopyString =>
        match poke (malloc (len.toNat + 1)) len.toNat 0 with
        | none => none
        | some buf =>
          match memcpy buf 0 (some data) len.toNat with
          | none => none
          | some buf1 => some ({ sd1 with m_data := some buf1 }, none)
      | StringDataMode.AttachLiteral =>
        some ({ sd1 with m_len := sd1.m_len ||| IsLiteral, m_data := some data }, none)
      | StringDataMode.AttachString => some ({ sd1 with m_data := some data }, none)
    else
      some ({ sd1 with m_len := sd1.m_len ||| IsLiteral, m_data := some [0] }, none)

/-- The end of `StringData::append` (lines 174-180): the check of the new length. -/
def StringData.appendCheck (sd : StringData) : StringData × Option StringException :=
  if sd.m_len &&& IsMask ≠ 0 then
    ({ ({ sd with m_len := sd.m_len &&& (2 ^ 32 - 1 - IsMask) }).releaseData with
        m_data := none },
      some (StringException.FatalErrorException (Int.ofNat sd.m_len)))
  else (sd, none)

/-- `StringData::append(s, len)` (lines 140-181): the string afterwards and the exception
thrown, if any. The argument `s` is `none` when the pointer `s` is `m_data` itself, and the
block it points to otherwise. -/
def StringData.append (sd : StringData) (s : Option (List Nat)) (len : Int) :
    Option (StringData × Option StringException) :=
  if len = 0 then some (sd, none)
  else if len < 0 ∨ intWord len &&& IsMask ≠ 0 then
    some (sd, some (StringException.InvalidArgumentException len))
  else
    let src := match s with
      | none => sd.m_data
      | some b => some b
    if !sd.isMalloced then
      match string_concat sd.data sd.size src len.toNat with
      | none => none
      | some (buf, newlen) =>
        some (StringData.appendCheck
          { m_data := some buf
            m_shared := if sd.isShared then sd.m_shared - 1 else sd.m_shared
            m_len := newlen % 2 ^ 32
            m_hash := 0 })
    else if s.isNone then
      match string_concat sd.data sd.size src len.toNat with
      | none => none
      | some (buf, newlen) =>
        some (StringData.appendCheck
          { sd.releaseData with m_data := some buf, m_len := newlen % 2 ^ 32 })
    else
      let dataLen := sd.size
      let len1 := (len.toNat + dataLen) % 2 ^ 32
      match memcpy (realloc sd.m_data (len1 + 1)) dataLen src len.toNat with
      | none => none
      | some buf =>
        match poke buf len1 0 with
        | none => none
        | some buf1 =>
          some (StringData.appendCheck
            { sd with m_len := len1, m_data := some buf1, m_hash := 0 })

/-- The literal string `"ab"` with the cached hash 5. -/
def literalAb : StringData :=
  { m_data := some [97, 98, 0], m_len := IsLiteral ||| 2, m_hash := 5, m_shared := 0 }

/-! ## Jump tables: `outputCPPMethodInvokeTable` and `outputCPPJumpTable`

The code generator, the options, `JumpTable`, `FunctionScope::outputCPPEvalInvoke` and the
hash function are not part of the sources at hand. The output is modelled by the sequence of
calls on the code generator, every call with its format string and its arguments. -/

/-- Modelled from the spec: the table types `ClassScope::TableType` (class_scope.h). -/
inductive TableType where
  | Invoke
  | Eval
  | CallInfo
  deriving DecidableEq, Repr

/-- An argument of a formatted output call. -/
inductive Arg where
  | str (s : String)
  | num (n : Nat)
  deriving DecidableEq, Repr

/-- One call on the code generator: `cg_indentBegin`, `cg_printf`, `cg_indentEnd`,
`cg_printString`, `cg.printDeclareGlobals`, the call of
`func->outputCPPEvalInvoke(cg, ar, pfx, name, extra, true, constructor)`, `cg.ifdefBegin`,
`cg.ifdefEnd` and `FunctionScope::OutputCPPDynamicInvokeCount(cg)`. -/
inductive Emit where
  | indentBegin (fmt : String) (args : List Arg)
  | printf (fmt : String) (args : List Arg)
  | indentEnd (fmt : String)
  | printString (s : String)
  | printDeclareGlobals
  | evalInvoke (func : Nat) (pfx name : String) (extra : Option String) (ret ctor : Bool)
  | ifdefBegin (ifdef : Bool) (fmt : String) (args : List Arg)
  | ifdefEnd (fmt : String) (args : List Arg)
  | dynamicInvokeCount
  deriving DecidableEq, Repr

/-- Modelled from the spec: what the two functions read from their collaborators: the output
kind of the code generator, the options (option.cpp), `cg.formatLabel`, `hash_string_i`,
`cg.checkLiteralString`, the overload index of the method slot of a name, the original names
of the statements, and of a function scope its class, `getMinParamCount`,
`isConstructor(self)` and `inPseudoMain`. -/
structure OutputEnv where
  systemcpp : Bool
  UseMethodIndex : Bool
  FlattenInvoke : Bool
  InvokeFewArgsCount : Nat
  ClassPrefix : String
  IdPrefix : String
  MethodPrefix : String
  MethodImplPrefix : String
  CallInfoPrefix : String
  InvokePrefix : String
  InvokeFewArgsPrefix : String
  ObjectPrefix : String
  ObjectStaticPrefix : String
  ClassStaticsObjectPrefix : String
  formatLabel : String → String
  hash_string_i : String → Nat
  checkLiteralString : String → Int
  getOverloadIndex : String → Nat
  classOriginalName : ClassScope → String
  funcOriginalName : Nat → String
  funcClass : Nat → Nat
  getMinParamCount : Nat → Nat
  isConstructor : Nat → Nat → Bool
  inPseudoMain : Nat → Bool

/-- `ClassScope::getId(cg)` (lines 95-102). -/
def ClassScope.getId (env : OutputEnv) (c : ClassScope) : String :=
  let name := env.formatLabel (env.classOriginalName c)
  if c.m_redeclaring < 0 then name
  else name ++ env.IdPrefix ++ toString c.m_redeclaring.toNat

/-- The guard of one entry of the table (lines 1411-1424). -/
def invokeTableGuard (env : OutputEnv) (useMethodIndex : Bool) (name origName : String) :
    List Emit :=
  if useMethodIndex then
    [Emit.indentBegin "if (mi.m_overloadIndex == 0x%x) \x7b \n"
      [Arg.num (env.getOverloadIndex name)]]
  else if 0 ≤ env.checkLiteralString origName then
    [Emit.indentBegin "HASH_GUARD_LITSTR(0x%016llXLL, " [Arg.num (env.hash_string_i name)],
      Emit.printString origName,
      Emit.printf ") \x7b\n" []]
  else
    [Emit.indentBegin "HASH_GUARD(0x%016llXLL, %s) \x7b\n"
      [Arg.num (env.hash_string_i name), Arg.str name]]

/-- The body of one entry of the table (the `switch` of lines 1425-1470) for the function
scope `f`. -/
def invokeTableBody (env : OutputEnv) (self f : Nat) (func : FunctionScope) (id lname : String)
    (fewArgs staticOnly : Bool) (type : TableType) : List Emit :=
  match type with
  | TableType.Invoke =>
    [Emit.printf "MethodCallPackage mcp;\n" []] ++
    (if staticOnly then [Emit.printf "mcp.staticMethodCall(c, s);\n" []]
      else [Emit.printf "mcp.methodCallEx(this, s);\n" [],
        Emit.printf "mcp.obj = this;\n" []]) ++
    [Emit.printf "return %s%s::%s%s(mcp, "
      [Arg.str env.ClassPrefix, Arg.str id,
        Arg.str (if fewArgs then env.InvokeFewArgsPrefix else env.InvokePrefix),
        Arg.str lname]] ++
    (if fewArgs then [Emit.printf "count, INVOKE_FEW_ARGS_PASS_ARGS);\n" []]
      else [Emit.printf "params);\n" []])
  | TableType.Eval =>
    let extra : Option String :=
      if func.m_static then (if staticOnly then some "c" else some "o_getClassName()")
      else none
    let pfx := if func.m_static then env.MethodImplPrefix else env.MethodPrefix
    [Emit.evalInvoke f pfx lname extra true (env.isConstructor f self)]
  | TableType.CallInfo =>
    [Emit.printf "mcp.ci = &%s%s::%s%s;\n"
      [Arg.str env.ClassPrefix, Arg.str id, Arg.str env.CallInfoPrefix, Arg.str lname]] ++
    (if !staticOnly then [Emit.printf "mcp.obj = this;\n" []] else []) ++
    [Emit.printf "return true;\n" []]

/-- The loop of `outputCPPMethodInvokeTable` (lines 1399-1474) with the output so far.
Modelled from the spec: the iteration of `JumpTable` and `JumpTableMethodIndex` makes one pass
of the loop for every key, in the order of `keys`. -/
def outputCPPMethodInvokeTableLoop (env : OutputEnv) (ar : AnalysisResult) (self : Nat)
    (funcScopes : List (String × List Nat)) (fewArgs staticOnly : Bool) (type : TableType)
    (useMethodIndex : Bool) : List String → List Emit → Option (List Emit)
  | [], out => some out
  | name :: rest, out =>
    let lname := env.formatLabel name
    match funcScopes.lookup name with
    | none => none
    | some decls =>
      match decls.head? with
      | none => none
      | some f =>
        match ar.functions[f]? with
        | none => none
        | some func =>
          match ar.classes[env.funcClass f]? with
          | none => none
          | some cls =>
            let id := cls.getId env
            if fewArgs && decide (env.InvokeFewArgsCount < env.getMinParamCount f) then
              outputCPPMethodInvokeTableLoop env ar self funcScopes fewArgs staticOnly type
                useMethodIndex rest out
            else
              let origName := env.funcOriginalName f
              outputCPPMethodInvokeTableLoop env ar self funcScopes fewArgs staticOnly type
                useMethodIndex rest
                (out ++ invokeTableGuard env useMethodIndex name origName ++
                  invokeTableBody env self f func id lname fewArgs staticOnly type ++
                  [Emit.indentEnd "\x7d\n"])

/-- `ClassScope::outputCPPMethodInvokeTable(cg, ar, keys, funcScopes, fewArgs, staticOnly,
type)` on the class scope with index `self` (lines 1387-1475): the output after the call. -/
def outputCPPMethodInvokeTable (env : OutputEnv) (ar : AnalysisResult) (self : Nat)
    (keys : List String) (funcScopes : List (String × List Nat)) (fewArgs staticOnly : Bool)
    (type : TableType) (out : List Emit) : Option (List Emit) :=
  outputCPPMethodInvokeTableLoop env ar self funcScopes fewArgs staticOnly type
    (env.UseMethodIndex && decide (type = TableType.CallInfo)) keys out

/-- The name of the dispatch function (lines 1524-1536). -/
def jumpTableInvokeName (env : OutputEnv) (staticOnly : Bool) (type : TableType) : String :=
  (if staticOnly then env.ObjectStaticPrefix else env.ObjectPrefix) ++
    (match type with
    | TableType.Invoke => "invoke"
    | TableType.Eval => "invoke_from_eval"
    | TableType.CallInfo =>
      "get_call_info" ++ (if env.UseMethodIndex then "_with_index" else ""))

/-- The strings `parentName` and `parent` of `outputCPPJumpTable` (lines 1498-1509). -/
def jumpTableParent (env : OutputEnv) (ar : AnalysisResult) (c : ClassScope) :
    Option (String × String) :=
  if c.m_parent = "" then some ("ObjectData", "ObjectData")
  else
    match findClass ar c.m_parent with
    | some k =>
      match ar.classes[k]? with
      | none => none
      | some cls => some (c.m_parent, cls.getId env)
    | none => some (c.m_parent, c.m_parent)

/-- The expression for the dispatch function of the parent (lines 1512-1523 and 1538). -/
def jumpTableParentExpr (env : OutputEnv) (parentName parent : String)
    (staticOnly dynamicObject : Bool) (type : TableType) : String :=
  (if dynamicObject then
    (if staticOnly then "g->" ++ env.ClassStaticsObjectPrefix ++ parentName ++ "->"
      else "parent->")
    else env.ClassPrefix ++ parent ++ "::") ++ jumpTableInvokeName env staticOnly type

/-- The head of the dispatch function (lines 1567-1615); `clsName` is the id of the class. -/
def jumpTableHeader (env : OutputEnv) (scope clsName : String) (staticOnly : Bool)
    (type : TableType) : List Emit :=
  match type with
  | TableType.Invoke =>
    (if staticOnly then
      [Emit.ifdefBegin false "OMIT_JUMP_TABLE_CLASS_STATIC_INVOKE_%s" [Arg.str clsName],
        Emit.indentBegin
          "Variant %s%s(const char *c, const char *s, CArrRef params, int64 hash, bool fatal) \x7b\n"
          [Arg.str scope, Arg.str (jumpTableInvokeName env staticOnly type)]]
    else
      [Emit.ifdefBegin false "OMIT_JUMP_TABLE_CLASS_INVOKE_%s" [Arg.str clsName],
        Emit.indentBegin
          "Variant %s%s(const char *s, CArrRef params, int64 hash, bool fatal) \x7b\n"
          [Arg.str scope, Arg.str (jumpTableInvokeName env staticOnly type)]]) ++
    [Emit.dynamicInvokeCount]
  | TableType.Eval =>
    if staticOnly then
      [Emit.indentBegin
        "Variant %s%s(const char *c, const char *s, Eval::VariableEnvironment &env, const Eval::FunctionCallExpression *caller, int64 hash, bool fatal) \x7b\n"
        [Arg.str scope, Arg.str (jumpTableInvokeName env staticOnly type)]]
    else
      [Emit.indentBegin
        "Variant %s%s(const char *s, Eval::VariableEnvironment &env, const Eval::FunctionCallExpression *caller, int64 hash, bool fatal) \x7b\n"
        [Arg.str scope, Arg.str (jumpTableInvokeName env staticOnly type)]]
  | TableType.CallInfo =>
    [Emit.indentBegin "bool %s%s(MethodCallPackage &mcp, %sint64 hash) \x7b\n"
        [Arg.str scope, Arg.str (jumpTableInvokeName env staticOnly type),
          Arg.str (if env.UseMethodIndex then "MethodIndex mi, " else "")],
      Emit.printf "CStrRef s __attribute__((__unused__)) (mcp.name);\n" []]

/-- The end of the dispatch function (lines 1625-1652): the call of the dispatch function
`base` for the type `Invoke`, and of the dispatch function of the parent for the other
types. -/
def jumpTableTail (base parentExpr clsName : String) (staticOnly : Bool) (type : TableType) :
    List Emit :=
  match type with
  | TableType.Invoke =>
    if staticOnly then
      [Emit.printf "return %s(c, s, params, hash, fatal);\n" [Arg.str base],
        Emit.indentEnd "\x7d\n",
        Emit.ifdefEnd "OMIT_JUMP_TABLE_CLASS_STATIC_INVOKE_%s" [Arg.str clsName]]
    else
      [Emit.printf "return %s(s, params, hash, fatal);\n" [Arg.str base],
        Emit.indentEnd "\x7d\n",
        Emit.ifdefEnd "OMIT_JUMP_TABLE_CLASS_INVOKE_%s" [Arg.str clsName]]
  | TableType.Eval =>
    [(if staticOnly then
        Emit.printf "return %s(c, s, env, caller, hash, fatal);\n" [Arg.str parentExpr]
      else Emit.printf "return %s(s, env, caller, hash, fatal);\n" [Arg.str parentExpr]),
      Emit.indentEnd "\x7d\n"]
  | TableType.CallInfo =>
    [Emit.printf "return %s(mcp, hash);\n" [Arg.str parentExpr], Emit.indentEnd "\x7d\n"]

/-- The names of the flattened table (lines 1554-1562): the loop over `flatScopes`. -/
def flattenedMethods (env : OutputEnv) (ar : AnalysisResult) (staticOnly : Bool) :
    List (String × List Nat) → Option (List String)
  | [] => some []
  | (name, decls) :: rest =>
    match decls.head? with
    | none => none
    | some f =>
      match ar.functions[f]? with
      | none => none
      | some func =>
        if func.m_abstract || env.inPseudoMain f || (staticOnly && !func.m_static) ||
            !(env.systemcpp || func.m_dynamic || func.m_virtual) then
          flattenedMethods env ar staticOnly rest
        else (flattenedMethods env ar staticOnly rest).map (fun l => name :: l)

/-- The statement `m_emptyJumpTables.insert(...)` of lines 1572-1574 and 1581-1583: an empty
table is marked. -/
def jumpTableMark (staticOnly : Bool) (funcs : List String) (c : ClassScope) : ClassScope :=
  if funcs.isEmpty then
    let name :=
      if staticOnly then JumpTableName.JumpTableStaticInvoke else JumpTableName.JumpTableInvoke
    if name ∈ c.m_emptyJumpTables then c
    else { c with m_emptyJumpTables := name :: c.m_emptyJumpTables }
  else c

/-- The head of the table for few arguments (lines 1655-1662). -/
def fewArgsHeader (env : OutputEnv) (scope clsName invokeName : String) : List Emit :=
  [Emit.ifdefBegin false "OMIT_JUMP_TABLE_CLASS_INVOKE_%s" [Arg.str clsName],
    Emit.indentBegin "Variant %s%s_few_args(const char *s, int64 hash, int count"
      [Arg.str scope, Arg.str invokeName]] ++
  (List.range env.InvokeFewArgsCount).map (fun i => Emit.printf ", CVarRef a%d" [Arg.num i]) ++
  [Emit.printf ") \x7b\n" []]

/-- The end of the table for few arguments (lines 1666-1669). -/
def fewArgsTail (base clsName : String) : List Emit :=
  [Emit.printf "return %s_few_args(s, hash, count, INVOKE_FEW_ARGS_PASS_ARGS);\n"
      [Arg.str base],
    Emit.indentEnd "\x7d\n",
    Emit.ifdefEnd "OMIT_JUMP_TABLE_CLASS_INVOKE_%s" [Arg.str clsName]]

/-- `ClassScope::outputCPPJumpTable(cg, ar, staticOnly, dynamicObject, type)` on the class
scope with index `self` (lines 1487-1671): the output and the analysis result after the call;
`fuel` is the nesting depth for the calls of `collectMethods` and `needsInvokeParent`. -/
def outputCPPJumpTable (env : OutputEnv) (fuel : Nat) (ar : AnalysisResult) (self : Nat)
    (staticOnly dynamicObject : Bool) (type : TableType) (out : List Emit) :
    Option (List Emit × AnalysisResult) :=
  if type = TableType.Invoke then some (out, ar)
  else
    match ar.classes[self]? with
    | none => none
    | some c =>
      let clsName := c.getId env
      let scope := env.ClassPrefix ++ clsName ++ "::"
      match jumpTableParent env ar c with
      | none => none
      | some (parentName, parent) =>
        let needGlobals := dynamicObject && staticOnly
        let parentExpr := jumpTableParentExpr env parentName parent staticOnly dynamicObject type
        let invokeName := jumpTableInvokeName env staticOnly type
        let flatten := decide (type = TableType.Invoke) && env.FlattenInvoke
        match (if flatten then
            (collectMethods fuel self true true ⟨ar, []⟩).map
              (fun s => (s.ar, s.funcs.map (fun kf => (kf.1, [kf.2]))))
          else some (ar, [])) with
        | none => none
        | some (ar1, flatScopes) =>
          match findJumpTableMethods ar1 self env.systemcpp
              (if type = TableType.CallInfo then false else staticOnly) [] with
          | none => none
          | some funcs0 =>
            match (if flatten then flattenedMethods env ar1 staticOnly flatScopes
              else some funcs0) with
            | none => none
            | some funcs =>
              let funcScopes := if flatten then flatScopes else c.m_functions
              let ar2 :=
                if type = TableType.Invoke then updateClass ar1 self (jumpTableMark staticOnly funcs)
                else ar1
              match outputCPPMethodInvokeTable env ar2 self funcs funcScopes false staticOnly
                  type
                  (out ++ jumpTableHeader env scope clsName staticOnly type ++
                    (if needGlobals then [Emit.printDeclareGlobals] else [])) with
              | none => none
              | some out1 =>
                match (if flatten then
                    (match ar2.classes[self]?, needsInvokeParent fuel ar2 self false with
                    | some c2, some false =>
                      some ((if c2.derivesFromRedeclaringB then "c_DynamicObjectData"
                        else "c_ObjectData") ++ "::" ++ invokeName)
                    | some _, some true => some parentExpr
                    | _, _ => none)
                  else some parentExpr) with
                | none => none
                | some base =>
                  let out2 := out1 ++ jumpTableTail base parentExpr clsName staticOnly type
                  if !staticOnly && decide (type = TableType.Invoke) then
                    match outputCPPMethodInvokeTable env ar2 self funcs funcScopes true
                        staticOnly TableType.Invoke
                        (out2 ++ fewArgsHeader env scope clsName invokeName ++
                          (if needGlobals then [Emit.printDeclareGlobals] else [])) with
                    | none => none
                    | some out3 => some (out3 ++ fewArgsTail base clsName, ar2)
                  else some (out2, ar2)

/-- The hash constant of a hash guard: of a call of `cg_indentBegin` with one of the two
formats `HASH_GUARD` and `HASH_GUARD_LITSTR`. -/
def Emit.guardHash : Emit → Option Nat
  | Emit.indentBegin fmt (Arg.num h :: _) =>
    if fmt = "HASH_GUARD(0x%016llXLL, %s) \x7b\n" ∨ fmt = "HASH_GUARD_LITSTR(0x%016llXLL, "
    then some h else none
  | _ => none

/-- The hash constants of the hash guards of an output, in order. -/
def hashGuards (out : List Emit) : List Nat := out.filterMap Emit.guardHash

/-- The calls of `cg_indentBegin` of an output. -/
def openedBlocks (out : List Emit) : List Emit :=
  out.filter (fun e => match e with
    | Emit.indentBegin _ _ => true
    | _ => false)

/-- An environment for the examples: labels are the names themselves, the hash of a name is
the sum of its character codes, no name has a literal string, the overload index of a name is
its length, and every function belongs to the class with the index 0. -/
def exampleEnv (useMethodIndex : Bool) : OutputEnv :=
  { systemcpp := false
    UseMethodIndex := useMethodIndex
    FlattenInvoke := true
    InvokeFewArgsCount := 6
    ClassPrefix := "c_"
    IdPrefix := "$$"
    MethodPrefix := "t_"
    MethodImplPrefix := "ti_"
    CallInfoPrefix := "ci_"
    InvokePrefix := "i_"
    InvokeFewArgsPrefix := "ifa_"
    ObjectPrefix := "o_"
    ObjectStaticPrefix := "os_"
    ClassStaticsObjectPrefix := "cso_"
    formatLabel := fun s => s
    hash_string_i := fun s => (s.data.map Char.toNat).sum
    checkLiteralString := fun _ => -1
    getOverloadIndex := fun s => s.length
    classOriginalName := fun c => c.m_name
    funcOriginalName := fun _ => ""
    funcClass := fun _ => 0
    getMinParamCount := fun _ => 0
    isConstructor := fun _ _ => false
    inPseudoMain := fun _ => false }

/-- A class `c` without a parent and with three methods: `foo` and `bar` are dynamic, `baz`
is neither dynamic nor virtual. -/
def dispatchRegistry : AnalysisResult :=
  { classes :=
      [ { ClassScope.create KindOf.KindOfObjectClass "c" "" [] false false 0 with
          m_functions := [("bar", [0]), ("baz", [1]), ("foo", [2])] } ]
    functions :=
      [ { FunctionScope.create "bar" false false false with m_dynamic := true },
        FunctionScope.create "baz" false false false,
        { FunctionScope.create "foo" false false false with m_dynamic := true } ]
    errors := []
    unknownClasses := [] }

/-! ## Specification vocabulary for the origin of the accumulator entries -/

/-- The function scope `f` is in the arena and is not private. -/
def PublicFn (a : AnalysisResult) (f : Nat) : Prop :=
  ∃ fs, a.functions[f]? = some fs ∧ fs.m_private = false

/-- The function scope `f` is the last declaration of the method name `name` of the class
`c`. -/
def OwnLast (c : ClassScope) (name : String) (f : Nat) : Prop :=
  ∃ decls, (name, decls) ∈ c.m_functions ∧ decls.getLast? = some f

/-- A child `c extends p` whose parent `p` is declared twice; both declarations define the
method `m` (the functions 1 and 2), the child defines `own`. -/
def isolationRegistry : AnalysisResult :=
  { classes :=
      [ { ClassScope.create KindOf.KindOfObjectClass "c" "p" ["p"] false false 0 with
          m_functions := [("own", [0])] },
        { ClassScope.create KindOf.KindOfObjectClass "p" "" [] false false 1 with
          m_functions := [("m", [1])], m_redeclaring := 0, m_volatile := true },
        { ClassScope.create KindOf.KindOfObjectClass "p" "" [] false false 2 with
          m_functions := [("m", [2])], m_redeclaring := 1, m_volatile := true } ]
    functions :=
      [ FunctionScope.create "own" false false false,
        FunctionScope.create "m" false false false,
        FunctionScope.create "m" false false false ]
    errors := []
    unknownClasses := [] }

/-- As `isolationRegistry`, but the child also implements the interface `i`, which declares
the method `m` as well (the function 3): `c extends p implements i`. -/
def isolationInterfaceRegistry : AnalysisResult :=
  { classes :=
      [ { ClassScope.create KindOf.KindOfObjectClass "c" "p" ["p", "i"] false false 0 with
          m_functions := [("own", [0])] },
        { ClassScope.create KindOf.KindOfObjectClass "p" "" [] false false 1 with
          m_functions := [("m", [1])], m_redeclaring := 0, m_volatile := true },
        { ClassScope.create KindOf.KindOfObjectClass "p" "" [] false false 2 with
          m_functions := [("m", [2])], m_redeclaring := 1, m_volatile := true },
        { ClassScope.create KindOf.KindOfInterface "i" "" [] false false 3 with
          m_functions := [("m", [3])] } ]
    functions :=
      [ FunctionScope.create "own" false false false,
        FunctionScope.create "m" false false false,
        FunctionScope.create "m" false false false,
        FunctionScope.create "m" false false false ]
    errors := []
    unknownClasses := [] }

/-- A class with two bases that declare the same method: `c extends p implements i`, where
the class `p` declares `n` (function 0) and the interface `i` declares `n` (function 1). -/
def orderRegistry : AnalysisResult :=
  { classes :=
      [ ClassScope.create KindOf.KindOfObjectClass "c" "p" ["p", "i"] false false 0,
        { ClassScope.create KindOf.KindOfObjectClass "p" "" [] false false 1 with
          m_functions := [("n", [0])] },
        { ClassScope.create KindOf.KindOfInterface "i" "" [] false false 2 with
          m_functions := [("n", [1])] } ]
    functions :=
      [ FunctionScope.create "n" false false false,
        FunctionScope.create "n" false false false ]
    errors := []
    unknownClasses := [] }

/-- A class whose flag is stale: `c extends p`, where `c` is `DirectFromRedeclared`, and its
parent `p` is declared once, is `DirectFromRedeclared` itself and declares the constructor
`__construct` (function 0). -/
def stickyRegistry : AnalysisResult :=
  { classes :=
      [ { ClassScope.create KindOf.KindOfObjectClass "c" "p" ["p"] false false 0 with
          m_derivesFromRedeclaring := Derivation.DirectFromRedeclared },
        { ClassScope.create KindOf.KindOfObjectClass "p" "" [] false false 1 with
          m_derivesFromRedeclaring := Derivation.DirectFromRedeclared,
          m_functions := [("__construct", [0])] } ]
    functions := [ FunctionScope.create "__construct" false false false ]
    errors := []
    unknownClasses := [] }

/-- The class `x` derives from the name: a class reached from `x` through resolved bases has
the name among its bases. -/
def DerivesFromName (ar : AnalysisResult) (x : Nat) (name : String) : Prop :=
  ∃ y, Relation.ReflTransGen (DerivesEdge ar false) x y ∧ HasBase ar y name

/-- A class `a` without bases, its children `b extends a` and `c extends a`, and
`d extends b`. -/
def cousinRegistry : AnalysisResult :=
  { classes :=
      [ ClassScope.create KindOf.KindOfObjectClass "a" "" [] false false 0,
        ClassScope.create KindOf.KindOfObjectClass "b" "a" ["a"] false false 1,
        ClassScope.create KindOf.KindOfObjectClass "c" "a" ["a"] false false 2,
        ClassScope.create KindOf.KindOfObjectClass "d" "b" ["b"] false false 3 ]
    functions := []
    errors := []
    unknownClasses := [] }

/-- A rank for `cousinRegistry`: every base has a smaller rank. -/
def cousinRank (name : String) : Nat :=
  if name = "d" then 2 else if name = "a" then 0 else 1

/-- The calls of `cg.ifdefBegin` and `cg.ifdefEnd`: they enclose the table of type `Invoke`
and the table for few arguments, and nothing else. -/
def Emit.isIfdef : Emit → Bool
  | Emit.ifdefBegin _ _ _ => true
  | Emit.ifdefEnd _ _ => true
  | _ => false

/-! ## `StringData`: the mutations (runtime/base/string_data.cpp, lines 201-349)

`increment_string` (zend_string.cpp) and `RuntimeOption::StringOffsetLimit` are not part of
the sources at hand and are parameters of the operations that use them. -/

/-- Modelled from the spec: `StringData::isImmutable`, `m_len & IsMask` (string_data.h). -/
def StringData.isImmutable (sd : StringData) : Bool := sd.m_len &&& IsMask != 0

/-- Modelled from the spec: `StringData::empty`, `size() == 0` (string_data.h). -/
def StringData.empty (sd : StringData) : Bool := sd.size == 0

/-- Modelled from the spec: `memmove(buf + dst, buf + src, n)` inside one block; a negative
`n` is a huge `size_t`; undefined when it leaves the block. -/
def memmove (buf : List Nat) (dst src : Nat) (n : Int) : Option (List Nat) :=
  if n = 0 then some buf
  else if 0 < n ∧ src + n.toNat ≤ buf.length ∧ dst + n.toNat ≤ buf.length then
    some (buf.take dst ++ (buf.drop src).take n.toNat ++ buf.drop (dst + n.toNat))
  else none

/-- Modelled from the spec: `strlen`: the number of bytes before the first zero byte;
undefined when the block has none. -/
def strlen (b : List Nat) : Option Nat :=
  if b.indexOf 0 < b.length then some (b.indexOf 0) else none

/-- `StringData::escalate()` (lines 201-214). -/
def StringData.escalate (sd : StringData) : Option StringData :=
  let len := sd.size
  match memcpy (malloc (len + 1)) 0 sd.data len with
  | none => none
  | some buf =>
    match poke buf len 0 with
    | none => none
    | some buf1 => some { sd with m_len := len, m_data := some buf1, m_hash := 0 }

/-- `StringData::setChar(int offset, char ch)` (lines 293-300). -/
def StringData.setChar_ch (sd : StringData) (offset : Int) (ch : Nat) : Option StringData :=
  match (if sd.isImmutable then sd.escalate else some sd) with
  | none => none
  | some sd1 =>
    if offset < 0 then none
    else
      match sd1.m_data with
      | none => none
      | some buf => (poke buf offset.toNat ch).map (fun b => { sd1 with m_data := some b })

/-- `StringData::removeChar` (lines 302-323). A negative `offset` is a huge `size_t` in the
first `memcpy` and an address before the block in `memmove`. -/
def StringData.removeChar (sd : StringData) (offset : Int) : Option StringData :=
  let len := sd.size
  if offset < 0 then none
  else if sd.isImmutable then
    let data := malloc len
    match (if offset ≠ 0 then memcpy data 0 sd.data offset.toNat else some data) with
    | none => none
    | some data1 =>
      match (if offset < (len : Int) - 1 then
          memcpy data1 offset.toNat (sd.data.map (fun b => b.drop (offset.toNat + 1)))
            (len - offset.toNat - 1)
        else some data1) with
      | none => none
      | some data2 =>
        match poke data2 len 0 with
        | none => none
        | some data3 => some { ({ sd with m_len := len }).releaseData with m_data := some data3 }
  else
    match sd.m_data with
    | none => none
    | some buf =>
      match memmove buf offset.toNat (offset.toNat + 1) ((len : Int) - offset) with
      | none => none
      | some buf1 =>
        some { sd with
          m_len := (sd.m_len &&& IsMask) ||| intWord ((len : Int) - 1)
          m_data := some buf1
          m_hash := 0 }

/-- `StringData::setChar(int offset, CStrRef substring)` (lines 264-291); `substring` is the
content of the argument. The sum `offset + 1` is undefined when it leaves the C `int`. -/
def StringData.setChar (StringOffsetLimit : Int) (sd : StringData) (offset : Int)
    (substring : List Nat) : Option (StringData × Option StringException) :=
  if 0 ≤ offset then
    let len := sd.size
    if len = 0 then some (sd, some StringException.OffsetOutOfRangeException)
    else if offset < (len : Int) then
      match substring with
      | ch :: _ => (sd.setChar_ch offset ch).map (fun r => (r, none))
      | [] => (sd.removeChar offset).map (fun r => (r, none))
    else if offset > StringOffsetLimit then
      some (sd, some StringException.OffsetOutOfRangeException)
    else if 2 ^ 31 ≤ offset + 1 then none
    else
      let newlen := (offset + 1).toNat
      match poke (List.replicate newlen 32 ++ List.replicate 1 0) newlen 0 with
      | none => none
      | some buf =>
        match memcpy buf 0 sd.data len with
        | none => none
        | some buf1 =>
          match (match substring with
            | ch :: _ => poke buf1 offset.toNat ch
            | [] => some buf1) with
          | none => none
          | some buf2 => sd.assign buf2 (offset + 1) StringDataMode.AttachString
  else some (sd, none)

/-- `StringData::inc` (lines 325-339). `increment_string s len` gives the block `s` after the
increment in place and the fresh block it returns when the number grew by a digit. -/
def StringData.inc (increment_string : List Nat → Nat → Option (List Nat × Option (List Nat)))
    (sd : StringData) : Option (StringData × Option StringException) :=
  if sd.empty then some ({ sd with m_len := IsLiteral ||| 1, m_data := some [49, 0] }, none)
  else
    match (if sd.isImmutable then sd.escalate else some sd) with
    | none => none
    | some sd1 =>
      match sd1.m_data with
      | none => none
      | some buf =>
        match increment_string buf sd1.size with
        | none => none
        | some (buf1, none) => some ({ sd1 with m_data := some buf1 }, none)
        | some (buf1, some overflowed) =>
          match strlen overflowed with
          | none => none
          | some l =>
            ({ sd1 with m_data := some buf1 }).assign overflowed l StringDataMode.AttachString

/-- The loop of `StringData::negate` (lines 345-347) from the index `i` on, with the number
`len - i` of the iterations that are left. -/
def negateLoop (buf : List Nat) (i : Nat) : Nat → Option (List Nat)
  | 0 => some buf
  | k + 1 =>
    match buf.get? i with
    | none => none
    | some v =>
      match poke buf i (v ^^^ 255) with
      | none => none
      | some buf1 => negateLoop buf1 (i + 1) k

/-- `StringData::negate` (lines 341-349). -/
def StringData.negate (sd : StringData) : Option StringData :=
  if sd.empty then some sd
  else
    match sd.m_data with
    | none => none
    | some buf => (negateLoop buf 0 sd.size).map (fun b => { sd with m_data := some b })

/-- The malloc-owned string `"ab"` with the cached hash 5. -/
def mallocAb : StringData :=
  { m_data := some [97, 98, 0], m_len := 2, m_hash := 5, m_shared := 0 }

/-- The empty literal string with the cached hash 5. -/
def literalEmpty : StringData :=
  { m_data := some [0], m_len := IsLiteral, m_hash := 5, m_shared := 0 }

/-- A stand-in for `increment_string` on blocks of digits below nine: the last byte of the
content goes up by one, and the number never grows by a digit. -/
def incrementLast (s : List Nat) (len : Nat) : Option (List Nat × Option (List Nat)) :=
  match s.get? (len - 1) with
  | none => none
  | some v => (poke s (len - 1) (v + 1)).map (fun b => (b, none))

/-- A malloc-owned string of `2^29 - 1` bytes, the longest a string can be. -/
def nearLimit : StringData :=
  { m_data := some (List.replicate (2 ^ 29 - 1) 97 ++ [0]), m_len := 2 ^ 29 - 1, m_hash := 0,
    m_shared := 0 }

/-! # Theorems -/

/-! ## Registry lookups and string sets -/

theorem mem_findClasses {a : AnalysisResult} {name : String} {i : Nat} :
    i ∈ findClasses a name ↔ ∃ c, a.classes[i]? = some c ∧ c.m_name = name := by
  unfold findClasses
  simp only [List.mem_filter, List.mem_range, beq_iff_eq, Option.map_eq_some']
  constructor
  · rintro ⟨_, c, hc, hn⟩
    exact ⟨c, hc, hn⟩
  · rintro ⟨c, hc, hn⟩
    exact ⟨(List.getElem?_eq_some.1 hc).1, c, hc, hn⟩

theorem namesOf_getElem? (a : AnalysisResult) (k : Nat) :
    (namesOf a)[k]? = (a.classes[k]?).map (fun c => c.m_name) := by
  simp [namesOf]

theorem length_eq_of_namesOf {a a' : AnalysisResult} (h : namesOf a' = namesOf a) :
    a'.classes.length = a.classes.length := by
  have := congrArg List.length h
  simpa [namesOf] using this

theorem findClasses_congr {a a' : AnalysisResult} (h : namesOf a' = namesOf a) (name : String) :
    findClasses a' name = findClasses a name := by
  have hl := length_eq_of_namesOf h
  unfold findClasses
  rw [hl]
  apply List.filter_congr
  intro i _
  have h1 := namesOf_getElem? a i
  have h2 := namesOf_getElem? a' i
  rw [h] at h2
  rw [← h1, ← h2]

theorem exists_of_namesOf {a a' : AnalysisResult} (h : namesOf a' = namesOf a) {k : Nat}
    {c : ClassScope} (hc : a.classes[k]? = some c) :
    ∃ c', a'.classes[k]? = some c' ∧ c'.m_name = c.m_name := by
  have h1 := namesOf_getElem? a k
  have h2 := namesOf_getElem? a' k
  rw [h, h1, hc] at h2
  cases hk : a'.classes[k]? with
  | none => rw [hk] at h2; simp at h2
  | some c' =>
    rw [hk] at h2
    simp only [Option.map_some', Option.some.injEq] at h2
    exact ⟨c', rfl, h2.symm⟩

theorem mem_setInsert {T : List String} {n x : String} : x ∈ setInsert T n ↔ x = n ∨ x ∈ T := by
  unfold setInsert
  split
  · constructor
    · intro h; exact Or.inr h
    · rintro (h | h)
      · subst h; assumption
      · exact h
  · simp

theorem setErase_setInsert {T : List String} {n : String} (h : n ∉ T) :
    setErase (setInsert T n) n = T := by
  unfold setInsert setErase
  rw [if_neg h]
  simp only [List.filter_cons, bne_self_eq_false, Bool.false_eq_true, ↓reduceIte]
  rw [List.filter_eq_self]
  intro x hx
  simp only [bne_iff_ne, ne_eq]
  rintro rfl
  exact h hx

/-! ## Surviving bases -/

theorem survivingBases_congr {T T' : List String} (h : ∀ x, x ∈ T ↔ x ∈ T') (l : List String) :
    survivingBases T l = survivingBases T' l := by
  induction l with
  | nil => rfl
  | cons b rest ih => simp only [survivingBases, h b, ih]

theorem survivingBases_append_mem {T : List String} {b : String} (hb : b ∈ T) (l : List String) :
    survivingBases T (l ++ [b]) = survivingBases T l := by
  induction l with
  | nil => simp [survivingBases, hb]
  | cons x rest ih =>
    rw [List.cons_append, survivingBases, survivingBases, ih]
    by_cases hx : x ∈ T
    · simp [hx]
    · have : x ≠ b := by rintro rfl; exact hx hb
      simp [hx, this]

theorem survivingBases_append_not_mem {T : List String} {b : String} (hb : b ∉ T)
    (l : List String) :
    survivingBases T (l ++ [b]) = survivingBases (b :: T) l ++ [b] := by
  induction l with
  | nil => simp [survivingBases, hb]
  | cons x rest ih =>
    rw [List.cons_append, survivingBases, survivingBases, ih]
    by_cases hx : x ∈ T
    · simp [hx]
    · by_cases hxb : x = b
      · simp [hxb]
      · by_cases hr : x ∈ rest
        · simp [hr]
        · simp [hx, hxb, hr]

theorem survivingBases_sublist (T : List String) (l : List String) :
    (survivingBases T l).Sublist l := by
  induction l with
  | nil => exact List.Sublist.refl _
  | cons b rest ih =>
    simp only [survivingBases]
    split
    · exact ih.cons _
    · exact ih.cons₂ _

theorem headRemoved_congr {T T' : List String} (h : ∀ x, x ∈ T ↔ x ∈ T') (l : List String) :
    headRemoved T l = headRemoved T' l := by
  cases l with
  | nil => rfl
  | cons b rest => simp only [headRemoved, h b]

theorem headRemoved_append_mem {T : List String} {b : String} (hb : b ∈ T) (l : List String)
    (hl : l ≠ []) : headRemoved T (l ++ [b]) = headRemoved T l := by
  cases l with
  | nil => exact absurd rfl hl
  | cons x rest =>
    simp only [List.cons_append, headRemoved, List.mem_append, List.mem_singleton]
    by_cases hx : x ∈ T
    · simp [hx]
    · have : x ≠ b := by rintro rfl; exact hx hb
      simp [hx, this]

theorem headRemoved_append_not_mem {T : List String} {b : String} (l : List String)
    (hl : l ≠ []) : headRemoved T (l ++ [b]) = headRemoved (b :: T) l := by
  cases l with
  | nil => exact absurd rfl hl
  | cons x rest =>
    simp only [List.cons_append, headRemoved, List.mem_append, List.mem_singleton,
      List.mem_cons]
    congr 1
    apply propext
    tauto

/-! ## The frame of `checkDerivation` -/

theorem Shrinks.refl_shrinks (T : List String) (n : String) (a : AnalysisResult) : Shrinks T n a a where
  names := rfl
  sub := by
    intro k c c' h h'
    rw [h] at h'
    cases h'
    exact List.Sublist.refl _
  frame := fun _ _ h _ _ => h
  count := rfl
  kinds := ⟨[], by simp, by simp⟩
  functions := rfl
  unknown := rfl
  fields := by
    intro k c c' h h'
    rw [h] at h'
    cases h'
    rfl
  inv := by
    intro k c c' h h' hi
    rw [h] at h'
    cases h'
    exact hi

theorem Shrinks.trans_shrinks {T : List String} {n : String} {a a' a'' : AnalysisResult}
    (h1 : Shrinks T n a a') (h2 : Shrinks T n a' a'') : Shrinks T n a a'' where
  names := h2.names.trans h1.names
  sub := by
    intro k c c'' hc hc''
    obtain ⟨c', hc', _⟩ := exists_of_namesOf h1.names hc
    exact (h2.sub k c' c'' hc' hc'').trans (h1.sub k c c' hc hc')
  frame := by
    intro k c hc hT hn
    exact h2.frame k c (h1.frame k c hc hT hn) hT hn
  count := h2.count.trans h1.count
  kinds := by
    obtain ⟨n1, e1, k1⟩ := h1.kinds
    obtain ⟨n2, e2, k2⟩ := h2.kinds
    refine ⟨n1 ++ n2, by rw [e2, e1, List.append_assoc], ?_⟩
    intro r hr
    rcases List.mem_append.1 hr with h | h
    · exact k1 r h
    · exact k2 r h
  functions := h2.functions.trans h1.functions
  unknown := h2.unknown.trans h1.unknown
  fields := by
    intro k c c'' hc hc''
    obtain ⟨c', hc', _⟩ := exists_of_namesOf h1.names hc
    have e1 := h1.fields k c c' hc hc'
    have e2 := h2.fields k c' c'' hc' hc''
    rw [← e1, ← e2]
  inv := by
    intro k c c'' hc hc'' hi
    obtain ⟨c', hc', _⟩ := exists_of_namesOf h1.names hc
    exact h2.inv k c' c'' hc' hc'' (h1.inv k c c' hc hc' hi)

theorem Shrinks.weaken {T T' : List String} {n n' : String} {a a' : AnalysisResult}
    (h : Shrinks T n a a') (hT : ∀ x ∈ T', x ≠ n' → x ∈ T ∧ x ≠ n) : Shrinks T' n' a a' where
  names := h.names
  sub := h.sub
  frame := by
    intro k c hc hm hn
    obtain ⟨h1, h2⟩ := hT _ hm hn
    exact h.frame k c hc h1 h2
  count := h.count
  kinds := h.kinds
  functions := h.functions
  unknown := h.unknown
  fields := h.fields
  inv := h.inv

theorem sum_map_modify {α : Type} (g : α → Nat) (f : α → α) :
    ∀ (l : List α) (k : Nat) (c : α), l[k]? = some c →
      ((l.modify f k).map g).sum + g c = (l.map g).sum + g (f c)
  | [], k, c, h => by simp at h
  | x :: l, 0, c, h => by
    simp only [List.getElem?_cons_zero, Option.some.injEq] at h
    subst h
    simp only [List.modify_zero_cons, List.map_cons, List.sum_cons]
    omega
  | x :: l, k + 1, c, h => by
    simp only [List.getElem?_cons_succ] at h
    have ih := sum_map_modify g f l k c h
    simp only [List.modify_succ_cons, List.map_cons, List.sum_cons]
    omega

theorem getElem?_updateClass (a : AnalysisResult) (self : Nat) (f : ClassScope → ClassScope)
    (k : Nat) :
    (updateClass a self f).classes[k]? =
      if self = k then (a.classes[k]?).map f else a.classes[k]? := by
  simp only [updateClass, List.getElem?_modify]
  split
  · rfl
  · simp

theorem namesOf_updateClass (a : AnalysisResult) (self : Nat) (f : ClassScope → ClassScope)
    (hf : ∀ c, (f c).m_name = c.m_name) : namesOf (updateClass a self f) = namesOf a := by
  apply List.ext_getElem?
  intro k
  rw [namesOf_getElem?, namesOf_getElem?, getElem?_updateClass]
  split
  · cases a.classes[k]? with
    | none => rfl
    | some c => simp [hf]
  · rfl

theorem parentInvariant_eraseIdx {d : ClassScope} {i : Nat} (h : d.parentInvariant) :
    ClassScope.parentInvariant
      { d with
        m_parent := if i = 0 ∧ d.m_parent ≠ "" then "" else d.m_parent
        m_bases := d.m_bases.eraseIdx i } := by
  unfold ClassScope.parentInvariant at h ⊢
  simp only
  rcases h with h | h
  · left
    simp [h]
  · cases i with
    | zero =>
      left
      by_cases hp : d.m_parent = ""
      · simp [hp]
      · simp [hp]
    | succ j =>
      right
      cases hb : d.m_bases with
      | nil => rw [hb] at h; simp at h
      | cons x rest =>
        rw [hb] at h
        simpa using h

theorem derivationError_shrinks {T : List String} {self i : Nat} {c : ClassScope} {base : String}
    {s : DerivState} (hc : s.ar.classes[self]? = some c) (hi : i < c.m_bases.length) :
    Shrinks T c.m_name s.ar (derivationError self i c base s).ar where
  names := namesOf_updateClass _ _ _ (fun _ => rfl)
  sub := by
    intro k d d' hd hd'
    simp only [derivationError, getElem?_updateClass, record] at hd'
    split at hd'
    · rw [hd] at hd'
      simp only [Option.map_some', Option.some.injEq] at hd'
      subst hd'
      exact List.eraseIdx_sublist _ _
    · rw [hd] at hd'
      cases hd'
      exact List.Sublist.refl _
  frame := by
    intro k d hd _ hn
    simp only [derivationError, getElem?_updateClass, record]
    split
    · rename_i hk
      subst hk
      rw [hc] at hd
      cases hd
      exact absurd rfl hn
    · exact hd
  count := by
    have hsum := sum_map_modify (fun d : ClassScope => d.m_bases.length)
      (fun c0 : ClassScope =>
        { c0 with
          m_parent := if i = 0 ∧ c0.m_parent ≠ "" then "" else c0.m_parent
          m_bases := c0.m_bases.eraseIdx i }) s.ar.classes self c hc
    simp only [List.length_eraseIdx, hi, ↓reduceIte] at hsum
    simp only [derivationError, updateClass, record, totalEdges, List.length_append,
      List.length_singleton]
    omega
  kinds := ⟨[⟨ErrorType.InvalidDerivation, c.m_stmt, base⟩], rfl, by simp⟩
  functions := rfl
  unknown := rfl
  fields := by
    intro k d d' hd hd'
    simp only [derivationError, getElem?_updateClass, record] at hd'
    split at hd'
    · rw [hd] at hd'
      simp only [Option.map_some', Option.some.injEq] at hd'
      subst hd'
      rfl
    · rw [hd] at hd'
      cases hd'
      rfl
  inv := by
    intro k d d' hd hd' hinv
    simp only [derivationError, getElem?_updateClass, record] at hd'
    split at hd'
    · rw [hd] at hd'
      simp only [Option.map_some', Option.some.injEq] at hd'
      subst hd'
      exact parentInvariant_eraseIdx hinv
    · rw [hd] at hd'
      cases hd'
      exact hinv

theorem ChainFree.mono_chainFree {a a' : AnalysisResult} {T : List String} {x : Nat}
    (h : ChainFree a T x) (hn : namesOf a' = namesOf a)
    (hs : ∀ (k : Nat) (c c' : ClassScope), a.classes[k]? = some c → a'.classes[k]? = some c' →
      c'.m_bases.Sublist c.m_bases) : ChainFree a' T x := by
  induction h with
  | mk T x c hc h1 h2 _ ih =>
    obtain ⟨c', hc', hname⟩ := exists_of_namesOf hn hc
    have hsub := (hs x c c' hc hc').subset
    refine ChainFree.mk T x c' hc' (fun b hb => h1 b (hsub hb)) ?_ ?_
    · intro b hb
      rw [hname]
      exact h2 b (hsub hb)
    · intro b hb y hy
      rw [hname]
      rw [findClasses_congr hn] at hy
      exact ih b (hsub hb) y hy

theorem ChainFree.anti_chainFree {a : AnalysisResult} {T : List String} {x : Nat}
    (h : ChainFree a T x) : ∀ T' : List String, (∀ t ∈ T', t ∈ T) → ChainFree a T' x := by
  induction h with
  | mk T x c hc h1 h2 _ ih =>
    intro T' hT
    refine ChainFree.mk T' x c hc (fun b hb hbT => h1 b hb (hT b hbT)) h2 ?_
    intro b hb y hy
    apply ih b hb y hy
    intro t ht
    rcases List.mem_cons.1 ht with h | h
    · subst h; exact List.mem_cons_self _ _
    · exact List.mem_cons_of_mem _ (hT t h)

/-! ## Partial correctness of `checkDerivation` -/

theorem checkDerivationParents_post (rec : Nat → DerivState → Option DerivState)
    (hrec : ∀ p s0 s1, rec p s0 = some s1 → CallPost p s0 s1) (b : String) :
    ∀ (ps : List Nat) (s s' : DerivState), (∀ p ∈ ps, p ∈ findClasses s.ar b) → b ∉ s.seen →
      checkDerivationParents rec ps s = some s' →
      Shrinks s.seen b s.ar s'.ar ∧ s'.seen = s.seen ∧ ∀ p ∈ ps, ChainFree s'.ar s.seen p := by
  intro ps
  induction ps with
  | nil =>
    intro s s' _ _ h
    simp only [checkDerivationParents, Option.some.injEq] at h
    subst h
    exact ⟨Shrinks.refl_shrinks _ _ _, rfl, by simp⟩
  | cons p ps ih =>
    intro s s' hps hb h
    simp only [checkDerivationParents] at h
    cases hr : rec p s with
    | none => rw [hr] at h; simp at h
    | some s1 =>
      rw [hr] at h
      simp only at h
      obtain ⟨c, hc, hsh, hseen, hfree, _⟩ := hrec p s s1 hr
      obtain ⟨c0, hc0, hname⟩ := mem_findClasses.1 (hps p (List.mem_cons_self _ _))
      rw [hc] at hc0
      cases hc0
      rw [hname] at hsh hseen
      rw [setErase_setInsert hb] at hseen
      have hps1 : ∀ q ∈ ps, q ∈ findClasses s1.ar b := by
        intro q hq
        rw [findClasses_congr hsh.names]
        exact hps q (List.mem_cons_of_mem _ hq)
      have hb1 : b ∉ s1.seen := by rw [hseen]; exact hb
      obtain ⟨hsh2, hseen2, hfree2⟩ := ih s1 s' hps1 hb1 h
      rw [hseen] at hsh2 hseen2 hfree2
      refine ⟨hsh.trans_shrinks hsh2, hseen2, ?_⟩
      intro q hq
      rcases List.mem_cons.1 hq with h | h
      · subst h
        exact hfree.mono_chainFree hsh2.names hsh2.sub
      · exact hfree2 q h

theorem take_succ_of_getElem? {α : Type} {l : List α} {i : Nat} {x : α} (h : l[i]? = some x) :
    l.take (i + 1) = l.take i ++ [x] := by
  rw [List.take_succ, h]
  rfl

theorem drop_of_getElem? {α : Type} {l : List α} {i : Nat} {x : α} (h : l[i]? = some x) :
    l.drop i = x :: l.drop (i + 1) := by
  obtain ⟨hi, hx⟩ := List.getElem?_eq_some.1 h
  rw [← hx]
  exact List.drop_eq_getElem_cons hi

theorem take_eraseIdx_self {α : Type} (l : List α) (i : Nat) :
    (l.eraseIdx i).take i = l.take i := by
  induction l generalizing i with
  | nil => simp
  | cons x l ih =>
    cases i with
    | zero => simp
    | succ i => simp [ih]

theorem drop_eraseIdx_self {α : Type} (l : List α) (i : Nat) :
    (l.eraseIdx i).drop i = l.drop (i + 1) := by
  induction l generalizing i with
  | nil => simp
  | cons x l ih =>
    cases i with
    | zero => simp
    | succ i => simp [ih]

theorem checkDerivationBases_post (rec : Nat → DerivState → Option DerivState)
    (hrec : ∀ p s0 s1, rec p s0 = some s1 → CallPost p s0 s1) (self : Nat) :
    ∀ (n : Nat) (dups : List String) (s s' : DerivState) (c : ClassScope),
      s.ar.classes[self]? = some c → c.m_name ∈ s.seen →
      checkDerivationBases rec self n dups s = some s' →
      Shrinks s.seen c.m_name s.ar s'.ar ∧ s'.seen = s.seen ∧
      s'.ar.classes[self]? = some
        { c with
          m_bases := survivingBases (dups ++ s.seen) (c.m_bases.take n) ++ c.m_bases.drop n
          m_parent :=
            if headRemoved (dups ++ s.seen) (c.m_bases.take n) = true ∧ c.m_parent ≠ ""
            then "" else c.m_parent } ∧
      ∀ b ∈ survivingBases (dups ++ s.seen) (c.m_bases.take n),
        ∀ y ∈ findClasses s.ar b, ChainFree s'.ar s.seen y := by
  intro n
  induction n with
  | zero =>
    intro dups s s' c hc _ h
    simp only [checkDerivationBases, Option.some.injEq] at h
    subst h
    refine ⟨Shrinks.refl_shrinks _ _ _, rfl, ?_, ?_⟩
    · rw [hc]
      simp [survivingBases, headRemoved]
    · simp [survivingBases]
  | succ i ih =>
    intro dups s s' c hc hname h
    simp only [checkDerivationBases, hc] at h
    cases hb : c.m_bases[i]? with
    | none => rw [hb] at h; simp at h
    | some base =>
      rw [hb] at h
      simp only at h
      have hi : i < c.m_bases.length := (List.getElem?_eq_some.1 hb).1
      have htake := take_succ_of_getElem? hb
      have hdrop := drop_of_getElem? hb
      split at h
      · -- the edge is dropped
        rename_i hrem
        have hmem : base ∈ dups ++ s.seen := by
          rcases hrem with h1 | h1
          · exact List.mem_append_right _ h1
          · exact List.mem_append_left _ h1
        have hstep : Shrinks s.seen c.m_name s.ar (derivationError self i c base s).ar :=
          derivationError_shrinks hc hi
        have hc1 : (derivationError self i c base s).ar.classes[self]? = some
            { c with
              m_parent := if i = 0 ∧ c.m_parent ≠ "" then "" else c.m_parent
              m_bases := c.m_bases.eraseIdx i } := by
          simp only [derivationError, getElem?_updateClass, record, ↓reduceIte, hc,
            Option.map_some']
        obtain ⟨hsh, hseen, hself, hfree⟩ := ih dups _ s' _ hc1 hname h
        refine ⟨hstep.trans_shrinks hsh, hseen, ?_, ?_⟩
        · rw [hself]
          simp only [take_eraseIdx_self, drop_eraseIdx_self, htake,
            survivingBases_append_mem hmem]
          congr 2
          cases i with
          | zero =>
            simp [headRemoved, hmem]
          | succ j =>
            have hne : c.m_bases.take (j + 1) ≠ [] := by
              intro h0
              have := congrArg List.length h0
              rw [List.length_take, List.length_nil] at this
              omega
            rw [headRemoved_append_mem hmem _ hne]
            rfl
        · intro b hb' y hy
          rw [htake, survivingBases_append_mem hmem] at hb'
          simp only [take_eraseIdx_self] at hfree
          apply hfree b hb' y
          rw [findClasses_congr hstep.names]
          exact hy
      · -- the edge is kept and followed
        rename_i hkeep
        have hnot : base ∉ dups ++ s.seen := by
          intro hm
          rcases List.mem_append.1 hm with h1 | h1
          · exact hkeep (Or.inr h1)
          · exact hkeep (Or.inl h1)
        have hbs : base ∉ s.seen := fun hm => hkeep (Or.inl hm)
        cases hp : checkDerivationParents rec (findClasses s.ar base) s with
        | none => rw [hp] at h; simp at h
        | some s1 =>
          rw [hp] at h
          simp only at h
          obtain ⟨hsh1, hseen1, hfree1⟩ :=
            checkDerivationParents_post rec hrec base _ s s1 (fun p hp => hp) hbs hp
          have hne : c.m_name ≠ base := by
            rintro rfl
            exact hbs hname
          have hc1 : s1.ar.classes[self]? = some c := hsh1.frame self c hc hname hne
          have hname1 : c.m_name ∈ s1.seen := by rw [hseen1]; exact hname
          obtain ⟨hsh, hseen, hself, hfree⟩ := ih (setInsert dups base) s1 s' c hc1 hname1 h
          rw [hseen1] at hsh hseen hself hfree
          have hcongr : ∀ x, x ∈ setInsert dups base ++ s.seen ↔ x ∈ base :: (dups ++ s.seen) := by
            intro x
            simp only [List.mem_append, mem_setInsert, List.mem_cons]
            tauto
          have hsh1' : Shrinks s.seen c.m_name s.ar s1.ar := by
            apply hsh1.weaken
            intro x hx _
            refine ⟨hx, ?_⟩
            rintro rfl
            exact hbs hx
          refine ⟨hsh1'.trans_shrinks hsh, hseen, ?_, ?_⟩
          · rw [hself]
            rw [survivingBases_congr hcongr, headRemoved_congr hcongr, htake,
              survivingBases_append_not_mem hnot, hdrop]
            congr 2
            · cases i with
              | zero => simp [headRemoved, hnot]
              | succ j =>
                have hne : c.m_bases.take (j + 1) ≠ [] := by
                  intro h0
                  have := congrArg List.length h0
                  rw [List.length_take, List.length_nil] at this
                  omega
                rw [headRemoved_append_not_mem _ hne]
            · simp
          · intro b hb' y hy
            rw [htake, survivingBases_append_not_mem hnot] at hb'
            rcases List.mem_append.1 hb' with h1 | h1
            · rw [survivingBases_congr hcongr] at hfree
              apply hfree b h1 y
              rw [findClasses_congr hsh1.names]
              exact hy
            · simp only [List.mem_singleton] at h1
              subst h1
              exact (hfree1 y hy).mono_chainFree hsh.names hsh.sub

theorem not_mem_of_mem_survivingBases {T : List String} {b : String} :
    ∀ {l : List String}, b ∈ survivingBases T l → b ∉ T
  | [], h => by simp [survivingBases] at h
  | x :: rest, h => by
    simp only [survivingBases] at h
    split at h
    · exact not_mem_of_mem_survivingBases h
    · rename_i hx
      rcases List.mem_cons.1 h with h1 | h1
      · subst h1
        exact fun hT => hx (Or.inl hT)
      · exact not_mem_of_mem_survivingBases h1

theorem checkDerivation_post :
    ∀ (fuel p : Nat) (s0 s1 : DerivState), checkDerivation fuel p s0 = some s1 →
      CallPost p s0 s1 := by
  intro fuel
  induction fuel with
  | zero =>
    intro p s0 s1 h
    simp [checkDerivation] at h
  | succ fuel ih =>
    intro p s0 s1 h
    simp only [checkDerivation] at h
    cases hc : s0.ar.classes[p]? with
    | none => rw [hc] at h; simp at h
    | some c =>
      rw [hc] at h
      simp only at h
      cases hl : checkDerivationBases (checkDerivation fuel) p c.m_bases.length []
          { s0 with seen := setInsert s0.seen c.m_name } with
      | none => rw [hl] at h; simp at h
      | some sL =>
        rw [hl] at h
        simp only [Option.some.injEq] at h
        subst h
        have hname : c.m_name ∈ setInsert s0.seen c.m_name := mem_setInsert.2 (Or.inl rfl)
        obtain ⟨hsh, hseen, hself, hfree⟩ :=
          checkDerivationBases_post (checkDerivation fuel) ih p c.m_bases.length []
            { s0 with seen := setInsert s0.seen c.m_name } sL c hc hname hl
        simp only [List.take_length, List.drop_length, List.append_nil, List.nil_append]
          at hsh hseen hself hfree
        have hsh' : Shrinks s0.seen c.m_name s0.ar sL.ar := by
          apply hsh.weaken
          intro x hx hn
          exact ⟨mem_setInsert.2 (Or.inr hx), hn⟩
        refine ⟨c, hc, hsh', ?_, ?_, hself⟩
        · simp only [hseen]
        · refine ChainFree.mk _ _ _ hself ?_ ?_ ?_
          · intro b hb hbS
            exact not_mem_of_mem_survivingBases hb (mem_setInsert.2 (Or.inr hbS))
          · intro b hb hbn
            exact not_mem_of_mem_survivingBases hb (mem_setInsert.2 (Or.inl hbn))
          · intro b hb y hy
            have hy' : y ∈ findClasses s0.ar b := by
              rw [← findClasses_congr hsh.names]
              exact hy
            apply (hfree b hb y hy').anti_chainFree
            intro t ht
            rcases List.mem_cons.1 ht with h1 | h1
            · exact mem_setInsert.2 (Or.inl h1)
            · exact mem_setInsert.2 (Or.inr h1)

/-! ## Termination of `checkDerivation` -/

theorem unseenCount_le (a : AnalysisResult) (T : List String) :
    unseenCount a T ≤ a.classes.length := by
  unfold unseenCount
  calc ((namesOf a).dedup.filter (fun x => decide (x ∉ T))).length
      ≤ (namesOf a).dedup.length := List.length_filter_le _ _
    _ ≤ (namesOf a).length := (List.dedup_sublist _).length_le
    _ = a.classes.length := by simp [namesOf]

theorem unseenCount_congr {a a' : AnalysisResult} (h : namesOf a' = namesOf a) (T : List String) :
    unseenCount a' T = unseenCount a T := by
  unfold unseenCount
  rw [h]

theorem unseenCount_setInsert_lt {a : AnalysisResult} {T : List String} {b : String}
    (hb : b ∈ namesOf a) (hT : b ∉ T) :
    unseenCount a (setInsert T b) < unseenCount a T := by
  unfold unseenCount
  have hfil : (namesOf a).dedup.filter (fun x => decide (x ∉ setInsert T b)) =
      ((namesOf a).dedup.filter (fun x => decide (x ∉ T))).filter (fun x => decide (x ≠ b)) := by
    rw [List.filter_filter]
    apply List.filter_congr
    intro x _
    simp only [mem_setInsert, not_or, Bool.decide_and, Bool.and_comm]
  rw [hfil]
  apply List.length_filter_lt_length_iff_exists.2
  refine ⟨b, ?_, by simp⟩
  simp only [List.mem_filter, List.mem_dedup, decide_eq_true_eq]
  exact ⟨hb, hT⟩

theorem mem_namesOf {a : AnalysisResult} {k : Nat} {c : ClassScope}
    (h : a.classes[k]? = some c) : c.m_name ∈ namesOf a := by
  unfold namesOf
  exact List.mem_map.2 ⟨c, List.getElem?_mem h, rfl⟩

theorem checkDerivationParents_total (fuel : Nat)
    (rec : Nat → DerivState → Option DerivState)
    (hrec : ∀ p s0 s1, rec p s0 = some s1 → CallPost p s0 s1)
    (htot : ∀ (p : Nat) (s0 : DerivState) (c : ClassScope), s0.ar.classes[p]? = some c →
      unseenCount s0.ar (setInsert s0.seen c.m_name) < fuel → ∃ s1, rec p s0 = some s1)
    (b : String) :
    ∀ (ps : List Nat) (s : DerivState), (∀ p ∈ ps, p ∈ findClasses s.ar b) → b ∉ s.seen →
      unseenCount s.ar s.seen ≤ fuel → ∃ s', checkDerivationParents rec ps s = some s' := by
  intro ps
  induction ps with
  | nil =>
    intro s _ _ _
    exact ⟨s, rfl⟩
  | cons p ps ih =>
    intro s hps hb hfuel
    obtain ⟨c, hc, hname⟩ := mem_findClasses.1 (hps p (List.mem_cons_self _ _))
    have hlt : unseenCount s.ar (setInsert s.seen c.m_name) < fuel := by
      rw [hname]
      have hmem : b ∈ namesOf s.ar := by
        rw [← hname]
        exact mem_namesOf hc
      exact lt_of_lt_of_le (unseenCount_setInsert_lt hmem hb) hfuel
    obtain ⟨s1, hr⟩ := htot p s c hc hlt
    obtain ⟨c0, hc0, hsh, hseen, _, _⟩ := hrec p s s1 hr
    rw [hc] at hc0
    cases hc0
    rw [hname, setErase_setInsert hb] at hseen
    have hps1 : ∀ q ∈ ps, q ∈ findClasses s1.ar b := by
      intro q hq
      rw [findClasses_congr hsh.names]
      exact hps q (List.mem_cons_of_mem _ hq)
    have hb1 : b ∉ s1.seen := by rw [hseen]; exact hb
    have hfuel1 : unseenCount s1.ar s1.seen ≤ fuel := by
      rw [hseen, unseenCount_congr hsh.names]
      exact hfuel
    obtain ⟨s', h'⟩ := ih s1 hps1 hb1 hfuel1
    exact ⟨s', by simp only [checkDerivationParents, hr, h']⟩

theorem checkDerivationBases_total (fuel : Nat)
    (rec : Nat → DerivState → Option DerivState)
    (hrec : ∀ p s0 s1, rec p s0 = some s1 → CallPost p s0 s1)
    (htot : ∀ (p : Nat) (s0 : DerivState) (c : ClassScope), s0.ar.classes[p]? = some c →
      unseenCount s0.ar (setInsert s0.seen c.m_name) < fuel → ∃ s1, rec p s0 = some s1)
    (self : Nat) :
    ∀ (n : Nat) (dups : List String) (s : DerivState) (c : ClassScope),
      s.ar.classes[self]? = some c → c.m_name ∈ s.seen → n ≤ c.m_bases.length →
      unseenCount s.ar s.seen ≤ fuel →
      ∃ s', checkDerivationBases rec self n dups s = some s' := by
  intro n
  induction n with
  | zero =>
    intro dups s c _ _ _ _
    exact ⟨s, rfl⟩
  | succ i ih =>
    intro dups s c hc hname hn hfuel
    have hi : i < c.m_bases.length := hn
    have hb : c.m_bases[i]? = some c.m_bases[i] := List.getElem?_eq_getElem hi
    simp only [checkDerivationBases, hc, hb]
    split
    · have hstep : Shrinks s.seen c.m_name s.ar (derivationError self i c c.m_bases[i] s).ar :=
        derivationError_shrinks hc hi
      have hc1 : (derivationError self i c c.m_bases[i] s).ar.classes[self]? = some
          { c with
            m_parent := if i = 0 ∧ c.m_parent ≠ "" then "" else c.m_parent
            m_bases := c.m_bases.eraseIdx i } := by
        simp only [derivationError, getElem?_updateClass, record, ↓reduceIte, hc,
          Option.map_some']
      apply ih dups _ _ hc1 hname
      · simp only [List.length_eraseIdx, hi, ↓reduceIte]
        omega
      · rw [unseenCount_congr hstep.names]
        exact hfuel
    · rename_i hkeep
      have hbs : c.m_bases[i] ∉ s.seen := fun hm => hkeep (Or.inl hm)
      obtain ⟨s1, hp⟩ := checkDerivationParents_total fuel rec hrec htot c.m_bases[i]
        (findClasses s.ar c.m_bases[i]) s (fun p hp => hp) hbs hfuel
      obtain ⟨hsh1, hseen1, _⟩ :=
        checkDerivationParents_post rec hrec c.m_bases[i] _ s s1 (fun p hp => hp) hbs hp
      have hne : c.m_name ≠ c.m_bases[i] := by
        intro heq
        rw [← heq] at hbs
        exact hbs hname
      have hc1 : s1.ar.classes[self]? = some c := hsh1.frame self c hc hname hne
      have hname1 : c.m_name ∈ s1.seen := by rw [hseen1]; exact hname
      have hfuel1 : unseenCount s1.ar s1.seen ≤ fuel := by
        rw [hseen1, unseenCount_congr hsh1.names]
        exact hfuel
      obtain ⟨s', h'⟩ := ih (setInsert dups c.m_bases[i]) s1 c hc1 hname1 (by omega) hfuel1
      exact ⟨s', by simp only [hp, h']⟩

theorem checkDerivation_total :
    ∀ (fuel p : Nat) (s : DerivState) (c : ClassScope), s.ar.classes[p]? = some c →
      unseenCount s.ar (setInsert s.seen c.m_name) < fuel →
      ∃ s', checkDerivation fuel p s = some s' := by
  intro fuel
  induction fuel with
  | zero =>
    intro p s c _ h
    exact absurd h (Nat.not_lt_zero _)
  | succ fuel ih =>
    intro p s c hc hlt
    have hname : c.m_name ∈ setInsert s.seen c.m_name := mem_setInsert.2 (Or.inl rfl)
    obtain ⟨sL, hl⟩ := checkDerivationBases_total fuel (checkDerivation fuel)
      (checkDerivation_post fuel) ih p c.m_bases.length []
      { s with seen := setInsert s.seen c.m_name } c hc hname (le_refl _)
      (Nat.lt_succ_iff.1 hlt)
    exact ⟨{ sL with seen := setErase sL.seen c.m_name }, by simp only [checkDerivation, hc, hl]⟩

/-! ## Acyclicity after `checkDerivation` -/

theorem ChainFree.step {a : AnalysisResult} {T : List String} {x y : Nat} {c : ClassScope}
    (h : ChainFree a T x) (hc : a.classes[x]? = some c) (he : BaseEdge a x y) :
    ChainFree a (c.m_name :: T) y ∧
      ∃ cy, a.classes[y]? = some cy ∧ cy.m_name ∉ T ∧ cy.m_name ≠ c.m_name := by
  cases h with
  | mk T x c0 hc0 h1 h2 h3 =>
    rw [hc] at hc0
    cases hc0
    obtain ⟨c1, hc1, b, hb, hy⟩ := he
    rw [hc] at hc1
    cases hc1
    obtain ⟨cy, hcy, hname⟩ := mem_findClasses.1 hy
    refine ⟨h3 b hb y hy, cy, hcy, ?_, ?_⟩
    · rw [hname]; exact h1 b hb
    · rw [hname]; exact h2 b hb

theorem ChainFree.exists_class {a : AnalysisResult} {T : List String} {x : Nat}
    (h : ChainFree a T x) : ∃ c, a.classes[x]? = some c := by
  cases h with
  | mk T x c hc _ _ _ => exact ⟨c, hc⟩

theorem ChainFree.transGen {a : AnalysisResult} {x z : Nat}
    (hz : Relation.TransGen (BaseEdge a) x z) :
    ∀ (T : List String) (c : ClassScope), ChainFree a T x → a.classes[x]? = some c →
      ∃ cz, a.classes[z]? = some cz ∧ cz.m_name ∉ T ∧ cz.m_name ≠ c.m_name := by
  induction hz using Relation.TransGen.head_induction_on with
  | base he =>
    intro T c h hc
    exact (h.step hc he).2
  | ih he _ ih =>
    intro T c h hc
    obtain ⟨hy, cy, hcy, _, _⟩ := h.step hc he
    obtain ⟨cz, hcz, hT, _⟩ := ih (c.m_name :: T) cy hy hcy
    refine ⟨cz, hcz, ?_, ?_⟩
    · exact fun hm => hT (List.mem_cons_of_mem _ hm)
    · exact fun hm => hT (hm ▸ List.mem_cons_self _ _)

theorem ChainFree.reflTransGen {a : AnalysisResult} {e x : Nat}
    (hx : Relation.ReflTransGen (BaseEdge a) e x) :
    ∀ (T : List String), ChainFree a T e → ∃ T', ChainFree a T' x := by
  induction hx using Relation.ReflTransGen.head_induction_on with
  | refl =>
    intro T h
    exact ⟨T, h⟩
  | head he _ ih =>
    intro T h
    obtain ⟨c, hc⟩ := h.exists_class
    exact ih _ (h.step hc he).1

/-- C1: on every finite registry, `checkDerivation(e, {})` returns, and afterwards no class
`x` reachable from `e` along base edges (resolved through `findClasses`) has a non-empty
chain of base edges leading to a class named like `x`. -/
theorem checkDerivation_acyclic (ar : AnalysisResult) (e : Nat) (he : e < ar.classes.length) :
    ∃ s', checkDerivation (ar.classes.length + 1) e ⟨ar, []⟩ = some s' ∧
      ∀ x, Relation.ReflTransGen (BaseEdge s'.ar) e x →
        ∀ z, Relation.TransGen (BaseEdge s'.ar) x z → nameAt s'.ar z ≠ nameAt s'.ar x := by
  have hc : ar.classes[e]? = some ar.classes[e] := List.getElem?_eq_getElem he
  obtain ⟨s', hrun⟩ := checkDerivation_total (ar.classes.length + 1) e ⟨ar, []⟩ _ hc
    (Nat.lt_succ_of_le (unseenCount_le _ _))
  refine ⟨s', hrun, ?_⟩
  obtain ⟨_, _, _, _, hfree, _⟩ := checkDerivation_post _ _ _ _ hrun
  intro x hx z hz
  obtain ⟨T', hT'⟩ := ChainFree.reflTransGen hx _ hfree
  obtain ⟨cx, hcx⟩ := hT'.exists_class
  obtain ⟨cz, hcz, _, hne⟩ := ChainFree.transGen hz T' cx hT' hcx
  simp only [nameAt, hcx, hcz, Option.map_some', ne_eq, Option.some.injEq]
  exact hne

/-- Witness for C1: the cyclic registry `a extends b`, `b extends a`. -/
theorem checkDerivation_acyclic_witness :
    ∃ s', checkDerivation (cyclicRegistry.classes.length + 1) 0 ⟨cyclicRegistry, []⟩ = some s' ∧
      ∀ x, Relation.ReflTransGen (BaseEdge s'.ar) 0 x →
        ∀ z, Relation.TransGen (BaseEdge s'.ar) x z → nameAt s'.ar z ≠ nameAt s'.ar x :=
  checkDerivation_acyclic cyclicRegistry 0 (by decide)

/-! ## The edges `checkDerivation` removes -/

theorem survivingBases_count {T : List String} {b : String} (hT : b ∉ T) :
    ∀ {l : List String}, b ∈ l → (survivingBases T l).count b = 1
  | [], h => by simp at h
  | x :: rest, h => by
    simp only [survivingBases]
    split
    · rename_i hx
      apply survivingBases_count hT
      rcases List.mem_cons.1 h with h1 | h1
      · subst h1
        rcases hx with h2 | h2
        · exact absurd h2 hT
        · exact h2
      · exact h1
    · rename_i hx
      by_cases hbx : b = x
      · subst hbx
        have h0 : b ∉ survivingBases T rest :=
          fun hm => hx (Or.inr ((survivingBases_sublist T rest).subset hm))
        rw [List.count_cons_self, List.count_eq_zero_of_not_mem h0]
      · have hr : b ∈ rest := by
          rcases List.mem_cons.1 h with h1 | h1
          · exact absurd h1 hbx
          · exact h1
        rw [List.count_cons_of_ne hbx]
        exact survivingBases_count hT hr

/-- C2: `checkDerivation` on the class `e` returns and leaves `e` with exactly the
non-offending bases, in their original order: the base at an index is removed iff its name is
in the seen set (which holds the name of `e` itself while the bases are examined) or occurs
again at a higher index (`survivingBases`); `m_parent` is cleared iff the edge at index 0 is
removed and `m_parent` was non-empty; the errors recorded are all `InvalidDerivation` and there
is exactly one per base edge removed from the registry; a name that is listed several times and
is not in the seen set survives exactly once. -/
theorem checkDerivation_removes_offending (ar : AnalysisResult) (e : Nat) (seen : List String)
    (c : ClassScope) (hc : ar.classes[e]? = some c) :
    ∃ s', checkDerivation (ar.classes.length + 1) e ⟨ar, seen⟩ = some s' ∧
      s'.ar.classes[e]? = some
        { c with
          m_bases := survivingBases (setInsert seen c.m_name) c.m_bases
          m_parent :=
            if headRemoved (setInsert seen c.m_name) c.m_bases = true ∧ c.m_parent ≠ ""
            then "" else c.m_parent } ∧
      (survivingBases (setInsert seen c.m_name) c.m_bases).Sublist c.m_bases ∧
      (∃ new, s'.ar.errors = ar.errors ++ new ∧
        (∀ r ∈ new, r.kind = ErrorType.InvalidDerivation) ∧
        new.length + totalEdges s'.ar = totalEdges ar) ∧
      ∀ b ∈ c.m_bases, b ∉ setInsert seen c.m_name →
        (survivingBases (setInsert seen c.m_name) c.m_bases).count b = 1 := by
  obtain ⟨s', hrun⟩ := checkDerivation_total (ar.classes.length + 1) e ⟨ar, seen⟩ c hc
    (Nat.lt_succ_of_le (unseenCount_le _ _))
  obtain ⟨c0, hc0, hsh, _, _, hself⟩ := checkDerivation_post _ _ _ _ hrun
  rw [hc] at hc0
  cases hc0
  refine ⟨s', hrun, hself, survivingBases_sublist _ _, ?_, ?_⟩
  · obtain ⟨new, hnew, hk⟩ := hsh.kinds
    refine ⟨new, hnew, hk, ?_⟩
    have hcount := hsh.count
    rw [hnew, List.length_append] at hcount
    simp only at hcount
    omega
  · intro b hb hT
    exact survivingBases_count hT hb

/-- Witness for C2: a class that lists the interface `i` twice ends with one
`InvalidDerivation` error and one surviving occurrence of `i`. -/
theorem checkDerivation_removes_offending_witness :
    (checkDerivation 3 0 ⟨duplicateRegistry, []⟩).map
        (fun s => (s.ar.errors, (s.ar.classes[0]?).map (fun c => c.m_bases))) =
      some ([⟨ErrorType.InvalidDerivation, 0, "i"⟩], some ["i"]) ∧
    ∃ s', checkDerivation (duplicateRegistry.classes.length + 1) 0 ⟨duplicateRegistry, []⟩ =
        some s' ∧
      s'.ar.classes[0]? = some
        { ClassScope.create KindOf.KindOfObjectClass "a" "" ["i", "i"] false false 0 with
          m_bases := survivingBases (setInsert [] "a") ["i", "i"]
          m_parent := if headRemoved (setInsert [] "a") ["i", "i"] = true ∧ "" ≠ "" then ""
            else "" } ∧
      (survivingBases (setInsert [] "a") ["i", "i"]).Sublist ["i", "i"] ∧
      (∃ new, s'.ar.errors = [] ++ new ∧
        (∀ r ∈ new, r.kind = ErrorType.InvalidDerivation) ∧
        new.length + totalEdges s'.ar = totalEdges duplicateRegistry) ∧
      ∀ b ∈ ["i", "i"], b ∉ setInsert [] "a" →
        (survivingBases (setInsert [] "a") ["i", "i"]).count b = 1 :=
  ⟨by decide, checkDerivation_removes_offending duplicateRegistry 0 []
    (ClassScope.create KindOf.KindOfObjectClass "a" "" ["i", "i"] false false 0) rfl⟩

/-- C3: `checkDerivation` terminates on every finite registry, cyclic or with redeclared names
included: a nesting depth (`fuel`) above the number of registry names that are not yet in the
seen set is enough, because every nested call adds a new registry name to the seen set; one
more than the number of declared classes is always enough. -/
theorem checkDerivation_terminates (ar : AnalysisResult) (e : Nat) (seen : List String)
    (c : ClassScope) (fuel : Nat) (hc : ar.classes[e]? = some c)
    (hfuel : unseenCount ar (setInsert seen c.m_name) < fuel) :
    (∃ s', checkDerivation fuel e ⟨ar, seen⟩ = some s') ∧
      unseenCount ar (setInsert seen c.m_name) < ar.classes.length + 1 ∧
      ∃ s', checkDerivation (ar.classes.length + 1) e ⟨ar, seen⟩ = some s' :=
  ⟨checkDerivation_total fuel e ⟨ar, seen⟩ c hc hfuel,
    Nat.lt_succ_of_le (unseenCount_le _ _),
    checkDerivation_total _ e ⟨ar, seen⟩ c hc (Nat.lt_succ_of_le (unseenCount_le _ _))⟩

/-- Witness for C3: the cyclic registry, walked from `a` with nesting depth 3. -/
theorem checkDerivation_terminates_witness :
    unseenCount cyclicRegistry (setInsert [] "a") < 3 ∧
    ((∃ s', checkDerivation 3 0 ⟨cyclicRegistry, []⟩ = some s') ∧
      unseenCount cyclicRegistry (setInsert [] "a") < cyclicRegistry.classes.length + 1 ∧
      ∃ s', checkDerivation (cyclicRegistry.classes.length + 1) 0 ⟨cyclicRegistry, []⟩ =
        some s') :=
  ⟨by decide, checkDerivation_terminates cyclicRegistry 0 []
    (ClassScope.create KindOf.KindOfObjectClass "a" "b" ["b", "i", "i"] false false 0) 3 rfl
    (by decide)⟩

/-! ## The frame of `collectMethods` -/

theorem Pointwise.refl_pointwise {α : Type} {R : α → α → Prop} (hR : ∀ x, R x x) (l : List α) :
    Pointwise R l l :=
  ⟨rfl, fun _ x h => ⟨x, h, hR x⟩⟩

theorem Pointwise.trans_pointwise {α : Type} {R : α → α → Prop} (hR : ∀ x y z, R x y → R y z → R x z)
    {l l' l'' : List α} (h1 : Pointwise R l l') (h2 : Pointwise R l' l'') : Pointwise R l l'' := by
  refine ⟨h2.1.trans h1.1, ?_⟩
  intro k x hx
  obtain ⟨x', hx', r1⟩ := h1.2 k x hx
  obtain ⟨x'', hx'', r2⟩ := h2.2 k x' hx'
  exact ⟨x'', hx'', hR _ _ _ r1 r2⟩

theorem Pointwise.modify {α : Type} {R : α → α → Prop} (hR : ∀ x, R x x) (l : List α) (k : Nat)
    (f : α → α) (hf : ∀ x, l[k]? = some x → R x (f x)) : Pointwise R l (l.modify f k) := by
  refine ⟨by simp, ?_⟩
  intro j x hx
  rw [List.getElem?_modify]
  by_cases hkj : k = j
  · subst hkj
    rw [hx]
    exact ⟨f x, by simp, hf x hx⟩
  · rw [hx]
    exact ⟨x, by simp [hkj], hR x⟩

theorem ClassGrows.refl_classGrows (c : ClassScope) : ClassGrows c c where
  same := rfl
  bases := List.Sublist.refl _
  inv := id
  volatile := id
  derives := id
  dynamic := id
  forced := id
  pointer := id

theorem ClassGrows.trans_classGrows {c c' c'' : ClassScope} (h1 : ClassGrows c c') (h2 : ClassGrows c' c'') :
    ClassGrows c c'' where
  same := by
    have e1 := h1.same
    have e2 := h2.same
    rw [← e1, ← e2]
  bases := h2.bases.trans h1.bases
  inv := fun h => h2.inv (h1.inv h)
  volatile := fun h => h2.volatile (h1.volatile h)
  derives := fun h => h2.derives (h1.derives h)
  dynamic := fun h => h2.dynamic (h1.dynamic h)
  forced := fun h => h2.forced (h1.forced h)
  pointer := fun h => h2.pointer (h1.pointer h)

theorem ClassGrows.name {c c' : ClassScope} (h : ClassGrows c c') : c'.m_name = c.m_name := by
  have e := congrArg ClassScope.m_name h.same
  exact e

theorem ClassGrows.parent {c c' : ClassScope} (h : ClassGrows c c') :
    c'.m_parent = c.m_parent := by
  have e := congrArg ClassScope.m_parent h.same
  exact e

theorem ClassGrows.kindOf {c c' : ClassScope} (h : ClassGrows c c') :
    c'.m_kindOf = c.m_kindOf := by
  have e := congrArg ClassScope.m_kindOf h.same
  exact e

theorem ClassGrows.redeclaring {c c' : ClassScope} (h : ClassGrows c c') :
    c'.m_redeclaring = c.m_redeclaring := by
  have e := congrArg ClassScope.m_redeclaring h.same
  exact e

theorem ClassGrows.functions {c c' : ClassScope} (h : ClassGrows c c') :
    c'.m_functions = c.m_functions := by
  have e := congrArg ClassScope.m_functions h.same
  exact e

theorem ClassGrows.missing {c c' : ClassScope} (h : ClassGrows c c') :
    c'.m_missingMethods = c.m_missingMethods := by
  have e := congrArg ClassScope.m_missingMethods h.same
  exact e

theorem ClassGrows.stmt {c c' : ClassScope} (h : ClassGrows c c') : c'.m_stmt = c.m_stmt := by
  have e := congrArg ClassScope.m_stmt h.same
  exact e

theorem FuncGrows.refl_funcGrows (f : FunctionScope) : FuncGrows f f := ⟨rfl, id⟩

theorem FuncGrows.trans_funcGrows {f f' f'' : FunctionScope} (h1 : FuncGrows f f') (h2 : FuncGrows f' f'') :
    FuncGrows f f'' where
  same := by
    have e1 := h1.same
    have e2 := h2.same
    rw [← e1, ← e2]
  virt := fun h => h2.virt (h1.virt h)

theorem ArGrows.refl_arGrows (a : AnalysisResult) : ArGrows a a where
  classes := Pointwise.refl_pointwise ClassGrows.refl_classGrows _
  functions := Pointwise.refl_pointwise FuncGrows.refl_funcGrows _
  errors := ⟨[], by simp, by simp⟩
  unknown := ⟨[], by simp⟩

theorem ArGrows.trans_arGrows {a a' a'' : AnalysisResult} (h1 : ArGrows a a') (h2 : ArGrows a' a'') :
    ArGrows a a'' where
  classes := @Pointwise.trans_pointwise _ ClassGrows (fun _ _ _ g1 g2 => ClassGrows.trans_classGrows g1 g2) _ _ _
    h1.classes h2.classes
  functions := @Pointwise.trans_pointwise _ FuncGrows (fun _ _ _ g1 g2 => FuncGrows.trans_funcGrows g1 g2) _ _ _
    h1.functions h2.functions
  errors := by
    obtain ⟨n1, e1, k1⟩ := h1.errors
    obtain ⟨n2, e2, k2⟩ := h2.errors
    refine ⟨n1 ++ n2, by rw [e2, e1, List.append_assoc], ?_⟩
    intro r hr
    rcases List.mem_append.1 hr with h | h
    · exact k1 r h
    · exact k2 r h
  unknown := by
    obtain ⟨n1, e1⟩ := h1.unknown
    obtain ⟨n2, e2⟩ := h2.unknown
    exact ⟨n1 ++ n2, by rw [e2, e1, List.append_assoc]⟩

theorem ArGrows.names {a a' : AnalysisResult} (h : ArGrows a a') : namesOf a' = namesOf a := by
  apply List.ext_getElem?
  intro k
  rw [namesOf_getElem?, namesOf_getElem?]
  cases hk : a.classes[k]? with
  | none =>
    have : a'.classes[k]? = none := by
      rw [List.getElem?_eq_none_iff] at hk ⊢
      rw [h.classes.1]
      exact hk
    rw [this]
  | some c =>
    obtain ⟨c', hc', hg⟩ := h.classes.2 k c hk
    rw [hc']
    simp only [Option.map_some', Option.some.injEq]
    exact hg.name

theorem ArGrows.findClasses {a a' : AnalysisResult} (h : ArGrows a a') (name : String) :
    findClasses a' name = findClasses a name :=
  findClasses_congr h.names name

theorem ArGrows.findClass {a a' : AnalysisResult} (h : ArGrows a a') (name : String) :
    findClass a' name = findClass a name := by
  unfold HPHP.findClass
  rw [h.findClasses]

theorem AccGrows.refl_accGrows (m : List (String × Nat)) : AccGrows m m := fun _ _ h => h

theorem AccGrows.trans_accGrows {m m' m'' : List (String × Nat)} (h1 : AccGrows m m')
    (h2 : AccGrows m' m'') : AccGrows m m'' := fun k v h => h2 k v (h1 k v h)

theorem lookup_append_of_some {m : List (String × Nat)} {k : String} {v : Nat}
    (h : m.lookup k = some v) (m2 : List (String × Nat)) : (m ++ m2).lookup k = some v := by
  induction m with
  | nil => simp at h
  | cons x rest ih =>
    obtain ⟨k0, v0⟩ := x
    simp only [List.cons_append, List.lookup_cons] at h ⊢
    split
    · rename_i heq
      rw [heq] at h
      exact h
    · rename_i heq
      rw [heq] at h
      exact ih h

theorem lookup_append_of_none {m : List (String × Nat)} {k : String}
    (h : m.lookup k = none) (m2 : List (String × Nat)) : (m ++ m2).lookup k = m2.lookup k := by
  induction m with
  | nil => rfl
  | cons x rest ih =>
    obtain ⟨k0, v0⟩ := x
    simp only [List.cons_append, List.lookup_cons] at h ⊢
    split
    · rename_i heq
      rw [heq] at h
      simp at h
    · rename_i heq
      rw [heq] at h
      exact ih h

theorem AccGrows.append (m m2 : List (String × Nat)) : AccGrows m (m ++ m2) :=
  fun _ _ h => lookup_append_of_some h m2

theorem AccGrows.mapInsertAll (cur : List (String × Nat)) :
    ∀ m : List (String × Nat), AccGrows m (mapInsertAll m cur) := by
  induction cur with
  | nil => intro m; exact AccGrows.refl_accGrows m
  | cons x rest ih =>
    intro m
    obtain ⟨k, v⟩ := x
    simp only [HPHP.mapInsertAll]
    split
    · exact ih m
    · exact (AccGrows.append m _).trans_accGrows (ih _)

theorem Calm.refl_calm (a : AnalysisResult) : Calm a a where
  length := rfl
  errors := rfl
  unknown := rfl
  bases := by
    intro k c c' h h'
    rw [h] at h'
    cases h'
    rfl

theorem exists_of_length_eq {α : Type} {l l' : List α} (h : l'.length = l.length) {k : Nat}
    {x : α} (hx : l[k]? = some x) : ∃ x', l'[k]? = some x' := by
  have hk : k < l'.length := by
    rw [h]
    exact (List.getElem?_eq_some.1 hx).1
  exact ⟨l'[k], List.getElem?_eq_getElem hk⟩

theorem Calm.trans_calm {a a' a'' : AnalysisResult} (h1 : Calm a a') (h2 : Calm a' a'') :
    Calm a a'' where
  length := h2.length.trans h1.length
  errors := h2.errors.trans h1.errors
  unknown := h2.unknown.trans h1.unknown
  bases := by
    intro k c c'' hc hc''
    obtain ⟨c', hc'⟩ := exists_of_length_eq h1.length hc
    exact (h2.bases k c' c'' hc' hc'').trans (h1.bases k c c' hc hc')

theorem Quiet.refl_quiet (N : List String) (a : AnalysisResult) : Quiet N a a :=
  ⟨ArGrows.refl_arGrows a, Calm.refl_calm a, rfl, fun _ _ h _ => h⟩

theorem Quiet.trans_quiet {N : List String} {a a' a'' : AnalysisResult} (h1 : Quiet N a a')
    (h2 : Quiet N a' a'') : Quiet N a a'' :=
  ⟨h1.grows.trans_arGrows h2.grows, h1.calm.trans_calm h2.calm, h2.functions.trans h1.functions,
    fun k c hc hn => h2.frame k c (h1.frame k c hc hn) hn⟩

theorem Quiet.mono_quiet {N N' : List String} {a a' : AnalysisResult} (h : Quiet N a a')
    (hN : ∀ x ∈ N, x ∈ N') : Quiet N' a a' :=
  ⟨h.grows, h.calm, h.functions, fun k c hc hn => h.frame k c hc (fun hm => hn (hN _ hm))⟩

theorem ArGrows.updateClass_arGrows (a : AnalysisResult) (k : Nat) (g : ClassScope → ClassScope)
    (hg : ∀ x, a.classes[k]? = some x → ClassGrows x (g x)) : ArGrows a (updateClass a k g) where
  classes := Pointwise.modify ClassGrows.refl_classGrows _ _ _ hg
  functions := Pointwise.refl_pointwise FuncGrows.refl_funcGrows _
  errors := ⟨[], by simp [HPHP.updateClass], by simp⟩
  unknown := ⟨[], by simp [HPHP.updateClass]⟩

theorem Quiet.updateClass_quiet {N : List String} (a : AnalysisResult) (k : Nat)
    (g : ClassScope → ClassScope) (hg : FlagOnly g)
    (hN : ∀ x, a.classes[k]? = some x → x.m_name ∈ N) : Quiet N a (updateClass a k g) where
  grows := ArGrows.updateClass_arGrows a k g (fun x _ => (hg x).1)
  calm := by
    refine ⟨by simp [HPHP.updateClass], rfl, rfl, ?_⟩
    intro j c c' hc hc'
    rw [getElem?_updateClass] at hc'
    split at hc'
    · rw [hc] at hc'
      simp only [Option.map_some', Option.some.injEq] at hc'
      rw [← hc']
      exact (hg c).2
    · rw [hc] at hc'
      cases hc'
      rfl
  functions := rfl
  frame := by
    intro j c hc hn
    rw [getElem?_updateClass]
    split
    · rename_i hkj
      subst hkj
      exact absurd (hN c hc) hn
    · exact hc

theorem FlagOnly.refl_flagOnly : FlagOnly (fun d => d) := fun x => ⟨ClassGrows.refl_classGrows x, rfl⟩

theorem FlagOnly.markDirect : FlagOnly markDirect := by
  intro x
  refine ⟨⟨rfl, List.Sublist.refl _, id, fun _ => rfl, ?_, id, fun _ => rfl, fun _ => rfl⟩, rfl⟩
  intro _
  simp [HPHP.markDirect]

theorem FlagOnly.markIndirect : FlagOnly markIndirect := by
  intro x
  refine ⟨⟨rfl, List.Sublist.refl _, id, fun _ => rfl, ?_, id, fun _ => rfl, id⟩, rfl⟩
  intro _
  simp [HPHP.markIndirect]

theorem FlagOnly.setDerives (v : Derivation) (hv : v ≠ Derivation.FromNormal) :
    FlagOnly (fun d => { d with m_derivesFromRedeclaring := v }) := by
  intro x
  exact ⟨⟨rfl, List.Sublist.refl _, id, id, fun _ => hv, id, id, id⟩, rfl⟩

theorem FlagOnly.setDerivedByDynamic_flagOnly :
    FlagOnly (fun d => { d with m_derivedByDynamic := true }) := by
  intro x
  exact ⟨⟨rfl, List.Sublist.refl _, id, id, id, fun _ => rfl, id, id⟩, rfl⟩

theorem updateClass_id (a : AnalysisResult) (k : Nat) : updateClass a k (fun d => d) = a := by
  unfold HPHP.updateClass
  have : List.modify (fun d : ClassScope => d) k a.classes = a.classes := List.modify_id k _
  rw [this]

theorem ArGrows.record (a : AnalysisResult) (stmt : Nat) (detail : String) :
    ArGrows a (record a ErrorType.UnknownBaseClass stmt detail) where
  classes := Pointwise.refl_pointwise ClassGrows.refl_classGrows _
  functions := Pointwise.refl_pointwise FuncGrows.refl_funcGrows _
  errors := ⟨[⟨ErrorType.UnknownBaseClass, stmt, detail⟩], rfl, by simp⟩
  unknown := ⟨[], by simp [HPHP.record]⟩

theorem ArGrows.declareUnknownClass (a : AnalysisResult) (name : String) :
    ArGrows a (declareUnknownClass a name) where
  classes := Pointwise.refl_pointwise ClassGrows.refl_classGrows _
  functions := Pointwise.refl_pointwise FuncGrows.refl_funcGrows _
  errors := ⟨[], by simp [HPHP.declareUnknownClass], by simp⟩
  unknown := ⟨[name], rfl⟩

theorem ArGrows.setVirtual (a : AnalysisResult) (fid : Nat) : ArGrows a (setVirtual a fid) where
  classes := Pointwise.refl_pointwise ClassGrows.refl_classGrows _
  functions := Pointwise.modify FuncGrows.refl_funcGrows _ _ _ (fun _ _ => ⟨rfl, fun _ => rfl⟩)
  errors := ⟨[], by simp [HPHP.setVirtual, updateFunction], by simp⟩
  unknown := ⟨[], by simp [HPHP.setVirtual, updateFunction]⟩

theorem dropUnknownBase_grows {c : ClassScope} {i : Nat} {base : String}
    (hb : c.m_bases[i]? = some base) (hne : base ≠ c.m_parent) :
    ClassGrows c (dropUnknownBase i c) where
  same := rfl
  bases := List.eraseIdx_sublist _ _
  inv := by
    intro h
    unfold ClassScope.parentInvariant at h ⊢
    simp only [dropUnknownBase]
    rcases h with h | h
    · exact Or.inl h
    · right
      cases hl : c.m_bases with
      | nil => rw [hl] at h; simp at h
      | cons x rest =>
        rw [hl] at h hb
        cases i with
        | zero =>
          simp only [List.head?_cons, Option.some.injEq, List.getElem?_cons_zero] at h hb
          exact absurd (hb.symm.trans h) hne
        | succ j => simpa using h
  volatile := id
  derives := by
    intro h
    simp only [dropUnknownBase]
    split
    · simp
    · exact h
  dynamic := id
  forced := id
  pointer := id

theorem findClass_some {a : AnalysisResult} {b : String} {k : Nat} (h : findClass a b = some k) :
    ∃ c, a.classes[k]? = some c ∧ c.m_name = b := by
  unfold findClass at h
  exact mem_findClasses.1 (List.mem_of_getLast?_eq_some h)

theorem findClass_mem {a : AnalysisResult} {b : String} {k : Nat} (h : findClass a b = some k) :
    k ∈ findClasses a b := by
  unfold findClass at h
  exact List.mem_of_getLast?_eq_some h

theorem findClass_eq_none {a : AnalysisResult} {b : String} :
    findClass a b = none ↔ findClasses a b = [] := by
  unfold findClass
  exact List.getLast?_eq_none_iff

theorem collectMethodsBase_cases {rec : Nat → CollectState → Option CollectState}
    {forInvoke : Bool} {self i : Nat} {s s' : CollectState}
    (h : collectMethodsBase rec forInvoke self i s = some s') :
    ∃ c base, s.ar.classes[self]? = some c ∧ c.m_bases[i]? = some base ∧
      ((s'.funcs = s.funcs ∧ Quiet [c.m_name, base] s.ar s'.ar) ∨
       (findClass s.ar base = none ∧ (forInvoke = false ∨ base = c.m_parent) ∧
          s' = ⟨if base = c.m_parent then
                updateClass (declareUnknownClass
                  (record s.ar ErrorType.UnknownBaseClass c.m_stmt base) c.m_parent) self markDirect
              else
                updateClass (record s.ar ErrorType.UnknownBaseClass c.m_stmt base) self
                  (dropUnknownBase i), s.funcs⟩) ∨
       (∃ super ar1 s2 g, findClass s.ar base = some super ∧ Quiet [base] s.ar ar1 ∧
          rec super ⟨ar1, s.funcs⟩ = some s2 ∧ FlagOnly g ∧
          s' = ⟨updateClass s2.ar self g, s2.funcs⟩) ∨
       (∃ ar1 s2, forInvoke = false ∧ base = c.m_parent ∧ Quiet [base] s.ar ar1 ∧
          collectRedeclared rec s.funcs (findRedeclaredClasses ar1 c.m_parent) ⟨ar1, s.funcs⟩ =
            some s2 ∧
          s' = ⟨updateClass s2.ar self markDirect, s2.funcs⟩)) := by
  unfold collectMethodsBase at h
  cases hc : s.ar.classes[self]? with
  | none => rw [hc] at h; simp at h
  | some c =>
    rw [hc] at h
    simp only at h
    cases hb : c.m_bases[i]? with
    | none => rw [hb] at h; simp at h
    | some base =>
      rw [hb] at h
      simp only at h
      refine ⟨c, base, rfl, hb, ?_⟩
      split at h
      · -- skipped for the invoke chain
        simp only [Option.some.injEq] at h
        subst h
        exact Or.inl ⟨rfl, Quiet.refl_quiet _ _⟩
      · rename_i hskip
        cases hf : findClass s.ar base with
        | none =>
          rw [hf] at h
          simp only [beq_iff_eq] at h
          right; left
          refine ⟨rfl, ?_, ?_⟩
          · cases forInvoke with
            | false => exact Or.inl rfl
            | true =>
              right
              simpa using hskip
          · split at h
            · rename_i hp
              simp only [Option.some.injEq] at h
              rw [← h, if_pos hp]
            · rename_i hp
              simp only [Option.some.injEq] at h
              rw [← h, if_neg hp]
        | some super =>
          rw [hf] at h
          simp only at h
          obtain ⟨csup, hcsup, hsupname⟩ := findClass_some hf
          rw [hcsup] at h
          simp only at h
          have hq1 : Quiet [base] s.ar
              (if c.m_derivedByDynamic = true then
                updateClass s.ar super (fun d => { d with m_derivedByDynamic := true })
              else s.ar) := by
            split
            · apply Quiet.updateClass_quiet _ _ _ FlagOnly.setDerivedByDynamic_flagOnly
              intro x hx
              rw [hcsup] at hx
              cases hx
              simp [hsupname]
            · exact Quiet.refl_quiet _ _
          have hq1' : Quiet [c.m_name, base] s.ar
              (if c.m_derivedByDynamic = true then
                updateClass s.ar super (fun d => { d with m_derivedByDynamic := true })
              else s.ar) := hq1.mono_quiet (by simp)
          have hselfname : ∀ (a1 : AnalysisResult), Quiet [base] s.ar a1 →
              ∀ x, a1.classes[self]? = some x → x.m_name ∈ [c.m_name, base] := by
            intro a1 hq x hx
            obtain ⟨x', hx', hg⟩ := hq.grows.classes.2 self c hc
            rw [hx] at hx'
            cases hx'
            simp [hg.name]
          split at h
          · -- the base is redeclaring
            split at h
            · split at h
              · simp only [Option.some.injEq] at h
                subst h
                exact Or.inl ⟨rfl, hq1'⟩
              · rename_i hp hfi
                cases hr : collectRedeclared rec s.funcs
                    (findRedeclaredClasses
                      (if c.m_derivedByDynamic = true then
                        updateClass s.ar super (fun d => { d with m_derivedByDynamic := true })
                      else s.ar) c.m_parent)
                    ⟨if c.m_derivedByDynamic = true then
                        updateClass s.ar super (fun d => { d with m_derivedByDynamic := true })
                      else s.ar, s.funcs⟩ with
                | none => rw [hr] at h; simp at h
                | some s2 =>
                  rw [hr] at h
                  simp only [Option.some.injEq] at h
                  right; right; right
                  refine ⟨_, s2, by simpa using hfi, by simpa using hp, hq1, hr, h.symm⟩
            · split at h
              · simp only [Option.some.injEq] at h
                subst h
                refine Or.inl ⟨rfl, hq1'.trans_quiet ?_⟩
                exact Quiet.updateClass_quiet _ _ _
                  (FlagOnly.setDerives Derivation.DirectFromRedeclared (by decide))
                  (hselfname _ hq1)
              · simp only [Option.some.injEq] at h
                subst h
                exact Or.inl ⟨rfl, hq1'⟩
          · -- the base is a unique declaration
            cases hr : rec super
                ⟨if c.m_derivedByDynamic = true then
                    updateClass s.ar super (fun d => { d with m_derivedByDynamic := true })
                  else s.ar, s.funcs⟩ with
            | none => rw [hr] at h; simp at h
            | some s2 =>
              rw [hr] at h
              simp only at h
              right; right; left
              cases hs2 : s2.ar.classes[super]? with
              | none => rw [hs2] at h; simp at h
              | some sup2 =>
                rw [hs2] at h
                simp only at h
                have hid : s2 = ⟨updateClass s2.ar self (fun d => d), s2.funcs⟩ := by
                  rw [updateClass_id]
                split at h
                · split at h
                  · simp only [Option.some.injEq] at h
                    exact ⟨super, _, s2, _, rfl, hq1, hr, FlagOnly.markIndirect, h.symm⟩
                  · split at h
                    · simp only [Option.some.injEq] at h
                      exact ⟨super, _, s2, _, rfl, hq1, hr,
                        FlagOnly.setDerives Derivation.IndirectFromRedeclared (by decide),
                        h.symm⟩
                    · simp only [Option.some.injEq] at h
                      subst h
                      exact ⟨super, _, s2, _, rfl, hq1, hr, FlagOnly.refl_flagOnly, hid⟩
                · simp only [Option.some.injEq] at h
                  subst h
                  exact ⟨super, _, s2, _, rfl, hq1, hr, FlagOnly.refl_flagOnly, hid⟩

theorem Grows.refl_grows (s : CollectState) : Grows s s := ⟨ArGrows.refl_arGrows _, AccGrows.refl_accGrows _⟩

theorem Grows.trans_grows {s s' s'' : CollectState} (h1 : Grows s s') (h2 : Grows s' s'') :
    Grows s s'' := ⟨h1.1.trans_arGrows h2.1, h1.2.trans_accGrows h2.2⟩

theorem FunctionsOnly.refl_functionsOnly (s : CollectState) : FunctionsOnly s s := ⟨rfl, rfl, rfl⟩

theorem FunctionsOnly.trans_functionsOnly {s s' s'' : CollectState} (h1 : FunctionsOnly s s')
    (h2 : FunctionsOnly s' s'') : FunctionsOnly s s'' :=
  ⟨h2.1.trans h1.1, h2.2.1.trans h1.2.1, h2.2.2.trans h1.2.2⟩

theorem collectAdd_grows (name : String) (f : Nat) (s : CollectState) :
    Grows s (collectAdd name f s) ∧ FunctionsOnly s (collectAdd name f s) := by
  unfold collectAdd
  split
  · exact ⟨⟨ArGrows.refl_arGrows _, AccGrows.append _ _⟩, rfl, rfl, rfl⟩
  · exact ⟨⟨(ArGrows.setVirtual _ _).trans_arGrows (ArGrows.setVirtual _ _), AccGrows.refl_accGrows _⟩,
      rfl, rfl, rfl⟩

theorem collectOwn_grows (collectPrivate : Bool) :
    ∀ (l : List (String × List Nat)) (s s' : CollectState),
      collectOwn collectPrivate l s = some s' → Grows s s' ∧ FunctionsOnly s s' := by
  intro l
  induction l with
  | nil =>
    intro s s' h
    simp only [collectOwn, Option.some.injEq] at h
    subst h
    exact ⟨Grows.refl_grows _, FunctionsOnly.refl_functionsOnly _⟩
  | cons x rest ih =>
    intro s s' h
    obtain ⟨name, decls⟩ := x
    simp only [collectOwn] at h
    split at h
    · simp at h
    · rename_i f _
      split at h
      · have h1 := collectAdd_grows name f s
        have h2 := ih _ _ h
        exact ⟨h1.1.trans_grows h2.1, h1.2.trans_functionsOnly h2.2⟩
      · split at h
        · simp at h
        · split at h
          · exact ih _ _ h
          · have h1 := collectAdd_grows name f s
            have h2 := ih _ _ h
            exact ⟨h1.1.trans_grows h2.1, h1.2.trans_functionsOnly h2.2⟩

theorem collectMissing_grows :
    ∀ (l : List String) (s : CollectState),
      Grows s (collectMissing l s) ∧ FunctionsOnly s (collectMissing l s) := by
  intro l
  induction l with
  | nil =>
    intro s
    exact ⟨Grows.refl_grows _, FunctionsOnly.refl_functionsOnly _⟩
  | cons x rest ih =>
    intro s
    simp only [collectMissing]
    split
    · rename_i g _
      have h1 : Grows s { s with ar := setVirtual s.ar g } :=
        ⟨ArGrows.setVirtual _ _, AccGrows.refl_accGrows _⟩
      have h2 := ih { s with ar := setVirtual s.ar g }
      exact ⟨h1.trans_grows h2.1, FunctionsOnly.trans_functionsOnly ⟨rfl, rfl, rfl⟩ h2.2⟩
    · exact ih s

theorem collectRedeclared_grows (rec : Nat → CollectState → Option CollectState)
    (hrec : ∀ cls st st', rec cls st = some st' → Grows st st')
    (pristine : List (String × Nat)) :
    ∀ (alts : List Nat) (s s' : CollectState),
      collectRedeclared rec pristine alts s = some s' → Grows s s' := by
  intro alts
  induction alts with
  | nil =>
    intro s s' h
    simp only [collectRedeclared, Option.some.injEq] at h
    subst h
    exact Grows.refl_grows _
  | cons cls rest ih =>
    intro s s' h
    simp only [collectRedeclared] at h
    split at h
    · simp at h
    · rename_i s1 hr
      have h1 := hrec _ _ _ hr
      have h2 := ih _ _ h
      have hup : ArGrows s.ar
          (updateClass s.ar cls (fun d => { d with m_derivedByDynamic := true })) :=
        ArGrows.updateClass_arGrows _ _ _ (fun x _ => (FlagOnly.setDerivedByDynamic_flagOnly x).1)
      exact ⟨(hup.trans_arGrows h1.1).trans_arGrows h2.1, (AccGrows.mapInsertAll _ _).trans_accGrows h2.2⟩

theorem collectMethodsBase_grows (rec : Nat → CollectState → Option CollectState)
    (hrec : ∀ cls st st', rec cls st = some st' → Grows st st')
    {forInvoke : Bool} {self i : Nat} {s s' : CollectState}
    (h : collectMethodsBase rec forInvoke self i s = some s') : Grows s s' := by
  obtain ⟨c, base, hc, hb, hcase⟩ := collectMethodsBase_cases h
  rcases hcase with ⟨hf, hq⟩ | ⟨_, hcond, rfl⟩ | ⟨super, ar1, s2, g, _, hq, hr, hg, rfl⟩ |
    ⟨ar1, s2, _, _, hq, hr, rfl⟩
  · refine ⟨hq.grows, ?_⟩
    rw [hf]
    exact AccGrows.refl_accGrows _
  · refine ⟨?_, AccGrows.refl_accGrows _⟩
    split
    · exact ((ArGrows.record _ _ _).trans_arGrows (ArGrows.declareUnknownClass _ _)).trans_arGrows
        (ArGrows.updateClass_arGrows _ _ _ (fun x _ => (FlagOnly.markDirect x).1))
    · rename_i hne
      refine (ArGrows.record _ _ _).trans_arGrows (ArGrows.updateClass_arGrows _ _ _ ?_)
      intro x hx
      have hx' : s.ar.classes[self]? = some x := hx
      rw [hc] at hx'
      cases hx'
      exact dropUnknownBase_grows hb hne
  · have h1 := hrec _ _ _ hr
    exact ⟨(hq.grows.trans_arGrows h1.1).trans_arGrows (ArGrows.updateClass_arGrows _ _ _ (fun x _ => (hg x).1)), h1.2⟩
  · have h1 := collectRedeclared_grows rec hrec _ _ _ _ hr
    exact ⟨(hq.grows.trans_arGrows h1.1).trans_arGrows
      (ArGrows.updateClass_arGrows _ _ _ (fun x _ => (FlagOnly.markDirect x).1)), h1.2⟩

theorem collectMethodsBases_grows (rec : Nat → CollectState → Option CollectState)
    (hrec : ∀ cls st st', rec cls st = some st' → Grows st st') (forInvoke : Bool) (self : Nat) :
    ∀ (n : Nat) (s s' : CollectState),
      collectMethodsBases rec forInvoke self n s = some s' → Grows s s' := by
  intro n
  induction n with
  | zero =>
    intro s s' h
    simp only [collectMethodsBases, Option.some.injEq] at h
    subst h
    exact Grows.refl_grows _
  | succ i ih =>
    intro s s' h
    simp only [collectMethodsBases] at h
    split at h
    · simp at h
    · rename_i s1 hs
      exact (collectMethodsBase_grows rec hrec hs).trans_grows (ih _ _ h)

theorem collectMethods_grows :
    ∀ (fuel self : Nat) (collectPrivate forInvoke : Bool) (s s' : CollectState),
      collectMethods fuel self collectPrivate forInvoke s = some s' → Grows s s' := by
  intro fuel
  induction fuel with
  | zero =>
    intro self cp fi s s' h
    simp [collectMethods] at h
  | succ fuel ih =>
    intro self cp fi s s' h
    simp only [collectMethods] at h
    split at h
    · simp at h
    · rename_i c _
      split at h
      · simp at h
      · rename_i s1 hown
        have h1 := (collectOwn_grows cp _ _ _ hown).1
        have h2 := (collectMissing_grows c.m_missingMethods s1).1
        have h3 := collectMethodsBases_grows _ (fun cls st st' hr => ih cls false fi st st' hr)
          fi self _ _ _ h
        exact (h1.trans_grows h2).trans_grows h3

/-! ## The parent invariant -/

theorem forall_getElem?_of_forall_mem {α : Type} {P : α → Prop} {l : List α}
    (h : ∀ x ∈ l, P x) : ∀ (k : Nat) (x : α), l[k]? = some x → P x :=
  fun _ x hx => h x (List.getElem?_mem hx)

/-- C4: if `m_parent` is empty or equal to `m_bases[0]` in every class scope before the call,
the same holds in every class scope after `checkDerivation` (which always returns) and after
every call of `collectMethods` that returns. -/
theorem parentInvariant_preserved (ar : AnalysisResult)
    (hinv : ∀ (k : Nat) (c : ClassScope), ar.classes[k]? = some c → c.parentInvariant) :
    (∀ (e : Nat) (seen : List String), e < ar.classes.length →
      ∃ s', checkDerivation (ar.classes.length + 1) e ⟨ar, seen⟩ = some s') ∧
    (∀ (fuel e : Nat) (seen : List String) (s' : DerivState),
      checkDerivation fuel e ⟨ar, seen⟩ = some s' →
      ∀ (k : Nat) (c : ClassScope), s'.ar.classes[k]? = some c → c.parentInvariant) ∧
    (∀ (fuel e : Nat) (collectPrivate forInvoke : Bool) (funcs : List (String × Nat))
      (s' : CollectState),
      collectMethods fuel e collectPrivate forInvoke ⟨ar, funcs⟩ = some s' →
      ∀ (k : Nat) (c : ClassScope), s'.ar.classes[k]? = some c → c.parentInvariant) := by
  refine ⟨?_, ?_, ?_⟩
  · intro e seen he
    exact checkDerivation_total _ e ⟨ar, seen⟩ _ (List.getElem?_eq_getElem he)
      (Nat.lt_succ_of_le (unseenCount_le _ _))
  · intro fuel e seen s' h k c hc
    obtain ⟨_, _, hsh, _⟩ := checkDerivation_post _ _ _ _ h
    obtain ⟨c0, hc0⟩ := exists_of_length_eq (length_eq_of_namesOf hsh.names).symm hc
    exact hsh.inv k c0 c hc0 hc (hinv k c0 hc0)
  · intro fuel e cp fi funcs s' h k c hc
    have hg := (collectMethods_grows _ _ _ _ _ _ h).1
    obtain ⟨c0, hc0⟩ := exists_of_length_eq hg.classes.1.symm hc
    obtain ⟨c1, hc1, hgr⟩ := hg.classes.2 k c0 hc0
    rw [hc] at hc1
    cases hc1
    exact hgr.inv (hinv k c0 hc0)

/-- Witness for C4: `collectMethods` on `c extends p implements ghost` returns, erases the
unresolved interface edge and keeps the parent edge in front. -/
theorem parentInvariant_preserved_witness :
    (collectMethods 2 0 true false ⟨plainRegistry, []⟩).map
        (fun s => s.ar.classes.map (fun c => (c.m_parent, c.m_bases))) =
      some [("p", ["p"]), ("", [])] ∧
    ((∀ (e : Nat) (seen : List String), e < plainRegistry.classes.length →
      ∃ s', checkDerivation (plainRegistry.classes.length + 1) e ⟨plainRegistry, seen⟩ =
        some s') ∧
    (∀ (fuel e : Nat) (seen : List String) (s' : DerivState),
      checkDerivation fuel e ⟨plainRegistry, seen⟩ = some s' →
      ∀ (k : Nat) (c : ClassScope), s'.ar.classes[k]? = some c → c.parentInvariant) ∧
    (∀ (fuel e : Nat) (collectPrivate forInvoke : Bool) (funcs : List (String × Nat))
      (s' : CollectState),
      collectMethods fuel e collectPrivate forInvoke ⟨plainRegistry, funcs⟩ = some s' →
      ∀ (k : Nat) (c : ClassScope), s'.ar.classes[k]? = some c → c.parentInvariant)) :=
  ⟨by decide, parentInvariant_preserved plainRegistry
    (forall_getElem?_of_forall_mem (by decide))⟩

/-! ## The own methods of `collectMethods` -/

theorem IsVirtual.mono_isVirtual {a a' : AnalysisResult} {fid : Nat} (h : IsVirtual a fid)
    (hg : ArGrows a a') : IsVirtual a' fid := by
  intro fs' hfs'
  obtain ⟨fs, hfs⟩ := exists_of_length_eq hg.functions.1.symm hfs'
  obtain ⟨fs1, hfs1, hgr⟩ := hg.functions.2 fid fs hfs
  rw [hfs'] at hfs1
  cases hfs1
  exact hgr.virt (h fs hfs)

theorem isVirtual_setVirtual (a : AnalysisResult) (fid : Nat) : IsVirtual (setVirtual a fid) fid := by
  intro fs hfs
  simp only [setVirtual, updateFunction, List.getElem?_modify, ↓reduceIte] at hfs
  cases h : a.functions[fid]? with
  | none => rw [h] at hfs; simp at hfs
  | some x =>
    rw [h] at hfs
    simp at hfs
    rw [← hfs]

theorem ArGrows.private_iff {a a' : AnalysisResult} (hg : ArGrows a a') (f : Nat) (b : Bool) :
    (∃ fs, a.functions[f]? = some fs ∧ fs.m_private = b) ↔
      (∃ fs, a'.functions[f]? = some fs ∧ fs.m_private = b) := by
  constructor
  · rintro ⟨fs, hfs, hp⟩
    obtain ⟨fs', hfs', hgr⟩ := hg.functions.2 f fs hfs
    refine ⟨fs', hfs', ?_⟩
    have e := congrArg FunctionScope.m_private hgr.same
    exact e.trans hp
  · rintro ⟨fs', hfs', hp⟩
    obtain ⟨fs, hfs⟩ := exists_of_length_eq hg.functions.1.symm hfs'
    obtain ⟨fs1, hfs1, hgr⟩ := hg.functions.2 f fs hfs
    rw [hfs'] at hfs1
    cases hfs1
    refine ⟨fs, hfs, ?_⟩
    have e := congrArg FunctionScope.m_private hgr.same
    exact e.symm.trans hp

theorem collectAdd_lookup_ne {name k : String} (f : Nat) (s : CollectState) (h : name ≠ k) :
    (collectAdd name f s).funcs.lookup k = s.funcs.lookup k := by
  unfold collectAdd
  split
  · simp only
    cases hk : s.funcs.lookup k with
    | none =>
      rw [lookup_append_of_none hk]
      have hkn : (k == name) = false := by simpa using h.symm
      simp [List.lookup, hkn]
    | some v => exact lookup_append_of_some hk _
  · rfl

theorem collectAdd_spec (name : String) (f : Nat) (s : CollectState) :
    (∀ g, s.funcs.lookup name = some g →
      (collectAdd name f s).funcs.lookup name = some g ∧
        IsVirtual (collectAdd name f s).ar g ∧ IsVirtual (collectAdd name f s).ar f) ∧
    (s.funcs.lookup name = none → (collectAdd name f s).funcs.lookup name = some f) := by
  constructor
  · intro g hg
    unfold collectAdd
    rw [hg]
    exact ⟨hg, (isVirtual_setVirtual _ g).mono_isVirtual (ArGrows.setVirtual _ _),
      isVirtual_setVirtual _ f⟩
  · intro hn
    unfold collectAdd
    rw [hn]
    simp only
    rw [lookup_append_of_none hn]
    simp [List.lookup]

theorem collectOwn_spec (collectPrivate : Bool) (name : String) (f : Nat) :
    ∀ (l : List (String × List Nat)) (s s' : CollectState),
      collectOwn collectPrivate l s = some s' → (l.map Prod.fst).Nodup →
      (∃ decls, (name, decls) ∈ l ∧ decls.getLast? = some f) →
      (collectPrivate = true ∨ ∃ fs, s.ar.functions[f]? = some fs ∧ fs.m_private = false) →
      (∀ g, s.funcs.lookup name = some g →
        s'.funcs.lookup name = some g ∧ IsVirtual s'.ar g ∧ IsVirtual s'.ar f) ∧
      (s.funcs.lookup name = none → s'.funcs.lookup name = some f) := by
  intro l
  induction l with
  | nil =>
    intro s s' _ _ hmem _
    obtain ⟨_, h, _⟩ := hmem
    simp at h
  | cons x rest ih =>
    intro s s' h hnd hmem hvis
    obtain ⟨n0, d0⟩ := x
    obtain ⟨decls, hin, hlast⟩ := hmem
    simp only [List.map_cons, List.nodup_cons] at hnd
    rcases List.mem_cons.1 hin with heq | hrest
    · -- the head is the method in question
      simp only [Prod.mk.injEq] at heq
      obtain ⟨rfl, rfl⟩ := heq
      simp only [collectOwn, hlast] at h
      have hrun : collectOwn collectPrivate rest (collectAdd name f s) = some s' := by
        rcases hvis with hcp | ⟨fs, hfs, hp⟩
        · rw [hcp] at h ⊢
          simpa using h
        · cases collectPrivate with
          | true => simpa using h
          | false =>
            simp only [Bool.false_eq_true, ↓reduceIte, hfs, hp] at h
            exact h
      have hg := (collectOwn_grows _ _ _ _ hrun).1
      have hspec := collectAdd_spec name f s
      constructor
      · intro g hlk
        obtain ⟨h1, h2, h3⟩ := hspec.1 g hlk
        exact ⟨hg.2 _ _ h1, h2.mono_isVirtual hg.1, h3.mono_isVirtual hg.1⟩
      · intro hlk
        exact hg.2 _ _ (hspec.2 hlk)
    · -- the method is further down
      have hne : n0 ≠ name := by
        rintro rfl
        exact hnd.1 (List.mem_map.2 ⟨(n0, decls), hrest, rfl⟩)
      simp only [collectOwn] at h
      split at h
      · simp at h
      · rename_i f0 _
        have key : ∀ s1 : CollectState, Grows s s1 → s1.funcs.lookup name = s.funcs.lookup name →
            collectOwn collectPrivate rest s1 = some s' →
            (∀ g, s.funcs.lookup name = some g →
              s'.funcs.lookup name = some g ∧ IsVirtual s'.ar g ∧ IsVirtual s'.ar f) ∧
            (s.funcs.lookup name = none → s'.funcs.lookup name = some f) := by
          intro s1 hg1 hlk1 hrun
          have hvis1 : collectPrivate = true ∨
              ∃ fs, s1.ar.functions[f]? = some fs ∧ fs.m_private = false := by
            rcases hvis with hcp | hp
            · exact Or.inl hcp
            · exact Or.inr ((hg1.1.private_iff f false).1 hp)
          have := ih s1 s' hrun hnd.2 ⟨decls, hrest, hlast⟩ hvis1
          rw [hlk1] at this
          exact this
        split at h
        · exact key _ (collectAdd_grows n0 f0 s).1 (collectAdd_lookup_ne f0 s hne) h
        · split at h
          · simp at h
          · split at h
            · exact key s (Grows.refl_grows s) rfl h
            · exact key _ (collectAdd_grows n0 f0 s).1 (collectAdd_lookup_ne f0 s hne) h

/-! ## `collectMethods` on an acyclic hierarchy -/

theorem Acyclic.mono_acyclic {rank : String → Nat} {a a' : AnalysisResult} (h : Acyclic rank a)
    (hg : ArGrows a a') : Acyclic rank a' := by
  intro k c' hc' b hb
  obtain ⟨c, hc⟩ := exists_of_length_eq hg.classes.1.symm hc'
  obtain ⟨c1, hc1, hgr⟩ := hg.classes.2 k c hc
  rw [hc'] at hc1
  cases hc1
  rw [hgr.name]
  exact h k c hc b (hgr.bases.subset hb)

theorem WellFormedFunctions.mono_wellFormedFunctions {a a' : AnalysisResult} (h : WellFormedFunctions a)
    (hg : ArGrows a a') : WellFormedFunctions a' := by
  intro k c' hc' nd hnd
  obtain ⟨c, hc⟩ := exists_of_length_eq hg.classes.1.symm hc'
  obtain ⟨c1, hc1, hgr⟩ := hg.classes.2 k c hc
  rw [hc'] at hc1
  cases hc1
  rw [hgr.functions] at hnd
  obtain ⟨f, hf, hlt⟩ := h k c hc nd hnd
  exact ⟨f, hf, by rw [hg.functions.1]; exact hlt⟩

theorem HighUnchanged.refl_highUnchanged (rank : String → Nat) (r : Nat) (a : AnalysisResult) :
    HighUnchanged rank r a a := fun _ _ h _ => h

theorem HighUnchanged.trans_highUnchanged {rank : String → Nat} {r : Nat} {a a' a'' : AnalysisResult}
    (h1 : HighUnchanged rank r a a') (h2 : HighUnchanged rank r a' a'') :
    HighUnchanged rank r a a'' :=
  fun k c hc hr => h2 k c (h1 k c hc hr) hr

theorem HighUnchanged.mono_highUnchanged {rank : String → Nat} {r r' : Nat} {a a' : AnalysisResult}
    (h : HighUnchanged rank r a a') (hr : r ≤ r') : HighUnchanged rank r' a a' :=
  fun k c hc hk => h k c hc (le_trans hr hk)

theorem HighUnchanged.of_classes_eq {rank : String → Nat} {r : Nat} {a a' : AnalysisResult}
    (h : a'.classes = a.classes) : HighUnchanged rank r a a' := by
  intro k c hc _
  rw [h]
  exact hc

theorem HighUnchanged.updateClass_highUnchanged {rank : String → Nat} {r : Nat} (a : AnalysisResult) (k : Nat)
    (g : ClassScope → ClassScope) (hk : ∀ x, a.classes[k]? = some x → rank x.m_name < r) :
    HighUnchanged rank r a (updateClass a k g) := by
  intro j c hc hr
  rw [getElem?_updateClass]
  split
  · rename_i hkj
    subst hkj
    exact absurd (hk c hc) (not_lt.2 hr)
  · exact hc

theorem Quiet.high {rank : String → Nat} {r : Nat} {N : List String} {a a' : AnalysisResult}
    (h : Quiet N a a') (hN : ∀ n ∈ N, rank n < r) : HighUnchanged rank r a a' := by
  intro k c hc hr
  apply h.frame k c hc
  intro hm
  exact absurd (hN _ hm) (not_lt.2 hr)

theorem collectRedeclared_high (rank : String → Nat)
    (rec : Nat → CollectState → Option CollectState)
    (hrecG : ∀ cls st st', rec cls st = some st' → Grows st st')
    (hrec : ∀ cls st st' d, rec cls st = some st' → st.ar.classes[cls]? = some d →
      Acyclic rank st.ar → HighUnchanged rank (rank d.m_name + 1) st.ar st'.ar)
    (pristine : List (String × Nat)) (b : String) :
    ∀ (alts : List Nat) (s s' : CollectState), (∀ p ∈ alts, p ∈ findClasses s.ar b) →
      Acyclic rank s.ar → collectRedeclared rec pristine alts s = some s' →
      HighUnchanged rank (rank b + 1) s.ar s'.ar := by
  intro alts
  induction alts with
  | nil =>
    intro s s' _ _ h
    simp only [collectRedeclared, Option.some.injEq] at h
    subst h
    exact HighUnchanged.refl_highUnchanged _ _ _
  | cons cls rest ih =>
    intro s s' hps hac h
    simp only [collectRedeclared] at h
    split at h
    · simp at h
    · rename_i s1 hr
      obtain ⟨d, hd, hname⟩ := mem_findClasses.1 (hps cls (List.mem_cons_self _ _))
      have hup : ArGrows s.ar
          (updateClass s.ar cls (fun d => { d with m_derivedByDynamic := true })) :=
        ArGrows.updateClass_arGrows _ _ _ (fun x _ => (FlagOnly.setDerivedByDynamic_flagOnly x).1)
      have hd1 : (updateClass s.ar cls (fun d => { d with m_derivedByDynamic := true })).classes[cls]?
          = some { d with m_derivedByDynamic := true } := by
        rw [getElem?_updateClass, if_pos rfl, hd]
        rfl
      have h1 : HighUnchanged rank (rank b + 1) s.ar
          (updateClass s.ar cls (fun d => { d with m_derivedByDynamic := true })) := by
        apply HighUnchanged.updateClass_highUnchanged
        intro x hx
        rw [hd] at hx
        cases hx
        rw [hname]
        exact Nat.lt_succ_self _
      have h2 := hrec cls _ s1 _ hr hd1 (hac.mono_acyclic hup)
      simp only [hname] at h2
      have hg1 := (hrecG _ _ _ hr).1
      have hps1 : ∀ p ∈ rest, p ∈ findClasses s1.ar b := by
        intro p hp
        rw [(hup.trans_arGrows hg1).findClasses]
        exact hps p (List.mem_cons_of_mem _ hp)
      have h3 := ih ⟨s1.ar, mapInsertAll s.funcs s1.funcs⟩ s' hps1
        (hac.mono_acyclic (hup.trans_arGrows hg1)) h
      exact (h1.trans_highUnchanged h2).trans_highUnchanged h3

theorem collectMethodsBase_high (rank : String → Nat)
    (rec : Nat → CollectState → Option CollectState)
    (hrecG : ∀ cls st st', rec cls st = some st' → Grows st st')
    (hrec : ∀ cls st st' d, rec cls st = some st' → st.ar.classes[cls]? = some d →
      Acyclic rank st.ar → HighUnchanged rank (rank d.m_name + 1) st.ar st'.ar)
    {forInvoke : Bool} {self i : Nat} {s s' : CollectState} {c : ClassScope}
    (hc : s.ar.classes[self]? = some c) (hac : Acyclic rank s.ar)
    (h : collectMethodsBase rec forInvoke self i s = some s') :
    HighUnchanged rank (rank c.m_name + 1) s.ar s'.ar ∧
      ∃ c', s'.ar.classes[self]? = some c' ∧ i ≤ c'.m_bases.length := by
  obtain ⟨c0, base, hc0, hb, hcase⟩ := collectMethodsBase_cases h
  rw [hc] at hc0
  cases hc0
  have hi : i < c.m_bases.length := (List.getElem?_eq_some.1 hb).1
  have hrank : rank base < rank c.m_name := hac self c hc base (List.getElem?_mem hb)
  have hself : ∀ a1 : AnalysisResult, HighUnchanged rank (rank base + 1) s.ar a1 →
      a1.classes[self]? = some c := fun a1 h1 => h1 self c hc hrank
  have hupd : ∀ (a1 : AnalysisResult) (g : ClassScope → ClassScope),
      a1.classes[self]? = some c →
      HighUnchanged rank (rank c.m_name + 1) a1 (updateClass a1 self g) ∧
        (updateClass a1 self g).classes[self]? = some (g c) := by
    intro a1 g h1
    refine ⟨HighUnchanged.updateClass_highUnchanged _ _ _ ?_, ?_⟩
    · intro x hx
      rw [h1] at hx
      cases hx
      exact Nat.lt_succ_self _
    · rw [getElem?_updateClass, if_pos rfl, h1]
      rfl
  rcases hcase with ⟨_, hq⟩ | ⟨_, _, rfl⟩ | ⟨super, ar1, s2, g, hf, hq, hr, hg, rfl⟩ |
    ⟨ar1, s2, _, hbp, hq, hr, rfl⟩
  · refine ⟨hq.high ?_, ?_⟩
    · intro n hn
      simp only [List.mem_cons, List.mem_singleton, List.not_mem_nil, or_false] at hn
      rcases hn with rfl | rfl
      · exact Nat.lt_succ_self _
      · exact Nat.lt_succ_of_lt hrank
    · obtain ⟨c', hc'⟩ := exists_of_length_eq hq.calm.length hc
      refine ⟨c', hc', ?_⟩
      rw [hq.calm.bases self c c' hc hc']
      exact le_of_lt hi
  · split
    · have h1 : (declareUnknownClass (record s.ar ErrorType.UnknownBaseClass c.m_stmt base)
          c.m_parent).classes[self]? = some c := hc
      obtain ⟨h2, h3⟩ := hupd _ markDirect h1
      exact ⟨h2, _, h3, le_of_lt hi⟩
    · have h1 : (record s.ar ErrorType.UnknownBaseClass c.m_stmt base).classes[self]? = some c :=
        hc
      obtain ⟨h2, h3⟩ := hupd _ (dropUnknownBase i) h1
      refine ⟨h2, _, h3, ?_⟩
      simp only [dropUnknownBase, List.length_eraseIdx, hi, ↓reduceIte]
      omega
  · obtain ⟨csup, hcsup, hsupname⟩ := findClass_some hf
    have hq1 : HighUnchanged rank (rank base + 1) s.ar ar1 := hq.high (by simp)
    obtain ⟨csup1, hcsup1, hgsup⟩ := hq.grows.classes.2 super csup hcsup
    have h2 := hrec super _ s2 _ hr hcsup1 (hac.mono_acyclic hq.grows)
    rw [hgsup.name, hsupname] at h2
    have h12 : HighUnchanged rank (rank base + 1) s.ar s2.ar := hq1.trans_highUnchanged h2
    obtain ⟨h3, h4⟩ := hupd s2.ar g (hself _ h12)
    refine ⟨(h12.mono_highUnchanged (Nat.succ_le_succ (le_of_lt hrank))).trans_highUnchanged h3, _, h4, ?_⟩
    rw [(hg c).2]
    exact le_of_lt hi
  · have hq1 : HighUnchanged rank (rank base + 1) s.ar ar1 := hq.high (by simp)
    have h2 := collectRedeclared_high rank rec hrecG hrec s.funcs base
      (findRedeclaredClasses ar1 c.m_parent) ⟨ar1, s.funcs⟩ s2
      (by intro p hp; rw [hbp]; exact hp) (hac.mono_acyclic hq.grows) hr
    have h12 : HighUnchanged rank (rank base + 1) s.ar s2.ar := hq1.trans_highUnchanged h2
    obtain ⟨h3, h4⟩ := hupd s2.ar markDirect (hself _ h12)
    exact ⟨(h12.mono_highUnchanged (Nat.succ_le_succ (le_of_lt hrank))).trans_highUnchanged h3, _, h4, le_of_lt hi⟩

theorem collectMethodsBases_high (rank : String → Nat)
    (rec : Nat → CollectState → Option CollectState)
    (hrecG : ∀ cls st st', rec cls st = some st' → Grows st st')
    (hrec : ∀ cls st st' d, rec cls st = some st' → st.ar.classes[cls]? = some d →
      Acyclic rank st.ar → HighUnchanged rank (rank d.m_name + 1) st.ar st'.ar)
    (forInvoke : Bool) (self : Nat) :
    ∀ (n : Nat) (s s' : CollectState) (c : ClassScope), s.ar.classes[self]? = some c →
      Acyclic rank s.ar → collectMethodsBases rec forInvoke self n s = some s' →
      HighUnchanged rank (rank c.m_name + 1) s.ar s'.ar := by
  intro n
  induction n with
  | zero =>
    intro s s' c _ _ h
    simp only [collectMethodsBases, Option.some.injEq] at h
    subst h
    exact HighUnchanged.refl_highUnchanged _ _ _
  | succ i ih =>
    intro s s' c hc hac h
    simp only [collectMethodsBases] at h
    split at h
    · simp at h
    · rename_i s1 hs
      have hg := (collectMethodsBase_grows rec hrecG hs).1
      obtain ⟨h1, _⟩ := collectMethodsBase_high rank rec hrecG hrec hc hac hs
      obtain ⟨c1, hc1, hgr⟩ := hg.classes.2 self c hc
      have h2 := ih s1 s' c1 hc1 (hac.mono_acyclic hg) h
      rw [hgr.name] at h2
      exact h1.trans_highUnchanged h2

theorem collectMethods_high (rank : String → Nat) :
    ∀ (fuel self : Nat) (collectPrivate forInvoke : Bool) (s s' : CollectState) (c : ClassScope),
      collectMethods fuel self collectPrivate forInvoke s = some s' →
      s.ar.classes[self]? = some c → Acyclic rank s.ar →
      HighUnchanged rank (rank c.m_name + 1) s.ar s'.ar := by
  intro fuel
  induction fuel with
  | zero =>
    intro self cp fi s s' c h
    simp [collectMethods] at h
  | succ fuel ih =>
    intro self cp fi s s' c h hc hac
    simp only [collectMethods, hc] at h
    split at h
    · simp at h
    · rename_i s1 hown
      have h1 := collectOwn_grows cp _ _ _ hown
      have h2 := collectMissing_grows c.m_missingMethods s1
      have hcls : (collectMissing c.m_missingMethods s1).ar.classes = s.ar.classes :=
        h2.2.1.trans h1.2.1
      have hc2 : (collectMissing c.m_missingMethods s1).ar.classes[self]? = some c := by
        rw [hcls]
        exact hc
      have h3 := collectMethodsBases_high rank _
        (fun cls st st' hr => collectMethods_grows _ _ _ _ _ _ hr)
        (fun cls st st' d hr hd hacs => ih cls false fi st st' d hr hd hacs)
        fi self _ _ _ c hc2 (hac.mono_acyclic (h1.1.trans_grows h2.1).1) h
      exact (HighUnchanged.of_classes_eq hcls).trans_highUnchanged h3

theorem collectAdd_length (name : String) (f : Nat) (s : CollectState) :
    (collectAdd name f s).ar.functions.length = s.ar.functions.length :=
  (collectAdd_grows name f s).1.1.functions.1

theorem collectOwn_total (collectPrivate : Bool) :
    ∀ (l : List (String × List Nat)) (s : CollectState),
      (∀ nd ∈ l, ∃ f, nd.2.getLast? = some f ∧ f < s.ar.functions.length) →
      ∃ s', collectOwn collectPrivate l s = some s' := by
  intro l
  induction l with
  | nil =>
    intro s _
    exact ⟨s, rfl⟩
  | cons x rest ih =>
    intro s hwf
    obtain ⟨name, decls⟩ := x
    obtain ⟨f, hf, hlt⟩ := hwf (name, decls) (List.mem_cons_self _ _)
    have hrest : ∀ s1 : CollectState, s1.ar.functions.length = s.ar.functions.length →
        ∃ s', collectOwn collectPrivate rest s1 = some s' := by
      intro s1 hlen
      apply ih
      intro nd hnd
      rw [hlen]
      exact hwf nd (List.mem_cons_of_mem _ hnd)
    simp only at hf
    simp only [collectOwn, hf, List.getElem?_eq_getElem hlt]
    split
    · exact hrest _ (collectAdd_length _ _ _)
    · split
      · exact hrest _ rfl
      · exact hrest _ (collectAdd_length _ _ _)

theorem collectRedeclared_total (rank : String → Nat) (fuel : Nat)
    (rec : Nat → CollectState → Option CollectState)
    (hrecG : ∀ cls st st', rec cls st = some st' → Grows st st')
    (htot : ∀ cls st d, st.ar.classes[cls]? = some d → Acyclic rank st.ar →
      WellFormedFunctions st.ar → rank d.m_name < fuel → ∃ st', rec cls st = some st')
    (pristine : List (String × Nat)) (b : String) (hb : rank b < fuel) :
    ∀ (alts : List Nat) (s : CollectState), (∀ p ∈ alts, p ∈ findClasses s.ar b) →
      Acyclic rank s.ar → WellFormedFunctions s.ar →
      ∃ s', collectRedeclared rec pristine alts s = some s' := by
  intro alts
  induction alts with
  | nil =>
    intro s _ _ _
    exact ⟨s, rfl⟩
  | cons cls rest ih =>
    intro s hps hac hwf
    obtain ⟨d, hd, hname⟩ := mem_findClasses.1 (hps cls (List.mem_cons_self _ _))
    have hup : ArGrows s.ar
        (updateClass s.ar cls (fun d => { d with m_derivedByDynamic := true })) :=
      ArGrows.updateClass_arGrows _ _ _ (fun x _ => (FlagOnly.setDerivedByDynamic_flagOnly x).1)
    have hd1 : (updateClass s.ar cls (fun d => { d with m_derivedByDynamic := true })).classes[cls]?
        = some { d with m_derivedByDynamic := true } := by
      rw [getElem?_updateClass, if_pos rfl, hd]
      rfl
    obtain ⟨s1, hr⟩ := htot cls
      ⟨updateClass s.ar cls (fun d => { d with m_derivedByDynamic := true }), pristine⟩ _ hd1
      (hac.mono_acyclic hup) (hwf.mono_wellFormedFunctions hup) (by simp only [hname]; exact hb)
    have hg1 := (hrecG _ _ _ hr).1
    have hps1 : ∀ p ∈ rest, p ∈ findClasses s1.ar b := by
      intro p hp
      rw [(hup.trans_arGrows hg1).findClasses]
      exact hps p (List.mem_cons_of_mem _ hp)
    obtain ⟨s', h'⟩ := ih ⟨s1.ar, mapInsertAll s.funcs s1.funcs⟩ hps1
      (hac.mono_acyclic (hup.trans_arGrows hg1)) (hwf.mono_wellFormedFunctions (hup.trans_arGrows hg1))
    exact ⟨s', by simp only [collectRedeclared, hr, h']⟩

theorem collectMethodsBase_total (rank : String → Nat) (fuel : Nat)
    (rec : Nat → CollectState → Option CollectState)
    (hrecG : ∀ cls st st', rec cls st = some st' → Grows st st')
    (htot : ∀ cls st d, st.ar.classes[cls]? = some d → Acyclic rank st.ar →
      WellFormedFunctions st.ar → rank d.m_name < fuel → ∃ st', rec cls st = some st')
    {forInvoke : Bool} {self i : Nat} {s : CollectState} {c : ClassScope}
    (hc : s.ar.classes[self]? = some c) (hi : i < c.m_bases.length)
    (hac : Acyclic rank s.ar) (hwf : WellFormedFunctions s.ar) (hfuel : rank c.m_name ≤ fuel) :
    ∃ s', collectMethodsBase rec forInvoke self i s = some s' := by
  have hb : c.m_bases[i]? = some c.m_bases[i] := List.getElem?_eq_getElem hi
  have hrank : rank c.m_bases[i] < fuel :=
    lt_of_lt_of_le (hac self c hc _ (List.getElem_mem hi)) hfuel
  simp only [collectMethodsBase, hc, hb]
  split
  · exact ⟨_, rfl⟩
  · cases hf : findClass s.ar c.m_bases[i] with
    | none =>
      simp only
      split
      · exact ⟨_, rfl⟩
      · exact ⟨_, rfl⟩
    | some super =>
      obtain ⟨csup, hcsup, hsupname⟩ := findClass_some hf
      simp only [hcsup]
      have hq1 : ArGrows s.ar
          (if c.m_derivedByDynamic = true then
            updateClass s.ar super (fun d => { d with m_derivedByDynamic := true })
          else s.ar) := by
        split
        · exact ArGrows.updateClass_arGrows _ _ _ (fun x _ => (FlagOnly.setDerivedByDynamic_flagOnly x).1)
        · exact ArGrows.refl_arGrows _
      split
      · split
        · split
          · exact ⟨_, rfl⟩
          · rename_i hp _
            have hbp : c.m_bases[i] = c.m_parent := by simpa using hp
            obtain ⟨s2, hr⟩ := collectRedeclared_total rank fuel rec hrecG htot s.funcs
              c.m_bases[i] hrank
              (findRedeclaredClasses
                (if c.m_derivedByDynamic = true then
                  updateClass s.ar super (fun d => { d with m_derivedByDynamic := true })
                else s.ar) c.m_parent)
              ⟨if c.m_derivedByDynamic = true then
                  updateClass s.ar super (fun d => { d with m_derivedByDynamic := true })
                else s.ar, s.funcs⟩
              (by intro p hp; rw [hbp]; exact hp) (hac.mono_acyclic hq1) (hwf.mono_wellFormedFunctions hq1)
            rw [hr]
            exact ⟨_, rfl⟩
        · split
          · exact ⟨_, rfl⟩
          · exact ⟨_, rfl⟩
      · obtain ⟨csup1, hcsup1, hgsup⟩ := hq1.classes.2 super csup hcsup
        obtain ⟨s2, hr⟩ := htot super
          ⟨if c.m_derivedByDynamic = true then
              updateClass s.ar super (fun d => { d with m_derivedByDynamic := true })
            else s.ar, s.funcs⟩ csup1 hcsup1 (hac.mono_acyclic hq1) (hwf.mono_wellFormedFunctions hq1)
          (by rw [hgsup.name, hsupname]; exact hrank)
        rw [hr]
        simp only
        obtain ⟨sup2, hsup2, _⟩ := (hrecG _ _ _ hr).1.classes.2 super csup1 hcsup1
        rw [hsup2]
        simp only
        split
        · split
          · exact ⟨_, rfl⟩
          · split
            · exact ⟨_, rfl⟩
            · exact ⟨_, rfl⟩
        · exact ⟨_, rfl⟩

theorem collectMethodsBases_total (rank : String → Nat) (fuel : Nat)
    (rec : Nat → CollectState → Option CollectState)
    (hrecG : ∀ cls st st', rec cls st = some st' → Grows st st')
    (hrecH : ∀ cls st st' d, rec cls st = some st' → st.ar.classes[cls]? = some d →
      Acyclic rank st.ar → HighUnchanged rank (rank d.m_name + 1) st.ar st'.ar)
    (htot : ∀ cls st d, st.ar.classes[cls]? = some d → Acyclic rank st.ar →
      WellFormedFunctions st.ar → rank d.m_name < fuel → ∃ st', rec cls st = some st')
    (forInvoke : Bool) (self : Nat) :
    ∀ (n : Nat) (s : CollectState) (c : ClassScope), s.ar.classes[self]? = some c →
      n ≤ c.m_bases.length → Acyclic rank s.ar → WellFormedFunctions s.ar →
      rank c.m_name ≤ fuel → ∃ s', collectMethodsBases rec forInvoke self n s = some s' := by
  intro n
  induction n with
  | zero =>
    intro s c _ _ _ _ _
    exact ⟨s, rfl⟩
  | succ i ih =>
    intro s c hc hn hac hwf hfuel
    obtain ⟨s1, hs⟩ : ∃ s1, collectMethodsBase rec forInvoke self i s = some s1 :=
      collectMethodsBase_total rank fuel rec hrecG htot hc hn hac hwf hfuel
    have hg := (collectMethodsBase_grows rec hrecG hs).1
    obtain ⟨_, c1, hc1, hlen⟩ := collectMethodsBase_high rank rec hrecG hrecH hc hac hs
    obtain ⟨c1', hc1', hgr⟩ := hg.classes.2 self c hc
    rw [hc1] at hc1'
    cases hc1'
    obtain ⟨s', h'⟩ := ih s1 c1 hc1 hlen (hac.mono_acyclic hg) (hwf.mono_wellFormedFunctions hg)
      (by rw [hgr.name]; exact hfuel)
    exact ⟨s', by simp only [collectMethodsBases, hs, h']⟩

theorem collectMethods_total (rank : String → Nat) :
    ∀ (fuel self : Nat) (collectPrivate forInvoke : Bool) (s : CollectState) (c : ClassScope),
      s.ar.classes[self]? = some c → Acyclic rank s.ar → WellFormedFunctions s.ar →
      rank c.m_name < fuel →
      ∃ s', collectMethods fuel self collectPrivate forInvoke s = some s' := by
  intro fuel
  induction fuel with
  | zero =>
    intro self cp fi s c _ _ _ h
    exact absurd h (Nat.not_lt_zero _)
  | succ fuel ih =>
    intro self cp fi s c hc hac hwf hfuel
    obtain ⟨s1, hown⟩ := collectOwn_total cp c.m_functions s (hwf self c hc)
    have h1 := collectOwn_grows cp _ _ _ hown
    have h2 := collectMissing_grows c.m_missingMethods s1
    have hcls : (collectMissing c.m_missingMethods s1).ar.classes = s.ar.classes :=
      h2.2.1.trans h1.2.1
    have hc2 : (collectMissing c.m_missingMethods s1).ar.classes[self]? = some c := by
      rw [hcls]
      exact hc
    have hg12 := (h1.1.trans_grows h2.1).1
    obtain ⟨s', h'⟩ := collectMethodsBases_total rank fuel _
      (fun cls st st' hr => collectMethods_grows _ _ _ _ _ _ hr)
      (fun cls st st' d hr hd hacs => collectMethods_high rank _ _ _ _ _ _ d hr hd hacs)
      (fun cls st d hd hacs hwfs hlt => ih cls false fi st d hd hacs hwfs hlt)
      fi self c.m_bases.length _ c hc2 (le_refl _) (hac.mono_acyclic hg12) (hwf.mono_wellFormedFunctions hg12)
      (Nat.lt_succ_iff.1 hfuel)
    exact ⟨s', by simp only [collectMethods, hc, hown, h']⟩

/-- C7: for every class, accumulator and own method name that `collectMethods` collects (its
last declaration `f` is not private, or `collectPrivate` is set): if the name is already a key
of the accumulator, mapped to `g`, then after the call the accumulator still maps it to `g` and
both `g` and `f` are marked virtual; if it is not yet a key, the accumulator maps it to `f`
afterwards. The function arena keeps its length, and on an acyclic well-formed hierarchy the
call returns. -/
theorem collectMethods_own_methods (ar : AnalysisResult) (e : Nat) (c : ClassScope)
    (collectPrivate forInvoke : Bool) (funcs : List (String × Nat)) (name : String) (f : Nat)
    (hc : ar.classes[e]? = some c) (hnd : (c.m_functions.map Prod.fst).Nodup)
    (hcol : Collected ar c collectPrivate name f) :
    (∀ (fuel : Nat) (s' : CollectState),
      collectMethods fuel e collectPrivate forInvoke ⟨ar, funcs⟩ = some s' →
      s'.ar.functions.length = ar.functions.length ∧
      (∀ g, funcs.lookup name = some g →
        s'.funcs.lookup name = some g ∧ IsVirtual s'.ar g ∧ IsVirtual s'.ar f) ∧
      (funcs.lookup name = none → s'.funcs.lookup name = some f)) ∧
    (∀ rank : String → Nat, Acyclic rank ar → WellFormedFunctions ar →
      ∃ s', collectMethods (rank c.m_name + 1) e collectPrivate forInvoke ⟨ar, funcs⟩ =
        some s') := by
  constructor
  · intro fuel s' h
    cases fuel with
    | zero => simp [collectMethods] at h
    | succ fuel =>
      have hgrow := collectMethods_grows _ _ _ _ _ _ h
      simp only [collectMethods, hc] at h
      split at h
      · simp at h
      · rename_i s1 hown
        have hspec := collectOwn_spec collectPrivate name f c.m_functions ⟨ar, funcs⟩ s1 hown
          hnd hcol.1 hcol.2
        have h2 := (collectMissing_grows c.m_missingMethods s1).1
        have h3 := collectMethodsBases_grows _
          (fun cls st st' hr => collectMethods_grows fuel cls false forInvoke st st' hr)
          forInvoke e _ _ _ h
        have h23 := h2.trans_grows h3
        refine ⟨hgrow.1.functions.1, ?_, ?_⟩
        · intro g hg
          obtain ⟨a1, a2, a3⟩ := hspec.1 g hg
          exact ⟨h23.2 _ _ a1, a2.mono_isVirtual h23.1, a3.mono_isVirtual h23.1⟩
        · intro hn
          exact h23.2 _ _ (hspec.2 hn)
  · intro rank hac hwf
    exact collectMethods_total rank _ e collectPrivate forInvoke ⟨ar, funcs⟩ c hc hac hwf
      (Nat.lt_succ_self _)

/-- Witness for C7: the class `c` collected into an accumulator that already holds another
`foo`: both functions called `foo` become virtual and the accumulator keeps the old one. -/
theorem collectMethods_own_methods_witness :
    (collectMethods 1 0 false false ⟨methodsRegistry, [("foo", 2)]⟩).map
        (fun s => (s.funcs, s.ar.functions.map (fun f => f.m_virtual))) =
      some ([("foo", 2)], [true, false, true]) ∧
    ((∀ (fuel : Nat) (s' : CollectState),
      collectMethods fuel 0 false false ⟨methodsRegistry, [("foo", 2)]⟩ = some s' →
      s'.ar.functions.length = methodsRegistry.functions.length ∧
      (∀ g, List.lookup "foo" [("foo", 2)] = some g →
        s'.funcs.lookup "foo" = some g ∧ IsVirtual s'.ar g ∧ IsVirtual s'.ar 0) ∧
      (List.lookup "foo" [("foo", 2)] = none → s'.funcs.lookup "foo" = some 0)) ∧
    (∀ rank : String → Nat, Acyclic rank methodsRegistry →
      WellFormedFunctions methodsRegistry →
      ∃ s', collectMethods (rank "c" + 1) 0 false false ⟨methodsRegistry, [("foo", 2)]⟩ =
        some s')) :=
  ⟨by decide,
    collectMethods_own_methods methodsRegistry 0
      { ClassScope.create KindOf.KindOfObjectClass "c" "" [] false false 0 with
        m_functions := [("foo", [0]), ("secret", [1])] }
      false false [("foo", 2)] "foo" 0 rfl (by decide)
      ⟨⟨[0], by decide, rfl⟩, Or.inr ⟨FunctionScope.create "foo" false false false, rfl, rfl⟩⟩⟩

/-! ## Calls of `collectMethods` that record nothing -/

theorem AllResolveBelow.mono_allResolveBelow {rank : String → Nat} {r : Nat} {a a' : AnalysisResult}
    (h : AllResolveBelow rank r a) (hg : ArGrows a a') : AllResolveBelow rank r a' := by
  intro k c' hc' hr b hb
  obtain ⟨c, hc⟩ := exists_of_length_eq hg.classes.1.symm hc'
  obtain ⟨c1, hc1, hgr⟩ := hg.classes.2 k c hc
  rw [hc'] at hc1
  cases hc1
  rw [hg.findClass]
  rw [hgr.name] at hr
  exact h k c hc hr b (hgr.bases.subset hb)

theorem AllResolveBelow.anti_allResolveBelow {rank : String → Nat} {r r' : Nat} {a : AnalysisResult}
    (h : AllResolveBelow rank r a) (hr : r' ≤ r) : AllResolveBelow rank r' a :=
  fun k c hc hk => h k c hc (lt_of_lt_of_le hk hr)

theorem Calm.updateClass_calm (a : AnalysisResult) (k : Nat) (g : ClassScope → ClassScope)
    (hg : FlagOnly g) : Calm a (updateClass a k g) :=
  (Quiet.updateClass_quiet a k g hg (N := namesOf a) (fun _ hx => mem_namesOf hx)).calm

theorem Calm.of_functionsOnly {s s' : CollectState} (h : FunctionsOnly s s') :
    Calm s.ar s'.ar where
  length := by rw [h.1]
  errors := h.2.1
  unknown := h.2.2
  bases := by
    intro k c c' hc hc'
    rw [h.1, hc] at hc'
    cases hc'
    rfl

theorem collectRedeclared_calm (rank : String → Nat)
    (rec : Nat → CollectState → Option CollectState)
    (hrecG : ∀ cls st st', rec cls st = some st' → Grows st st')
    (hrec : ∀ cls st st' d, rec cls st = some st' → st.ar.classes[cls]? = some d →
      Acyclic rank st.ar → AllResolveBelow rank (rank d.m_name + 1) st.ar → Calm st.ar st'.ar)
    (pristine : List (String × Nat)) (b : String) :
    ∀ (alts : List Nat) (s s' : CollectState), (∀ p ∈ alts, p ∈ findClasses s.ar b) →
      Acyclic rank s.ar → AllResolveBelow rank (rank b + 1) s.ar →
      collectRedeclared rec pristine alts s = some s' → Calm s.ar s'.ar := by
  intro alts
  induction alts with
  | nil =>
    intro s s' _ _ _ h
    simp only [collectRedeclared, Option.some.injEq] at h
    subst h
    exact Calm.refl_calm _
  | cons cls rest ih =>
    intro s s' hps hac hres h
    simp only [collectRedeclared] at h
    split at h
    · simp at h
    · rename_i s1 hr
      obtain ⟨d, hd, hname⟩ := mem_findClasses.1 (hps cls (List.mem_cons_self _ _))
      have hup : ArGrows s.ar
          (updateClass s.ar cls (fun d => { d with m_derivedByDynamic := true })) :=
        ArGrows.updateClass_arGrows _ _ _ (fun x _ => (FlagOnly.setDerivedByDynamic_flagOnly x).1)
      have hd1 : (updateClass s.ar cls (fun d => { d with m_derivedByDynamic := true })).classes[cls]?
          = some { d with m_derivedByDynamic := true } := by
        rw [getElem?_updateClass, if_pos rfl, hd]
        rfl
      have h1 : Calm s.ar
          (updateClass s.ar cls (fun d => { d with m_derivedByDynamic := true })) :=
        Calm.updateClass_calm _ _ _ FlagOnly.setDerivedByDynamic_flagOnly
      have h2 := hrec cls _ s1 _ hr hd1 (hac.mono_acyclic hup)
        (by simp only [hname]; exact hres.mono_allResolveBelow hup)
      have hg1 := (hrecG _ _ _ hr).1
      have hps1 : ∀ p ∈ rest, p ∈ findClasses s1.ar b := by
        intro p hp
        rw [(hup.trans_arGrows hg1).findClasses]
        exact hps p (List.mem_cons_of_mem _ hp)
      have h3 := ih ⟨s1.ar, mapInsertAll s.funcs s1.funcs⟩ s' hps1
        (hac.mono_acyclic (hup.trans_arGrows hg1)) (hres.mono_allResolveBelow (hup.trans_arGrows hg1)) h
      exact (h1.trans_calm h2).trans_calm h3

theorem collectMethodsBase_calm (rank : String → Nat)
    (rec : Nat → CollectState → Option CollectState)
    (hrecG : ∀ cls st st', rec cls st = some st' → Grows st st')
    (hrec : ∀ cls st st' d, rec cls st = some st' → st.ar.classes[cls]? = some d →
      Acyclic rank st.ar → AllResolveBelow rank (rank d.m_name + 1) st.ar → Calm st.ar st'.ar)
    {forInvoke : Bool} {self i : Nat} {s s' : CollectState} {c : ClassScope} {base : String}
    (hc : s.ar.classes[self]? = some c) (hb : c.m_bases[i]? = some base)
    (hfound : findClass s.ar base ≠ none) (hac : Acyclic rank s.ar)
    (hres : AllResolveBelow rank (rank c.m_name) s.ar)
    (h : collectMethodsBase rec forInvoke self i s = some s') : Calm s.ar s'.ar := by
  obtain ⟨c0, base0, hc0, hb0, hcase⟩ := collectMethodsBase_cases h
  rw [hc] at hc0
  cases hc0
  rw [hb] at hb0
  cases hb0
  have hrank : rank base < rank c.m_name := hac self c hc base (List.getElem?_mem hb)
  rcases hcase with ⟨_, hq⟩ | ⟨hnone, _, _⟩ | ⟨super, ar1, s2, g, hf, hq, hr, hg, rfl⟩ |
    ⟨ar1, s2, _, hbp, hq, hr, rfl⟩
  · exact hq.calm
  · exact absurd hnone hfound
  · obtain ⟨csup, hcsup, hsupname⟩ := findClass_some hf
    obtain ⟨csup1, hcsup1, hgsup⟩ := hq.grows.classes.2 super csup hcsup
    have h2 := hrec super _ s2 _ hr hcsup1 (hac.mono_acyclic hq.grows)
      (by
        rw [hgsup.name, hsupname]
        exact (hres.mono_allResolveBelow hq.grows).anti_allResolveBelow hrank)
    exact (hq.calm.trans_calm h2).trans_calm (Calm.updateClass_calm _ _ _ hg)
  · have h2 := collectRedeclared_calm rank rec hrecG hrec s.funcs base
      (findRedeclaredClasses ar1 c.m_parent) ⟨ar1, s.funcs⟩ s2
      (by intro p hp; rw [hbp]; exact hp) (hac.mono_acyclic hq.grows)
      ((hres.mono_allResolveBelow hq.grows).anti_allResolveBelow hrank) hr
    exact (hq.calm.trans_calm h2).trans_calm (Calm.updateClass_calm _ _ _ FlagOnly.markDirect)

theorem collectMethodsBases_calm (rank : String → Nat)
    (rec : Nat → CollectState → Option CollectState)
    (hrecG : ∀ cls st st', rec cls st = some st' → Grows st st')
    (hrec : ∀ cls st st' d, rec cls st = some st' → st.ar.classes[cls]? = some d →
      Acyclic rank st.ar → AllResolveBelow rank (rank d.m_name + 1) st.ar → Calm st.ar st'.ar)
    (forInvoke : Bool) (self : Nat) :
    ∀ (n : Nat) (s s' : CollectState) (c : ClassScope), s.ar.classes[self]? = some c →
      Acyclic rank s.ar → AllResolveBelow rank (rank c.m_name + 1) s.ar →
      collectMethodsBases rec forInvoke self n s = some s' → Calm s.ar s'.ar := by
  intro n
  induction n with
  | zero =>
    intro s s' c _ _ _ h
    simp only [collectMethodsBases, Option.some.injEq] at h
    subst h
    exact Calm.refl_calm _
  | succ i ih =>
    intro s s' c hc hac hres h
    simp only [collectMethodsBases] at h
    split at h
    · simp at h
    · rename_i s1 hs
      obtain ⟨c0, base, hc0, hb, _⟩ := collectMethodsBase_cases hs
      rw [hc] at hc0
      cases hc0
      have hg := (collectMethodsBase_grows rec hrecG hs).1
      have h1 := collectMethodsBase_calm rank rec hrecG hrec hc hb
        (hres self c hc (Nat.lt_succ_self _) base (List.getElem?_mem hb)) hac
        (hres.anti_allResolveBelow (Nat.le_succ _)) hs
      obtain ⟨c1, hc1, hgr⟩ := hg.classes.2 self c hc
      have h2 := ih s1 s' c1 hc1 (hac.mono_acyclic hg) (by rw [hgr.name]; exact hres.mono_allResolveBelow hg) h
      exact h1.trans_calm h2

theorem collectMethods_calm (rank : String → Nat) :
    ∀ (fuel self : Nat) (collectPrivate forInvoke : Bool) (s s' : CollectState) (c : ClassScope),
      collectMethods fuel self collectPrivate forInvoke s = some s' →
      s.ar.classes[self]? = some c → Acyclic rank s.ar →
      AllResolveBelow rank (rank c.m_name + 1) s.ar → Calm s.ar s'.ar := by
  intro fuel
  induction fuel with
  | zero =>
    intro self cp fi s s' c h
    simp [collectMethods] at h
  | succ fuel ih =>
    intro self cp fi s s' c h hc hac hres
    simp only [collectMethods, hc] at h
    split at h
    · simp at h
    · rename_i s1 hown
      have h1 := collectOwn_grows cp _ _ _ hown
      have h2 := collectMissing_grows c.m_missingMethods s1
      have hfo := h1.2.trans_functionsOnly h2.2
      have hc2 : (collectMissing c.m_missingMethods s1).ar.classes[self]? = some c := by
        rw [hfo.1]
        exact hc
      have hg12 := (h1.1.trans_grows h2.1).1
      have h3 := collectMethodsBases_calm rank _
        (fun cls st st' hr => collectMethods_grows _ _ _ _ _ _ hr)
        (fun cls st st' d hr hd hacs hrs => ih cls false fi st st' d hr hd hacs hrs)
        fi self _ _ _ c hc2 (hac.mono_acyclic hg12) (hres.mono_allResolveBelow hg12) h
      exact (Calm.of_functionsOnly hfo).trans_calm h3

theorem acyclic_of_forall_mem {rank : String → Nat} {a : AnalysisResult}
    (h : ∀ c ∈ a.classes, ∀ b ∈ c.m_bases, rank b < rank c.m_name) : Acyclic rank a :=
  forall_getElem?_of_forall_mem h

theorem allResolveBelow_of_forall_mem {rank : String → Nat} {r : Nat} {a : AnalysisResult}
    (h : ∀ c ∈ a.classes, rank c.m_name < r → ∀ b ∈ c.m_bases, findClass a b ≠ none) :
    AllResolveBelow rank r a :=
  forall_getElem?_of_forall_mem h

theorem wellFormedFunctions_of_forall_mem {a : AnalysisResult}
    (h : ∀ c ∈ a.classes, ∀ nd ∈ c.m_functions,
      nd.2.getLast?.any (fun f => decide (f < a.functions.length)) = true) :
    WellFormedFunctions a := by
  intro k c hc nd hnd
  have h1 := h c (List.getElem?_mem hc) nd hnd
  cases hl : nd.2.getLast? with
  | none => rw [hl] at h1; simp at h1
  | some f =>
    rw [hl] at h1
    exact ⟨f, rfl, by simpa using h1⟩

theorem collectMethodsBases_last (rank : String → Nat)
    (rec : Nat → CollectState → Option CollectState)
    (hrecG : ∀ cls st st', rec cls st = some st' → Grows st st')
    (hrec : ∀ cls st st' d, rec cls st = some st' → st.ar.classes[cls]? = some d →
      Acyclic rank st.ar → AllResolveBelow rank (rank d.m_name + 1) st.ar → Calm st.ar st'.ar)
    (forInvoke : Bool) (self : Nat) :
    ∀ (n : Nat) (s s' : CollectState) (c : ClassScope), s.ar.classes[self]? = some c →
      Acyclic rank s.ar → AllResolveBelow rank (rank c.m_name) s.ar →
      (∀ (j : Nat) (b : String), 1 ≤ j → c.m_bases[j]? = some b → findClass s.ar b ≠ none) →
      collectMethodsBases rec forInvoke self (n + 1) s = some s' →
      ∃ s1, Calm s.ar s1.ar ∧ Grows s s1 ∧
        collectMethodsBase rec forInvoke self 0 s1 = some s' := by
  intro n
  induction n with
  | zero =>
    intro s s' c _ _ _ _ h
    simp only [collectMethodsBases] at h
    split at h
    · simp at h
    · rename_i s1 hs
      simp only [Option.some.injEq] at h
      subst h
      exact ⟨s, Calm.refl_calm _, Grows.refl_grows _, hs⟩
  | succ i ih =>
    intro s s' c hc hac hres htail h
    rw [collectMethodsBases] at h
    split at h
    · simp at h
    · rename_i sa hs
      obtain ⟨c0, base, hc0, hb, _⟩ := collectMethodsBase_cases hs
      rw [hc] at hc0
      cases hc0
      have hG := collectMethodsBase_grows rec hrecG hs
      have h1 := collectMethodsBase_calm rank rec hrecG hrec hc hb
        (htail (i + 1) base (Nat.succ_le_succ (Nat.zero_le _)) hb) hac hres hs
      obtain ⟨ca, hca, hgr⟩ := hG.1.classes.2 self c hc
      have hbases : ca.m_bases = c.m_bases := h1.bases self c ca hc hca
      obtain ⟨s1, hc1, hg1, hlast⟩ := ih sa s' ca hca (hac.mono_acyclic hG.1)
        (by rw [hgr.name]; exact hres.mono_allResolveBelow hG.1)
        (by
          intro j b hj hjb
          rw [hG.1.findClass]
          rw [hbases] at hjb
          exact htail j b hj hjb)
        h
      exact ⟨s1, h1.trans_calm hc1, hG.trans_grows hg1, hlast⟩

/-! ## Unknown parent -/

theorem mem_tail_of_getElem? {α : Type} {l : List α} {j : Nat} {b : α} (hj : 1 ≤ j)
    (h : l[j]? = some b) : b ∈ l.tail := by
  cases l with
  | nil => simp at h
  | cons x rest =>
    cases j with
    | zero => omega
    | succ i =>
      simp only [List.getElem?_cons_succ] at h
      exact List.getElem?_mem h

/-- Counterexample to C5 as stated: `c extends ghost implements i`, where the interface `i`
resolves but has itself the undeclared base `ghost2`; one call of `collectMethods` on `c`
records two `UnknownBaseClass` errors. -/
theorem collectMethods_unknown_parent_counterexample :
    findClass ghostInterfaceRegistry "ghost" = none ∧
    findClass ghostInterfaceRegistry "i" = some 1 ∧
    (collectMethods 2 0 true false ⟨ghostInterfaceRegistry, []⟩).map (fun s => s.ar.errors) =
      some [⟨ErrorType.UnknownBaseClass, 1, "ghost2"⟩, ⟨ErrorType.UnknownBaseClass, 0, "ghost"⟩] := by
  decide

/-- C5 (amended): on an acyclic hierarchy, for a class whose parent name resolves to no class,
whose other bases all resolve and below which no class has an unresolved base, one call of
`collectMethods` returns, records exactly one error, an `UnknownBaseClass` error for the parent
name, registers the parent name through `declareUnknownClass`, and leaves the class
`DirectFromRedeclared` and volatile. -/
theorem collectMethods_unknown_parent (rank : String → Nat) (ar : AnalysisResult) (e : Nat)
    (c : ClassScope) (collectPrivate forInvoke : Bool) (funcs : List (String × Nat))
    (hc : ar.classes[e]? = some c) (hp : c.m_parent ≠ "") (hinv : c.parentInvariant)
    (hun : findClass ar c.m_parent = none)
    (htail : ∀ b ∈ c.m_bases.tail, findClass ar b ≠ none)
    (hac : Acyclic rank ar) (hbelow : AllResolveBelow rank (rank c.m_name) ar)
    (hwf : WellFormedFunctions ar) :
    (∃ s', collectMethods (rank c.m_name + 1) e collectPrivate forInvoke ⟨ar, funcs⟩ =
      some s') ∧
    ∀ (fuel : Nat) (s' : CollectState),
      collectMethods fuel e collectPrivate forInvoke ⟨ar, funcs⟩ = some s' →
      s'.ar.errors = ar.errors ++ [⟨ErrorType.UnknownBaseClass, c.m_stmt, c.m_parent⟩] ∧
      s'.ar.unknownClasses = ar.unknownClasses ++ [c.m_parent] ∧
      ∃ c', s'.ar.classes[e]? = some c' ∧
        c'.m_derivesFromRedeclaring = Derivation.DirectFromRedeclared ∧
        c'.m_volatile = true := by
  refine ⟨collectMethods_total rank _ e collectPrivate forInvoke ⟨ar, funcs⟩ c hc hac hwf
    (Nat.lt_succ_self _), ?_⟩
  intro fuel s' h
  cases fuel with
  | zero => simp [collectMethods] at h
  | succ fuel =>
    simp only [collectMethods, hc] at h
    split at h
    · simp at h
    · rename_i sown hown
      have h1 := collectOwn_grows collectPrivate _ _ _ hown
      have h2 := collectMissing_grows c.m_missingMethods sown
      have hfo := h1.2.trans_functionsOnly h2.2
      have hg12 := (h1.1.trans_grows h2.1).1
      have hc2 : (collectMissing c.m_missingMethods sown).ar.classes[e]? = some c := by
        rw [hfo.1]
        exact hc
      have hhead : c.m_bases.head? = some c.m_parent := by
        rcases hinv with h0 | h0
        · exact absurd h0 hp
        · exact h0
      obtain ⟨n, hn⟩ : ∃ n, c.m_bases.length = n + 1 := by
        cases hl : c.m_bases with
        | nil => rw [hl] at hhead; simp at hhead
        | cons x rest => exact ⟨rest.length, rfl⟩
      rw [hn] at h
      obtain ⟨s1, hcalm, hgrow, hlast⟩ := collectMethodsBases_last rank _
        (fun cls st st' hr => collectMethods_grows _ _ _ _ _ _ hr)
        (fun cls st st' d hr hd hacs hrs =>
          collectMethods_calm rank _ cls false forInvoke st st' d hr hd hacs hrs)
        forInvoke e n _ s' c hc2 (hac.mono_acyclic hg12) (hbelow.mono_allResolveBelow hg12)
        (by
          intro j b hj hjb
          rw [hg12.findClass]
          exact htail b (mem_tail_of_getElem? hj hjb))
        h
      obtain ⟨c1, hc1, hgr⟩ := hgrow.1.classes.2 e c hc2
      have hbases : c1.m_bases = c.m_bases := hcalm.bases e c c1 hc2 hc1
      have hb0 : c1.m_bases[0]? = some c1.m_parent := by
        rw [hbases, hgr.parent, ← List.head?_eq_getElem?]
        exact hhead
      have hfind : findClass s1.ar c1.m_parent = none := by
        rw [hgr.parent, (hg12.trans_arGrows hgrow.1).findClass]
        exact hun
      simp only [collectMethodsBase, hc1, hb0, bne_self_eq_false, Bool.and_false,
        Bool.false_eq_true, ↓reduceIte, hfind, beq_self_eq_true, Option.some.injEq] at h hlast
      subst hlast
      have herr : s1.ar.errors = ar.errors := hcalm.errors.trans hfo.2.1
      have hunk : s1.ar.unknownClasses = ar.unknownClasses := hcalm.unknown.trans hfo.2.2
      refine ⟨?_, ?_, markDirect c1, ?_, rfl, rfl⟩
      · simp only [updateClass, declareUnknownClass, record, herr, hgr.stmt, hgr.parent]
      · simp only [updateClass, declareUnknownClass, record, hunk, hgr.parent]
      · rw [getElem?_updateClass, if_pos rfl]
        simp only [declareUnknownClass, record, hc1, Option.map_some']

/-- Witness for C5 (amended): `c extends ghost implements i` with a plain interface `i`. -/
theorem collectMethods_unknown_parent_witness :
    (collectMethods 2 0 true false ⟨ghostRegistry, []⟩).map
        (fun s => (s.ar.errors, s.ar.unknownClasses,
          s.ar.classes.map (fun c => (c.m_derivesFromRedeclaring, c.m_volatile)))) =
      some ([⟨ErrorType.UnknownBaseClass, 0, "ghost"⟩], ["ghost"],
        [(Derivation.DirectFromRedeclared, true), (Derivation.FromNormal, false)]) ∧
    ((∃ s', collectMethods (exampleRank "c" + 1) 0 true false ⟨ghostRegistry, []⟩ = some s') ∧
    ∀ (fuel : Nat) (s' : CollectState),
      collectMethods fuel 0 true false ⟨ghostRegistry, []⟩ = some s' →
      s'.ar.errors = [] ++ [⟨ErrorType.UnknownBaseClass, 0, "ghost"⟩] ∧
      s'.ar.unknownClasses = [] ++ ["ghost"] ∧
      ∃ c', s'.ar.classes[0]? = some c' ∧
        c'.m_derivesFromRedeclaring = Derivation.DirectFromRedeclared ∧
        c'.m_volatile = true) :=
  ⟨by decide,
    collectMethods_unknown_parent exampleRank ghostRegistry 0
      (ClassScope.create KindOf.KindOfObjectClass "c" "ghost" ["ghost", "i"] false false 0)
      true false [] rfl (by decide) (by decide) (by decide) (by decide)
      (acyclic_of_forall_mem (by decide)) (allResolveBelow_of_forall_mem (by decide))
      (wellFormedFunctions_of_forall_mem (by decide))⟩

/-! ## Redeclared parent -/

theorem collectMethodsBases_last_grows (rec : Nat → CollectState → Option CollectState)
    (hrecG : ∀ cls st st', rec cls st = some st' → Grows st st') (forInvoke : Bool)
    (self : Nat) :
    ∀ (n : Nat) (s s' : CollectState),
      collectMethodsBases rec forInvoke self (n + 1) s = some s' →
      ∃ s1, Grows s s1 ∧ collectMethodsBase rec forInvoke self 0 s1 = some s' := by
  intro n
  induction n with
  | zero =>
    intro s s' h
    simp only [collectMethodsBases] at h
    split at h
    · simp at h
    · rename_i s1 hs
      simp only [Option.some.injEq] at h
      subst h
      exact ⟨s, Grows.refl_grows _, hs⟩
  | succ i ih =>
    intro s s' h
    rw [collectMethodsBases] at h
    split at h
    · simp at h
    · rename_i sa hs
      obtain ⟨s1, hg1, hlast⟩ := ih sa s' h
      exact ⟨s1, (collectMethodsBase_grows rec hrecG hs).trans_grows hg1, hlast⟩

theorem mapInsertAll_key {k : String} :
    ∀ (cur m : List (String × Nat)) (v : Nat), cur.lookup k = some v →
      ∃ g, (mapInsertAll m cur).lookup k = some g := by
  intro cur
  induction cur with
  | nil =>
    intro m v h
    simp at h
  | cons x rest ih =>
    intro m v h
    obtain ⟨k0, v0⟩ := x
    simp only [List.lookup_cons] at h
    simp only [mapInsertAll]
    split at h
    · rename_i hk
      have hk' : k = k0 := by simpa using hk
      subst hk'
      split
      · rename_i g hg
        exact ⟨g, AccGrows.mapInsertAll rest m _ _ hg⟩
      · rename_i hn
        refine ⟨v0, AccGrows.mapInsertAll rest _ _ _ ?_⟩
        rw [lookup_append_of_none hn]
        simp [List.lookup]
    · split
      · exact ih m v h
      · exact ih _ v h

theorem collectMethods_key {fuel p : Nat} {collectPrivate forInvoke : Bool}
    {st st' : CollectState} {d : ClassScope} {name : String} {f : Nat}
    (h : collectMethods fuel p collectPrivate forInvoke st = some st')
    (hd : st.ar.classes[p]? = some d) (hnd : (d.m_functions.map Prod.fst).Nodup)
    (hcol : Collected st.ar d collectPrivate name f) :
    ∃ g, st'.funcs.lookup name = some g := by
  cases fuel with
  | zero => simp [collectMethods] at h
  | succ fuel =>
    simp only [collectMethods, hd] at h
    split at h
    · simp at h
    · rename_i s1 hown
      have hspec := collectOwn_spec collectPrivate name f d.m_functions st s1 hown
        hnd hcol.1 hcol.2
      have h2 := (collectMissing_grows d.m_missingMethods s1).1
      have h3 := collectMethodsBases_grows _
        (fun cls st st' hr => collectMethods_grows fuel cls false forInvoke st st' hr)
        forInvoke p _ _ _ h
      have h23 := h2.trans_grows h3
      cases hl : st.funcs.lookup name with
      | none => exact ⟨f, h23.2 _ _ (hspec.2 hl)⟩
      | some g => exact ⟨g, h23.2 _ _ (hspec.1 g hl).1⟩

/-- Counterexample to C6 as stated: with `collectPrivate = false` the private own method
`secret` of the child is not in the accumulator, although all premises hold. -/
theorem collectMethods_redeclared_parent_counterexample :
    findRedeclaredClasses redeclaredRegistry "p" = [1, 2] ∧
    (redeclaredRegistry.classes.map
      (fun c => (c.m_name, c.isRedeclaring, c.m_functions.map Prod.fst))) =
      [("c", false, ["own", "secret"]), ("p", true, ["a"]), ("p", true, ["b"])] ∧
    (redeclaredRegistry.functions.map (fun f => f.m_private)) = [false, true, false, false] ∧
    (collectMethods 2 0 false false ⟨redeclaredRegistry, []⟩).map (fun s => s.funcs) =
      some [("own", 0), ("a", 2), ("b", 3)] ∧
    (collectMethods 2 0 false false ⟨redeclaredRegistry, []⟩).map
      (fun s => s.funcs.lookup "secret") = some none := by
  decide

theorem Collected.mono_collected {a a' : AnalysisResult} {d d' : ClassScope} {collectPrivate : Bool}
    {name : String} {f : Nat} (h : Collected a d collectPrivate name f) (hg : ArGrows a a')
    (hf : d'.m_functions = d.m_functions) : Collected a' d' collectPrivate name f := by
  refine ⟨by rw [hf]; exact h.1, ?_⟩
  rcases h.2 with h1 | h1
  · exact Or.inl h1
  · exact Or.inr ((hg.private_iff f false).1 h1)

theorem getElem?_updateClass_self {a : AnalysisResult} {k : Nat} {d : ClassScope}
    (g : ClassScope → ClassScope) (h : a.classes[k]? = some d) :
    (updateClass a k g).classes[k]? = some (g d) := by
  rw [getElem?_updateClass, if_pos rfl, h]
  rfl

theorem ArGrows.dynamic {a a' : AnalysisResult} (hg : ArGrows a a') {k : Nat} {d : ClassScope}
    (hd : a.classes[k]? = some d) (hdyn : d.m_derivedByDynamic = true) :
    ∃ d', a'.classes[k]? = some d' ∧ d'.m_derivedByDynamic = true := by
  obtain ⟨d', hd', hgr⟩ := hg.classes.2 k d hd
  exact ⟨d', hd', hgr.dynamic hdyn⟩

theorem ArGrows.setDerivedByDynamic_arGrows (a : AnalysisResult) (k : Nat) :
    ArGrows a (HPHP.updateClass a k (fun d => { d with m_derivedByDynamic := true })) :=
  ArGrows.updateClass_arGrows _ _ _ (fun x _ => (FlagOnly.setDerivedByDynamic_flagOnly x).1)

/-- C6 (amended): for a child whose parent name has two redeclared alternatives, each with a
non-private method, `collectMethods(child, {}, collectPrivate, forInvoke = false)` yields an
accumulator that maps every own method the child contributes (the non-private ones, all of them
when `collectPrivate` is set) to the child's last declaration and has an entry for the method
name of each alternative; the child ends `DirectFromRedeclared` and volatile with both requests
issued to its variable table, and both alternatives are marked `derivedByDynamic`. On an
acyclic well-formed hierarchy the call returns. -/
theorem collectMethods_redeclared_parent (ar : AnalysisResult) (e : Nat) (c : ClassScope)
    (collectPrivate : Bool) (a1 a2 : Nat) (d1 d2 : ClassScope) (m1 m2 : String) (f1 f2 : Nat)
    (hc : ar.classes[e]? = some c) (hp : c.m_parent ≠ "") (hinv : c.parentInvariant)
    (hnd : (c.m_functions.map Prod.fst).Nodup)
    (halts : findRedeclaredClasses ar c.m_parent = [a1, a2])
    (hd1 : ar.classes[a1]? = some d1) (hd2 : ar.classes[a2]? = some d2)
    (_hr1 : d1.isRedeclaring = true) (hr2 : d2.isRedeclaring = true)
    (hnd1 : (d1.m_functions.map Prod.fst).Nodup) (hnd2 : (d2.m_functions.map Prod.fst).Nodup)
    (hm1 : Collected ar d1 false m1 f1) (hm2 : Collected ar d2 false m2 f2) :
    (∀ (fuel : Nat) (s' : CollectState),
      collectMethods fuel e collectPrivate false ⟨ar, []⟩ = some s' →
      (∀ name f, Collected ar c collectPrivate name f → s'.funcs.lookup name = some f) ∧
      (∃ g, s'.funcs.lookup m1 = some g) ∧ (∃ g, s'.funcs.lookup m2 = some g) ∧
      (∃ c', s'.ar.classes[e]? = some c' ∧
        c'.m_derivesFromRedeclaring = Derivation.DirectFromRedeclared ∧
        c'.m_volatile = true ∧
        c'.m_variables = { forcedNonPrivateVariants := true, needGlobalPointer := true }) ∧
      (∃ d1' d2', s'.ar.classes[a1]? = some d1' ∧ d1'.m_derivedByDynamic = true ∧
        s'.ar.classes[a2]? = some d2' ∧ d2'.m_derivedByDynamic = true)) ∧
    (∀ rank : String → Nat, Acyclic rank ar → WellFormedFunctions ar →
      ∃ s', collectMethods (rank c.m_name + 1) e collectPrivate false ⟨ar, []⟩ = some s') := by
  refine ⟨?_, fun rank hac hwf => collectMethods_total rank _ e collectPrivate false ⟨ar, []⟩ c
    hc hac hwf (Nat.lt_succ_self _)⟩
  intro fuel s' h
  cases fuel with
  | zero => simp [collectMethods] at h
  | succ fuel =>
    have hrecG : ∀ cls st st', collectMethods fuel cls false false st = some st' →
        Grows st st' := fun cls st st' hr => collectMethods_grows _ _ _ _ _ _ hr
    simp only [collectMethods, hc] at h
    split at h
    · simp at h
    · rename_i sown hown
      have hG1 := (collectOwn_grows collectPrivate _ _ _ hown).1
      have hG2 := (collectMissing_grows c.m_missingMethods sown).1
      have hhead : c.m_bases.head? = some c.m_parent := by
        rcases hinv with h0 | h0
        · exact absurd h0 hp
        · exact h0
      obtain ⟨n, hn⟩ : ∃ n, c.m_bases.length = n + 1 := by
        cases hl : c.m_bases with
        | nil => rw [hl] at hhead; simp at hhead
        | cons x rest => exact ⟨rest.length, rfl⟩
      rw [hn] at h
      obtain ⟨s1, hG3, hlast⟩ := collectMethodsBases_last_grows _ hrecG false e n _ s' h
      have hG : Grows ⟨ar, []⟩ s1 := (hG1.trans_grows hG2).trans_grows hG3
      have hGa : ArGrows ar s1.ar := hG.1
      obtain ⟨c1, hc1, hgr⟩ := hGa.classes.2 e c hc
      have hb0 : c1.m_bases[0]? = some c1.m_parent := by
        have h1 := hgr.inv hinv
        rw [← List.head?_eq_getElem?]
        rcases h1 with h0 | h0
        · rw [hgr.parent] at h0
          exact absurd h0 hp
        · exact h0
      have hfc : findClasses s1.ar c1.m_parent = [a1, a2] := by
        rw [hgr.parent, hGa.findClasses]
        exact halts
      have hfind : findClass s1.ar c1.m_parent = some a2 := by
        unfold findClass
        rw [hfc]
        rfl
      obtain ⟨d2s, hd2s, hgr2⟩ := hGa.classes.2 a2 d2 hd2
      have hred : d2s.isRedeclaring = true := by
        unfold ClassScope.isRedeclaring
        rw [hgr2.redeclaring]
        exact hr2
      simp only [collectMethodsBase, hc1, hb0, bne_self_eq_false, Bool.and_false,
        Bool.false_eq_true, ↓reduceIte, hfind, hd2s, hred, beq_self_eq_true] at hlast
      have hq1 : ArGrows s1.ar
          (if c1.m_derivedByDynamic = true then
            updateClass s1.ar a2 (fun d => { d with m_derivedByDynamic := true })
          else s1.ar) := by
        split
        · exact ArGrows.setDerivedByDynamic_arGrows _ _
        · exact ArGrows.refl_arGrows _
      have hfr : findRedeclaredClasses
          (if c1.m_derivedByDynamic = true then
            updateClass s1.ar a2 (fun d => { d with m_derivedByDynamic := true })
          else s1.ar) c1.m_parent = [a1, a2] := by
        unfold findRedeclaredClasses
        rw [hq1.findClasses]
        exact hfc
      rw [hfr] at hlast
      simp only [collectRedeclared] at hlast
      split at hlast
      · simp at hlast
      · rename_i s2 hs2
        simp only [Option.some.injEq] at hlast
        subst hlast
        split at hs2
        · simp at hs2
        · rename_i sa hra
          split at hs2
          · simp at hs2
          · rename_i sb hrb
            simp only [Option.some.injEq] at hs2
            subst hs2
            have hGra := hrecG _ _ _ hra
            have hGrb := hrecG _ _ _ hrb
            -- the chain of analysis results
            have hA1 : ArGrows ar
                (updateClass
                  (if c1.m_derivedByDynamic = true then
                    updateClass s1.ar a2 (fun d => { d with m_derivedByDynamic := true })
                  else s1.ar) a1 (fun d => { d with m_derivedByDynamic := true })) :=
              (hGa.trans_arGrows hq1).trans_arGrows (ArGrows.setDerivedByDynamic_arGrows _ _)
            have hA2 : ArGrows ar sa.ar := hA1.trans_arGrows hGra.1
            have hA3 : ArGrows ar
                (updateClass sa.ar a2 (fun d => { d with m_derivedByDynamic := true })) :=
              hA2.trans_arGrows (ArGrows.setDerivedByDynamic_arGrows _ _)
            have hfin : ArGrows sb.ar (updateClass sb.ar e markDirect) :=
              ArGrows.updateClass_arGrows _ _ _ (fun x _ => (FlagOnly.markDirect x).1)
            obtain ⟨x1, hx1, hgx1⟩ := hA1.classes.2 a1 d1 hd1
            obtain ⟨x2, hx2, hgx2⟩ := hA3.classes.2 a2 d2 hd2
            refine ⟨?_, ?_, ?_, ?_, ?_⟩
            · intro name f hcol
              have hspec := collectOwn_spec collectPrivate name f c.m_functions ⟨ar, []⟩ sown
                hown hnd hcol.1 hcol.2
              have h1 : sown.funcs.lookup name = some f := hspec.2 rfl
              have h2 : s1.funcs.lookup name = some f := (hG2.trans_grows hG3).2 _ _ h1
              exact AccGrows.mapInsertAll _ _ _ _ (AccGrows.mapInsertAll _ _ _ _ h2)
            · have hcol : Collected _ x1 false m1 f1 := hm1.mono_collected hA1 hgx1.functions
              have hk1 : (x1.m_functions.map Prod.fst).Nodup := by
                rw [hgx1.functions]; exact hnd1
              obtain ⟨g, hg⟩ := collectMethods_key hra hx1 hk1 hcol
              obtain ⟨g', hg'⟩ := mapInsertAll_key sa.funcs s1.funcs g hg
              exact ⟨g', AccGrows.mapInsertAll _ _ _ _ hg'⟩
            · have hcol : Collected _ x2 false m2 f2 := hm2.mono_collected hA3 hgx2.functions
              have hk2 : (x2.m_functions.map Prod.fst).Nodup := by
                rw [hgx2.functions]; exact hnd2
              obtain ⟨g, hg⟩ := collectMethods_key hrb hx2 hk2 hcol
              exact mapInsertAll_key sb.funcs _ g hg
            · obtain ⟨c2, hc2, _⟩ := (hA3.trans_arGrows hGrb.1).classes.2 e c hc
              exact ⟨markDirect c2, getElem?_updateClass_self markDirect hc2, rfl, rfl, rfl⟩
            · have hdyn1 : ∀ y, (updateClass
                  (if c1.m_derivedByDynamic = true then
                    updateClass s1.ar a2 (fun d => { d with m_derivedByDynamic := true })
                  else s1.ar) a1 (fun d => { d with m_derivedByDynamic := true })).classes[a1]?
                    = some y → y.m_derivedByDynamic = true := by
                intro y hy
                obtain ⟨z, hz, _⟩ := (hGa.trans_arGrows hq1).classes.2 a1 d1 hd1
                rw [getElem?_updateClass_self _ hz] at hy
                cases hy
                rfl
              have hdyn2 : ∀ y,
                  (updateClass sa.ar a2
                    (fun d => { d with m_derivedByDynamic := true })).classes[a2]? = some y →
                  y.m_derivedByDynamic = true := by
                intro y hy
                obtain ⟨z, hz, _⟩ := hA2.classes.2 a2 d2 hd2
                rw [getElem?_updateClass_self _ hz] at hy
                cases hy
                rfl
              obtain ⟨d1', hd1', hdd1⟩ :=
                (((hGra.1.trans_arGrows (ArGrows.setDerivedByDynamic_arGrows _ _)).trans_arGrows hGrb.1).trans_arGrows
                  hfin).dynamic hx1 (hdyn1 x1 hx1)
              obtain ⟨d2', hd2', hdd2⟩ := (hGrb.1.trans_arGrows hfin).dynamic hx2 (hdyn2 x2 hx2)
              exact ⟨d1', d2', hd1', hdd1, hd2', hdd2⟩

/-- Witness for C6 (amended): the child `c extends p` of the twice declared `p`. -/
theorem collectMethods_redeclared_parent_witness :
    (collectMethods 2 0 true false ⟨redeclaredRegistry, []⟩).map
        (fun s => (s.funcs, s.ar.classes.map (fun c =>
          (c.m_derivesFromRedeclaring, c.m_volatile, c.m_derivedByDynamic)))) =
      some ([("own", 0), ("secret", 1), ("a", 2), ("b", 3)],
        [(Derivation.DirectFromRedeclared, true, false), (Derivation.FromNormal, true, true),
          (Derivation.FromNormal, true, true)]) ∧
    ((∀ (fuel : Nat) (s' : CollectState),
      collectMethods fuel 0 true false ⟨redeclaredRegistry, []⟩ = some s' →
      (∀ name f,
        Collected redeclaredRegistry
          { ClassScope.create KindOf.KindOfObjectClass "c" "p" ["p"] false false 0 with
            m_functions := [("own", [0]), ("secret", [1])] } true name f →
        s'.funcs.lookup name = some f) ∧
      (∃ g, s'.funcs.lookup "a" = some g) ∧ (∃ g, s'.funcs.lookup "b" = some g) ∧
      (∃ c', s'.ar.classes[0]? = some c' ∧
        c'.m_derivesFromRedeclaring = Derivation.DirectFromRedeclared ∧
        c'.m_volatile = true ∧
        c'.m_variables = { forcedNonPrivateVariants := true, needGlobalPointer := true }) ∧
      (∃ d1' d2', s'.ar.classes[1]? = some d1' ∧ d1'.m_derivedByDynamic = true ∧
        s'.ar.classes[2]? = some d2' ∧ d2'.m_derivedByDynamic = true)) ∧
    (∀ rank : String → Nat, Acyclic rank redeclaredRegistry →
      WellFormedFunctions redeclaredRegistry →
      ∃ s', collectMethods (rank "c" + 1) 0 true false ⟨redeclaredRegistry, []⟩ = some s')) :=
  ⟨by decide,
    collectMethods_redeclared_parent redeclaredRegistry 0
      { ClassScope.create KindOf.KindOfObjectClass "c" "p" ["p"] false false 0 with
        m_functions := [("own", [0]), ("secret", [1])] }
      true 1 2
      { ClassScope.create KindOf.KindOfObjectClass "p" "" [] false false 1 with
        m_functions := [("a", [2])], m_redeclaring := 0, m_volatile := true }
      { ClassScope.create KindOf.KindOfObjectClass "p" "" [] false false 2 with
        m_functions := [("b", [3])], m_redeclaring := 1, m_volatile := true }
      "a" "b" 2 3 rfl (by decide) (by decide) (by decide) (by decide) rfl rfl (by decide)
      (by decide) (by decide) (by decide)
      ⟨⟨[2], by decide, rfl⟩, Or.inr ⟨FunctionScope.create "a" false false false, rfl, rfl⟩⟩
      ⟨⟨[3], by decide, rfl⟩, Or.inr ⟨FunctionScope.create "b" false false false, rfl, rfl⟩⟩⟩

/-! ## `needsInvokeParent` -/

theorem hasPrivateMethod_spec (a : AnalysisResult) :
    ∀ (l : List (String × List Nat)),
      (∀ nd ∈ l, ∃ f, nd.2.getLast? = some f ∧ f < a.functions.length) →
      ∃ b, hasPrivateMethod a l = some b ∧
        (b = true ↔ ∃ nd ∈ l, ∃ f fs, nd.2.getLast? = some f ∧ a.functions[f]? = some fs ∧
          fs.m_private = true) := by
  intro l
  induction l with
  | nil =>
    intro _
    exact ⟨false, rfl, by simp⟩
  | cons x rest ih =>
    intro hwf
    obtain ⟨name, decls⟩ := x
    obtain ⟨f, hf, hlt⟩ := hwf (name, decls) (List.mem_cons_self _ _)
    simp only at hf
    have hfs : a.functions[f]? = some a.functions[f] := List.getElem?_eq_getElem hlt
    simp only [hasPrivateMethod, hf, hfs]
    by_cases hp : a.functions[f].m_private = true
    · refine ⟨true, by simp [hp], ?_⟩
      simp only [true_iff]
      exact ⟨(name, decls), List.mem_cons_self _ _, f, _, hf, hfs, hp⟩
    · obtain ⟨b, hb, hiff⟩ := ih (fun nd hnd => hwf nd (List.mem_cons_of_mem _ hnd))
      refine ⟨b, by simp [hp, hb], ?_⟩
      rw [hiff]
      constructor
      · rintro ⟨nd, hnd, h⟩
        exact ⟨nd, List.mem_cons_of_mem _ hnd, h⟩
      · rintro ⟨nd, hnd, f', fs', h1, h2, h3⟩
        rcases List.mem_cons.1 hnd with heq | hmem
        · subst heq
          simp only at h1
          rw [hf] at h1
          cases h1
          rw [hfs] at h2
          cases h2
          exact absurd h3 hp
        · exact ⟨nd, hmem, f', fs', h1, h2, h3⟩

theorem needsInvokeParent_mono (ar : AnalysisResult) :
    ∀ (f f' : Nat) (e : Nat) (cs b : Bool), needsInvokeParent f ar e cs = some b → f ≤ f' →
      needsInvokeParent f' ar e cs = some b := by
  intro f
  induction f with
  | zero =>
    intro f' e cs b h
    simp [needsInvokeParent] at h
  | succ f ih =>
    intro f' e cs b h hle
    obtain ⟨g, rfl⟩ : ∃ g, f' = g + 1 := ⟨f' - 1, by omega⟩
    simp only [needsInvokeParent] at h ⊢
    cases hc : ar.classes[e]? with
    | none => rw [hc] at h; simp at h
    | some c =>
      rw [hc] at h
      simp only at h ⊢
      cases hsel : (if cs = true then hasPrivateMethod ar c.m_functions else some false) with
      | none => rw [hsel] at h; simp at h
      | some b1 =>
        rw [hsel] at h
        cases b1 with
        | true => exact h
        | false =>
          simp only at h ⊢
          by_cases hp : (c.m_parent != "") = true
          · rw [if_pos hp] at h ⊢
            cases hf : findClass ar c.m_parent with
            | none => rw [hf] at h; exact h
            | some super =>
              rw [hf] at h
              simp only at h ⊢
              cases hs : ar.classes[super]? with
              | none => rw [hs] at h; simp at h
              | some sup =>
                rw [hs] at h
                simp only at h ⊢
                by_cases hr : sup.isRedeclaring = true
                · rw [if_pos hr] at h ⊢
                  exact h
                · rw [if_neg hr] at h ⊢
                  exact ih g super true b h (by omega)
          · rw [if_neg hp] at h ⊢
            exact h

theorem needsInvokeParent_total (rank : String → Nat) (ar : AnalysisResult)
    (hac : ParentAcyclic rank ar) (hwf : WellFormedFunctions ar) :
    ∀ (fuel e : Nat) (c : ClassScope) (cs : Bool), ar.classes[e]? = some c →
      rank c.m_name < fuel → ∃ b, needsInvokeParent fuel ar e cs = some b := by
  intro fuel
  induction fuel with
  | zero =>
    intro e c cs _ h
    exact absurd h (Nat.not_lt_zero _)
  | succ fuel ih =>
    intro e c cs hc hfuel
    obtain ⟨b0, hb0, _⟩ := hasPrivateMethod_spec ar c.m_functions (hwf e c hc)
    simp only [needsInvokeParent, hc]
    have hsel : ∃ b1, (if cs = true then hasPrivateMethod ar c.m_functions else some false) =
        some b1 := by
      split
      · exact ⟨b0, hb0⟩
      · exact ⟨false, rfl⟩
    obtain ⟨b1, hb1⟩ := hsel
    rw [hb1]
    cases b1 with
    | true => exact ⟨true, rfl⟩
    | false =>
      simp only
      split
      · rename_i hp
        have hp' : c.m_parent ≠ "" := by simpa using hp
        split
        · exact ⟨true, rfl⟩
        · rename_i super hsup
          obtain ⟨sup, hs, hname⟩ := findClass_some hsup
          rw [hs]
          simp only
          split
          · exact ⟨true, rfl⟩
          · apply ih super sup true hs
            rw [hname]
            exact lt_of_lt_of_le (hac e c hc hp') (Nat.lt_succ_iff.1 hfuel)
      · exact ⟨false, rfl⟩

theorem parentAcyclic_of_forall_mem {rank : String → Nat} {a : AnalysisResult}
    (h : ∀ c ∈ a.classes, c.m_parent ≠ "" → rank c.m_parent < rank c.m_name) :
    ParentAcyclic rank a :=
  forall_getElem?_of_forall_mem h

/-- C8: on a hierarchy with an acyclic parent chain `needsInvokeParent(e, considerSelf)`
returns, and it returns true iff (`considerSelf` and some method name of `e` has a private last
declaration) or (`m_parent` is non-empty and the parent does not resolve, or is redeclaring, or
`needsInvokeParent(parent, true)` is true); it is false for a class without parent when
`considerSelf` is false. -/
theorem needsInvokeParent_iff (rank : String → Nat) (ar : AnalysisResult) (e : Nat)
    (c : ClassScope) (considerSelf : Bool) (fuel : Nat)
    (hac : ParentAcyclic rank ar) (hwf : WellFormedFunctions ar)
    (hc : ar.classes[e]? = some c) (hfuel : rank c.m_name < fuel) :
    ∃ b, needsInvokeParent fuel ar e considerSelf = some b ∧
      (b = true ↔
        (considerSelf = true ∧ HasPrivateLast ar c) ∨
        (c.m_parent ≠ "" ∧
          (findClass ar c.m_parent = none ∨
            ∃ p sup, findClass ar c.m_parent = some p ∧ ar.classes[p]? = some sup ∧
              (sup.isRedeclaring = true ∨
                ∃ fuel', needsInvokeParent fuel' ar p true = some true)))) ∧
      (c.m_parent = "" → considerSelf = false → b = false) := by
  obtain ⟨b, hb⟩ := needsInvokeParent_total rank ar hac hwf fuel e c considerSelf hc hfuel
  refine ⟨b, hb, ?_⟩
  obtain ⟨g, rfl⟩ : ∃ g, fuel = g + 1 := ⟨fuel - 1, by omega⟩
  obtain ⟨b0, hb0, hiff0⟩ := hasPrivateMethod_spec ar c.m_functions (hwf e c hc)
  have hpriv : HasPrivateLast ar c ↔ b0 = true := hiff0.symm
  simp only [needsInvokeParent, hc] at hb
  cases hsel : (if considerSelf = true then hasPrivateMethod ar c.m_functions
      else some false) with
  | none => rw [hsel] at hb; simp at hb
  | some b1 =>
    rw [hsel] at hb
    cases b1 with
    | true =>
      simp only [Option.some.injEq] at hb
      subst hb
      have hcs : considerSelf = true := by
        by_contra hne
        rw [if_neg hne] at hsel
        simp at hsel
      rw [if_pos hcs, hb0] at hsel
      simp only [Option.some.injEq] at hsel
      refine ⟨?_, ?_⟩
      · simp only [true_iff]
        exact Or.inl ⟨hcs, hpriv.2 hsel⟩
      · intro _ hf
        rw [hf] at hcs
        simp at hcs
    | false =>
      have hnot : ¬ (considerSelf = true ∧ HasPrivateLast ar c) := by
        rintro ⟨hcs, hp⟩
        rw [if_pos hcs, hb0] at hsel
        simp only [Option.some.injEq] at hsel
        rw [hpriv.1 hp] at hsel
        simp at hsel
      simp only at hb
      by_cases hp : (c.m_parent != "") = true
      · have hp' : c.m_parent ≠ "" := by simpa using hp
        rw [if_pos hp] at hb
        refine ⟨?_, fun h0 => absurd h0 hp'⟩
        cases hf : findClass ar c.m_parent with
        | none =>
          rw [hf] at hb
          simp only [Option.some.injEq] at hb
          subst hb
          simp only [true_iff]
          exact Or.inr ⟨hp', Or.inl (by trivial)⟩
        | some super =>
          rw [hf] at hb
          simp only at hb
          cases hs : ar.classes[super]? with
          | none => rw [hs] at hb; simp at hb
          | some sup =>
            rw [hs] at hb
            simp only at hb
            by_cases hr : sup.isRedeclaring = true
            · rw [if_pos hr] at hb
              simp only [Option.some.injEq] at hb
              subst hb
              simp only [true_iff]
              exact Or.inr ⟨hp', Or.inr ⟨super, sup, rfl, hs, Or.inl hr⟩⟩
            · rw [if_neg hr] at hb
              constructor
              · intro hbt
                subst hbt
                exact Or.inr ⟨hp', Or.inr ⟨super, sup, rfl, hs, Or.inr ⟨g, hb⟩⟩⟩
              · rintro (hl | ⟨_, hnone | ⟨p, sup', hfp, hsp, hcase⟩⟩)
                · exact absurd hl hnot
                · simp at hnone
                · simp only [Option.some.injEq] at hfp
                  subst hfp
                  rw [hs] at hsp
                  cases hsp
                  rcases hcase with h1 | ⟨fuel', h1⟩
                  · exact absurd h1 hr
                  · have e1 := needsInvokeParent_mono ar _ (max g fuel') _ _ _ hb
                      (le_max_left _ _)
                    have e2 := needsInvokeParent_mono ar _ (max g fuel') _ _ _ h1
                      (le_max_right _ _)
                    rw [e1] at e2
                    simpa using e2
      · rw [if_neg hp] at hb
        simp only [Option.some.injEq] at hb
        subst hb
        have hp' : c.m_parent = "" := by simpa using hp
        refine ⟨?_, fun _ _ => rfl⟩
        simp only [Bool.false_eq_true, false_iff, not_or, not_and]
        exact ⟨fun h1 h2 => hnot ⟨h1, h2⟩, fun h1 => absurd hp' h1⟩

/-- Witness for C8: `c extends p`, where `p` declares a private method. -/
theorem needsInvokeParent_iff_witness :
    needsInvokeParent 2 invokeRegistry 1 false = some true ∧
    needsInvokeParent 2 invokeRegistry 2 false = some false ∧
    ∃ b, needsInvokeParent 2 invokeRegistry 1 false = some b ∧
      (b = true ↔
        (false = true ∧ HasPrivateLast invokeRegistry
          (ClassScope.create KindOf.KindOfObjectClass "c" "p" ["p"] false false 1)) ∨
        ("p" ≠ "" ∧
          (findClass invokeRegistry "p" = none ∨
            ∃ p sup, findClass invokeRegistry "p" = some p ∧
              invokeRegistry.classes[p]? = some sup ∧
              (sup.isRedeclaring = true ∨
                ∃ fuel', needsInvokeParent fuel' invokeRegistry p true = some true)))) ∧
      ("p" = "" → false = false → b = false) :=
  ⟨by decide, by decide,
    needsInvokeParent_iff exampleRank invokeRegistry 1
      (ClassScope.create KindOf.KindOfObjectClass "c" "p" ["p"] false false 1) false 2
      (parentAcyclic_of_forall_mem (by decide)) (wellFormedFunctions_of_forall_mem (by decide))
      rfl (by decide)⟩

/-! ## `implementsAccessor` -/

/-- C9 (evaluation of the code at the failing inputs): the class `c` has no parent, no cached
value and the method `offsetget`, yet `implementsAccessor(c, "offsetget")` returns 0; the
class `d` has only the method `foo`, yet `implementsAccessor(d, "offsetget")` returns 1. -/
theorem implementsAccessor_own_method_mismatch :
    strcasecmp "offsetget" "offsetget" = 0 ∧
    (implementsAccessor 1 0 "offsetget" accessorRegistry).map Prod.fst = some 0 ∧
    strcasecmp "foo" "offsetget" ≠ 0 ∧
    (implementsAccessor 1 1 "offsetget" accessorRegistry).map Prod.fst = some 1 := by
  decide

theorem implementsAccessorParents_of_yields
    (rec : Nat → AnalysisResult → Option (Int × AnalysisResult)) :
    ∀ (alts : List Nat) (yes no : Int) (ar : AnalysisResult) (vals : List Int)
      (ar2 : AnalysisResult), accessorYields rec alts ar = some (vals, ar2) →
      ∃ y n ar3, implementsAccessorParents rec alts yes no ar = some (y, n, ar3) ∧
        ((∃ v ∈ vals, v < 0) → y = 1 ∧ n = 1) ∧
        ((∀ v ∈ vals, ¬ v < 0) →
          y = yes + (vals.countP (fun v => decide (0 < v)) : Nat) ∧
          n = no + (vals.countP (fun v => decide (v = 0)) : Nat)) := by
  intro alts
  induction alts with
  | nil =>
    intro yes no ar vals ar2 h
    simp only [accessorYields, Option.some.injEq, Prod.mk.injEq] at h
    obtain ⟨rfl, rfl⟩ := h
    exact ⟨yes, no, ar, rfl, by simp, by simp⟩
  | cons cls rest ih =>
    intro yes no ar vals ar2 h
    simp only [accessorYields] at h
    cases hr : rec cls ar with
    | none => rw [hr] at h; simp at h
    | some res =>
      obtain ⟨a, ar1⟩ := res
      rw [hr] at h
      simp only at h
      cases hrest : accessorYields rec rest ar1 with
      | none => rw [hrest] at h; simp at h
      | some res2 =>
        obtain ⟨vals1, ar2'⟩ := res2
        rw [hrest] at h
        simp only [Option.some.injEq, Prod.mk.injEq] at h
        obtain ⟨rfl, rfl⟩ := h
        simp only [implementsAccessorParents, hr]
        by_cases hneg : a < 0
        · rw [if_pos hneg]
          refine ⟨1, 1, ar1, rfl, fun _ => ⟨rfl, rfl⟩, ?_⟩
          intro hall
          exact absurd hneg (hall a (List.mem_cons_self _ _))
        · rw [if_neg hneg]
          by_cases hpos : a > 0
          · rw [if_pos hpos]
            obtain ⟨y, n, ar3, hrun, h1, h2⟩ := ih (yes + 1) no ar1 vals1 ar2' hrest
            refine ⟨y, n, ar3, hrun, ?_, ?_⟩
            · rintro ⟨v, hv, hvn⟩
              rcases List.mem_cons.1 hv with rfl | hv'
              · exact absurd hvn hneg
              · exact h1 ⟨v, hv', hvn⟩
            · intro hall
              obtain ⟨e1, e2⟩ := h2 (fun v hv => hall v (List.mem_cons_of_mem _ hv))
              have hz : ¬ a = 0 := by omega
              have hp' : 0 < a := hpos
              simp only [List.countP_cons, hp', decide_True, hz, decide_False, ↓reduceIte,
                Bool.false_eq_true]
              constructor
              · rw [e1]; push_cast; ring
              · rw [e2]; simp
          · rw [if_neg hpos]
            obtain ⟨y, n, ar3, hrun, h1, h2⟩ := ih yes (no + 1) ar1 vals1 ar2' hrest
            refine ⟨y, n, ar3, hrun, ?_, ?_⟩
            · rintro ⟨v, hv, hvn⟩
              rcases List.mem_cons.1 hv with rfl | hv'
              · exact absurd hvn hneg
              · exact h1 ⟨v, hv', hvn⟩
            · intro hall
              obtain ⟨e1, e2⟩ := h2 (fun v hv => hall v (List.mem_cons_of_mem _ hv))
              have hz : a = 0 := by omega
              have hp' : ¬ 0 < a := hpos
              simp only [List.countP_cons, hp', decide_False, hz, decide_True, ↓reduceIte,
                Bool.false_eq_true]
              constructor
              · rw [e1]; simp
              · rw [e2]; push_cast; ring

/-- C10: for a class with an empty own method table, a non-empty `m_parent` and no cached
value, whose parent declarations yield the values `vals` (a negative value is Ambiguous, a
positive one Yes, zero No): `implementsAccessor` returns -1 if some declaration yields
Ambiguous or if one yields Yes and one yields No; 1 if there is at least one declaration and
all yield Yes; 0 otherwise, in particular when the parent resolves to no class. The result is
one of -1, 0, 1. -/
theorem implementsAccessor_parent_rule (ar : AnalysisResult) (e : Nat) (c : ClassScope)
    (name : String) (fuel : Nat) (vals : List Int) (ar2 : AnalysisResult)
    (hc : ar.classes[e]? = some c) (hown : c.m_functions = []) (hp : c.m_parent ≠ "")
    (hcache : imapFind c.m_implemented name = none)
    (hy : accessorYields (fun cls a => implementsAccessor fuel cls name a)
      (findClasses ar c.m_parent) ar = some (vals, ar2)) :
    ∃ r ar', implementsAccessor (fuel + 1) e name ar = some (r, ar') ∧
      (((∃ v ∈ vals, v < 0) ∨ ((∃ v ∈ vals, 0 < v) ∧ ∃ v ∈ vals, v = 0)) → r = -1) ∧
      ((vals ≠ [] ∧ ∀ v ∈ vals, 0 < v) → r = 1) ∧
      (¬ ((∃ v ∈ vals, v < 0) ∨ ((∃ v ∈ vals, 0 < v) ∧ ∃ v ∈ vals, v = 0)) →
        ¬ (vals ≠ [] ∧ ∀ v ∈ vals, 0 < v) → r = 0) ∧
      (findClasses ar c.m_parent = [] → r = 0) ∧
      (r = -1 ∨ r = 0 ∨ r = 1) := by
  obtain ⟨y, n, ar3, hrun, hneg, hcount⟩ := implementsAccessorParents_of_yields
    (fun cls a => implementsAccessor fuel cls name a) (findClasses ar c.m_parent) 0 0 ar vals
    ar2 hy
  have hpb : (c.m_parent != "") = true := by simpa using hp
  have hval : ∃ ar', implementsAccessor (fuel + 1) e name ar =
      some (if y ≠ 0 then (if n ≠ 0 then -1 else 1) else 0, ar') := by
    simp only [implementsAccessor, hc, hcache, hown, implementsAccessorOwn, hpb, hrun]
    simp
  obtain ⟨ar', hval⟩ := hval
  have hnilvals : findClasses ar c.m_parent = [] → vals = [] := by
    intro h0
    rw [h0] at hy
    simp only [accessorYields, Option.some.injEq, Prod.mk.injEq] at hy
    exact hy.1.symm
  by_cases hn : ∃ v ∈ vals, v < 0
  · obtain ⟨hy1, hn1⟩ := hneg hn
    subst hy1 hn1
    have hr : (if (1 : Int) ≠ 0 then (if (1 : Int) ≠ 0 then (-1 : Int) else 1) else 0) = -1 := by
      decide
    rw [hr] at hval
    refine ⟨-1, ar', hval, fun _ => rfl, ?_, fun h => absurd (Or.inl hn) h, ?_, Or.inl rfl⟩
    · rintro ⟨_, hall⟩
      obtain ⟨v, hv, hvn⟩ := hn
      have := hall v hv
      omega
    · intro h0
      obtain ⟨v, hv, _⟩ := hn
      rw [hnilvals h0] at hv
      simp at hv
  · have hall : ∀ v ∈ vals, ¬ v < 0 := fun v hv hvn => hn ⟨v, hv, hvn⟩
    obtain ⟨hy1, hn1⟩ := hcount hall
    simp only [zero_add] at hy1 hn1
    have hypos : y ≠ 0 ↔ ∃ v ∈ vals, 0 < v := by
      rw [hy1]
      simp only [ne_eq, Nat.cast_eq_zero, List.countP_eq_zero, decide_eq_true_eq, not_forall,
        Classical.not_imp, Decidable.not_not, exists_prop]
    have hnpos : n ≠ 0 ↔ ∃ v ∈ vals, v = 0 := by
      rw [hn1]
      simp only [ne_eq, Nat.cast_eq_zero, List.countP_eq_zero, decide_eq_true_eq, not_forall,
        Classical.not_imp, Decidable.not_not, exists_prop]
    by_cases hyes : ∃ v ∈ vals, 0 < v
    · have e1 : y ≠ 0 := hypos.2 hyes
      rw [if_pos e1] at hval
      have hnil : findClasses ar c.m_parent ≠ [] := by
        intro h0
        obtain ⟨v, hv, _⟩ := hyes
        rw [hnilvals h0] at hv
        simp at hv
      by_cases hno : ∃ v ∈ vals, v = 0
      · have e2 : n ≠ 0 := hnpos.2 hno
        rw [if_pos e2] at hval
        refine ⟨-1, ar', hval, fun _ => rfl, ?_, fun h => absurd (Or.inr ⟨hyes, hno⟩) h,
          fun h => absurd h hnil, Or.inl rfl⟩
        rintro ⟨_, hall'⟩
        obtain ⟨v, hv, hv0⟩ := hno
        have := hall' v hv
        omega
      · have e2 : ¬ n ≠ 0 := fun h => hno (hnpos.1 h)
        rw [if_neg e2] at hval
        have hallpos : vals ≠ [] ∧ ∀ v ∈ vals, 0 < v := by
          refine ⟨?_, ?_⟩
          · obtain ⟨v, hv, _⟩ := hyes
            exact List.ne_nil_of_mem hv
          · intro v hv
            have h1 := hall v hv
            have h2 : v ≠ 0 := fun h0 => hno ⟨v, hv, h0⟩
            omega
        refine ⟨1, ar', hval, ?_, fun _ => rfl, fun _ h => absurd hallpos h,
          fun h => absurd h hnil, Or.inr (Or.inr rfl)⟩
        rintro (h | ⟨_, h⟩)
        · exact absurd h hn
        · exact absurd h hno
    · have e1 : ¬ y ≠ 0 := fun h => hyes (hypos.1 h)
      rw [if_neg e1] at hval
      refine ⟨0, ar', hval, ?_, ?_, fun _ _ => rfl, fun _ => rfl, Or.inr (Or.inl rfl)⟩
      · rintro (h | ⟨h, _⟩)
        · exact absurd h hn
        · exact absurd h hyes
      · rintro ⟨hne, hall'⟩
        obtain ⟨v, hv⟩ := List.exists_mem_of_ne_nil _ hne
        exact absurd ⟨v, hv, hall' v hv⟩ hyes

/-- Witness for C10: the child of a parent with a Yes declaration and a No declaration gets
Ambiguous. -/
theorem implementsAccessor_parent_rule_witness :
    (implementsAccessor 2 2 "offsetget" mixedAccessorRegistry).map Prod.fst = some (-1) ∧
    ∃ r ar', implementsAccessor (1 + 1) 2 "offsetget" mixedAccessorRegistry = some (r, ar') ∧
      (((∃ v ∈ [(1 : Int), 0], v < 0) ∨
        ((∃ v ∈ [(1 : Int), 0], 0 < v) ∧ ∃ v ∈ [(1 : Int), 0], v = 0)) → r = -1) ∧
      (([(1 : Int), 0] ≠ [] ∧ ∀ v ∈ [(1 : Int), 0], 0 < v) → r = 1) ∧
      (¬ ((∃ v ∈ [(1 : Int), 0], v < 0) ∨
          ((∃ v ∈ [(1 : Int), 0], 0 < v) ∧ ∃ v ∈ [(1 : Int), 0], v = 0)) →
        ¬ ([(1 : Int), 0] ≠ [] ∧ ∀ v ∈ [(1 : Int), 0], 0 < v) → r = 0) ∧
      (findClasses mixedAccessorRegistry "p" = [] → r = 0) ∧
      (r = -1 ∨ r = 0 ∨ r = 1) :=
  ⟨by decide,
    implementsAccessor_parent_rule mixedAccessorRegistry 2
      (ClassScope.create KindOf.KindOfObjectClass "k" "p" ["p"] false false 2)
      "offsetget" 1 [1, 0] mixedAccessorRegistry rfl rfl (by decide) (by decide) (by decide)⟩

/-! ## Memoization of implementsAccessor -/

theorem strcasecmpAux_self : ∀ l : List Char, strcasecmpAux l l = 0
  | [] => rfl
  | a :: as => by
    rw [strcasecmpAux, if_pos rfl]
    exact strcasecmpAux_self as

theorem strcasecmp_self (s : String) : strcasecmp s s = 0 := strcasecmpAux_self s.data

theorem imapFind_imapSet (m : List (String × Int)) (name : String) (v : Int) :
    imapFind (imapSet m name v) name = some v := by
  induction m with
  | nil => simp [imapSet, imapFind, List.find?, strcasecmp_self]
  | cons kw rest ih =>
    obtain ⟨k, w⟩ := kw
    unfold imapSet
    by_cases h : (strcasecmp k name == 0) = true
    · rw [if_pos h]
      simp [imapFind, List.find?, h]
    · rw [if_neg h]
      have h2 : (strcasecmp k name == 0) = false := by simpa using h
      unfold imapFind at ih ⊢
      rw [List.find?_cons, h2]
      exact ih

theorem length_updateClass (ar : AnalysisResult) (self : Nat) (f : ClassScope → ClassScope) :
    (updateClass ar self f).classes.length = ar.classes.length := by
  simp [updateClass, List.length_modify]

theorem implementsAccessorParents_length
    (rec : Nat → AnalysisResult → Option (Int × AnalysisResult))
    (hrec : ∀ cls a v a', rec cls a = some (v, a') → a'.classes.length = a.classes.length) :
    ∀ (alts : List Nat) (yes no : Int) (ar : AnalysisResult) (y n : Int)
      (ar' : AnalysisResult), implementsAccessorParents rec alts yes no ar = some (y, n, ar') →
      ar'.classes.length = ar.classes.length := by
  intro alts
  induction alts with
  | nil =>
    intro yes no ar y n ar' h
    simp only [implementsAccessorParents, Option.some.injEq, Prod.mk.injEq] at h
    rw [h.2.2]
  | cons cls rest ih =>
    intro yes no ar y n ar' h
    unfold implementsAccessorParents at h
    cases hr : rec cls ar with
    | none => rw [hr] at h; cases h
    | some p =>
      obtain ⟨a, ar1⟩ := p
      rw [hr] at h
      have h1 := hrec cls ar a ar1 hr
      simp only at h
      by_cases ha : a < 0
      · rw [if_pos ha] at h
        simp only [Option.some.injEq, Prod.mk.injEq] at h
        rw [← h.2.2, h1]
      · rw [if_neg ha] at h
        by_cases hb : a > 0
        · rw [if_pos hb] at h
          rw [ih _ _ _ _ _ _ h, h1]
        · rw [if_neg hb] at h
          rw [ih _ _ _ _ _ _ h, h1]

theorem implementsAccessor_length : ∀ (fuel self : Nat) (name : String)
    (ar : AnalysisResult) (v : Int) (ar' : AnalysisResult),
    implementsAccessor fuel self name ar = some (v, ar') →
    ar'.classes.length = ar.classes.length := by
  intro fuel
  induction fuel with
  | zero => intro self name ar v ar' h; simp [implementsAccessor] at h
  | succ fuel ih =>
    intro self name ar v ar' h
    unfold implementsAccessor at h
    cases hc : ar.classes[self]? with
    | none => rw [hc] at h; cases h
    | some c =>
      rw [hc] at h
      simp only at h
      cases hm : imapFind c.m_implemented name with
      | some w =>
        rw [hm] at h
        simp only [Option.some.injEq, Prod.mk.injEq] at h
        rw [h.2]
      | none =>
        rw [hm] at h
        simp only at h
        split at h
        · cases hp : implementsAccessorParents (fun cls a => implementsAccessor fuel cls name a)
              (findClasses ar c.m_parent) 0 0 ar with
          | none => rw [hp] at h; cases h
          | some q =>
            obtain ⟨yes, no, ar1⟩ := q
            rw [hp] at h
            simp only [Option.some.injEq, Prod.mk.injEq] at h
            rw [← h.2, length_updateClass]
            exact implementsAccessorParents_length _ (fun cls a v a' => ih cls name a v a')
              _ _ _ _ _ _ _ hp
        · simp only [Option.some.injEq, Prod.mk.injEq] at h
          rw [← h.2, length_updateClass]

/-- After a call of `implementsAccessor` returned `v`, the memo table of the class holds `v`
under the name. -/
theorem implementsAccessor_cached (fuel e : Nat) (name : String) (ar : AnalysisResult)
    (v : Int) (ar1 : AnalysisResult) (h : implementsAccessor fuel e name ar = some (v, ar1)) :
    ∃ c1, ar1.classes[e]? = some c1 ∧ imapFind c1.m_implemented name = some v := by
  cases fuel with
  | zero => simp [implementsAccessor] at h
  | succ fuel =>
    unfold implementsAccessor at h
    cases hc : ar.classes[e]? with
    | none => rw [hc] at h; cases h
    | some c =>
      rw [hc] at h
      simp only at h
      cases hm : imapFind c.m_implemented name with
      | some w =>
        rw [hm] at h
        simp only [Option.some.injEq, Prod.mk.injEq] at h
        refine ⟨c, ?_, ?_⟩
        · rw [← h.2]; exact hc
        · rw [hm, h.1]
      | none =>
        rw [hm] at h
        simp only at h
        have hlt : e < ar.classes.length := by
          rcases Nat.lt_or_ge e ar.classes.length with hl | hl
          · exact hl
          · rw [List.getElem?_eq_none hl] at hc; cases hc
        split at h
        · cases hp : implementsAccessorParents (fun cls a => implementsAccessor fuel cls name a)
              (findClasses ar c.m_parent) 0 0 ar with
          | none => rw [hp] at h; cases h
          | some q =>
            obtain ⟨yes, no, ar1'⟩ := q
            rw [hp] at h
            simp only [Option.some.injEq, Prod.mk.injEq] at h
            have hlen := implementsAccessorParents_length _
              (fun cls a v a' => implementsAccessor_length fuel cls name a v a')
              _ _ _ _ _ _ _ hp
            have hlt1 : e < ar1'.classes.length := by rw [hlen]; exact hlt
            obtain ⟨d, hd⟩ : ∃ d, ar1'.classes[e]? = some d :=
              ⟨_, List.getElem?_eq_getElem hlt1⟩
            obtain ⟨hv, har⟩ := h
            subst har
            subst hv
            exact ⟨_, getElem?_updateClass_self _ hd, imapFind_imapSet _ _ _⟩
        · simp only [Option.some.injEq, Prod.mk.injEq] at h
          obtain ⟨hv, har⟩ := h
          subst har
          subst hv
          exact ⟨_, getElem?_updateClass_self _ hc, imapFind_imapSet _ _ _⟩

/-- A call of `implementsAccessor` on a class whose memo table holds `v` under the name
returns `v` at once and leaves the analysis result as it is. -/
theorem implementsAccessor_hit (fuel e : Nat) (name : String) (ar : AnalysisResult)
    (c : ClassScope) (v : Int) (hc : ar.classes[e]? = some c)
    (hv : imapFind c.m_implemented name = some v) :
    implementsAccessor (fuel + 1) e name ar = some (v, ar) := by
  unfold implementsAccessor
  rw [hc]
  simp only
  rw [hv]

/-- C11: `implementsAccessor` is memoized. After a call of `implementsAccessor(e, name)`
returned `v`, the memo table of `e` holds `v` under `name`; and in every later analysis
result in which the memo entry of `e` under `name` is the one the first call left (whatever
else changed: other classes, the method table and the bases of `e`), a call on `e` and `name`
returns `v` with any fuel, already with fuel for one call only, hence without a nested call,
and leaves the analysis result unchanged. -/
theorem implementsAccessor_memoized (fuel e : Nat) (name : String) (ar : AnalysisResult)
    (v : Int) (ar1 : AnalysisResult) (h : implementsAccessor fuel e name ar = some (v, ar1)) :
    (∃ c1, ar1.classes[e]? = some c1 ∧ imapFind c1.m_implemented name = some v) ∧
    ∀ (ar2 : AnalysisResult) (c1 c2 : ClassScope) (fuel2 : Nat),
      ar1.classes[e]? = some c1 → ar2.classes[e]? = some c2 →
      imapFind c2.m_implemented name = imapFind c1.m_implemented name →
      implementsAccessor (fuel2 + 1) e name ar2 = some (v, ar2) := by
  obtain ⟨d, hd, hv⟩ := implementsAccessor_cached fuel e name ar v ar1 h
  refine ⟨⟨d, hd, hv⟩, ?_⟩
  intro ar2 c1 c2 fuel2 h1 h2 hsame
  rw [hd] at h1
  cases h1
  exact implementsAccessor_hit fuel2 e name ar2 c2 v h2 (by rw [hsame, hv])

theorem implementsAccessor_memoized_witness :
    implementsAccessor 1 0 "offsetget" accessorRegistry = some (0, memoRegistry) ∧
    implementsAccessor (0 + 1) 0 "offsetget" changedRegistry = some (0, changedRegistry) :=
  ⟨by decide,
    (implementsAccessor_memoized 1 0 "offsetget" accessorRegistry 0 memoRegistry
      (by decide)).2 changedRegistry
      { ClassScope.create KindOf.KindOfObjectClass "c" "" [] false false 0 with
        m_functions := [("offsetget", [0])], m_implemented := [("offsetget", 0)] }
      { ClassScope.create KindOf.KindOfObjectClass "c" "k" ["k"] false false 0 with
        m_functions := [("foo", [0])], m_implemented := [("offsetget", 0)] }
      0 (by decide) (by decide) (by decide)⟩

/-! ## implementsArrayAccess -/

/-- C12: `implementsArrayAccess` on a class without parent and without cached value does not
follow the capability rule. The class `a`, whose only base is `arrayaccess`, gets No (0), and
the class `b`, whose only base is the unrelated interface `countable`, gets Yes (1): the loop
of lines 114-119 sets the result when `strcasecmp` is non-zero, that is when the base name
differs from `arrayaccess`. -/
theorem implementsArrayAccess_base_mismatch :
    strcasecmp "arrayaccess" "arrayaccess" = 0 ∧
    (implementsArrayAccess 1 0 arrayAccessRegistry).map Prod.fst = some 0 ∧
    strcasecmp "countable" "arrayaccess" ≠ 0 ∧
    (implementsArrayAccess 1 1 arrayAccessRegistry).map Prod.fst = some 1 := by
  decide

/-! ## derivesFrom -/

theorem derivesDirectlyFrom_iff (c : ClassScope) (base : String) :
    c.derivesDirectlyFrom base = true ↔ base ∈ c.m_bases := by
  unfold ClassScope.derivesDirectlyFrom
  rw [List.any_eq_true]
  constructor
  · rintro ⟨x, hx, he⟩
    have : x = base := by simpa using he
    rw [← this]; exact hx
  · intro h
    exact ⟨base, h, by simp⟩

/-- The loop of `derivesFrom` returns, and it returns true iff some base resolves to a class
that ends the walk at once (strict, redeclaring, default true) or on which the walk, when it
enters it, succeeds. -/
theorem derivesFromBases_spec (rec : Nat → Option Bool) (ar : AnalysisResult)
    (strict dflt : Bool) (P : Nat → Prop) :
    ∀ (bs : List String),
      (∀ b ∈ bs, ∀ y cy, findClass ar b = some y → ar.classes[y]? = some cy →
        ¬ (strict = true ∧ cy.isRedeclaring = true) →
        ∃ r, rec y = some r ∧ (r = true ↔ P y)) →
      ∃ r, derivesFromBases rec ar strict dflt bs = some r ∧
        (r = true ↔ ∃ b ∈ bs, ∃ y cy, findClass ar b = some y ∧ ar.classes[y]? = some cy ∧
          ((strict = true ∧ cy.isRedeclaring = true ∧ dflt = true) ∨
            (¬ (strict = true ∧ cy.isRedeclaring = true) ∧ P y))) := by
  intro bs
  induction bs with
  | nil =>
    intro _
    exact ⟨false, rfl, by simp⟩
  | cons b rest ih =>
    intro hrec
    obtain ⟨r0, hr0, hiff0⟩ := ih (fun b' hb' => hrec b' (List.mem_cons_of_mem _ hb'))
    unfold derivesFromBases
    cases hf : findClass ar b with
    | none =>
      simp only
      refine ⟨r0, hr0, hiff0.trans ⟨?_, ?_⟩⟩
      · rintro ⟨b', hb', h⟩
        exact ⟨b', List.mem_cons_of_mem _ hb', h⟩
      · rintro ⟨b', hb', y, cy, hy, h⟩
        rcases List.mem_cons.1 hb' with e | hb''
        · rw [e, hf] at hy; cases hy
        · exact ⟨b', hb'', y, cy, hy, h⟩
    | some cl =>
      obtain ⟨ccl, hccl, _⟩ := findClass_some hf
      simp only
      rw [hccl]
      simp only
      have back : (∃ b' ∈ b :: rest, ∃ y cy, findClass ar b' = some y ∧
          ar.classes[y]? = some cy ∧
          ((strict = true ∧ cy.isRedeclaring = true ∧ dflt = true) ∨
            (¬ (strict = true ∧ cy.isRedeclaring = true) ∧ P y))) →
          ((strict = true ∧ ccl.isRedeclaring = true ∧ dflt = true) ∨
            (¬ (strict = true ∧ ccl.isRedeclaring = true) ∧ P cl)) ∨ r0 = true := by
        rintro ⟨b', hb', y, cy, hy, h⟩
        rcases List.mem_cons.1 hb' with e | hb''
        · rw [e, hf] at hy
          cases hy
          rw [hccl] at h
          obtain ⟨h1, h2⟩ := h
          cases h1
          exact Or.inl h2
        · exact Or.inr (hiff0.2 ⟨b', hb'', y, cy, hy, h⟩)
      have fwd0 : r0 = true → ∃ b' ∈ b :: rest, ∃ y cy, findClass ar b' = some y ∧
          ar.classes[y]? = some cy ∧
          ((strict = true ∧ cy.isRedeclaring = true ∧ dflt = true) ∨
            (¬ (strict = true ∧ cy.isRedeclaring = true) ∧ P y)) := by
        intro h
        obtain ⟨b', hb', h'⟩ := hiff0.1 h
        exact ⟨b', List.mem_cons_of_mem _ hb', h'⟩
      by_cases hsr : (strict && ccl.isRedeclaring) = true
      · rw [if_pos hsr]
        have hsr' : strict = true ∧ ccl.isRedeclaring = true := by
          simpa [Bool.and_eq_true] using hsr
        by_cases hd : dflt = true
        · rw [if_pos hd]
          refine ⟨true, rfl, ⟨fun _ => ?_, fun _ => rfl⟩⟩
          exact ⟨b, List.mem_cons_self _ _, cl, ccl, hf, hccl, Or.inl ⟨hsr'.1, hsr'.2, hd⟩⟩
        · rw [if_neg hd]
          refine ⟨r0, hr0, ⟨fwd0, fun h => ?_⟩⟩
          rcases back h with (h1 | h1) | h1
          · exact absurd h1.2.2 hd
          · exact absurd hsr' h1.1
          · exact h1
      · rw [if_neg hsr]
        have hsr' : ¬ (strict = true ∧ ccl.isRedeclaring = true) := by
          simpa [Bool.and_eq_true] using hsr
        obtain ⟨r1, hr1, hiff1⟩ := hrec b (List.mem_cons_self _ _) cl ccl hf hccl hsr'
        rw [hr1]
        cases r1 with
        | true =>
          simp only
          refine ⟨true, rfl, ⟨fun _ => ?_, fun _ => rfl⟩⟩
          exact ⟨b, List.mem_cons_self _ _, cl, ccl, hf, hccl, Or.inr ⟨hsr', hiff1.1 rfl⟩⟩
        | false =>
          simp only
          refine ⟨r0, hr0, ⟨fwd0, fun h => ?_⟩⟩
          rcases back h with (h1 | h1) | h1
          · exact absurd ⟨h1.1, h1.2.1⟩ hsr'
          · have := hiff1.2 h1.2
            cases this
          · exact h1

/-- On an acyclic hierarchy `derivesFrom` returns, and it returns true iff its walk from the
class reaches a class with the base looked for or, with `strict` and `dflt`, a class with a
redeclaring base. -/
theorem derivesFrom_spec {rank : String → Nat} {ar : AnalysisResult} (hacy : Acyclic rank ar)
    (base : String) (strict dflt : Bool) :
    ∀ (fuel e : Nat) (c : ClassScope), ar.classes[e]? = some c → rank c.m_name < fuel →
      ∃ r, derivesFrom fuel ar e base strict dflt = some r ∧
        (r = true ↔ DerivesSpec ar base strict dflt e) := by
  intro fuel
  induction fuel with
  | zero => intro e c _ h; omega
  | succ fuel ih =>
    intro e c hc hr
    unfold derivesFrom
    rw [hc]
    simp only
    by_cases hd : c.derivesDirectlyFrom base = true
    · rw [if_pos hd]
      exact ⟨true, rfl, fun _ => ⟨e, Relation.ReflTransGen.refl,
        Or.inl ⟨c, hc, (derivesDirectlyFrom_iff c base).1 hd⟩⟩, fun _ => rfl⟩
    · rw [if_neg hd]
      obtain ⟨r, hr1, hiff⟩ := derivesFromBases_spec
        (fun cl => derivesFrom fuel ar cl base strict dflt) ar strict dflt
        (DerivesSpec ar base strict dflt) c.m_bases (by
          intro b hb y cy hy hcy _
          obtain ⟨cy', hcy', hn⟩ := findClass_some hy
          rw [hcy] at hcy'
          cases hcy'
          have := hacy e c hc b hb
          exact ih y cy hcy (by rw [hn]; omega))
      refine ⟨r, hr1, hiff.trans ⟨?_, ?_⟩⟩
      · rintro ⟨b, hb, y, cy, hy, hcy, h⟩
        rcases h with ⟨hs, hred, hdf⟩ | ⟨hns, x, hchain, hhit⟩
        · exact ⟨e, Relation.ReflTransGen.refl,
            Or.inr ⟨hs, hdf, c, hc, b, hb, y, cy, hy, hcy, hred⟩⟩
        · refine ⟨x, Relation.ReflTransGen.head ⟨c, cy, b, hc, hb, hy, hcy, ?_⟩ hchain, hhit⟩
          intro hs
          cases hred : cy.isRedeclaring with
          | false => rfl
          | true => exact absurd ⟨hs, hred⟩ hns
      · rintro ⟨x, hchain, hhit⟩
        rcases Relation.ReflTransGen.cases_head hchain with heq | ⟨y, hedge, hrest⟩
        · subst heq
          rcases hhit with ⟨cx, hcx, hb⟩ | ⟨hs, hdf, cx, hcx, b, hb, y, cy, hy, hcy, hred⟩
          · rw [hc] at hcx
            cases hcx
            exact absurd ((derivesDirectlyFrom_iff _ _).2 hb) hd
          · rw [hc] at hcx
            cases hcx
            exact ⟨b, hb, y, cy, hy, hcy, Or.inl ⟨hs, hred, hdf⟩⟩
        · obtain ⟨cx, cy, b, hcx, hb, hy, hcy, hstrict⟩ := hedge
          rw [hc] at hcx
          cases hcx
          refine ⟨b, hb, y, cy, hy, hcy, Or.inr ⟨?_, x, hrest, hhit⟩⟩
          rintro ⟨hs, hred⟩
          rw [hstrict hs] at hred
          cases hred

theorem derivesChain_rank {rank : String → Nat} {ar : AnalysisResult} (hacy : Acyclic rank ar)
    {strict : Bool} {x y : Nat} (h : Relation.ReflTransGen (DerivesEdge ar strict) x y) :
    ∀ cx, ar.classes[x]? = some cx →
      ∃ cy, ar.classes[y]? = some cy ∧ rank cy.m_name ≤ rank cx.m_name := by
  induction h with
  | refl => intro cx hcx; exact ⟨cx, hcx, Nat.le_refl _⟩
  | tail _ hedge ih =>
    intro cx hcx
    obtain ⟨cm, hcm, hle⟩ := ih cx hcx
    obtain ⟨cm', cz, b, hcm', hb, hz, hcz, _⟩ := hedge
    rw [hcm] at hcm'
    cases hcm'
    obtain ⟨cz', hcz', hn⟩ := findClass_some hz
    rw [hcz] at hcz'
    cases hcz'
    have := hacy _ cm hcm b hb
    exact ⟨cz, hcz, by rw [hn]; omega⟩

/-- On a hierarchy without redeclaring classes the walk of `derivesFrom` is the same for
every `strict` and `dflt`. -/
theorem derivesSpec_plain {ar : AnalysisResult}
    (hplain : ∀ (k : Nat) (c : ClassScope), ar.classes[k]? = some c → c.isRedeclaring = false)
    (name : String) (strict dflt : Bool) (e : Nat) :
    DerivesSpec ar name strict dflt e ↔
      ∃ x, Relation.ReflTransGen (DerivesEdge ar false) e x ∧ HasBase ar x name := by
  constructor
  · rintro ⟨x, hchain, hhit⟩
    refine ⟨x, Relation.ReflTransGen.mono ?_ hchain, ?_⟩
    · rintro a b ⟨ca, cb, n, h1, h2, h3, h4, _⟩
      exact ⟨ca, cb, n, h1, h2, h3, h4, fun h => by cases h⟩
    · rcases hhit with h | ⟨_, _, cx, _, b, _, y, cy, _, hcy, hred⟩
      · exact h
      · rw [hplain y cy hcy] at hred
        cases hred
  · rintro ⟨x, hchain, hhit⟩
    refine ⟨x, Relation.ReflTransGen.mono ?_ hchain, Or.inl hhit⟩
    rintro a b ⟨ca, cb, n, h1, h2, h3, h4, _⟩
    exact ⟨ca, cb, n, h1, h2, h3, h4, fun _ => hplain b cb h4⟩

/-- C13: on an acyclic hierarchy in which no class is redeclaring, `derivesFrom(e, name,
strict, def)` returns, with the same result for every `strict` and `def`; the result is true
iff `name` is a base of `e` or of a class reached from `e` through bases that resolve through
`findClass` (so `name` itself need not resolve); and it is false for the name of `e`. -/
theorem derivesFrom_reachable (rank : String → Nat) (ar : AnalysisResult)
    (hacy : Acyclic rank ar)
    (hplain : ∀ (k : Nat) (c : ClassScope), ar.classes[k]? = some c → c.isRedeclaring = false)
    (fuel e : Nat) (c : ClassScope) (name : String) (hc : ar.classes[e]? = some c)
    (hfuel : rank c.m_name < fuel) :
    ∃ r, (∀ strict dflt, derivesFrom fuel ar e name strict dflt = some r) ∧
      (r = true ↔
        ∃ x, Relation.ReflTransGen (DerivesEdge ar false) e x ∧ HasBase ar x name) ∧
      (name = c.m_name → r = false) := by
  obtain ⟨r, hr, hiff⟩ := derivesFrom_spec hacy name false false fuel e c hc hfuel
  have hiff' := hiff.trans (derivesSpec_plain hplain name false false e)
  refine ⟨r, ?_, hiff', ?_⟩
  · intro strict dflt
    obtain ⟨r', hr', hiff2⟩ := derivesFrom_spec hacy name strict dflt fuel e c hc hfuel
    have h2 := hiff2.trans (derivesSpec_plain hplain name strict dflt e)
    have : r' = r := Bool.eq_iff_iff.2 (h2.trans hiff'.symm)
    rw [hr', this]
  · intro hn
    cases hrv : r with
    | false => rfl
    | true =>
      obtain ⟨x, hchain, cx, hcx, hb⟩ := hiff'.1 hrv
      obtain ⟨cx', hcx', hle⟩ := derivesChain_rank hacy hchain c hc
      rw [hcx] at hcx'
      cases hcx'
      have := hacy x cx hcx name hb
      rw [hn] at this
      omega

theorem derivesFrom_reachable_witness :
    derivesFrom 2 siblingRegistry 1 "a" true false = some true ∧
    ∃ r, (∀ strict dflt, derivesFrom 2 siblingRegistry 1 "a" strict dflt = some r) ∧
      (r = true ↔ ∃ x, Relation.ReflTransGen (DerivesEdge siblingRegistry false) 1 x ∧
        HasBase siblingRegistry x "a") ∧
      ("a" = (ClassScope.create KindOf.KindOfObjectClass "b" "a" ["a"] false false 1).m_name →
        r = false) :=
  ⟨by decide, derivesFrom_reachable strictRank siblingRegistry
    (acyclic_of_forall_mem (by decide)) (forall_getElem?_of_forall_mem (by decide)) 2 1
    (ClassScope.create KindOf.KindOfObjectClass "b" "a" ["a"] false false 1) "a"
    (by decide) (by decide)⟩

/-- C14: on an acyclic hierarchy `derivesFrom(e, name, true, false)` returns true iff `name`
is a base of `e` or of a class reached from `e` through a chain of resolved, non-redeclaring
bases; `derivesFrom(e, name, true, true)` returns true iff that holds or some class on such a
chain (`e` included) has a base that resolves to a redeclaring class; and when the first is
true, so are the second and `derivesFrom(e, name, false, d)` for every `d`. -/
theorem derivesFrom_strict (rank : String → Nat) (ar : AnalysisResult)
    (hacy : Acyclic rank ar) (fuel e : Nat) (c : ClassScope) (name : String)
    (hc : ar.classes[e]? = some c) (hfuel : rank c.m_name < fuel) :
    ∃ r0 r1, derivesFrom fuel ar e name true false = some r0 ∧
      derivesFrom fuel ar e name true true = some r1 ∧
      (r0 = true ↔
        ∃ x, Relation.ReflTransGen (DerivesEdge ar true) e x ∧ HasBase ar x name) ∧
      (r1 = true ↔
        (∃ x, Relation.ReflTransGen (DerivesEdge ar true) e x ∧ HasBase ar x name) ∨
        ∃ x, Relation.ReflTransGen (DerivesEdge ar true) e x ∧ HasRedeclaringBase ar x) ∧
      (r0 = true → r1 = true ∧ ∀ d, derivesFrom fuel ar e name false d = some true) := by
  obtain ⟨r0, hr0, hiff0⟩ := derivesFrom_spec hacy name true false fuel e c hc hfuel
  obtain ⟨r1, hr1, hiff1⟩ := derivesFrom_spec hacy name true true fuel e c hc hfuel
  have h0 : r0 = true ↔
      ∃ x, Relation.ReflTransGen (DerivesEdge ar true) e x ∧ HasBase ar x name := by
    rw [hiff0]
    constructor
    · rintro ⟨x, hchain, h | ⟨_, h, _⟩⟩
      · exact ⟨x, hchain, h⟩
      · cases h
    · rintro ⟨x, hchain, h⟩
      exact ⟨x, hchain, Or.inl h⟩
  have h1 : r1 = true ↔
      (∃ x, Relation.ReflTransGen (DerivesEdge ar true) e x ∧ HasBase ar x name) ∨
      ∃ x, Relation.ReflTransGen (DerivesEdge ar true) e x ∧ HasRedeclaringBase ar x := by
    rw [hiff1]
    constructor
    · rintro ⟨x, hchain, h | ⟨_, _, h⟩⟩
      · exact Or.inl ⟨x, hchain, h⟩
      · exact Or.inr ⟨x, hchain, h⟩
    · rintro (⟨x, hchain, h⟩ | ⟨x, hchain, h⟩)
      · exact ⟨x, hchain, Or.inl h⟩
      · exact ⟨x, hchain, Or.inr ⟨rfl, rfl, h⟩⟩
  refine ⟨r0, r1, hr0, hr1, h0, h1, fun h => ⟨h1.2 (Or.inl (h0.1 h)), fun d => ?_⟩⟩
  obtain ⟨r2, hr2, hiff2⟩ := derivesFrom_spec hacy name false d fuel e c hc hfuel
  obtain ⟨x, hchain, hb⟩ := h0.1 h
  have : r2 = true := hiff2.2 ⟨x, Relation.ReflTransGen.mono (by
    rintro a b ⟨ca, cb, n, h1, h2, h3, h4, _⟩
    exact ⟨ca, cb, n, h1, h2, h3, h4, fun h => by cases h⟩) hchain, Or.inl hb⟩
  rw [hr2, this]

theorem derivesFrom_strict_witness :
    derivesFrom 4 strictRegistry 3 "j" true false = some false ∧
    derivesFrom 4 strictRegistry 3 "j" true true = some true ∧
    derivesFrom 4 strictRegistry 3 "j" false false = some true ∧
    ∃ r0 r1, derivesFrom 4 strictRegistry 5 "i" true false = some r0 ∧
      derivesFrom 4 strictRegistry 5 "i" true true = some r1 ∧
      (r0 = true ↔ ∃ x, Relation.ReflTransGen (DerivesEdge strictRegistry true) 5 x ∧
        HasBase strictRegistry x "i") ∧
      (r1 = true ↔
        (∃ x, Relation.ReflTransGen (DerivesEdge strictRegistry true) 5 x ∧
          HasBase strictRegistry x "i") ∨
        ∃ x, Relation.ReflTransGen (DerivesEdge strictRegistry true) 5 x ∧
          HasRedeclaringBase strictRegistry x) ∧
      (r0 = true →
        r1 = true ∧ ∀ d, derivesFrom 4 strictRegistry 5 "i" false d = some true) :=
  ⟨by decide, by decide, by decide, derivesFrom_strict strictRank strictRegistry
    (acyclic_of_forall_mem (by decide)) 4 5
    (ClassScope.create KindOf.KindOfObjectClass "h" "g" ["g"] false false 5) "i"
    (by decide) (by decide)⟩

/-! ## findCommonParent -/

/-- C15: for two distinct known classes `b` and `c` that both directly extend the known
class `a`, neither deriving from the other, `findCommonParent("b", "c")` returns the empty
string and not `a`: the recursive call `findCommonParent("a", "a")` finds that `a` does not
derive from `a`, walks over the bases of `a`, of which there are none, and returns the empty
string. This holds with any amount of fuel for the calls. -/
theorem findCommonParent_siblings_empty (fuel dfuel : Nat) :
    derivesFrom (dfuel + 2) siblingRegistry 1 "c" true false = some false ∧
    derivesFrom (dfuel + 2) siblingRegistry 2 "b" true false = some false ∧
    findCommonParent (fuel + 1) (dfuel + 1) siblingRegistry "a" "a" = some "" ∧
    findCommonParent (fuel + 2) (dfuel + 2) siblingRegistry "b" "c" = some "" := by
  have ha : findClass siblingRegistry "a" = some 0 := by decide
  have hb : findClass siblingRegistry "b" = some 1 := by decide
  have hc : findClass siblingRegistry "c" = some 2 := by decide
  have da : ∀ (n : Nat) (name : String),
      derivesFrom (n + 1) siblingRegistry 0 name true false = some false := by
    intro n name
    simp [derivesFrom, siblingRegistry, ClassScope.create, ClassScope.derivesDirectlyFrom,
      derivesFromBases]
  have db : derivesFrom (dfuel + 2) siblingRegistry 1 "c" true false = some false := by
    rw [derivesFrom]
    have h1 : siblingRegistry.classes[1]? =
        some (ClassScope.create KindOf.KindOfObjectClass "b" "a" ["a"] false false 1) := by
      decide
    rw [h1]
    simp only
    rw [if_neg (by decide)]
    simp only [ClassScope.create, derivesFromBases, ha]
    have h0 : siblingRegistry.classes[0]? =
        some (ClassScope.create KindOf.KindOfObjectClass "a" "" [] false false 0) := by
      decide
    rw [h0, da dfuel "c"]
    rfl
  have dc : derivesFrom (dfuel + 2) siblingRegistry 2 "b" true false = some false := by
    rw [derivesFrom]
    have h1 : siblingRegistry.classes[2]? =
        some (ClassScope.create KindOf.KindOfObjectClass "c" "a" ["a"] false false 2) := by
      decide
    rw [h1]
    simp only
    rw [if_neg (by decide)]
    simp only [ClassScope.create, derivesFromBases, ha]
    have h0 : siblingRegistry.classes[0]? =
        some (ClassScope.create KindOf.KindOfObjectClass "a" "" [] false false 0) := by
      decide
    rw [h0, da dfuel "b"]
    rfl
  have faa : ∀ (n m : Nat),
      findCommonParent (n + 1) (m + 1) siblingRegistry "a" "a" = some "" := by
    intro n m
    rw [findCommonParent, ha]
    simp only
    rw [da m "a"]
    simp only
    have h0 : siblingRegistry.classes[0]? =
        some (ClassScope.create KindOf.KindOfObjectClass "a" "" [] false false 0) := by
      decide
    rw [h0]
    rfl
  refine ⟨db, dc, faa fuel dfuel, ?_⟩
  rw [findCommonParent, hb]
  simp only
  rw [db]
  simp only
  rw [hc]
  simp only
  rw [dc]
  simp only
  have h1 : siblingRegistry.classes[1]? =
      some (ClassScope.create KindOf.KindOfObjectClass "b" "a" ["a"] false false 1) := by
    decide
  have h2 : siblingRegistry.classes[2]? =
      some (ClassScope.create KindOf.KindOfObjectClass "c" "a" ["a"] false false 2) := by
    decide
  rw [h1, h2]
  simp only [ClassScope.create, findCommonParentOuter, findCommonParentInner]
  rw [faa fuel (dfuel + 1)]
  rfl

/-- C16: `findCommonParent(n1, n2)` takes the shortcut before any walk. It returns `n2` when
`n1` does not resolve, and when the class of `n1` derives from `n2` (strict, default false);
otherwise it returns `n1` when `n2` does not resolve, and when the class of `n2` derives from
`n1`. In particular, on an acyclic hierarchy in which the known class `b` has the known class
`c` among its bases, `findCommonParent(b, c)` and `findCommonParent(c, b)` both return `c`. -/
theorem findCommonParent_shortcut (fuel dfuel : Nat) (ar : AnalysisResult) (n1 n2 : String) :
    (findClass ar n1 = none → findCommonParent (fuel + 1) dfuel ar n1 n2 = some n2) ∧
    (∀ k1, findClass ar n1 = some k1 → derivesFrom dfuel ar k1 n2 true false = some true →
      findCommonParent (fuel + 1) dfuel ar n1 n2 = some n2) ∧
    (∀ k1, findClass ar n1 = some k1 → derivesFrom dfuel ar k1 n2 true false = some false →
      findClass ar n2 = none → findCommonParent (fuel + 1) dfuel ar n1 n2 = some n1) ∧
    (∀ k1 k2, findClass ar n1 = some k1 →
      derivesFrom dfuel ar k1 n2 true false = some false → findClass ar n2 = some k2 →
      derivesFrom dfuel ar k2 n1 true false = some true →
      findCommonParent (fuel + 1) dfuel ar n1 n2 = some n1) ∧
    (∀ (rank : String → Nat) (k1 k2 : Nat) (c1 : ClassScope), Acyclic rank ar →
      findClass ar n1 = some k1 → ar.classes[k1]? = some c1 → n2 ∈ c1.m_bases →
      findClass ar n2 = some k2 → rank n1 < dfuel →
      findCommonParent (fuel + 1) dfuel ar n1 n2 = some n2 ∧
      findCommonParent (fuel + 1) dfuel ar n2 n1 = some n2) := by
  have p2 : ∀ (a b : String) (k1 : Nat), findClass ar a = some k1 →
      derivesFrom dfuel ar k1 b true false = some true →
      findCommonParent (fuel + 1) dfuel ar a b = some b := by
    intro a b k1 h1 h2
    rw [findCommonParent, h1]
    simp only
    rw [h2]
  have p4 : ∀ (a b : String) (k1 k2 : Nat), findClass ar a = some k1 →
      derivesFrom dfuel ar k1 b true false = some false → findClass ar b = some k2 →
      derivesFrom dfuel ar k2 a true false = some true →
      findCommonParent (fuel + 1) dfuel ar a b = some a := by
    intro a b k1 k2 h1 h2 h3 h4
    rw [findCommonParent, h1]
    simp only
    rw [h2]
    simp only
    rw [h3]
    simp only
    rw [h4]
  refine ⟨?_, p2 n1 n2, ?_, p4 n1 n2, ?_⟩
  · intro h
    rw [findCommonParent, h]
  · intro k1 h1 h2 h3
    rw [findCommonParent, h1]
    simp only
    rw [h2]
    simp only
    rw [h3]
  · intro rank k1 k2 c1 hacy h1 hc1 hb h2 hfuel
    obtain ⟨c1', hc1', hn1⟩ := findClass_some h1
    rw [hc1] at hc1'
    cases hc1'
    obtain ⟨c2, hc2, hn2⟩ := findClass_some h2
    have hlt : rank n2 < rank n1 := by
      have := hacy k1 c1 hc1 n2 hb
      rw [hn1] at this
      exact this
    obtain ⟨r1, hr1, hiff1⟩ :=
      derivesFrom_spec hacy n2 true false dfuel k1 c1 hc1 (by rw [hn1]; exact hfuel)
    have e1 : r1 = true :=
      hiff1.2 ⟨k1, Relation.ReflTransGen.refl, Or.inl ⟨c1, hc1, hb⟩⟩
    rw [e1] at hr1
    obtain ⟨r2, hr2, hiff2⟩ :=
      derivesFrom_spec hacy n1 true false dfuel k2 c2 hc2 (by rw [hn2]; omega)
    have e2 : r2 = false := by
      cases hrv : r2 with
      | false => rfl
      | true =>
        rcases hiff2.1 hrv with ⟨x, hchain, h | ⟨_, h, _⟩⟩
        · obtain ⟨cx, hcx, hbx⟩ := h
          obtain ⟨cx', hcx', hle⟩ := derivesChain_rank hacy hchain c2 hc2
          rw [hcx] at hcx'
          cases hcx'
          have := hacy x cx hcx n1 hbx
          rw [hn2] at hle
          omega
        · cases h
    rw [e2] at hr2
    exact ⟨p2 n1 n2 k1 h1 hr1, p4 n2 n1 k2 k1 h2 hr2 h1 hr1⟩

theorem findCommonParent_shortcut_witness :
    findCommonParent (0 + 1) 2 siblingRegistry "b" "a" = some "a" ∧
    findCommonParent (0 + 1) 2 siblingRegistry "a" "b" = some "a" ∧
    findCommonParent (0 + 1) 2 siblingRegistry "ghost" "b" = some "b" :=
  ⟨((findCommonParent_shortcut 0 2 siblingRegistry "b" "a").2.2.2.2 strictRank 1 0
      (ClassScope.create KindOf.KindOfObjectClass "b" "a" ["a"] false false 1)
      (acyclic_of_forall_mem (by decide)) (by decide) (by decide) (by decide) (by decide)
      (by decide)).1,
    ((findCommonParent_shortcut 0 2 siblingRegistry "b" "a").2.2.2.2 strictRank 1 0
      (ClassScope.create KindOf.KindOfObjectClass "b" "a" ["a"] false false 1)
      (acyclic_of_forall_mem (by decide)) (by decide) (by decide) (by decide) (by decide)
      (by decide)).2,
    (findCommonParent_shortcut 0 2 siblingRegistry "ghost" "b").1 (by decide)⟩

/-! ## setDynamic and setStaticDynamic -/

theorem FuncDynamic.refl_funcDynamic (f : FunctionScope) : FuncDynamic f f := Or.inl rfl

theorem FuncDynamic.trans_funcDynamic (f g h : FunctionScope) (h1 : FuncDynamic f g)
    (h2 : FuncDynamic g h) : FuncDynamic f h := by
  rcases h1 with h1 | h1 <;> rcases h2 with h2 | h2 <;> subst h1 <;> subst h2
  · exact Or.inl rfl
  · exact Or.inr rfl
  · exact Or.inr rfl
  · exact Or.inr rfl

theorem FuncDynamic.static_eq {f g : FunctionScope} (h : FuncDynamic f g) :
    g.m_static = f.m_static := by
  rcases h with h | h <;> rw [h]

theorem FuncDynamic.dynamic_mono {f g : FunctionScope} (h : FuncDynamic f g)
    (hd : f.m_dynamic = true) : g.m_dynamic = true := by
  rcases h with h | h <;> rw [h]
  exact hd

theorem DynamicOnly.refl_dynamicOnly (a : AnalysisResult) : DynamicOnly a a :=
  ⟨rfl, rfl, rfl, Pointwise.refl_pointwise FuncDynamic.refl_funcDynamic _⟩

theorem DynamicOnly.trans_dynamicOnly {a b c : AnalysisResult} (h1 : DynamicOnly a b)
    (h2 : DynamicOnly b c) : DynamicOnly a c :=
  ⟨h2.1.trans h1.1, h2.2.1.trans h1.2.1, h2.2.2.1.trans h1.2.2.1,
    @Pointwise.trans_pointwise _ FuncDynamic FuncDynamic.trans_funcDynamic _ _ _
      h1.2.2.2 h2.2.2.2⟩

/-- The function scope at an index after a change that only raises dynamic flags comes from
the function scope at the same index before. -/
theorem DynamicOnly.before {a a' : AnalysisResult} (h : DynamicOnly a a') {f : Nat}
    {fs' : FunctionScope} (hf : a'.functions[f]? = some fs') :
    ∃ fs, a.functions[f]? = some fs ∧ FuncDynamic fs fs' := by
  have hlt : f < a.functions.length := by
    rw [← h.2.2.2.1]
    exact (List.getElem?_eq_some.1 hf).1
  obtain ⟨x', hx', hr⟩ := h.2.2.2.2 f _ (List.getElem?_eq_getElem hlt)
  rw [hf] at hx'
  cases hx'
  exact ⟨_, List.getElem?_eq_getElem hlt, hr⟩

theorem IsDynamic.mono_isDynamic {a a' : AnalysisResult} (h : DynamicOnly a a') {f : Nat}
    (hd : IsDynamic a f) : IsDynamic a' f := by
  intro fs' hf
  obtain ⟨fs, hfs, hr⟩ := h.before hf
  exact hr.dynamic_mono (hd fs hfs)

theorem StaticIsDynamic.mono_staticIsDynamic {a a' : AnalysisResult} (h : DynamicOnly a a')
    {f : Nat} (hd : StaticIsDynamic a f) : StaticIsDynamic a' f := by
  intro fs' hf hs
  obtain ⟨fs, hfs, hr⟩ := h.before hf
  exact hr.dynamic_mono (hd fs hfs (by rw [← hr.static_eq]; exact hs))

theorem getElem?_updateFunction (a : AnalysisResult) (k j : Nat)
    (g : FunctionScope → FunctionScope) :
    (updateFunction a k g).functions[j]? = if k = j then (a.functions[j]?).map g
      else a.functions[j]? := by
  simp only [updateFunction, List.getElem?_modify]
  split
  · rfl
  · simp

theorem setFunctionDynamic_dynamicOnly (a : AnalysisResult) (f : Nat) :
    DynamicOnly a (setFunctionDynamic a f) :=
  ⟨rfl, rfl, rfl, Pointwise.modify FuncDynamic.refl_funcDynamic _ _ _ (fun _ _ => Or.inr rfl)⟩

theorem setFunctionDynamic_isDynamic (a : AnalysisResult) (f : Nat) :
    IsDynamic (setFunctionDynamic a f) f := by
  intro fs hf
  unfold setFunctionDynamic at hf
  rw [getElem?_updateFunction, if_pos rfl] at hf
  cases h : a.functions[f]? with
  | none => rw [h] at hf; cases hf
  | some g =>
    rw [h] at hf
    simp only [Option.map_some', Option.some.injEq] at hf
    rw [← hf]

theorem setStaticFunctionDynamic_dynamicOnly (a : AnalysisResult) (f : Nat) :
    DynamicOnly a (setStaticFunctionDynamic a f) := by
  refine ⟨rfl, rfl, rfl, Pointwise.modify FuncDynamic.refl_funcDynamic _ _ _ (fun x _ => ?_)⟩
  by_cases h : x.m_static = true
  · rw [if_pos h]; exact Or.inr rfl
  · rw [if_neg h]; exact Or.inl rfl

theorem setStaticFunctionDynamic_staticIsDynamic (a : AnalysisResult) (f : Nat) :
    StaticIsDynamic (setStaticFunctionDynamic a f) f := by
  intro fs hf hs
  unfold setStaticFunctionDynamic at hf
  rw [getElem?_updateFunction, if_pos rfl] at hf
  cases h : a.functions[f]? with
  | none => rw [h] at hf; cases hf
  | some g =>
    rw [h] at hf
    simp only [Option.map_some', Option.some.injEq] at hf
    by_cases hg : g.m_static = true
    · rw [if_pos hg] at hf
      rw [← hf]
    · rw [if_neg hg] at hf
      rw [← hf] at hs
      exact absurd hs hg

/-- The loop of `setDynamic` over the declarations of the name: every declaration is marked
dynamic, and only dynamic flags are raised. -/
theorem foldl_setFunctionDynamic (decls : List Nat) :
    ∀ (a : AnalysisResult), DynamicOnly a (decls.foldl setFunctionDynamic a) ∧
      ∀ f ∈ decls, IsDynamic (decls.foldl setFunctionDynamic a) f := by
  induction decls with
  | nil => intro a; exact ⟨DynamicOnly.refl_dynamicOnly a, fun _ h => by cases h⟩
  | cons d rest ih =>
    intro a
    rw [List.foldl_cons]
    obtain ⟨h1, h2⟩ := ih (setFunctionDynamic a d)
    refine ⟨(setFunctionDynamic_dynamicOnly a d).trans_dynamicOnly h1, ?_⟩
    intro f hf
    rcases List.mem_cons.1 hf with e | hf'
    · rw [e]
      exact IsDynamic.mono_isDynamic h1 (setFunctionDynamic_isDynamic a d)
    · exact h2 f hf'

theorem foldl_setStaticFunctionDynamic (decls : List Nat) :
    ∀ (a : AnalysisResult), DynamicOnly a (decls.foldl setStaticFunctionDynamic a) ∧
      ∀ f ∈ decls, StaticIsDynamic (decls.foldl setStaticFunctionDynamic a) f := by
  induction decls with
  | nil => intro a; exact ⟨DynamicOnly.refl_dynamicOnly a, fun _ h => by cases h⟩
  | cons d rest ih =>
    intro a
    rw [List.foldl_cons]
    obtain ⟨h1, h2⟩ := ih (setStaticFunctionDynamic a d)
    refine ⟨(setStaticFunctionDynamic_dynamicOnly a d).trans_dynamicOnly h1, ?_⟩
    intro f hf
    rcases List.mem_cons.1 hf with e | hf'
    · rw [e]
      exact StaticIsDynamic.mono_staticIsDynamic h1
        (setStaticFunctionDynamic_staticIsDynamic a d)
    · exact h2 f hf'

/-- The loop of `setStaticDynamic` over the own method table. -/
theorem setStaticDynamicOwn_spec (fns : List (String × List Nat)) :
    ∀ (a : AnalysisResult), DynamicOnly a (setStaticDynamicOwn fns a) ∧
      ∀ nd ∈ fns, ∀ f ∈ nd.2, StaticIsDynamic (setStaticDynamicOwn fns a) f := by
  induction fns with
  | nil => intro a; exact ⟨DynamicOnly.refl_dynamicOnly a, fun _ h => by cases h⟩
  | cons d rest ih =>
    intro a
    unfold setStaticDynamicOwn
    rw [List.foldl_cons]
    obtain ⟨h0, h0'⟩ := foldl_setStaticFunctionDynamic d.2 a
    obtain ⟨h1, h2⟩ := ih (d.2.foldl setStaticFunctionDynamic a)
    unfold setStaticDynamicOwn at h1 h2
    refine ⟨h0.trans_dynamicOnly h1, ?_⟩
    intro nd hnd f hf
    rcases List.mem_cons.1 hnd with e | hnd'
    · rw [e] at hf
      exact StaticIsDynamic.mono_staticIsDynamic h1 (h0' f hf)
    · exact h2 nd hnd' f hf

/-- The loop over the declarations of the parent: when every recursive call returns, raises
only dynamic flags and establishes a property that later raises keep, so does the loop, for
every declaration. -/
theorem setDynamicParents_spec (rec : Nat → AnalysisResult → Option AnalysisResult)
    (Q : Nat → AnalysisResult → Prop)
    (hQ : ∀ cl a a', DynamicOnly a a' → Q cl a → Q cl a') :
    ∀ (alts : List Nat) (ar : AnalysisResult),
      (∀ cl ∈ alts, ∀ a, DynamicOnly ar a →
        ∃ a', rec cl a = some a' ∧ DynamicOnly a a' ∧ Q cl a') →
      ∃ ar', setDynamicParents rec alts ar = some ar' ∧ DynamicOnly ar ar' ∧
        ∀ cl ∈ alts, Q cl ar' := by
  intro alts
  induction alts with
  | nil =>
    intro ar _
    exact ⟨ar, rfl, DynamicOnly.refl_dynamicOnly ar, fun _ h => by cases h⟩
  | cons cl rest ih =>
    intro ar h
    obtain ⟨a1, hr, hd, hq⟩ := h cl (List.mem_cons_self _ _) ar (DynamicOnly.refl_dynamicOnly ar)
    obtain ⟨a2, hr2, hd2, hq2⟩ := ih a1 (fun cl' hcl' a ha =>
      h cl' (List.mem_cons_of_mem _ hcl') a (hd.trans_dynamicOnly ha))
    refine ⟨a2, ?_, hd.trans_dynamicOnly hd2, ?_⟩
    · unfold setDynamicParents
      rw [hr]
      exact hr2
    · intro cl' hcl'
      rcases List.mem_cons.1 hcl' with e | h'
      · rw [e]
        exact hQ cl a1 a2 hd2 hq
      · exact hq2 cl' h'

theorem findClasses_classes_eq {a a' : AnalysisResult} (h : a'.classes = a.classes)
    (n : String) : findClasses a' n = findClasses a n := by
  unfold findClasses
  rw [h]

theorem findClass_classes_eq {a a' : AnalysisResult} (h : a'.classes = a.classes)
    (n : String) : findClass a' n = findClass a n := by
  unfold findClass
  rw [findClasses_classes_eq h]

theorem parentStep_rank {rank : String → Nat} {ar : AnalysisResult}
    (hacy : ParentAcyclic rank ar) {x y : Nat} (h : ParentStep ar x y) :
    ∀ cx, ar.classes[x]? = some cx →
      ∃ cy, ar.classes[y]? = some cy ∧ rank cy.m_name < rank cx.m_name := by
  intro cx hcx
  obtain ⟨cx', hcx', hp, hstep⟩ := h
  rw [hcx] at hcx'
  cases hcx'
  have hlt := hacy x cx hcx hp
  rcases hstep with ⟨_, hy⟩ | ⟨_, hy⟩
  · obtain ⟨cy, hcy, hn⟩ := mem_findClasses.1 hy
    exact ⟨cy, hcy, by rw [hn]; exact hlt⟩
  · obtain ⟨cy, hcy, hn⟩ := findClass_some hy
    exact ⟨cy, hcy, by rw [hn]; exact hlt⟩

theorem DynamicTargets.mono_dynamicTargets {a0 : AnalysisResult} {name : String} {e : Nat}
    {a a' : AnalysisResult} (h : DynamicOnly a a') (ht : DynamicTargets a0 name e a) :
    DynamicTargets a0 name e a' :=
  fun x cx decls hchain hcx hl f hf => IsDynamic.mono_isDynamic h (ht x cx decls hchain hcx hl f hf)

theorem StaticTargets.mono_staticTargets {a0 : AnalysisResult} {e : Nat}
    {a a' : AnalysisResult} (h : DynamicOnly a a') (ht : StaticTargets a0 e a) :
    StaticTargets a0 e a' :=
  fun x cx hchain hcx nd hnd f hf =>
    StaticIsDynamic.mono_staticIsDynamic h (ht x cx hchain hcx nd hnd f hf)

/-- On a hierarchy with an acyclic parent chain `setDynamic` returns, raises only dynamic
flags, and marks every declaration of the name in the classes its walk reaches. -/
theorem setDynamic_spec {rank : String → Nat} {a0 : AnalysisResult}
    (hacy : ParentAcyclic rank a0) (name : String) :
    ∀ (fuel e : Nat) (c : ClassScope) (ar : AnalysisResult), ar.classes = a0.classes →
      a0.classes[e]? = some c → rank c.m_name < fuel →
      ∃ ar', setDynamic fuel e name ar = some ar' ∧ DynamicOnly ar ar' ∧
        DynamicTargets a0 name e ar' := by
  intro fuel
  induction fuel with
  | zero => intro e c ar _ _ h; omega
  | succ fuel ih =>
    intro e c ar hcl hc hfuel
    have hc' : ar.classes[e]? = some c := by rw [hcl]; exact hc
    unfold setDynamic
    rw [hc']
    simp only
    cases hl : c.m_functions.lookup name with
    | some decls =>
      simp only
      obtain ⟨h1, h2⟩ := foldl_setFunctionDynamic decls ar
      refine ⟨_, rfl, h1, ?_⟩
      intro x cx decls' hchain hcx hlk f hf
      rcases Relation.ReflTransGen.cases_head hchain with heq | ⟨y, ⟨_, cx', hcx', hnone⟩, _⟩
      · subst heq
        rw [hc] at hcx
        cases hcx
        rw [hl] at hlk
        cases hlk
        exact h2 f hf
      · rw [hc] at hcx'
        cases hcx'
        rw [hl] at hnone
        cases hnone
    | none =>
      simp only
      have noself : ∀ (cx : ClassScope) (decls : List Nat), a0.classes[e]? = some cx →
          cx.m_functions.lookup name = some decls → False := by
        intro cx decls hcx hlk
        rw [hc] at hcx
        cases hcx
        rw [hl] at hlk
        cases hlk
      by_cases hp : (c.m_parent != "") = true
      · rw [if_pos hp]
        have hp' : c.m_parent ≠ "" := by simpa using hp
        have hlt := hacy e c hc hp'
        by_cases hdr : (c.m_derivesFromRedeclaring == Derivation.DirectFromRedeclared) = true
        · rw [if_pos hdr]
          have hdr' : c.m_derivesFromRedeclaring = Derivation.DirectFromRedeclared := by
            simpa using hdr
          have halts : findRedeclaredClasses ar c.m_parent =
              findRedeclaredClasses a0 c.m_parent := findClasses_classes_eq hcl _
          rw [halts]
          obtain ⟨ar', hr, hd, hq⟩ := setDynamicParents_spec
            (fun cl a => setDynamic fuel cl name a) (fun cl a' => DynamicTargets a0 name cl a')
            (fun cl a a' h ht => DynamicTargets.mono_dynamicTargets h ht)
            (findRedeclaredClasses a0 c.m_parent) ar (by
              intro cl hcl' a ha
              obtain ⟨ccl, hccl, hn⟩ := mem_findClasses.1 hcl'
              exact ih cl ccl a (ha.1.trans hcl) hccl (by rw [hn]; omega))
          refine ⟨ar', hr, hd, ?_⟩
          intro x cx decls hchain hcx hlk f hf
          rcases Relation.ReflTransGen.cases_head hchain with heq | ⟨y, ⟨hstep, _⟩, hrest⟩
          · subst heq
            exact (noself cx decls hcx hlk).elim
          · obtain ⟨ce, hce, _, hb⟩ := hstep
            rw [hc] at hce
            cases hce
            rcases hb with ⟨_, hy⟩ | ⟨hnd, _⟩
            · exact hq y hy x cx decls hrest hcx hlk f hf
            · exact absurd hdr' hnd
        · rw [if_neg hdr]
          have hdr' : c.m_derivesFromRedeclaring ≠ Derivation.DirectFromRedeclared := by
            simpa using hdr
          rw [findClass_classes_eq hcl]
          cases hf : findClass a0 c.m_parent with
          | some p =>
            simp only
            obtain ⟨cp, hcp, hn⟩ := findClass_some hf
            obtain ⟨ar', hr, hd, hq⟩ := ih p cp ar hcl hcp (by rw [hn]; omega)
            refine ⟨ar', hr, hd, ?_⟩
            intro x cx decls hchain hcx hlk f hf'
            rcases Relation.ReflTransGen.cases_head hchain with heq | ⟨y, ⟨hstep, _⟩, hrest⟩
            · subst heq
              exact (noself cx decls hcx hlk).elim
            · obtain ⟨ce, hce, _, hb⟩ := hstep
              rw [hc] at hce
              cases hce
              rcases hb with ⟨hdd, _⟩ | ⟨_, hy⟩
              · exact absurd hdd hdr'
              · rw [hf] at hy
                cases hy
                exact hq x cx decls hrest hcx hlk f hf'
          | none =>
            simp only
            refine ⟨ar, rfl, DynamicOnly.refl_dynamicOnly ar, ?_⟩
            intro x cx decls hchain hcx hlk f _
            rcases Relation.ReflTransGen.cases_head hchain with heq | ⟨y, ⟨hstep, _⟩, _⟩
            · subst heq
              exact (noself cx decls hcx hlk).elim
            · obtain ⟨ce, hce, _, hb⟩ := hstep
              rw [hc] at hce
              cases hce
              rcases hb with ⟨hdd, _⟩ | ⟨_, hy⟩
              · exact absurd hdd hdr'
              · rw [hf] at hy
                cases hy
      · rw [if_neg hp]
        have hp' : c.m_parent = "" := by simpa using hp
        refine ⟨ar, rfl, DynamicOnly.refl_dynamicOnly ar, ?_⟩
        intro x cx decls hchain hcx hlk f _
        rcases Relation.ReflTransGen.cases_head hchain with heq | ⟨y, ⟨hstep, _⟩, _⟩
        · subst heq
          exact (noself cx decls hcx hlk).elim
        · obtain ⟨ce, hce, hne, _⟩ := hstep
          rw [hc] at hce
          cases hce
          exact absurd hp' hne

/-- On a hierarchy with an acyclic parent chain `setStaticDynamic` returns, raises only
dynamic flags, and marks every static function of the class and of the classes up its parent
chain. -/
theorem setStaticDynamic_spec {rank : String → Nat} {a0 : AnalysisResult}
    (hacy : ParentAcyclic rank a0) :
    ∀ (fuel e : Nat) (c : ClassScope) (ar : AnalysisResult), ar.classes = a0.classes →
      a0.classes[e]? = some c → rank c.m_name < fuel →
      ∃ ar', setStaticDynamic fuel e ar = some ar' ∧ DynamicOnly ar ar' ∧
        StaticTargets a0 e ar' := by
  intro fuel
  induction fuel with
  | zero => intro e c ar _ _ h; omega
  | succ fuel ih =>
    intro e c ar hcl hc hfuel
    have hc' : ar.classes[e]? = some c := by rw [hcl]; exact hc
    unfold setStaticDynamic
    rw [hc']
    simp only
    obtain ⟨hown, hmarks⟩ := setStaticDynamicOwn_spec c.m_functions ar
    have hcl1 : (setStaticDynamicOwn c.m_functions ar).classes = a0.classes :=
      hown.1.trans hcl
    have self : ∀ (a' : AnalysisResult), DynamicOnly (setStaticDynamicOwn c.m_functions ar) a' →
        ∀ (cx : ClassScope), a0.classes[e]? = some cx →
        ∀ nd ∈ cx.m_functions, ∀ f ∈ nd.2, StaticIsDynamic a' f := by
      intro a' ha cx hcx nd hnd f hf
      rw [hc] at hcx
      cases hcx
      exact StaticIsDynamic.mono_staticIsDynamic ha (hmarks nd hnd f hf)
    by_cases hp : (c.m_parent != "") = true
    · rw [if_pos hp]
      have hp' : c.m_parent ≠ "" := by simpa using hp
      have hlt := hacy e c hc hp'
      by_cases hdr : (c.m_derivesFromRedeclaring == Derivation.DirectFromRedeclared) = true
      · rw [if_pos hdr]
        have hdr' : c.m_derivesFromRedeclaring = Derivation.DirectFromRedeclared := by
          simpa using hdr
        have halts : findRedeclaredClasses (setStaticDynamicOwn c.m_functions ar) c.m_parent =
            findRedeclaredClasses a0 c.m_parent := findClasses_classes_eq hcl1 _
        rw [halts]
        obtain ⟨ar', hr, hd, hq⟩ := setDynamicParents_spec
          (fun cl a => setStaticDynamic fuel cl a) (fun cl a' => StaticTargets a0 cl a')
          (fun cl a a' h ht => StaticTargets.mono_staticTargets h ht)
          (findRedeclaredClasses a0 c.m_parent) (setStaticDynamicOwn c.m_functions ar) (by
            intro cl hcl' a ha
            obtain ⟨ccl, hccl, hn⟩ := mem_findClasses.1 hcl'
            exact ih cl ccl a (ha.1.trans hcl1) hccl (by rw [hn]; omega))
        refine ⟨ar', hr, hown.trans_dynamicOnly hd, ?_⟩
        intro x cx hchain hcx nd hnd f hf
        rcases Relation.ReflTransGen.cases_head hchain with heq | ⟨y, hstep, hrest⟩
        · subst heq
          exact self ar' hd cx hcx nd hnd f hf
        · obtain ⟨ce, hce, _, hb⟩ := hstep
          rw [hc] at hce
          cases hce
          rcases hb with ⟨_, hy⟩ | ⟨hnd', _⟩
          · exact hq y hy x cx hrest hcx nd hnd f hf
          · exact absurd hdr' hnd'
      · rw [if_neg hdr]
        have hdr' : c.m_derivesFromRedeclaring ≠ Derivation.DirectFromRedeclared := by
          simpa using hdr
        rw [findClass_classes_eq hcl1]
        cases hf : findClass a0 c.m_parent with
        | some p =>
          simp only
          obtain ⟨cp, hcp, hn⟩ := findClass_some hf
          obtain ⟨ar', hr, hd, hq⟩ := ih p cp _ hcl1 hcp (by rw [hn]; omega)
          refine ⟨ar', hr, hown.trans_dynamicOnly hd, ?_⟩
          intro x cx hchain hcx nd hnd f hf'
          rcases Relation.ReflTransGen.cases_head hchain with heq | ⟨y, hstep, hrest⟩
          · subst heq
            exact self ar' hd cx hcx nd hnd f hf'
          · obtain ⟨ce, hce, _, hb⟩ := hstep
            rw [hc] at hce
            cases hce
            rcases hb with ⟨hdd, _⟩ | ⟨_, hy⟩
            · exact absurd hdd hdr'
            · rw [hf] at hy
              cases hy
              exact hq x cx hrest hcx nd hnd f hf'
        | none =>
          simp only
          refine ⟨_, rfl, hown, ?_⟩
          intro x cx hchain hcx nd hnd f hf'
          rcases Relation.ReflTransGen.cases_head hchain with heq | ⟨y, hstep, _⟩
          · subst heq
            exact self _ (DynamicOnly.refl_dynamicOnly _) cx hcx nd hnd f hf'
          · obtain ⟨ce, hce, _, hb⟩ := hstep
            rw [hc] at hce
            cases hce
            rcases hb with ⟨hdd, _⟩ | ⟨_, hy⟩
            · exact absurd hdd hdr'
            · rw [hf] at hy
              cases hy
    · rw [if_neg hp]
      have hp' : c.m_parent = "" := by simpa using hp
      refine ⟨_, rfl, hown, ?_⟩
      intro x cx hchain hcx nd hnd f hf'
      rcases Relation.ReflTransGen.cases_head hchain with heq | ⟨y, hstep, _⟩
      · subst heq
        exact self _ (DynamicOnly.refl_dynamicOnly _) cx hcx nd hnd f hf'
      · obtain ⟨ce, hce, hne, _⟩ := hstep
        rw [hc] at hce
        cases hce
        exact absurd hp' hne

/-- C20, counterexample: on the parent chain `e extends p`, where both classes declare the
method `foo`, `setDynamic(e, "foo")` marks the declaration of `e` (function 1) and leaves the
declaration of the parent `p` (function 0) not dynamic. -/
theorem setDynamic_stops_at_declaration :
    (dynamicRegistry.classes[1]?).map (fun c => c.m_parent) = some "p" ∧
    findClass dynamicRegistry "p" = some 0 ∧
    (dynamicRegistry.classes[0]?).map (fun c => c.m_functions.lookup "foo") =
      some (some [0]) ∧
    (setDynamic 2 1 "foo" dynamicRegistry).map
      (fun a => a.functions.map (fun f => f.m_dynamic)) =
      some [false, true, false, false] := by
  decide

/-- C20: on a hierarchy with an acyclic parent chain `setDynamic(e, name)` returns, and
afterwards every declaration of `name` is dynamic in `e` and in every class reached from `e`
by steps up the parent chain that leave a class without own entry for `name` (to every
declaration of the parent when the class is DirectFromRedeclared, else to the class the parent
resolves to): the walk stops at a class that declares `name`. Likewise `setStaticDynamic(e)`
returns, and afterwards every static function of `e` and of every class reached from `e` by
such steps, taken from every class, is dynamic. -/
theorem setDynamic_marks (rank : String → Nat) (ar : AnalysisResult)
    (hacy : ParentAcyclic rank ar) (fuel e : Nat) (c : ClassScope) (name : String)
    (hc : ar.classes[e]? = some c) (hfuel : rank c.m_name < fuel) :
    (∃ ar', setDynamic fuel e name ar = some ar' ∧
      ∀ (x : Nat) (cx : ClassScope) (decls : List Nat),
        Relation.ReflTransGen (DynamicStep ar name) e x → ar.classes[x]? = some cx →
        cx.m_functions.lookup name = some decls → ∀ f ∈ decls, IsDynamic ar' f) ∧
    (∃ ar', setStaticDynamic fuel e ar = some ar' ∧
      ∀ (x : Nat) (cx : ClassScope),
        Relation.ReflTransGen (ParentStep ar) e x → ar.classes[x]? = some cx →
        ∀ nd ∈ cx.m_functions, ∀ f ∈ nd.2, StaticIsDynamic ar' f) := by
  obtain ⟨a1, h1, _, t1⟩ := setDynamic_spec hacy name fuel e c ar rfl hc hfuel
  obtain ⟨a2, h2, _, t2⟩ := setStaticDynamic_spec hacy fuel e c ar rfl hc hfuel
  exact ⟨⟨a1, h1, t1⟩, ⟨a2, h2, t2⟩⟩

theorem setDynamic_marks_witness :
    (setDynamic 2 1 "sp" dynamicRegistry).map
      (fun a => a.functions.map (fun f => f.m_dynamic)) =
      some [false, false, true, false] ∧
    (setStaticDynamic 2 1 dynamicRegistry).map
      (fun a => a.functions.map (fun f => f.m_dynamic)) =
      some [false, false, true, true] ∧
    (∃ ar', setDynamic 2 1 "sp" dynamicRegistry = some ar' ∧
      ∀ (x : Nat) (cx : ClassScope) (decls : List Nat),
        Relation.ReflTransGen (DynamicStep dynamicRegistry "sp") 1 x →
        dynamicRegistry.classes[x]? = some cx →
        cx.m_functions.lookup "sp" = some decls → ∀ f ∈ decls, IsDynamic ar' f) ∧
    (∃ ar', setStaticDynamic 2 1 dynamicRegistry = some ar' ∧
      ∀ (x : Nat) (cx : ClassScope),
        Relation.ReflTransGen (ParentStep dynamicRegistry) 1 x →
        dynamicRegistry.classes[x]? = some cx →
        ∀ nd ∈ cx.m_functions, ∀ f ∈ nd.2, StaticIsDynamic ar' f) :=
  ⟨by decide, by decide,
    setDynamic_marks dynamicRank dynamicRegistry (parentAcyclic_of_forall_mem (by decide)) 2 1
      { ClassScope.create KindOf.KindOfObjectClass "e" "p" ["p"] false false 1 with
        m_functions := [("foo", [1]), ("se", [3])] } "sp" (by decide) (by decide)⟩

/-! ## findFunction -/

theorem lookup_mem {β : Type} {l : List (String × β)} {k : String} {v : β}
    (h : l.lookup k = some v) : (k, v) ∈ l := by
  induction l with
  | nil => cases h
  | cons kv rest ih =>
    obtain ⟨k', v'⟩ := kv
    rw [List.lookup_cons] at h
    by_cases hk : (k == k') = true
    · rw [hk] at h
      simp only [Option.some.injEq] at h
      have : k = k' := by simpa using hk
      rw [this, h]
      exact List.mem_cons_self _ _
    · have hk' : (k == k') = false := by simpa using hk
      rw [hk'] at h
      exact List.mem_cons_of_mem _ (ih h)

/-- The loop of `findFunction` over bases that resolve to classes that are not redeclaring,
when every recursive call leaves the analysis result as it is: the loop returns the first
function a recursive call finds, and leaves the analysis result as it is. -/
theorem findFunctionBases_plain
    (rec : Nat → AnalysisResult → Option (Option Nat × AnalysisResult)) (ar : AnalysisResult)
    (self : Nat) :
    ∀ (bs : List String),
      (∀ b ∈ bs, ∀ p, findClass ar b = some p →
        (∃ cp, ar.classes[p]? = some cp ∧ cp.isRedeclaring = false) ∧
          ∃ r, rec p ar = some (r, ar)) →
      findFunctionBases rec false self bs ar =
        some ((bs.filterMap (findClass ar)).findSome? (fun p => (rec p ar).bind Prod.fst),
          ar) := by
  intro bs
  induction bs with
  | nil => intro _; rfl
  | cons b rest ih =>
    intro h
    have ih' := ih (fun b' hb' => h b' (List.mem_cons_of_mem _ hb'))
    unfold findFunctionBases
    cases hf : findClass ar b with
    | none =>
      simp only
      rw [ih', List.filterMap_cons, hf]
    | some p =>
      obtain ⟨⟨cp, hcp, hred⟩, r, hr⟩ := h b (List.mem_cons_self _ _) p hf
      simp only
      rw [hcp]
      simp only [Bool.false_and, Bool.false_eq_true, if_false, hred]
      rw [hr, List.filterMap_cons, hf]
      simp only
      rw [List.findSome?_cons, hr]
      cases r with
      | none =>
        simp only [Option.bind_some]
        exact ih'
      | some f => rfl

theorem findFallback_plain (fuel self : Nat) (name : String) (ar : AnalysisResult)
    (c : ClassScope) (hc : ar.classes[self]? = some c)
    (hd : c.m_derivesFromRedeclaring ≠ Derivation.DirectFromRedeclared) :
    findFallback fuel self name ar = some (none, ar) := by
  unfold findFallback
  rw [hc]
  simp only
  rw [if_neg (by simpa using hd)]

/-- The classes reached from a base of `e` are reached from `e`. -/
theorem derivesEdge_of_base {ar : AnalysisResult} {e p : Nat} {c : ClassScope} {b : String}
    (hc : ar.classes[e]? = some c) (hb : b ∈ c.m_bases) (hp : findClass ar b = some p) :
    DerivesEdge ar false e p := by
  obtain ⟨cp, hcp, _⟩ := findClass_some hp
  exact ⟨c, cp, b, hc, hb, hp, hcp, fun h => by cases h⟩

/-- On an acyclic hierarchy in which no class reached from `e` is redeclaring or
DirectFromRedeclared, `findFunction` returns and leaves the analysis result as it is. -/
theorem findFunction_frame {rank : String → Nat} {ar : AnalysisResult}
    (hacy : Acyclic rank ar) (hwf : WellFormedFunctions ar) (name : String) :
    ∀ (fuel e : Nat) (c : ClassScope) (recursive : Bool), ar.classes[e]? = some c →
      (∀ (x : Nat) (cx : ClassScope), Relation.ReflTransGen (DerivesEdge ar false) e x →
        ar.classes[x]? = some cx → cx.isRedeclaring = false ∧
          cx.m_derivesFromRedeclaring ≠ Derivation.DirectFromRedeclared) →
      rank c.m_name < fuel →
      ∃ r, findFunction fuel e name recursive false ar = some (r, ar) := by
  intro fuel
  induction fuel with
  | zero => intro e c _ _ _ h; omega
  | succ fuel ih =>
    intro e c recursive hc hplain hfuel
    unfold findFunction
    rw [hc]
    simp only
    cases hl : c.m_functions.lookup name with
    | some decls =>
      simp only
      obtain ⟨f, hf, _⟩ := hwf e c hc (name, decls) (lookup_mem hl)
      simp only at hf
      rw [hf]
      exact ⟨some f, rfl⟩
    | none =>
      simp only
      have hfb := findFallback_plain fuel e name ar c hc
        (hplain e c Relation.ReflTransGen.refl hc).2
      by_cases hrec : recursive = true
      · rw [if_pos hrec]
        rw [findFunctionBases_plain _ ar e c.m_bases (by
          intro b hb p hp
          obtain ⟨cp, hcp, hn⟩ := findClass_some hp
          have hedge := derivesEdge_of_base hc hb hp
          refine ⟨⟨cp, hcp, (hplain p cp (Relation.ReflTransGen.single hedge) hcp).1⟩, ?_⟩
          have := hacy e c hc b hb
          exact ih p cp true hcp
            (fun x cx hx hcx => hplain x cx (Relation.ReflTransGen.head hedge hx) hcx)
            (by rw [hn]; omega))]
        cases (List.filterMap (findClass ar) c.m_bases).findSome?
            (fun p => (findFunction fuel p name true false ar).bind Prod.fst) with
        | none => exact ⟨none, hfb⟩
        | some f => exact ⟨some f, rfl⟩
      · rw [if_neg hrec]
        exact ⟨none, hfb⟩

theorem parentAcyclic_setDirectFromRedeclared {rank : String → Nat} {ar : AnalysisResult}
    (h : ParentAcyclic rank ar) (e : Nat) :
    ParentAcyclic rank (setDirectFromRedeclared ar e) := by
  intro k c hk hp
  unfold setDirectFromRedeclared at hk
  rw [getElem?_updateClass] at hk
  split at hk
  · cases hc : ar.classes[k]? with
    | none => rw [hc] at hk; cases hk
    | some d =>
      rw [hc] at hk
      simp only [Option.map_some', Option.some.injEq] at hk
      rw [← hk] at hp ⊢
      exact h k d hc hp
  · exact h k c hk hp

theorem findClasses_setDirectFromRedeclared (ar : AnalysisResult) (e : Nat) (n : String) :
    findClasses (setDirectFromRedeclared ar e) n = findClasses ar n := by
  unfold setDirectFromRedeclared
  exact findClasses_congr (namesOf_updateClass ar e
    (fun d => { d with m_derivesFromRedeclaring := Derivation.DirectFromRedeclared })
    (fun _ => rfl)) n

/-- C18: for a class `e` without own entry for `name` whose parent (the first base) resolves
to a redeclaring class that is not an interface, `findFunction(e, name, true, exclIntfBase)`
marks `e` DirectFromRedeclared at the first base and leaves the loop there, without a
recursive call on any base; its result is nothing, and its effect is that of
`setDynamic(e, name)` on the marked analysis result. On a hierarchy with an acyclic parent
chain the call returns: `e` is DirectFromRedeclared and no other class has changed, and in
every declaration of the parent every function called `name` that `setDynamic` finds (in
the declaration or up its parent chain) is dynamic. -/
theorem findFunction_redeclared_parent (ar : AnalysisResult) (e : Nat) (c : ClassScope)
    (name : String) (exclIntfBase : Bool) (p : Nat) (cp : ClassScope) (fuel : Nat)
    (hc : ar.classes[e]? = some c) (hl : c.m_functions.lookup name = none)
    (hp : c.m_parent ≠ "") (hinv : c.parentInvariant)
    (hf : findClass ar c.m_parent = some p) (hcp : ar.classes[p]? = some cp)
    (hred : cp.isRedeclaring = true) (hni : cp.isInterface = false) :
    (∀ rec, findFunctionBases rec exclIntfBase e c.m_bases ar =
      some (none, setDirectFromRedeclared ar e)) ∧
    findFunction (fuel + 1) e name true exclIntfBase ar =
      (setDynamic fuel e name (setDirectFromRedeclared ar e)).map (fun a => (none, a)) ∧
    (∀ rank : String → Nat, ParentAcyclic rank ar → rank c.m_name < fuel →
      ∃ ar', findFunction (fuel + 1) e name true exclIntfBase ar = some (none, ar') ∧
        ar'.classes = (setDirectFromRedeclared ar e).classes ∧
        ar'.classes[e]? = some
          { c with m_derivesFromRedeclaring := Derivation.DirectFromRedeclared } ∧
        ∀ alt ∈ findRedeclaredClasses ar c.m_parent,
          DynamicTargets (setDirectFromRedeclared ar e) name alt ar') := by
  have hc1 : (setDirectFromRedeclared ar e).classes[e]? = some
      { c with m_derivesFromRedeclaring := Derivation.DirectFromRedeclared } :=
    getElem?_updateClass_self _ hc
  have hloop : ∀ rec, findFunctionBases rec exclIntfBase e c.m_bases ar =
      some (none, setDirectFromRedeclared ar e) := by
    intro rec
    rcases hinv with h | h
    · exact absurd h hp
    · cases hb : c.m_bases with
      | nil => rw [hb] at h; cases h
      | cons b rest =>
        rw [hb] at h
        simp only [List.head?_cons, Option.some.injEq] at h
        rw [h]
        unfold findFunctionBases
        rw [hf]
        simp only
        rw [hcp]
        simp only [hni, hred, Bool.and_false, Bool.false_eq_true, if_false, Bool.not_false,
          if_true]
  have hcall : findFunction (fuel + 1) e name true exclIntfBase ar =
      (setDynamic fuel e name (setDirectFromRedeclared ar e)).map (fun a => (none, a)) := by
    rw [findFunction, hc]
    simp only
    rw [hl]
    simp only [if_true]
    rw [hloop]
    simp only
    unfold findFallback
    rw [hc1]
    simp only [beq_self_eq_true, if_true]
    cases setDynamic fuel e name (setDirectFromRedeclared ar e) with
    | none => rfl
    | some a => rfl
  refine ⟨hloop, hcall, ?_⟩
  intro rank hacy hfuel
  obtain ⟨ar', hr, hd, ht⟩ := setDynamic_spec (parentAcyclic_setDirectFromRedeclared hacy e)
    name fuel e _ (setDirectFromRedeclared ar e) rfl hc1 hfuel
  refine ⟨ar', ?_, hd.1, ?_, ?_⟩
  · rw [hcall, hr]
    rfl
  · rw [hd.1]
    exact hc1
  · intro alt halt x cx decls hchain hcx hlk f hfm
    refine ht x cx decls (Relation.ReflTransGen.head ?_ hchain) hcx hlk f hfm
    refine ⟨⟨_, hc1, hp, Or.inl ⟨rfl, ?_⟩⟩, _, hc1, hl⟩
    unfold findRedeclaredClasses at halt ⊢
    rw [findClasses_setDirectFromRedeclared]
    exact halt

theorem findFunction_redeclared_parent_witness :
    (findFunction (3 + 1) 4 "foo" true false redeclaredParentRegistry).map
      (fun r => (r.1, r.2.functions.map (fun f => f.m_dynamic))) =
      some (none, [true, true, false]) ∧
    findFunction (3 + 1) 4 "foo" true false redeclaredParentRegistry =
      (setDynamic 3 4 "foo" (setDirectFromRedeclared redeclaredParentRegistry 4)).map
        (fun a => (none, a)) ∧
    ∃ ar', findFunction (3 + 1) 4 "foo" true false redeclaredParentRegistry =
        some (none, ar') ∧
      ar'.classes = (setDirectFromRedeclared redeclaredParentRegistry 4).classes ∧
      ar'.classes[4]? = some
        { ClassScope.create KindOf.KindOfObjectClass "e" "p" ["p", "i"] false false 4 with
          m_derivesFromRedeclaring := Derivation.DirectFromRedeclared } ∧
      ∀ alt ∈ findRedeclaredClasses redeclaredParentRegistry "p",
        DynamicTargets (setDirectFromRedeclared redeclaredParentRegistry 4) "foo" alt ar' :=
  ⟨by decide,
    (findFunction_redeclared_parent redeclaredParentRegistry 4
      (ClassScope.create KindOf.KindOfObjectClass "e" "p" ["p", "i"] false false 4) "foo"
      false 1
      { ClassScope.create KindOf.KindOfObjectClass "p" "g" ["g"] false false 1 with
        m_redeclaring := 1 } 3
      (by decide) (by decide) (by decide) (by decide) (by decide) (by decide) (by decide)
      (by decide)).2.1,
    (findFunction_redeclared_parent redeclaredParentRegistry 4
      (ClassScope.create KindOf.KindOfObjectClass "e" "p" ["p", "i"] false false 4) "foo"
      false 1
      { ClassScope.create KindOf.KindOfObjectClass "p" "g" ["g"] false false 1 with
        m_redeclaring := 1 } 3
      (by decide) (by decide) (by decide) (by decide) (by decide) (by decide) (by decide)
      (by decide)).2.2 redeclaredRank (parentAcyclic_of_forall_mem (by decide)) (by decide)⟩

/-! ## findConstructor -/

/-- C19, counterexample: the class `c` declares a method named like the class (function 0)
and the method `__construct` (function 1), and does not have the attribute
`classNameConstructor`: `findConstructor` returns `__construct`, not the method named like
the class. The class `o` declares a method named like the class only, without the attribute:
`findConstructor` returns nothing. -/
theorem findConstructor_single_name :
    (constructorRegistry.classes[0]?).map
      (fun c => (c.m_name, c.classNameCtor, c.m_functions.lookup c.m_name)) =
      some ("c", false, some [0]) ∧
    findConstructor 1 0 false constructorRegistry = some (some 1, constructorRegistry) ∧
    (constructorRegistry.classes[2]?).map
      (fun c => (c.m_name, c.classNameCtor, c.m_functions.lookup c.m_name)) =
      some ("o", false, some [3]) ∧
    findConstructor 1 2 false constructorRegistry = some (none, constructorRegistry) := by
  decide

/-- C19: `findConstructor` looks up one name in the own method table, chosen by the attribute
`classNameConstructor`: the name of the class when the attribute is set, and `__construct`
when it is not. When the table has an entry for that name, the call returns its last
declaration before any recursion into the parent and leaves the analysis result as it is;
when it has none, the other name is not tried: a call without recursion on a class that is
not DirectFromRedeclared returns nothing. -/
theorem findConstructor_local (ar : AnalysisResult) (e : Nat) (c : ClassScope)
    (recursive : Bool) (fuel : Nat) (hc : ar.classes[e]? = some c) :
    (∀ decls func, c.classNameCtor = true → c.m_functions.lookup c.m_name = some decls →
      decls.getLast? = some func →
      findConstructor (fuel + 1) e recursive ar = some (some func, ar)) ∧
    (∀ decls func, c.classNameCtor = false →
      c.m_functions.lookup "__construct" = some decls → decls.getLast? = some func →
      findConstructor (fuel + 1) e recursive ar = some (some func, ar)) ∧
    (c.classNameCtor = true → c.m_functions.lookup c.m_name = none →
      c.m_derivesFromRedeclaring ≠ Derivation.DirectFromRedeclared →
      findConstructor (fuel + 1) e false ar = some (none, ar)) ∧
    (c.classNameCtor = false → c.m_functions.lookup "__construct" = none →
      c.m_derivesFromRedeclaring ≠ Derivation.DirectFromRedeclared →
      findConstructor (fuel + 1) e false ar = some (none, ar)) := by
  have hit : ∀ (rec : Bool) (decls : List Nat) (func : Nat),
      c.m_functions.lookup c.constructorName = some decls → decls.getLast? = some func →
      findConstructor (fuel + 1) e rec ar = some (some func, ar) := by
    intro rec decls func hl hlast
    rw [findConstructor, hc]
    simp only
    rw [hl]
    simp only
    rw [hlast]
  have miss : c.m_functions.lookup c.constructorName = none →
      c.m_derivesFromRedeclaring ≠ Derivation.DirectFromRedeclared →
      findConstructor (fuel + 1) e false ar = some (none, ar) := by
    intro hl hd
    rw [findConstructor, hc]
    simp only
    rw [hl]
    simp only [Bool.false_and, Bool.false_eq_true, if_false]
    exact findFallback_plain fuel e _ ar c hc hd
  have nameT : c.classNameCtor = true → c.constructorName = c.m_name := by
    intro h
    unfold ClassScope.constructorName
    rw [if_pos h]
  have nameF : c.classNameCtor = false → c.constructorName = "__construct" := by
    intro h
    unfold ClassScope.constructorName
    rw [if_neg (by rw [h]; simp)]
  refine ⟨?_, ?_, ?_, ?_⟩
  · intro decls func h hl hlast
    exact hit recursive decls func (by rw [nameT h]; exact hl) hlast
  · intro decls func h hl hlast
    exact hit recursive decls func (by rw [nameF h]; exact hl) hlast
  · intro h hl hd
    exact miss (by rw [nameT h]; exact hl) hd
  · intro h hl hd
    exact miss (by rw [nameF h]; exact hl) hd

theorem findConstructor_local_witness :
    findConstructor (0 + 1) 1 true constructorRegistry = some (some 2, constructorRegistry) ∧
    findConstructor (0 + 1) 0 true constructorRegistry = some (some 1, constructorRegistry) ∧
    findConstructor (0 + 1) 2 false constructorRegistry = some (none, constructorRegistry) :=
  ⟨(findConstructor_local constructorRegistry 1
      { (ClassScope.create KindOf.KindOfObjectClass "d" "" [] false false 1).setAttribute
          Attribute.classNameConstructor with
        m_functions := [("d", [2])] } true 0 (by decide)).1 [2] 2
      (by decide) (by decide) (by decide),
    (findConstructor_local constructorRegistry 0
      { ClassScope.create KindOf.KindOfObjectClass "c" "" [] false false 0 with
        m_functions := [("c", [0]), ("__construct", [1])] } true 0 (by decide)).2.1 [1] 1
      (by decide) (by decide) (by decide),
    (findConstructor_local constructorRegistry 2
      { ClassScope.create KindOf.KindOfObjectClass "o" "" [] false false 2 with
        m_functions := [("o", [3])] } false 0 (by decide)).2.2.2
      (by decide) (by decide) (by decide)⟩

/-- The loop of `findFunction` over bases that resolve to classes that are not redeclaring,
when no recursive call that returns changes the analysis result: if the loop returns, it
returns the first function a recursive call finds and leaves the analysis result as it
is. -/
theorem findFunctionBases_plain_of_some
    (rec : Nat → AnalysisResult → Option (Option Nat × AnalysisResult)) (ar : AnalysisResult)
    (self : Nat) :
    ∀ (bs : List String),
      (∀ b ∈ bs, ∀ p, findClass ar b = some p →
        (∃ cp, ar.classes[p]? = some cp ∧ cp.isRedeclaring = false) ∧
          ∀ r a', rec p ar = some (r, a') → a' = ar) →
      ∀ res a', findFunctionBases rec false self bs ar = some (res, a') →
        a' = ar ∧
        res = (bs.filterMap (findClass ar)).findSome? (fun p => (rec p ar).bind Prod.fst) := by
  intro bs
  induction bs with
  | nil =>
    intro _ res a' h
    simp only [findFunctionBases, Option.some.injEq, Prod.mk.injEq] at h
    exact ⟨h.2.symm, by rw [← h.1]; rfl⟩
  | cons b rest ih =>
    intro h res a' hres
    have ih' := ih (fun b' hb' => h b' (List.mem_cons_of_mem _ hb'))
    unfold findFunctionBases at hres
    cases hf : findClass ar b with
    | none =>
      rw [hf] at hres
      simp only at hres
      rw [List.filterMap_cons, hf]
      exact ih' res a' hres
    | some p =>
      obtain ⟨⟨cp, hcp, hred⟩, hsame⟩ := h b (List.mem_cons_self _ _) p hf
      rw [hf] at hres
      simp only at hres
      rw [hcp] at hres
      simp only [Bool.false_and, Bool.false_eq_true, if_false, hred] at hres
      rw [List.filterMap_cons, hf]
      simp only
      rw [List.findSome?_cons]
      cases hr : rec p ar with
      | none => rw [hr] at hres; cases hres
      | some q =>
        obtain ⟨r, a1⟩ := q
        have := hsame r a1 hr
        subst this
        rw [hr] at hres
        cases r with
        | none =>
          simp only at hres
          exact ih' res a' hres
        | some f =>
          simp only [Option.some.injEq, Prod.mk.injEq] at hres
          exact ⟨hres.2.symm, by rw [← hres.1]; rfl⟩

/-- In a hierarchy in which no class reached from `e` is redeclaring or
DirectFromRedeclared, a call of `findFunction` that returns leaves the analysis result as it
is. -/
theorem findFunction_frame_of_some {ar : AnalysisResult} (name : String) :
    ∀ (fuel e : Nat) (c : ClassScope) (recursive : Bool) (r : Option Nat)
      (ar' : AnalysisResult), ar.classes[e]? = some c →
      (∀ (x : Nat) (cx : ClassScope), Relation.ReflTransGen (DerivesEdge ar false) e x →
        ar.classes[x]? = some cx → cx.isRedeclaring = false ∧
          cx.m_derivesFromRedeclaring ≠ Derivation.DirectFromRedeclared) →
      findFunction fuel e name recursive false ar = some (r, ar') → ar' = ar := by
  intro fuel
  induction fuel with
  | zero => intro e c _ r ar' _ _ h; simp [findFunction] at h
  | succ fuel ih =>
    intro e c recursive r ar' hc hplain h
    rw [findFunction, hc] at h
    simp only at h
    have hfb := findFallback_plain fuel e name ar c hc
      (hplain e c Relation.ReflTransGen.refl hc).2
    cases hl : c.m_functions.lookup name with
    | some decls =>
      rw [hl] at h
      simp only at h
      cases hg : decls.getLast? with
      | none => rw [hg] at h; cases h
      | some f =>
        rw [hg] at h
        simp only [Option.some.injEq, Prod.mk.injEq] at h
        exact h.2.symm
    | none =>
      rw [hl] at h
      simp only at h
      by_cases hrec : recursive = true
      · rw [if_pos hrec] at h
        cases hb : findFunctionBases (fun super a => findFunction fuel super name true false a)
            false e c.m_bases ar with
        | none => rw [hb] at h; cases h
        | some q =>
          obtain ⟨res, a1⟩ := q
          obtain ⟨ha1, _⟩ := findFunctionBases_plain_of_some _ ar e c.m_bases (by
            intro b hbm p hp
            obtain ⟨cp, hcp, hn⟩ := findClass_some hp
            have hedge := derivesEdge_of_base hc hbm hp
            refine ⟨⟨cp, hcp, (hplain p cp (Relation.ReflTransGen.single hedge) hcp).1⟩, ?_⟩
            intro r' a' hr'
            exact ih p cp true r' a' hcp
              (fun x cx hx hcx => hplain x cx (Relation.ReflTransGen.head hedge hx) hcx) hr')
            res a1 hb
          subst ha1
          rw [hb] at h
          cases res with
          | none =>
            simp only at h
            rw [hfb] at h
            simp only [Option.some.injEq, Prod.mk.injEq] at h
            exact h.2.symm
          | some f =>
            simp only [Option.some.injEq, Prod.mk.injEq] at h
            exact h.2.symm
      · rw [if_neg hrec, hfb] at h
        simp only [Option.some.injEq, Prod.mk.injEq] at h
        exact h.2.symm

/-- C17: in a hierarchy in which no class reached from `e` through resolved bases is
redeclaring or DirectFromRedeclared, a call `findFunction(e, name, recursive, false)` that
returns leaves the analysis result as it is, and it returns the last declaration of `name` in
the own table of `e` when there is an entry, whatever `recursive` is; otherwise, when
`recursive`, the first function that `findFunction` finds in the classes the bases of `e`
resolve to, taken in declared order; otherwise nothing. On an acyclic hierarchy with
well-formed method tables the call returns, and so do the calls on the resolved bases. -/
theorem findFunction_plain (ar : AnalysisResult) (e : Nat) (c : ClassScope)
    (name : String) (recursive : Bool) (fuel : Nat) (hc : ar.classes[e]? = some c)
    (hplain : ∀ (x : Nat) (cx : ClassScope),
      Relation.ReflTransGen (DerivesEdge ar false) e x → ar.classes[x]? = some cx →
      cx.isRedeclaring = false ∧
        cx.m_derivesFromRedeclaring ≠ Derivation.DirectFromRedeclared) :
    (∀ r ar', findFunction (fuel + 1) e name recursive false ar = some (r, ar') →
      ar' = ar ∧
      (∀ decls, c.m_functions.lookup name = some decls → r = decls.getLast?) ∧
      (c.m_functions.lookup name = none → recursive = false → r = none) ∧
      (c.m_functions.lookup name = none → recursive = true →
        r = (c.m_bases.filterMap (findClass ar)).findSome?
          (fun p => (findFunction fuel p name true false ar).bind Prod.fst))) ∧
    (∀ rank : String → Nat, Acyclic rank ar → WellFormedFunctions ar →
      rank c.m_name ≤ fuel →
      (∃ r, findFunction (fuel + 1) e name recursive false ar = some (r, ar)) ∧
      ∀ b ∈ c.m_bases, ∀ p, findClass ar b = some p →
        ∃ rp, findFunction fuel p name true false ar = some (rp, ar)) := by
  have hfb := findFallback_plain fuel e name ar c hc
    (hplain e c Relation.ReflTransGen.refl hc).2
  constructor
  · intro r ar' h
    rw [findFunction, hc] at h
    simp only at h
    cases hl : c.m_functions.lookup name with
    | some decls =>
      rw [hl] at h
      simp only at h
      cases hg : decls.getLast? with
      | none => rw [hg] at h; cases h
      | some f =>
        rw [hg] at h
        simp only [Option.some.injEq, Prod.mk.injEq] at h
        refine ⟨h.2.symm, ?_, ?_, ?_⟩
        · intro decls' hd
          cases hd
          rw [hg, h.1]
        · intro hn
          cases hn
        · intro hn
          cases hn
    | none =>
      rw [hl] at h
      simp only at h
      by_cases hrec : recursive = true
      · rw [if_pos hrec] at h
        cases hb : findFunctionBases (fun super a => findFunction fuel super name true false a)
            false e c.m_bases ar with
        | none => rw [hb] at h; cases h
        | some q =>
          obtain ⟨res, a1⟩ := q
          obtain ⟨ha1, hres⟩ := findFunctionBases_plain_of_some _ ar e c.m_bases (by
            intro b hbm p hp
            obtain ⟨cp, hcp, hn⟩ := findClass_some hp
            have hedge := derivesEdge_of_base hc hbm hp
            refine ⟨⟨cp, hcp, (hplain p cp (Relation.ReflTransGen.single hedge) hcp).1⟩, ?_⟩
            intro r' a' hr'
            exact findFunction_frame_of_some name fuel p cp true r' a' hcp
              (fun x cx hx hcx => hplain x cx (Relation.ReflTransGen.head hedge hx) hcx) hr')
            res a1 hb
          subst ha1
          rw [hb] at h
          have hr : r = res ∧ ar' = a1 := by
            cases res with
            | none =>
              simp only at h
              rw [hfb] at h
              simp only [Option.some.injEq, Prod.mk.injEq] at h
              exact ⟨h.1.symm, h.2.symm⟩
            | some f =>
              simp only [Option.some.injEq, Prod.mk.injEq] at h
              exact ⟨h.1.symm, h.2.symm⟩
          refine ⟨hr.2, ?_, ?_, ?_⟩
          · intro decls hd
            cases hd
          · intro _ hf
            rw [hrec] at hf
            cases hf
          · intro _ _
            rw [hr.1]
            exact hres
      · rw [if_neg hrec, hfb] at h
        simp only [Option.some.injEq, Prod.mk.injEq] at h
        refine ⟨h.2.symm, ?_, ?_, ?_⟩
        · intro decls hd
          cases hd
        · intro _ _
          exact h.1.symm
        · intro _ hf
          exact absurd hf hrec
  · intro rank hacy hwf hfuel
    refine ⟨findFunction_frame hacy hwf name (fuel + 1) e c recursive hc hplain (by omega), ?_⟩
    intro b hb p hp
    obtain ⟨cp, hcp, hn⟩ := findClass_some hp
    have hedge := derivesEdge_of_base hc hb hp
    have := hacy e c hc b hb
    exact findFunction_frame hacy hwf name fuel p cp true hcp
      (fun x cx hx hcx => hplain x cx (Relation.ReflTransGen.head hedge hx) hcx)
      (by rw [hn]; omega)

theorem findFunction_plain_witness :
    findFunction 2 2 "bar" true false lookupRegistry = some (some 2, lookupRegistry) ∧
    findFunction 2 2 "own" false false lookupRegistry = some (some 1, lookupRegistry) ∧
    findFunction 2 2 "foo" false false lookupRegistry = some (none, lookupRegistry) ∧
    ((∃ r, findFunction (1 + 1) 2 "foo" true false lookupRegistry =
        some (r, lookupRegistry)) ∧
      ∀ b ∈ ["p", "i"], ∀ p, findClass lookupRegistry b = some p →
        ∃ rp, findFunction 1 p "foo" true false lookupRegistry =
          some (rp, lookupRegistry)) :=
  ⟨by decide, by decide, by decide,
    (findFunction_plain lookupRegistry 2
      { ClassScope.create KindOf.KindOfObjectClass "c" "p" ["p", "i"] false false 2 with
        m_functions := [("own", [1])] } "foo" true 1 (by decide)
      (fun x cx _ hcx => forall_getElem?_of_forall_mem
        (P := fun cx => cx.isRedeclaring = false ∧
          cx.m_derivesFromRedeclaring ≠ Derivation.DirectFromRedeclared)
        (by decide) x cx hcx)).2 exampleRank (acyclic_of_forall_mem (by decide))
      (wellFormedFunctions_of_forall_mem (by decide)) (by decide)⟩

/-! ## Idempotence of setDynamic and setStaticDynamic -/

theorem analysisResult_ext {a b : AnalysisResult} (h1 : a.classes = b.classes)
    (h2 : a.functions = b.functions) (h3 : a.errors = b.errors)
    (h4 : a.unknownClasses = b.unknownClasses) : a = b := by
  cases a
  cases b
  simp only at h1 h2 h3 h4
  rw [h1, h2, h3, h4]

/-- What a sequence of writes `fs->setDynamic()` leaves in the function arena. -/
theorem foldl_setFunctionDynamic_getElem? (l : List Nat) :
    ∀ (a : AnalysisResult) (j : Nat),
      (l.foldl setFunctionDynamic a).functions[j]? =
        (a.functions[j]?).map (fun f => if j ∈ l then { f with m_dynamic := true } else f) := by
  induction l with
  | nil =>
    intro a j
    simp
  | cons d rest ih =>
    intro a j
    rw [List.foldl_cons, ih]
    unfold setFunctionDynamic
    rw [getElem?_updateFunction]
    cases hj : a.functions[j]? with
    | none => simp
    | some f =>
      by_cases hd : d = j
      · subst hd
        by_cases hr : d ∈ rest <;> simp [hr]
      · have hd' : j ≠ d := fun h => hd h.symm
        by_cases hr : j ∈ rest <;> simp [hr, hd, hd']

/-- What a sequence of statements `if (fs->isStatic()) fs->setDynamic();` leaves in the
function arena. -/
theorem foldl_setStaticFunctionDynamic_getElem? (l : List Nat) :
    ∀ (a : AnalysisResult) (j : Nat),
      (l.foldl setStaticFunctionDynamic a).functions[j]? =
        (a.functions[j]?).map
          (fun f => if j ∈ l ∧ f.m_static = true then { f with m_dynamic := true } else f) := by
  induction l with
  | nil =>
    intro a j
    simp
  | cons d rest ih =>
    intro a j
    rw [List.foldl_cons, ih]
    unfold setStaticFunctionDynamic
    rw [getElem?_updateFunction]
    cases hj : a.functions[j]? with
    | none => simp
    | some f =>
      by_cases hd : d = j
      · subst hd
        by_cases hs : f.m_static = true
        · by_cases hr : d ∈ rest <;> simp [hr, hs]
        · by_cases hr : d ∈ rest <;> simp [hr, hs]
      · have hd' : j ≠ d := fun h => hd h.symm
        by_cases hr : j ∈ rest <;> simp [hr, hd, hd']

theorem foldl_mark_classes (mark : AnalysisResult → Nat → AnalysisResult)
    (hmark : ∀ a f, (mark a f).classes = a.classes) (l : List Nat) :
    ∀ a : AnalysisResult, (l.foldl mark a).classes = a.classes := by
  induction l with
  | nil => intro a; rfl
  | cons d rest ih => intro a; rw [List.foldl_cons, ih, hmark]

theorem targetsOfParents_congr {rec rec' : Nat → Option (List Nat)} (alts : List Nat)
    (h : ∀ cl ∈ alts, rec cl = rec' cl) :
    targetsOfParents rec alts = targetsOfParents rec' alts := by
  induction alts with
  | nil => rfl
  | cons cl rest ih =>
    unfold targetsOfParents
    rw [h cl (List.mem_cons_self _ _), ih (fun c hc => h c (List.mem_cons_of_mem _ hc))]

theorem dynamicTargets_classes_eq (name : String) :
    ∀ (fuel : Nat) (a a' : AnalysisResult) (e : Nat), a'.classes = a.classes →
      dynamicTargets fuel a' e name = dynamicTargets fuel a e name := by
  intro fuel
  induction fuel with
  | zero => intro a a' e _; rfl
  | succ fuel ih =>
    intro a a' e h
    rw [dynamicTargets, dynamicTargets, h]
    have hf : ∀ n, findClass a' n = findClass a n := findClass_classes_eq h
    have hr : ∀ n, findRedeclaredClasses a' n = findRedeclaredClasses a n :=
      findClasses_classes_eq h
    cases a.classes[e]? with
    | none => rfl
    | some c =>
      simp only
      cases c.m_functions.lookup name with
      | some decls => rfl
      | none =>
        simp only
        rw [hf, hr]
        rw [targetsOfParents_congr _ (fun cl _ => ih a a' cl h)]
        cases findClass a c.m_parent with
        | none => rfl
        | some p =>
          simp only
          rw [ih a a' p h]

theorem staticTargets_classes_eq :
    ∀ (fuel : Nat) (a a' : AnalysisResult) (e : Nat), a'.classes = a.classes →
      staticTargets fuel a' e = staticTargets fuel a e := by
  intro fuel
  induction fuel with
  | zero => intro a a' e _; rfl
  | succ fuel ih =>
    intro a a' e h
    rw [staticTargets, staticTargets, h]
    have hf : ∀ n, findClass a' n = findClass a n := findClass_classes_eq h
    have hr : ∀ n, findRedeclaredClasses a' n = findRedeclaredClasses a n :=
      findClasses_classes_eq h
    cases a.classes[e]? with
    | none => rfl
    | some c =>
      simp only
      rw [hf, hr]
      rw [targetsOfParents_congr _ (fun cl _ => ih a a' cl h)]
      cases findClass a c.m_parent with
      | none => rfl
      | some p =>
        simp only
        rw [ih a a' p h]

/-- The loop over the declarations of the parent, when every recursive call is a sequence of
marks: the loop is the sequence of all these marks. -/
theorem setDynamicParents_fold (mark : AnalysisResult → Nat → AnalysisResult)
    (hmark : ∀ a f, (mark a f).classes = a.classes)
    (rec : Nat → AnalysisResult → Option AnalysisResult) (T : Nat → Option (List Nat))
    (ar0 : AnalysisResult) :
    ∀ (alts : List Nat),
      (∀ cl ∈ alts, ∀ a, a.classes = ar0.classes →
        rec cl a = (T cl).map (fun l => l.foldl mark a)) →
      ∀ ar, ar.classes = ar0.classes →
        setDynamicParents rec alts ar =
          (targetsOfParents T alts).map (fun l => l.foldl mark ar) := by
  intro alts
  induction alts with
  | nil => intro _ ar _; rfl
  | cons cl rest ih =>
    intro h ar har
    unfold setDynamicParents targetsOfParents
    rw [h cl (List.mem_cons_self _ _) ar har]
    cases T cl with
    | none => rfl
    | some l =>
      simp only [Option.map_some']
      rw [ih (fun c hc => h c (List.mem_cons_of_mem _ hc)) _
        ((foldl_mark_classes mark hmark l ar).trans har)]
      cases targetsOfParents T rest with
      | none => rfl
      | some ls => simp only [Option.map_some', List.foldl_append]

/-- The call `setDynamic(ar, name)` is the sequence of the writes `fs->setDynamic()` on the
function scopes its walk meets. -/
theorem setDynamic_eq_fold (name : String) :
    ∀ (fuel e : Nat) (ar : AnalysisResult),
      setDynamic fuel e name ar =
        (dynamicTargets fuel ar e name).map (fun l => l.foldl setFunctionDynamic ar) := by
  intro fuel
  induction fuel with
  | zero => intro e ar; rfl
  | succ fuel ih =>
    intro e ar
    rw [setDynamic, dynamicTargets]
    cases ar.classes[e]? with
    | none => rfl
    | some c =>
      simp only
      cases c.m_functions.lookup name with
      | some decls => rfl
      | none =>
        simp only
        by_cases hp : (c.m_parent != "") = true
        · rw [if_pos hp, if_pos hp]
          by_cases hd : (c.m_derivesFromRedeclaring == Derivation.DirectFromRedeclared) = true
          · rw [if_pos hd, if_pos hd]
            exact setDynamicParents_fold setFunctionDynamic (fun _ _ => rfl) _
              (fun cl => dynamicTargets fuel ar cl name) ar _
              (fun cl _ a ha => by
                rw [ih cl a, dynamicTargets_classes_eq name fuel ar a cl ha]) ar rfl
          · rw [if_neg hd, if_neg hd]
            cases findClass ar c.m_parent with
            | none => rfl
            | some p =>
              simp only
              exact ih p ar
        · rw [if_neg hp, if_neg hp]
          rfl

theorem foldl_foldl_flatten (mark : AnalysisResult → Nat → AnalysisResult)
    (fns : List (String × List Nat)) :
    ∀ a : AnalysisResult, fns.foldl (fun a nd => nd.2.foldl mark a) a =
      ((fns.map Prod.snd).flatten).foldl mark a := by
  induction fns with
  | nil => intro a; rfl
  | cons nd rest ih =>
    intro a
    rw [List.foldl_cons, ih, List.map_cons, List.flatten_cons, List.foldl_append]

/-- The call `setStaticDynamic(ar)` is the sequence of the statements
`if (fs->isStatic()) fs->setDynamic();` on the function scopes its walk meets. -/
theorem setStaticDynamic_eq_fold :
    ∀ (fuel e : Nat) (ar : AnalysisResult),
      setStaticDynamic fuel e ar =
        (staticTargets fuel ar e).map (fun l => l.foldl setStaticFunctionDynamic ar) := by
  intro fuel
  induction fuel with
  | zero => intro e ar; rfl
  | succ fuel ih =>
    intro e ar
    rw [setStaticDynamic, staticTargets]
    cases ar.classes[e]? with
    | none => rfl
    | some c =>
      simp only
      have hown : setStaticDynamicOwn c.m_functions ar =
          ((c.m_functions.map Prod.snd).flatten).foldl setStaticFunctionDynamic ar :=
        foldl_foldl_flatten setStaticFunctionDynamic c.m_functions ar
      have hcl : (setStaticDynamicOwn c.m_functions ar).classes = ar.classes := by
        rw [hown]
        exact foldl_mark_classes setStaticFunctionDynamic (fun _ _ => rfl) _ ar
      rw [findClass_classes_eq hcl]
      have hr : findRedeclaredClasses (setStaticDynamicOwn c.m_functions ar) c.m_parent =
          findRedeclaredClasses ar c.m_parent := findClasses_classes_eq hcl _
      rw [hr]
      by_cases hp : (c.m_parent != "") = true
      · rw [if_pos hp, if_pos hp]
        by_cases hd : (c.m_derivesFromRedeclaring == Derivation.DirectFromRedeclared) = true
        · rw [if_pos hd, if_pos hd]
          rw [setDynamicParents_fold setStaticFunctionDynamic (fun _ _ => rfl) _
            (fun cl => staticTargets fuel ar cl) ar _
            (fun cl _ a ha => by
              rw [ih cl a, staticTargets_classes_eq fuel ar a cl ha]) _ hcl]
          cases targetsOfParents (fun cl => staticTargets fuel ar cl)
              (findRedeclaredClasses ar c.m_parent) with
          | none => rfl
          | some ls =>
            simp only [Option.map_some', List.foldl_append]
            rw [hown]
        · rw [if_neg hd, if_neg hd]
          cases findClass ar c.m_parent with
          | none =>
            simp only [Option.map_some']
            rw [hown]
          | some p =>
            simp only
            rw [ih p, staticTargets_classes_eq fuel ar _ p hcl]
            cases staticTargets fuel ar p with
            | none => rfl
            | some ls =>
              simp only [Option.map_some', List.foldl_append]
              rw [hown]
      · rw [if_neg hp, if_neg hp]
        simp only [Option.map_some']
        rw [hown]

theorem foldl_setFunctionDynamic_idem (l : List Nat) (a : AnalysisResult) :
    l.foldl setFunctionDynamic (l.foldl setFunctionDynamic a) =
      l.foldl setFunctionDynamic a := by
  obtain ⟨h1, h2, h3, _⟩ := (foldl_setFunctionDynamic l (l.foldl setFunctionDynamic a)).1
  refine analysisResult_ext h1 ?_ h2 h3
  apply List.ext_getElem?
  intro j
  rw [foldl_setFunctionDynamic_getElem?, foldl_setFunctionDynamic_getElem?]
  cases a.functions[j]? with
  | none => rfl
  | some f =>
    by_cases hj : j ∈ l <;> simp [hj]

theorem foldl_setStaticFunctionDynamic_idem (l : List Nat) (a : AnalysisResult) :
    l.foldl setStaticFunctionDynamic (l.foldl setStaticFunctionDynamic a) =
      l.foldl setStaticFunctionDynamic a := by
  obtain ⟨h1, h2, h3, _⟩ :=
    (foldl_setStaticFunctionDynamic l (l.foldl setStaticFunctionDynamic a)).1
  refine analysisResult_ext h1 ?_ h2 h3
  apply List.ext_getElem?
  intro j
  rw [foldl_setStaticFunctionDynamic_getElem?, foldl_setStaticFunctionDynamic_getElem?]
  cases a.functions[j]? with
  | none => rfl
  | some f =>
    by_cases hj : j ∈ l
    · by_cases hs : f.m_static = true <;> simp [hj, hs]
    · simp [hj]

theorem mem_targetsOfParents {rec : Nat → Option (List Nat)} :
    ∀ {alts : List Nat} {l : List Nat}, targetsOfParents rec alts = some l →
      ∀ f ∈ l, ∃ cl ∈ alts, ∃ lc, rec cl = some lc ∧ f ∈ lc := by
  intro alts
  induction alts with
  | nil =>
    intro l h f hf
    simp only [targetsOfParents, Option.some.injEq] at h
    rw [← h] at hf
    cases hf
  | cons cl rest ih =>
    intro l h f hf
    unfold targetsOfParents at h
    cases hr : rec cl with
    | none => rw [hr] at h; cases h
    | some lc =>
      rw [hr] at h
      cases ht : targetsOfParents rec rest with
      | none => rw [ht] at h; cases h
      | some ls =>
        rw [ht] at h
        simp only [Option.map_some', Option.some.injEq] at h
        rw [← h] at hf
        rcases List.mem_append.1 hf with h1 | h1
        · exact ⟨cl, List.mem_cons_self _ _, lc, hr, h1⟩
        · obtain ⟨c', hc', lc', hlc', hf'⟩ := ih ht f h1
          exact ⟨c', List.mem_cons_of_mem _ hc', lc', hlc', hf'⟩

/-- Every function scope that `setDynamic(ar, name)` marks is a declaration of `name` in a
class its walk reaches. -/
theorem mem_dynamicTargets (ar : AnalysisResult) (name : String) :
    ∀ (fuel e : Nat) (l : List Nat), dynamicTargets fuel ar e name = some l →
      ∀ f ∈ l, ∃ x cx decls, Relation.ReflTransGen (DynamicStep ar name) e x ∧
        ar.classes[x]? = some cx ∧ cx.m_functions.lookup name = some decls ∧ f ∈ decls := by
  intro fuel
  induction fuel with
  | zero => intro e l h; cases h
  | succ fuel ih =>
    intro e l h f hf
    rw [dynamicTargets] at h
    cases hc : ar.classes[e]? with
    | none => rw [hc] at h; cases h
    | some c =>
      rw [hc] at h
      simp only at h
      cases hl : c.m_functions.lookup name with
      | some decls =>
        rw [hl] at h
        simp only [Option.some.injEq] at h
        rw [← h] at hf
        exact ⟨e, c, decls, Relation.ReflTransGen.refl, hc, hl, hf⟩
      | none =>
        rw [hl] at h
        simp only at h
        by_cases hp : (c.m_parent != "") = true
        · rw [if_pos hp] at h
          have hp' : c.m_parent ≠ "" := by simpa using hp
          by_cases hd : (c.m_derivesFromRedeclaring == Derivation.DirectFromRedeclared) = true
          · rw [if_pos hd] at h
            have hd' : c.m_derivesFromRedeclaring = Derivation.DirectFromRedeclared := by
              simpa using hd
            obtain ⟨cl, hcl, lc, hlc, hfl⟩ := mem_targetsOfParents h f hf
            obtain ⟨x, cx, decls, hchain, hcx, hlk, hfd⟩ := ih cl lc hlc f hfl
            exact ⟨x, cx, decls, Relation.ReflTransGen.head
              ⟨⟨c, hc, hp', Or.inl ⟨hd', hcl⟩⟩, c, hc, hl⟩ hchain, hcx, hlk, hfd⟩
          · rw [if_neg hd] at h
            have hd' : c.m_derivesFromRedeclaring ≠ Derivation.DirectFromRedeclared := by
              simpa using hd
            cases hfc : findClass ar c.m_parent with
            | none =>
              rw [hfc] at h
              simp only [Option.some.injEq] at h
              rw [← h] at hf
              cases hf
            | some p =>
              rw [hfc] at h
              simp only at h
              obtain ⟨x, cx, decls, hchain, hcx, hlk, hfd⟩ := ih p l h f hf
              exact ⟨x, cx, decls, Relation.ReflTransGen.head
                ⟨⟨c, hc, hp', Or.inr ⟨hd', hfc⟩⟩, c, hc, hl⟩ hchain, hcx, hlk, hfd⟩
        · rw [if_neg hp] at h
          simp only [Option.some.injEq] at h
          rw [← h] at hf
          cases hf

/-- Every function scope that `setStaticDynamic(ar)` visits is a declaration in the method
table of a class its walk reaches. -/
theorem mem_staticTargets (ar : AnalysisResult) :
    ∀ (fuel e : Nat) (l : List Nat), staticTargets fuel ar e = some l →
      ∀ f ∈ l, ∃ x cx nd, Relation.ReflTransGen (ParentStep ar) e x ∧
        ar.classes[x]? = some cx ∧ nd ∈ cx.m_functions ∧ f ∈ nd.2 := by
  intro fuel
  induction fuel with
  | zero => intro e l h; cases h
  | succ fuel ih =>
    intro e l h f hf
    rw [staticTargets] at h
    cases hc : ar.classes[e]? with
    | none => rw [hc] at h; cases h
    | some c =>
      rw [hc] at h
      simp only at h
      have hown : ∀ f ∈ (c.m_functions.map Prod.snd).flatten,
          ∃ x cx nd, Relation.ReflTransGen (ParentStep ar) e x ∧
            ar.classes[x]? = some cx ∧ nd ∈ cx.m_functions ∧ f ∈ nd.2 := by
        intro f hf
        obtain ⟨d, hd, hfd⟩ := List.mem_flatten.1 hf
        obtain ⟨nd, hnd, rfl⟩ := List.mem_map.1 hd
        exact ⟨e, c, nd, Relation.ReflTransGen.refl, hc, hnd, hfd⟩
      by_cases hp : (c.m_parent != "") = true
      · rw [if_pos hp] at h
        have hp' : c.m_parent ≠ "" := by simpa using hp
        by_cases hd : (c.m_derivesFromRedeclaring == Derivation.DirectFromRedeclared) = true
        · rw [if_pos hd] at h
          have hd' : c.m_derivesFromRedeclaring = Derivation.DirectFromRedeclared := by
            simpa using hd
          cases ht : targetsOfParents (fun cl => staticTargets fuel ar cl)
              (findRedeclaredClasses ar c.m_parent) with
          | none => rw [ht] at h; cases h
          | some ls =>
            rw [ht] at h
            simp only [Option.map_some', Option.some.injEq] at h
            rw [← h] at hf
            rcases List.mem_append.1 hf with h1 | h1
            · exact hown f h1
            · obtain ⟨cl, hcl, lc, hlc, hfl⟩ := mem_targetsOfParents ht f h1
              obtain ⟨x, cx, nd, hchain, hcx, hnd, hfd⟩ := ih cl lc hlc f hfl
              exact ⟨x, cx, nd, Relation.ReflTransGen.head
                ⟨c, hc, hp', Or.inl ⟨hd', hcl⟩⟩ hchain, hcx, hnd, hfd⟩
        · rw [if_neg hd] at h
          have hd' : c.m_derivesFromRedeclaring ≠ Derivation.DirectFromRedeclared := by
            simpa using hd
          cases hfc : findClass ar c.m_parent with
          | none =>
            rw [hfc] at h
            simp only [Option.some.injEq] at h
            rw [← h] at hf
            exact hown f hf
          | some p =>
            rw [hfc] at h
            simp only at h
            cases ht : staticTargets fuel ar p with
            | none => rw [ht] at h; cases h
            | some ls =>
              rw [ht] at h
              simp only [Option.map_some', Option.some.injEq] at h
              rw [← h] at hf
              rcases List.mem_append.1 hf with h1 | h1
              · exact hown f h1
              · obtain ⟨x, cx, nd, hchain, hcx, hnd, hfd⟩ := ih p ls ht f h1
                exact ⟨x, cx, nd, Relation.ReflTransGen.head
                  ⟨c, hc, hp', Or.inr ⟨hd', hfc⟩⟩ hchain, hcx, hnd, hfd⟩
      · rw [if_neg hp] at h
        simp only [Option.some.injEq] at h
        rw [← h] at hf
        exact hown f hf

/-- C21: on a hierarchy with an acyclic parent chain `setDynamic(e, name)` returns, and a
second call on the state it leaves returns that same state; the call changes nothing but
function scopes, in which it only raises `m_dynamic` (`DynamicOnly`), so no dynamic flag goes
from true to false; and every function scope it changes is a declaration of `name` in a class
its walk reaches. The same holds of `setStaticDynamic(e)`, where every function scope it
changes is static and is a declaration in the method table of a class up the parent chain. -/
theorem setDynamic_idempotent (rank : String → Nat) (ar : AnalysisResult)
    (hacy : ParentAcyclic rank ar) (fuel e : Nat) (c : ClassScope) (name : String)
    (hc : ar.classes[e]? = some c) (hfuel : rank c.m_name < fuel) :
    (∃ ar1, setDynamic fuel e name ar = some ar1 ∧ setDynamic fuel e name ar1 = some ar1 ∧
      DynamicOnly ar ar1 ∧
      (∀ (f : Nat) (fs fs' : FunctionScope),
        ar.functions[f]? = some fs → ar1.functions[f]? = some fs' →
        fs.m_dynamic = true → fs'.m_dynamic = true) ∧
      ∀ (f : Nat) (fs fs' : FunctionScope),
        ar.functions[f]? = some fs → ar1.functions[f]? = some fs' → fs' ≠ fs →
        ∃ x cx decls, Relation.ReflTransGen (DynamicStep ar name) e x ∧
          ar.classes[x]? = some cx ∧ cx.m_functions.lookup name = some decls ∧ f ∈ decls) ∧
    (∃ ar2, setStaticDynamic fuel e ar = some ar2 ∧ setStaticDynamic fuel e ar2 = some ar2 ∧
      DynamicOnly ar ar2 ∧
      (∀ (f : Nat) (fs fs' : FunctionScope),
        ar.functions[f]? = some fs → ar2.functions[f]? = some fs' →
        fs.m_dynamic = true → fs'.m_dynamic = true) ∧
      ∀ (f : Nat) (fs fs' : FunctionScope),
        ar.functions[f]? = some fs → ar2.functions[f]? = some fs' → fs' ≠ fs →
        fs.m_static = true ∧
        ∃ x cx nd, Relation.ReflTransGen (ParentStep ar) e x ∧
          ar.classes[x]? = some cx ∧ nd ∈ cx.m_functions ∧ f ∈ nd.2) := by
  have mono : ∀ (a1 : AnalysisResult), DynamicOnly ar a1 →
      ∀ (f : Nat) (fs fs' : FunctionScope),
        ar.functions[f]? = some fs → a1.functions[f]? = some fs' →
        fs.m_dynamic = true → fs'.m_dynamic = true := by
    intro a1 hd f fs fs' h1 h2 hdyn
    obtain ⟨fs0, h0, hr⟩ := hd.before h2
    rw [h1] at h0
    cases h0
    exact hr.dynamic_mono hdyn
  constructor
  · obtain ⟨ar1, h1, hd, _⟩ := setDynamic_spec hacy name fuel e c ar rfl hc hfuel
    have heq := setDynamic_eq_fold name fuel e ar
    rw [h1] at heq
    cases hl : dynamicTargets fuel ar e name with
    | none => rw [hl] at heq; cases heq
    | some l =>
      rw [hl] at heq
      simp only [Option.map_some', Option.some.injEq] at heq
      refine ⟨ar1, h1, ?_, hd, mono ar1 hd, ?_⟩
      · rw [setDynamic_eq_fold, dynamicTargets_classes_eq name fuel ar ar1 e hd.1, hl]
        simp only [Option.map_some', Option.some.injEq]
        rw [heq]
        exact foldl_setFunctionDynamic_idem l ar
      · intro f fs fs' hf hf' hne
        rw [heq, foldl_setFunctionDynamic_getElem?, hf] at hf'
        simp only [Option.map_some', Option.some.injEq] at hf'
        by_cases hm : f ∈ l
        · exact mem_dynamicTargets ar name fuel e l hl f hm
        · rw [if_neg hm] at hf'
          exact absurd hf'.symm hne
  · obtain ⟨ar2, h2, hd, _⟩ := setStaticDynamic_spec hacy fuel e c ar rfl hc hfuel
    have heq := setStaticDynamic_eq_fold fuel e ar
    rw [h2] at heq
    cases hl : staticTargets fuel ar e with
    | none => rw [hl] at heq; cases heq
    | some l =>
      rw [hl] at heq
      simp only [Option.map_some', Option.some.injEq] at heq
      refine ⟨ar2, h2, ?_, hd, mono ar2 hd, ?_⟩
      · rw [setStaticDynamic_eq_fold, staticTargets_classes_eq fuel ar ar2 e hd.1, hl]
        simp only [Option.map_some', Option.some.injEq]
        rw [heq]
        exact foldl_setStaticFunctionDynamic_idem l ar
      · intro f fs fs' hf hf' hne
        rw [heq, foldl_setStaticFunctionDynamic_getElem?, hf] at hf'
        simp only [Option.map_some', Option.some.injEq] at hf'
        by_cases hm : f ∈ l ∧ fs.m_static = true
        · exact ⟨hm.2, mem_staticTargets ar fuel e l hl f hm.1⟩
        · rw [if_neg hm] at hf'
          exact absurd hf'.symm hne

theorem setDynamic_idempotent_witness :
    ((setDynamic 2 1 "sp" dynamicRegistry).bind (setDynamic 2 1 "sp")).map
      (fun a => a.functions.map (fun f => f.m_dynamic)) =
      some [false, false, true, false] ∧
    ((setStaticDynamic 2 1 dynamicRegistry).bind (setStaticDynamic 2 1)).map
      (fun a => a.functions.map (fun f => f.m_dynamic)) =
      some [false, false, true, true] ∧
    ((∃ ar1, setDynamic 2 1 "sp" dynamicRegistry = some ar1 ∧
      setDynamic 2 1 "sp" ar1 = some ar1 ∧ DynamicOnly dynamicRegistry ar1 ∧
      (∀ (f : Nat) (fs fs' : FunctionScope),
        dynamicRegistry.functions[f]? = some fs → ar1.functions[f]? = some fs' →
        fs.m_dynamic = true → fs'.m_dynamic = true) ∧
      ∀ (f : Nat) (fs fs' : FunctionScope),
        dynamicRegistry.functions[f]? = some fs → ar1.functions[f]? = some fs' →
        fs' ≠ fs →
        ∃ x cx decls, Relation.ReflTransGen (DynamicStep dynamicRegistry "sp") 1 x ∧
          dynamicRegistry.classes[x]? = some cx ∧
          cx.m_functions.lookup "sp" = some decls ∧ f ∈ decls) ∧
    (∃ ar2, setStaticDynamic 2 1 dynamicRegistry = some ar2 ∧
      setStaticDynamic 2 1 ar2 = some ar2 ∧ DynamicOnly dynamicRegistry ar2 ∧
      (∀ (f : Nat) (fs fs' : FunctionScope),
        dynamicRegistry.functions[f]? = some fs → ar2.functions[f]? = some fs' →
        fs.m_dynamic = true → fs'.m_dynamic = true) ∧
      ∀ (f : Nat) (fs fs' : FunctionScope),
        dynamicRegistry.functions[f]? = some fs → ar2.functions[f]? = some fs' →
        fs' ≠ fs →
        fs.m_static = true ∧
        ∃ x cx nd, Relation.ReflTransGen (ParentStep dynamicRegistry) 1 x ∧
          dynamicRegistry.classes[x]? = some cx ∧ nd ∈ cx.m_functions ∧ f ∈ nd.2)) :=
  ⟨by decide, by decide,
    setDynamic_idempotent dynamicRank dynamicRegistry (parentAcyclic_of_forall_mem (by decide))
      2 1
      { ClassScope.create KindOf.KindOfObjectClass "e" "p" ["p"] false false 1 with
        m_functions := [("foo", [1]), ("se", [3])] } "sp" (by decide) (by decide)⟩

/-! ## Monotonicity of derivesFromRedeclaring, isVolatile and isDynamic -/

theorem ClassKept.refl_classKept (c : ClassScope) : ClassKept c c :=
  ⟨fun h => h, fun h => h, fun h => h⟩

theorem ClassKept.trans_classKept (a b c : ClassScope) (h1 : ClassKept a b)
    (h2 : ClassKept b c) : ClassKept a c :=
  ⟨fun h => h2.derives (h1.derives h), fun h => h2.volatile (h1.volatile h),
    fun h => h2.dynamic (h1.dynamic h)⟩

theorem FlagsKept.refl_flagsKept (a : AnalysisResult) : FlagsKept a a :=
  Pointwise.refl_pointwise ClassKept.refl_classKept _

theorem FlagsKept.trans_flagsKept {a b c : AnalysisResult} (h1 : FlagsKept a b)
    (h2 : FlagsKept b c) : FlagsKept a c :=
  @Pointwise.trans_pointwise _ ClassKept ClassKept.trans_classKept _ _ _ h1 h2

theorem FlagsKept.of_classes_eq_flagsKept {a b : AnalysisResult} (h : b.classes = a.classes) :
    FlagsKept a b := by
  unfold FlagsKept
  rw [h]
  exact Pointwise.refl_pointwise ClassKept.refl_classKept _

theorem FlagsKept.updateClass_flagsKept (a : AnalysisResult) (k : Nat)
    (g : ClassScope → ClassScope) (hg : ∀ c, a.classes[k]? = some c → ClassKept c (g c)) :
    FlagsKept a (HPHP.updateClass a k g) :=
  Pointwise.modify ClassKept.refl_classKept _ _ _ hg

theorem FlagsKept.of_dynamicOnly {a b : AnalysisResult} (h : DynamicOnly a b) :
    FlagsKept a b :=
  FlagsKept.of_classes_eq_flagsKept h.1

theorem FlagsKept.of_arGrows {a b : AnalysisResult} (h : ArGrows a b) : FlagsKept a b := by
  refine ⟨h.classes.1, ?_⟩
  intro k c hc
  obtain ⟨c', hc', g⟩ := h.classes.2 k c hc
  refine ⟨c', hc', g.derives, g.volatile, ?_⟩
  have e := congrArg ClassScope.m_dynamic g.same
  simp only at e
  intro hd
  rw [e]
  exact hd

theorem FlagsKept.of_shrinks {T : List String} {n : String} {a b : AnalysisResult}
    (h : Shrinks T n a b) : FlagsKept a b := by
  have hlen := length_eq_of_namesOf h.names
  refine ⟨hlen, ?_⟩
  intro k c hc
  obtain ⟨c', hc'⟩ := exists_of_length_eq hlen hc
  have e := h.fields k c c' hc hc'
  have e1 := congrArg ClassScope.m_derivesFromRedeclaring e
  have e2 := congrArg ClassScope.m_volatile e
  have e3 := congrArg ClassScope.m_dynamic e
  simp only at e1 e2 e3
  refine ⟨c', hc', ⟨?_, ?_, ?_⟩⟩
  · rw [e1]; exact fun h => h
  · rw [e2]; exact fun h => h
  · rw [e3]; exact fun h => h

theorem FlagsKept.derivesKept {a b : AnalysisResult} (h : FlagsKept a b) : DerivesKept a b := by
  refine ⟨h.1, ?_⟩
  intro k c c' hc hc' hd
  obtain ⟨c'', hc'', g⟩ := h.2 k c hc
  rw [hc'] at hc''
  cases hc''
  exact g.derives hd

theorem FlagsKept.volatileKept {a b : AnalysisResult} (h : FlagsKept a b) :
    VolatileKept a b := by
  refine ⟨h.1, ?_⟩
  intro k c c' hc hc'
  obtain ⟨c'', hc'', g⟩ := h.2 k c hc
  rw [hc'] at hc''
  cases hc''
  exact ⟨g.volatile, g.dynamic⟩

theorem setDynamic_flagsKept (fuel e : Nat) (name : String) (ar ar' : AnalysisResult)
    (h : setDynamic fuel e name ar = some ar') : FlagsKept ar ar' := by
  rw [setDynamic_eq_fold] at h
  cases hl : dynamicTargets fuel ar e name with
  | none => rw [hl] at h; cases h
  | some l =>
    rw [hl] at h
    simp only [Option.map_some', Option.some.injEq] at h
    rw [← h]
    exact FlagsKept.of_dynamicOnly (foldl_setFunctionDynamic l ar).1

theorem setStaticDynamic_flagsKept (fuel e : Nat) (ar ar' : AnalysisResult)
    (h : setStaticDynamic fuel e ar = some ar') : FlagsKept ar ar' := by
  rw [setStaticDynamic_eq_fold] at h
  cases hl : staticTargets fuel ar e with
  | none => rw [hl] at h; cases h
  | some l =>
    rw [hl] at h
    simp only [Option.map_some', Option.some.injEq] at h
    rw [← h]
    exact FlagsKept.of_dynamicOnly (foldl_setStaticFunctionDynamic l ar).1

theorem setDirectFromRedeclared_flagsKept (ar : AnalysisResult) (self : Nat) :
    FlagsKept ar (setDirectFromRedeclared ar self) := by
  unfold setDirectFromRedeclared
  apply FlagsKept.updateClass_flagsKept
  intro c _
  exact ⟨fun _ h => (by cases h), fun h => h, fun h => h⟩

theorem findFallback_flagsKept (fuel self : Nat) (name : String) (ar : AnalysisResult)
    (r : Option Nat) (ar' : AnalysisResult) (h : findFallback fuel self name ar = some (r, ar')) :
    FlagsKept ar ar' := by
  unfold findFallback at h
  cases hc : ar.classes[self]? with
  | none => rw [hc] at h; cases h
  | some c =>
    rw [hc] at h
    simp only at h
    split at h
    · cases hs : setDynamic fuel self name ar with
      | none => rw [hs] at h; cases h
      | some a1 =>
        rw [hs] at h
        simp only [Option.some.injEq, Prod.mk.injEq] at h
        rw [← h.2]
        exact setDynamic_flagsKept fuel self name ar a1 hs
    · simp only [Option.some.injEq, Prod.mk.injEq] at h
      rw [← h.2]
      exact FlagsKept.refl_flagsKept ar

theorem findFunctionBases_flagsKept
    (rec : Nat → AnalysisResult → Option (Option Nat × AnalysisResult))
    (hrec : ∀ p a r a', rec p a = some (r, a') → FlagsKept a a') (excl : Bool) (self : Nat) :
    ∀ (bs : List String) (ar : AnalysisResult) (r : Option Nat) (ar' : AnalysisResult),
      findFunctionBases rec excl self bs ar = some (r, ar') → FlagsKept ar ar' := by
  intro bs
  induction bs with
  | nil =>
    intro ar r ar' h
    simp only [findFunctionBases, Option.some.injEq, Prod.mk.injEq] at h
    rw [← h.2]
    exact FlagsKept.refl_flagsKept ar
  | cons b rest ih =>
    intro ar r ar' h
    unfold findFunctionBases at h
    cases hf : findClass ar b with
    | none =>
      rw [hf] at h
      exact ih ar r ar' h
    | some p =>
      rw [hf] at h
      simp only at h
      cases hcp : ar.classes[p]? with
      | none => rw [hcp] at h; cases h
      | some cp =>
        rw [hcp] at h
        simp only at h
        split at h
        · simp only [Option.some.injEq, Prod.mk.injEq] at h
          rw [← h.2]
          exact FlagsKept.refl_flagsKept ar
        · split at h
          · split at h
            · simp only [Option.some.injEq, Prod.mk.injEq] at h
              rw [← h.2]
              exact setDirectFromRedeclared_flagsKept ar self
            · exact ih ar r ar' h
          · cases hr : rec p ar with
            | none => rw [hr] at h; cases h
            | some q =>
              obtain ⟨r1, a1⟩ := q
              rw [hr] at h
              have h1 := hrec p ar r1 a1 hr
              cases r1 with
              | none =>
                simp only at h
                exact h1.trans_flagsKept (ih a1 r ar' h)
              | some f =>
                simp only [Option.some.injEq, Prod.mk.injEq] at h
                rw [← h.2]
                exact h1

theorem findFunction_flagsKept (name : String) :
    ∀ (fuel self : Nat) (recursive excl : Bool) (ar : AnalysisResult) (r : Option Nat)
      (ar' : AnalysisResult),
      findFunction fuel self name recursive excl ar = some (r, ar') → FlagsKept ar ar' := by
  intro fuel
  induction fuel with
  | zero => intro self _ _ ar r ar' h; simp [findFunction] at h
  | succ fuel ih =>
    intro self recursive excl ar r ar' h
    rw [findFunction] at h
    cases hc : ar.classes[self]? with
    | none => rw [hc] at h; cases h
    | some c =>
      rw [hc] at h
      simp only at h
      cases hl : c.m_functions.lookup name with
      | some decls =>
        rw [hl] at h
        simp only at h
        cases hg : decls.getLast? with
        | none => rw [hg] at h; cases h
        | some f =>
          rw [hg] at h
          simp only [Option.some.injEq, Prod.mk.injEq] at h
          rw [← h.2]
          exact FlagsKept.refl_flagsKept ar
      | none =>
        rw [hl] at h
        simp only at h
        split at h
        · cases hb : findFunctionBases
              (fun super a => findFunction fuel super name true excl a) excl self c.m_bases
              ar with
          | none => rw [hb] at h; cases h
          | some q =>
            obtain ⟨r1, a1⟩ := q
            rw [hb] at h
            have h1 := findFunctionBases_flagsKept _
              (fun p a r a' hr => ih p true excl a r a' hr) excl self c.m_bases ar r1 a1 hb
            cases r1 with
            | none =>
              simp only at h
              exact h1.trans_flagsKept (findFallback_flagsKept fuel self name a1 r ar' h)
            | some f =>
              simp only [Option.some.injEq, Prod.mk.injEq] at h
              rw [← h.2]
              exact h1
        · exact findFallback_flagsKept fuel self name ar r ar' h

theorem findConstructor_flagsKept :
    ∀ (fuel self : Nat) (recursive : Bool) (ar : AnalysisResult) (r : Option Nat)
      (ar' : AnalysisResult),
      findConstructor fuel self recursive ar = some (r, ar') → FlagsKept ar ar' := by
  intro fuel
  induction fuel with
  | zero => intro self _ ar r ar' h; simp [findConstructor] at h
  | succ fuel ih =>
    intro self recursive ar r ar' h
    rw [findConstructor] at h
    cases hc : ar.classes[self]? with
    | none => rw [hc] at h; cases h
    | some c =>
      rw [hc] at h
      simp only at h
      cases hl : c.m_functions.lookup c.constructorName with
      | some decls =>
        rw [hl] at h
        simp only at h
        cases hg : decls.getLast? with
        | none => rw [hg] at h; cases h
        | some f =>
          rw [hg] at h
          simp only [Option.some.injEq, Prod.mk.injEq] at h
          rw [← h.2]
          exact FlagsKept.refl_flagsKept ar
      | none =>
        rw [hl] at h
        simp only at h
        split at h
        · cases hf : findClass ar c.m_parent with
          | none =>
            rw [hf] at h
            exact findFallback_flagsKept fuel self _ ar r ar' h
          | some p =>
            rw [hf] at h
            simp only at h
            cases hr : findConstructor fuel p true ar with
            | none => rw [hr] at h; cases h
            | some q =>
              obtain ⟨r1, a1⟩ := q
              rw [hr] at h
              have h1 := ih p true ar r1 a1 hr
              cases r1 with
              | none =>
                simp only at h
                exact h1.trans_flagsKept (findFallback_flagsKept fuel self _ a1 r ar' h)
              | some f =>
                simp only [Option.some.injEq, Prod.mk.injEq] at h
                rw [← h.2]
                exact h1
        · exact findFallback_flagsKept fuel self _ ar r ar' h

theorem implementsAccessorParents_flagsKept
    (rec : Nat → AnalysisResult → Option (Int × AnalysisResult))
    (hrec : ∀ cls a v a', rec cls a = some (v, a') → FlagsKept a a') :
    ∀ (alts : List Nat) (yes no : Int) (ar : AnalysisResult) (y n : Int)
      (ar' : AnalysisResult), implementsAccessorParents rec alts yes no ar = some (y, n, ar') →
      FlagsKept ar ar' := by
  intro alts
  induction alts with
  | nil =>
    intro yes no ar y n ar' h
    simp only [implementsAccessorParents, Option.some.injEq, Prod.mk.injEq] at h
    rw [← h.2.2]
    exact FlagsKept.refl_flagsKept ar
  | cons cls rest ih =>
    intro yes no ar y n ar' h
    unfold implementsAccessorParents at h
    cases hr : rec cls ar with
    | none => rw [hr] at h; cases h
    | some p =>
      obtain ⟨a, ar1⟩ := p
      rw [hr] at h
      have h1 := hrec cls ar a ar1 hr
      simp only at h
      by_cases ha : a < 0
      · rw [if_pos ha] at h
        simp only [Option.some.injEq, Prod.mk.injEq] at h
        rw [← h.2.2]
        exact h1
      · rw [if_neg ha] at h
        by_cases hb : a > 0
        · rw [if_pos hb] at h
          exact h1.trans_flagsKept (ih _ _ _ _ _ _ h)
        · rw [if_neg hb] at h
          exact h1.trans_flagsKept (ih _ _ _ _ _ _ h)

theorem implementsAccessor_flagsKept : ∀ (fuel self : Nat) (name : String)
    (ar : AnalysisResult) (v : Int) (ar' : AnalysisResult),
    implementsAccessor fuel self name ar = some (v, ar') → FlagsKept ar ar' := by
  intro fuel
  induction fuel with
  | zero => intro self name ar v ar' h; simp [implementsAccessor] at h
  | succ fuel ih =>
    intro self name ar v ar' h
    rw [implementsAccessor] at h
    cases hc : ar.classes[self]? with
    | none => rw [hc] at h; cases h
    | some c =>
      rw [hc] at h
      simp only at h
      have hset : ∀ (a : AnalysisResult) (w : Int), FlagsKept a (updateClass a self
          (fun d => { d with m_implemented := imapSet d.m_implemented name w })) := by
        intro a w
        apply FlagsKept.updateClass_flagsKept
        intro d _
        exact ⟨fun h => h, fun h => h, fun h => h⟩
      cases hm : imapFind c.m_implemented name with
      | some w =>
        rw [hm] at h
        simp only [Option.some.injEq, Prod.mk.injEq] at h
        rw [← h.2]
        exact FlagsKept.refl_flagsKept ar
      | none =>
        rw [hm] at h
        simp only at h
        split at h
        · cases hp : implementsAccessorParents (fun cls a => implementsAccessor fuel cls name a)
              (findClasses ar c.m_parent) 0 0 ar with
          | none => rw [hp] at h; cases h
          | some q =>
            obtain ⟨yes, no, ar1⟩ := q
            rw [hp] at h
            simp only [Option.some.injEq, Prod.mk.injEq] at h
            rw [← h.2]
            exact (implementsAccessorParents_flagsKept _
              (fun cls a v a' => ih cls name a v a') _ _ _ _ _ _ _ hp).trans_flagsKept
              (hset ar1 _)
        · simp only [Option.some.injEq, Prod.mk.injEq] at h
          rw [← h.2]
          exact hset ar _

theorem setRedeclaring_flagsKept (self : Nat) (redecId : Int) (ar ar' : AnalysisResult)
    (h : setRedeclaring self redecId ar = some ar') : FlagsKept ar ar' := by
  unfold setRedeclaring at h
  cases hc : ar.classes[self]? with
  | none => rw [hc] at h; cases h
  | some c =>
    rw [hc] at h
    simp only [Option.some.injEq] at h
    rw [← h]
    have h1 : FlagsKept ar (updateClass ar self
        (fun d => { d with m_redeclaring := redecId, m_volatile := true })) := by
      apply FlagsKept.updateClass_flagsKept
      intro d _
      exact ⟨fun h => h, fun _ => rfl, fun h => h⟩
    have h2 : ∀ a : AnalysisResult, FlagsKept a
        (c.m_functions.foldl (fun a nd => nd.2.foldl setFunctionDynamic a) a) := by
      intro a
      apply FlagsKept.of_classes_eq_flagsKept
      rw [foldl_foldl_flatten]
      exact foldl_mark_classes setFunctionDynamic (fun _ _ => rfl) _ _
    have h3 : ∀ a : AnalysisResult, FlagsKept a (updateClass a self (fun d =>
        { d with m_variables := { d.m_variables with forcedNonPrivateVariants := true } })) := by
      intro a
      apply FlagsKept.updateClass_flagsKept
      intro d _
      exact ⟨fun h => h, fun h => h, fun h => h⟩
    exact h1.trans_flagsKept ((h2 _).trans_flagsKept (h3 _))

theorem checkDerivation_flagsKept (fuel p : Nat) (s0 s1 : DerivState)
    (h : checkDerivation fuel p s0 = some s1) : FlagsKept s0.ar s1.ar := by
  obtain ⟨c, _, hs, _⟩ := checkDerivation_post fuel p s0 s1 h
  exact FlagsKept.of_shrinks hs

theorem collectMethods_flagsKept (fuel self : Nat) (collectPrivate forInvoke : Bool)
    (s s' : CollectState) (h : collectMethods fuel self collectPrivate forInvoke s = some s') :
    FlagsKept s.ar s'.ar :=
  FlagsKept.of_arGrows (collectMethods_grows fuel self collectPrivate forInvoke s s' h).1

/-- C26: `derivesFromRedeclaring` never returns to `FromNormal`. Every call of
`checkDerivation`, `collectMethods`, `findFunction`, `findConstructor`, `setDynamic`,
`setStaticDynamic`, `setRedeclaring` and `implementsAccessor` that returns keeps every class
scope of the arena, and a class scope whose `m_derivesFromRedeclaring` differs from
`FromNormal` before the call has one that differs from `FromNormal` after it. -/
theorem derivesFromRedeclaring_monotone :
    (∀ fuel p s0 s1, checkDerivation fuel p s0 = some s1 → DerivesKept s0.ar s1.ar) ∧
    (∀ fuel self collectPrivate forInvoke s s',
      collectMethods fuel self collectPrivate forInvoke s = some s' →
      DerivesKept s.ar s'.ar) ∧
    (∀ fuel self name recursive exclIntfBase ar r ar',
      findFunction fuel self name recursive exclIntfBase ar = some (r, ar') →
      DerivesKept ar ar') ∧
    (∀ fuel self recursive ar r ar',
      findConstructor fuel self recursive ar = some (r, ar') → DerivesKept ar ar') ∧
    (∀ fuel self name ar ar', setDynamic fuel self name ar = some ar' → DerivesKept ar ar') ∧
    (∀ fuel self ar ar', setStaticDynamic fuel self ar = some ar' → DerivesKept ar ar') ∧
    (∀ self redecId ar ar', setRedeclaring self redecId ar = some ar' → DerivesKept ar ar') ∧
    (∀ fuel self name ar v ar',
      implementsAccessor fuel self name ar = some (v, ar') → DerivesKept ar ar') :=
  ⟨fun fuel p s0 s1 h => (checkDerivation_flagsKept fuel p s0 s1 h).derivesKept,
    fun fuel self cp fi s s' h => (collectMethods_flagsKept fuel self cp fi s s' h).derivesKept,
    fun fuel self name rec excl ar r ar' h =>
      (findFunction_flagsKept name fuel self rec excl ar r ar' h).derivesKept,
    fun fuel self rec ar r ar' h => (findConstructor_flagsKept fuel self rec ar r ar' h).derivesKept,
    fun fuel self name ar ar' h => (setDynamic_flagsKept fuel self name ar ar' h).derivesKept,
    fun fuel self ar ar' h => (setStaticDynamic_flagsKept fuel self ar ar' h).derivesKept,
    fun self redecId ar ar' h => (setRedeclaring_flagsKept self redecId ar ar' h).derivesKept,
    fun fuel self name ar v ar' h =>
      (implementsAccessor_flagsKept fuel self name ar v ar' h).derivesKept⟩

theorem derivesFromRedeclaring_monotone_witness :
    findFunction 4 4 "foo" true false redeclaredParentRegistry =
      some (none, setFunctionDynamic
        (setFunctionDynamic (setDirectFromRedeclared redeclaredParentRegistry 4) 0) 1) ∧
    DerivesKept redeclaredParentRegistry (setFunctionDynamic
      (setFunctionDynamic (setDirectFromRedeclared redeclaredParentRegistry 4) 0) 1) ∧
    setRedeclaring 0 1 volatileRegistry =
      some (updateClass (setFunctionDynamic volatileRegistry 0) 0
        (fun d => { d with m_redeclaring := 1, m_variables := ⟨true, false⟩ })) ∧
    DerivesKept volatileRegistry (updateClass (setFunctionDynamic volatileRegistry 0) 0
      (fun d => { d with m_redeclaring := 1, m_variables := ⟨true, false⟩ })) :=
  ⟨by decide,
    derivesFromRedeclaring_monotone.2.2.1 4 4 "foo" true false redeclaredParentRegistry none _
      (by decide),
    by decide,
    derivesFromRedeclaring_monotone.2.2.2.2.2.2.1 0 1 volatileRegistry _ (by decide)⟩

theorem setSystemOwn_classes :
    ∀ (fns : List (String × List Nat)) (ar ar' : AnalysisResult),
      setSystemOwn fns ar = some ar' → ar'.classes = ar.classes := by
  intro fns
  induction fns with
  | nil =>
    intro ar ar' h
    simp only [setSystemOwn, Option.some.injEq] at h
    rw [h]
  | cons nd rest ih =>
    intro ar ar' h
    obtain ⟨n, decls⟩ := nd
    unfold setSystemOwn at h
    cases hd : decls.head? with
    | none => rw [hd] at h; cases h
    | some f =>
      rw [hd] at h
      simp only at h
      exact ih (setFunctionSystem ar f) ar' h

/-- C27, counterexample: the class `v` is volatile and dynamic; after `setSystem` it is
neither. -/
theorem setSystem_clears_volatile :
    (volatileRegistry.classes.map (fun c => (c.m_volatile, c.m_dynamic))) = [(true, true)] ∧
    (setSystem 0 volatileRegistry).map
      (fun a => a.classes.map (fun c => (c.m_volatile, c.m_dynamic))) =
      some [(false, false)] := by
  decide

/-- C27: `isVolatile` and `isDynamic` of a class are monotone under every operation but
`setSystem`. Every call of `checkDerivation`, `collectMethods`, `findFunction`,
`findConstructor`, `setRedeclaring`, `setDynamic` and `setStaticDynamic` that returns keeps
every class scope of the arena, and a class scope that is volatile (dynamic) before the call
is volatile (dynamic) after it. A call of `setSystem` leaves its class scope neither volatile
nor dynamic. -/
theorem volatile_monotone :
    (∀ fuel p s0 s1, checkDerivation fuel p s0 = some s1 → VolatileKept s0.ar s1.ar) ∧
    (∀ fuel self collectPrivate forInvoke s s',
      collectMethods fuel self collectPrivate forInvoke s = some s' →
      VolatileKept s.ar s'.ar) ∧
    (∀ fuel self name recursive exclIntfBase ar r ar',
      findFunction fuel self name recursive exclIntfBase ar = some (r, ar') →
      VolatileKept ar ar') ∧
    (∀ fuel self recursive ar r ar',
      findConstructor fuel self recursive ar = some (r, ar') → VolatileKept ar ar') ∧
    (∀ self redecId ar ar', setRedeclaring self redecId ar = some ar' → VolatileKept ar ar') ∧
    (∀ fuel self name ar ar', setDynamic fuel self name ar = some ar' → VolatileKept ar ar') ∧
    (∀ fuel self ar ar', setStaticDynamic fuel self ar = some ar' → VolatileKept ar ar') ∧
    (∀ self ar ar', setSystem self ar = some ar' →
      ∃ c', ar'.classes[self]? = some c' ∧ c'.m_volatile = false ∧ c'.m_dynamic = false) := by
  refine ⟨fun fuel p s0 s1 h => (checkDerivation_flagsKept fuel p s0 s1 h).volatileKept,
    fun fuel self cp fi s s' h => (collectMethods_flagsKept fuel self cp fi s s' h).volatileKept,
    fun fuel self name rec excl ar r ar' h =>
      (findFunction_flagsKept name fuel self rec excl ar r ar' h).volatileKept,
    fun fuel self rec ar r ar' h =>
      (findConstructor_flagsKept fuel self rec ar r ar' h).volatileKept,
    fun self redecId ar ar' h => (setRedeclaring_flagsKept self redecId ar ar' h).volatileKept,
    fun fuel self name ar ar' h => (setDynamic_flagsKept fuel self name ar ar' h).volatileKept,
    fun fuel self ar ar' h => (setStaticDynamic_flagsKept fuel self ar ar' h).volatileKept, ?_⟩
  intro self ar ar' h
  unfold setSystem at h
  cases hc : ar.classes[self]? with
  | none => rw [hc] at h; cases h
  | some c =>
    rw [hc] at h
    simp only at h
    rw [setSystemOwn_classes _ _ _ h]
    exact ⟨_, getElem?_updateClass_self _ hc, rfl, rfl⟩

theorem volatile_monotone_witness :
    setRedeclaring 0 1 volatileRegistry =
      some (updateClass (setFunctionDynamic volatileRegistry 0) 0
        (fun d => { d with m_redeclaring := 1, m_variables := ⟨true, false⟩ })) ∧
    VolatileKept volatileRegistry (updateClass (setFunctionDynamic volatileRegistry 0) 0
      (fun d => { d with m_redeclaring := 1, m_variables := ⟨true, false⟩ })) ∧
    setSystem 0 volatileRegistry =
      some (setFunctionSystem (updateClass volatileRegistry 0 (fun d =>
        { d.setAttribute Attribute.System with m_volatile := false, m_dynamic := false })) 0) ∧
    ∃ c', (setFunctionSystem (updateClass volatileRegistry 0 (fun d =>
        { d.setAttribute Attribute.System with m_volatile := false, m_dynamic := false }))
        0).classes[0]? = some c' ∧ c'.m_volatile = false ∧ c'.m_dynamic = false :=
  ⟨by decide, volatile_monotone.2.2.2.2.1 0 1 volatileRegistry _ (by decide), by decide,
    volatile_monotone.2.2.2.2.2.2.2 0 volatileRegistry _ (by decide)⟩

/-! ## addFunction -/

theorem lookup_map_set (m : List (String × List Nat)) (name : String) (v : List Nat) :
    ∀ k, (m.map (fun kv => if kv.1 == name then (kv.1, v) else kv)).lookup k =
      if k = name then (m.lookup k).map (fun _ => v) else m.lookup k := by
  induction m with
  | nil => intro k; simp
  | cons kv rest ih =>
    intro k
    obtain ⟨k', w⟩ := kv
    rw [List.map_cons, List.lookup_cons, List.lookup_cons]
    by_cases hk : k' = name
    · subst hk
      simp only [beq_self_eq_true, if_true]
      by_cases hkk : k = k'
      · subst hkk
        simp
      · have : (k == k') = false := by simpa using hkk
        rw [this]
        simp only
        exact ih k
    · have hk2 : (k' == name) = false := by simpa using hk
      simp only [hk2, Bool.false_eq_true, if_false]
      by_cases hkk : k = k'
      · subst hkk
        simp [hk]
      · have : (k == k') = false := by simpa using hkk
        rw [this]
        simp only
        exact ih k

theorem lookup_append_single (m : List (String × List Nat)) (name : String) (v : List Nat) :
    ∀ k, (m ++ [(name, v)]).lookup k =
      match m.lookup k with
      | some w => some w
      | none => if k = name then some v else none := by
  induction m with
  | nil =>
    intro k
    by_cases hk : k = name
    · subst hk; simp [List.lookup]
    · have : (k == name) = false := by simpa using hk
      simp [List.lookup, this, hk]
  | cons kv rest ih =>
    intro k
    obtain ⟨k', w⟩ := kv
    rw [List.cons_append, List.lookup_cons, List.lookup_cons]
    by_cases hkk : (k == k') = true
    · rw [hkk]
    · have : (k == k') = false := by simpa using hkk
      rw [this]
      exact ih k

theorem lookup_tableSet (m : List (String × List Nat)) (name : String) (v : List Nat)
    (k : String) :
    (tableSet m name v).lookup k = if k = name then some v else m.lookup k := by
  unfold tableSet
  cases hl : m.lookup name with
  | some w =>
    simp only [Option.isSome_some, if_true]
    rw [lookup_map_set]
    by_cases hk : k = name
    · subst hk
      rw [if_pos rfl, if_pos rfl, hl]
      rfl
    · rw [if_neg hk, if_neg hk]
  | none =>
    simp only [Option.isSome_none, Bool.false_eq_true, if_false]
    rw [lookup_append_single]
    by_cases hk : k = name
    · subst hk
      rw [hl, if_pos rfl]
    · rw [if_neg hk]
      cases m.lookup k with
      | none => simp [hk]
      | some w => simp [hk]

theorem mem_tableSet {m : List (String × List Nat)} {name : String} {v : List Nat}
    {nd : String × List Nat} (h : nd ∈ tableSet m name v) : nd ∈ m ∨ nd.2 = v := by
  unfold tableSet at h
  split at h
  · obtain ⟨kv, hkv, he⟩ := List.mem_map.1 h
    by_cases hk : (kv.1 == name) = true
    · rw [if_pos hk] at he
      right
      rw [← he]
    · rw [if_neg hk] at he
      left
      rw [← he]
      exact hkv
  · rcases List.mem_append.1 h with h1 | h1
    · exact Or.inl h1
    · right
      simp only [List.mem_singleton] at h1
      rw [h1]

/-- C22: `addFunction` never drops a declaration. On an existing class scope and function
scope it returns true; the sequence of the name is the old sequence followed by the new
declaration, the other sequences stay, and no sequence is empty afterwards if none was
before. When the name had exactly one declaration, the sequence holds both in declaration
order, exactly one error, a `DeclaredFunctionTwice`, is recorded, and the new declaration has
the redeclaring index 1. In general the declaration added to a sequence of `k - 1 ≥ 1`
declarations has the redeclaring index `k - 1`; and no error is recorded for the first
declaration nor for the third and later ones. -/
theorem addFunction_keeps_declarations (ar : AnalysisResult) (self fid : Nat)
    (c : ClassScope) (fs : FunctionScope) (hc : ar.classes[self]? = some c)
    (hf : ar.functions[fid]? = some fs) :
    ∃ ar' c', addFunction self fid ar = some (true, ar') ∧ ar'.classes[self]? = some c' ∧
      c'.m_functions.lookup fs.m_name =
        some ((c.m_functions.lookup fs.m_name).getD [] ++ [fid]) ∧
      (∀ k, k ≠ fs.m_name → c'.m_functions.lookup k = c.m_functions.lookup k) ∧
      ((∀ nd ∈ c.m_functions, nd.2 ≠ []) → ∀ nd ∈ c'.m_functions, nd.2 ≠ []) ∧
      (∀ f0, c.m_functions.lookup fs.m_name = some [f0] →
        c'.m_functions.lookup fs.m_name = some [f0, fid] ∧
        ar'.errors = ar.errors ++ [⟨ErrorType.DeclaredFunctionTwice, fs.m_stmt, ""⟩] ∧
        ∃ fs', ar'.functions[fid]? = some fs' ∧ fs'.m_redeclaring = 1) ∧
      (∀ funcs, c.m_functions.lookup fs.m_name = some funcs → 1 ≤ funcs.length →
        ∃ fs', ar'.functions[fid]? = some fs' ∧ fs'.m_redeclaring = funcs.length) ∧
      (∀ funcs, c.m_functions.lookup fs.m_name = some funcs → 2 ≤ funcs.length →
        ar'.errors = ar.errors) ∧
      (c.m_functions.lookup fs.m_name = none →
        ar'.errors = ar.errors ∧ ar'.functions = ar.functions) := by
  have hlt : fid < ar.functions.length := (List.getElem?_eq_some.1 hf).1
  have hred : ∀ (a : AnalysisResult) (r : Int), fid < a.functions.length →
      ∃ fs', (setFunctionRedeclaring a fid r).functions[fid]? = some fs' ∧
        fs'.m_redeclaring = r := by
    intro a r hl
    unfold setFunctionRedeclaring
    rw [getElem?_updateFunction, if_pos rfl, List.getElem?_eq_getElem hl]
    exact ⟨_, rfl, rfl⟩
  have hlenR : ∀ (a : AnalysisResult) (f : Nat) (r : Int),
      (setFunctionRedeclaring a f r).functions.length = a.functions.length := by
    intro a f r
    simp [setFunctionRedeclaring, updateFunction]
  unfold addFunction
  rw [hc, hf]
  simp only
  refine ⟨_, { c with
    m_functions := tableSet c.m_functions fs.m_name
      ((c.m_functions.lookup fs.m_name).getD [] ++ [fid])
    m_functionsVec := c.m_functionsVec ++ [fid] }, rfl, ?_, ?_, ?_, ?_, ?_, ?_, ?_, ?_⟩
  · refine @getElem?_updateClass_self _ _ c _ ?_
    split <;> split <;> exact hc
  · simp only
    rw [lookup_tableSet, if_pos rfl]
  · intro k hk
    simp only
    rw [lookup_tableSet, if_neg hk]
  · intro hne nd hnd
    simp only at hnd
    rcases mem_tableSet hnd with h1 | h1
    · exact hne nd h1
    · rw [h1]
      simp
  · intro f0 h0
    rw [h0]
    simp only [Option.getD_some, List.length_singleton, if_true, Nat.lt_one_iff,
      Nat.one_pos, gt_iff_lt, List.headD_cons]
    refine ⟨?_, rfl, ?_⟩
    · rw [lookup_tableSet, if_pos rfl]
      rfl
    · have := hred (record (setFunctionRedeclaring ar f0 0) ErrorType.DeclaredFunctionTwice
        fs.m_stmt "") 1 (by
          show fid < (setFunctionRedeclaring ar f0 0).functions.length
          rw [hlenR]; exact hlt)
      exact this
  · intro funcs h0 hlen
    rw [h0]
    simp only [Option.getD_some]
    rw [if_pos (by omega)]
    by_cases h1 : funcs.length = 1
    · rw [if_pos h1]
      exact hred _ _ (by
        show fid < (setFunctionRedeclaring ar (funcs.headD 0) 0).functions.length
        rw [hlenR]; exact hlt)
    · rw [if_neg h1]
      exact hred _ _ hlt
  · intro funcs h0 hlen
    rw [h0]
    simp only [Option.getD_some]
    rw [if_pos (by omega), if_neg (by omega)]
    rfl
  · intro h0
    rw [h0]
    simp only [Option.getD_none, List.length_nil]
    exact ⟨rfl, rfl⟩

theorem addFunction_keeps_declarations_witness :
    (addFunction 0 1 addRegistry).map (fun r => r.2.functions.map (fun f => f.m_redeclaring)) =
      some [0, 1] ∧
    (addFunction 0 1 addRegistry).map (fun r => r.2.errors) =
      some [⟨ErrorType.DeclaredFunctionTwice, 11, ""⟩] ∧
    ∃ ar' c', addFunction 0 1 addRegistry = some (true, ar') ∧
      ar'.classes[0]? = some c' ∧
      c'.m_functions.lookup "foo" = some (([("foo", [0])].lookup "foo").getD [] ++ [1]) :=
  ⟨by decide, by decide,
    match addFunction_keeps_declarations addRegistry 0 1
      { ClassScope.create KindOf.KindOfObjectClass "c" "" [] false false 0 with
        m_functions := [("foo", [0])], m_functionsVec := [0] }
      { FunctionScope.create "foo" false false false with m_stmt := 11 }
      (by decide) (by decide) with
    | ⟨ar', c', h1, h2, h3, _⟩ => ⟨ar', c', h1, h2, h3⟩⟩

/-! ## findJumpTableMethods -/

theorem jumpTableEligible_iff (systemcpp staticOnly : Bool) (fs : FunctionScope) :
    (fs.isRedeclaring = false ∧ ¬ ((fs.m_abstract || (staticOnly && !fs.m_static) ||
      !(systemcpp || fs.m_dynamic || fs.m_virtual)) = true)) ↔
    (fs.isRedeclaring = false ∧ fs.m_abstract = false ∧
      (staticOnly = true → fs.m_static = true) ∧
      (systemcpp = true ∨ fs.m_dynamic = true ∨ fs.m_virtual = true)) := by
  cases fs.isRedeclaring <;> cases fs.m_abstract <;> cases staticOnly <;>
    cases fs.m_static <;> cases systemcpp <;> cases fs.m_dynamic <;>
    cases fs.m_virtual <;> simp

theorem findJumpTableMethodsLoop_spec (ar : AnalysisResult) (systemcpp staticOnly : Bool) :
    ∀ (fns : List (String × List Nat)) (funcs : List String),
      (∀ nd ∈ fns, ∃ f fs, nd.2.head? = some f ∧ ar.functions[f]? = some fs) →
      ∃ out, findJumpTableMethodsLoop ar systemcpp staticOnly fns funcs = some (funcs ++ out) ∧
        out.Sublist (fns.map Prod.fst) ∧
        ∀ name, name ∈ out ↔ ∃ decls f fs, (name, decls) ∈ fns ∧ decls.head? = some f ∧
          ar.functions[f]? = some fs ∧ fs.isRedeclaring = false ∧ fs.m_abstract = false ∧
          (staticOnly = true → fs.m_static = true) ∧
          (systemcpp = true ∨ fs.m_dynamic = true ∨ fs.m_virtual = true) := by
  intro fns
  induction fns with
  | nil =>
    intro funcs _
    exact ⟨[], by simp [findJumpTableMethodsLoop], List.Sublist.refl _, by simp⟩
  | cons nd rest ih =>
    intro funcs hwf
    obtain ⟨name, decls⟩ := nd
    obtain ⟨f, fs, hh, hfs⟩ := hwf (name, decls) (List.mem_cons_self _ _)
    simp only at hh
    have hwf' : ∀ nd ∈ rest, ∃ f fs, nd.2.head? = some f ∧ ar.functions[f]? = some fs :=
      fun nd hnd => hwf nd (List.mem_cons_of_mem _ hnd)
    unfold findJumpTableMethodsLoop
    rw [hh]
    simp only
    rw [hfs]
    simp only
    have skip : (¬ (fs.isRedeclaring = false ∧ fs.m_abstract = false ∧
        (staticOnly = true → fs.m_static = true) ∧
        (systemcpp = true ∨ fs.m_dynamic = true ∨ fs.m_virtual = true))) →
        ∀ out : List String, (out.Sublist (rest.map Prod.fst) ∧
          ∀ n, n ∈ out ↔ ∃ decls f fs, (n, decls) ∈ rest ∧ decls.head? = some f ∧
            ar.functions[f]? = some fs ∧ fs.isRedeclaring = false ∧ fs.m_abstract = false ∧
            (staticOnly = true → fs.m_static = true) ∧
            (systemcpp = true ∨ fs.m_dynamic = true ∨ fs.m_virtual = true)) →
        (out.Sublist (((name, decls) :: rest).map Prod.fst) ∧
          ∀ n, n ∈ out ↔ ∃ decls' f fs, (n, decls') ∈ (name, decls) :: rest ∧
            decls'.head? = some f ∧
            ar.functions[f]? = some fs ∧ fs.isRedeclaring = false ∧ fs.m_abstract = false ∧
            (staticOnly = true → fs.m_static = true) ∧
            (systemcpp = true ∨ fs.m_dynamic = true ∨ fs.m_virtual = true)) := by
      intro hno out ⟨hsub, hiff⟩
      refine ⟨List.Sublist.cons _ hsub, fun n => (hiff n).trans ⟨?_, ?_⟩⟩
      · rintro ⟨d, f', fs', hm, h⟩
        exact ⟨d, f', fs', List.mem_cons_of_mem _ hm, h⟩
      · rintro ⟨d, f', fs', hm, hd, hf', h⟩
        rcases List.mem_cons.1 hm with e | hm'
        · simp only [Prod.mk.injEq] at e
          obtain ⟨_, e2⟩ := e
          subst e2
          rw [hh] at hd
          cases hd
          rw [hfs] at hf'
          cases hf'
          exact absurd h hno
        · exact ⟨d, f', fs', hm', hd, hf', h⟩
    by_cases hr : fs.isRedeclaring = true
    · simp only [hr, Bool.not_true, Bool.false_eq_true, if_false]
      obtain ⟨out, ho, hrest⟩ := ih funcs hwf'
      exact ⟨out, ho, skip (fun h => by rw [h.1] at hr; cases hr) out hrest⟩
    · have hr' : fs.isRedeclaring = false := by simpa using hr
      simp only [hr', Bool.not_false, if_true]
      by_cases hx : (fs.m_abstract || (staticOnly && !fs.m_static) ||
          !(systemcpp || fs.m_dynamic || fs.m_virtual)) = true
      · rw [if_pos hx]
        obtain ⟨out, ho, hrest⟩ := ih funcs hwf'
        refine ⟨out, ho, skip (fun h => ?_) out hrest⟩
        exact ((jumpTableEligible_iff systemcpp staticOnly fs).2 h).2 hx
      · rw [if_neg hx]
        obtain ⟨out, ho, hsub, hiff⟩ := ih (funcs ++ [name]) hwf'
        have hel := (jumpTableEligible_iff systemcpp staticOnly fs).1 ⟨hr', hx⟩
        refine ⟨name :: out, ?_, ?_, ?_⟩
        · rw [ho, List.append_assoc]
          rfl
        · exact List.Sublist.cons₂ _ hsub
        · intro n
          rw [List.mem_cons]
          constructor
          · rintro (e | hm)
            · rw [e]
              exact ⟨decls, f, fs, List.mem_cons_self _ _, hh, hfs, hel⟩
            · obtain ⟨d, f', fs', hm', h⟩ := (hiff n).1 hm
              exact ⟨d, f', fs', List.mem_cons_of_mem _ hm', h⟩
          · rintro ⟨d, f', fs', hm, h⟩
            rcases List.mem_cons.1 hm with e | hm'
            · simp only [Prod.mk.injEq] at e
              exact Or.inl e.1
            · exact Or.inr ((hiff n).2 ⟨d, f', fs', hm', h⟩)

theorem headsValid_of_forall {ar : AnalysisResult} {fns : List (String × List Nat)}
    (h : ∀ nd ∈ fns, (nd.2.head?.bind (fun f => ar.functions[f]?)).isSome = true) :
    ∀ nd ∈ fns, ∃ f fs, nd.2.head? = some f ∧ ar.functions[f]? = some fs := by
  intro nd hnd
  have h1 := h nd hnd
  cases hh : nd.2.head? with
  | none => rw [hh] at h1; cases h1
  | some f =>
    rw [hh] at h1
    simp only [Option.some_bind] at h1
    cases hf : ar.functions[f]? with
    | none => rw [hf] at h1; cases h1
    | some fs => exact ⟨f, fs, rfl, hf⟩

/-- C23, counterexample: the method `twice` is declared twice; its first declaration is
not abstract and is marked dynamic, and `findJumpTableMethods` does not append the name:
the names whose first declaration is redeclaring are skipped (line 1304). -/
theorem findJumpTableMethods_skips_redeclared :
    (jumpTableRegistry.functions[1]?).map
      (fun f => (f.m_name, f.m_abstract, f.m_dynamic, f.isRedeclaring)) =
      some ("twice", false, true, true) ∧
    findJumpTableMethods jumpTableRegistry 0 false false [] = some ["once"] ∧
    findJumpTableMethods jumpTableRegistry 0 true false [] = some ["once", "plain"] := by
  decide

/-- C23: on a class scope in which the first declaration of every method name is a function
scope of the arena, `findJumpTableMethods(staticOnly)` returns and appends the method name of
an entry if and only if the first declaration of the entry is not redeclaring, is not
abstract, is static when `staticOnly` is set, and the output is the system output or the
declaration is marked dynamic or virtual. The names appended are a sublist of the keys of
the method table, so each key is appended at most once and nothing else is appended. -/
theorem findJumpTableMethods_eligible (ar : AnalysisResult) (self : Nat) (c : ClassScope)
    (systemcpp staticOnly : Bool) (funcs : List String) (hc : ar.classes[self]? = some c)
    (hwf : ∀ nd ∈ c.m_functions, ∃ f fs, nd.2.head? = some f ∧ ar.functions[f]? = some fs) :
    ∃ out, findJumpTableMethods ar self systemcpp staticOnly funcs = some (funcs ++ out) ∧
      out.Sublist (c.m_functions.map Prod.fst) ∧
      ∀ name, name ∈ out ↔ EntersJumpTable ar c systemcpp staticOnly name := by
  unfold findJumpTableMethods EntersJumpTable
  rw [hc]
  exact findJumpTableMethodsLoop_spec ar systemcpp staticOnly c.m_functions funcs hwf

theorem findJumpTableMethods_eligible_witness :
    findJumpTableMethods jumpTableRegistry 0 false true ["x"] = some (["x"] ++ []) ∧
    ∃ out, findJumpTableMethods jumpTableRegistry 0 false false ["x"] = some (["x"] ++ out) ∧
      out.Sublist ([("once", [0]), ("twice", [1, 2]), ("plain", [3]), ("abs", [4])].map
        Prod.fst) ∧
      ∀ name, name ∈ out ↔ EntersJumpTable jumpTableRegistry
        { ClassScope.create KindOf.KindOfObjectClass "c" "" [] false false 0 with
          m_functions := [("once", [0]), ("twice", [1, 2]), ("plain", [3]), ("abs", [4])] }
        false false name :=
  ⟨by decide, findJumpTableMethods_eligible jumpTableRegistry 0
    { ClassScope.create KindOf.KindOfObjectClass "c" "" [] false false 0 with
      m_functions := [("once", [0]), ("twice", [1, 2]), ("plain", [3]), ("abs", [4])] }
    false false ["x"] (by decide) (headsValid_of_forall (by decide))⟩

/-! ## The create entry point -/

/-- C25, counterexample: the class `a` is of kind `KindOfAbstractClass` and declares a
constructor that is not abstract; the call `outputCPPCreateImpl` is reached, on that
constructor (function 0). For the class `b`, whose constructor is abstract, it is not. -/
theorem outputCPPSupportMethodsImplCreate_abstract_class :
    (abstractRegistry.classes[0]?).map (fun c => c.m_kindOf) =
      some KindOf.KindOfAbstractClass ∧
    outputCPPSupportMethodsImplCreate 1 0 abstractRegistry = some (some 0, abstractRegistry) ∧
    (abstractRegistry.classes[1]?).map (fun c => c.m_kindOf) =
      some KindOf.KindOfAbstractClass ∧
    outputCPPSupportMethodsImplCreate 1 1 abstractRegistry = some (none, abstractRegistry) := by
  decide

/-- C25: `outputCPPSupportMethodsImpl` reaches the call `outputCPPCreateImpl` on the function
scope `func` if and only if the class has the attribute `HasConstructor` or
`classNameConstructor`, `findConstructor(ar, false)` returns `func`, `func` is not abstract
and the class is not an interface. The kind `KindOfAbstractClass` of the class plays no part:
no create entry point is emitted for an abstract constructor or for an interface. -/
theorem outputCPPSupportMethodsImplCreate_iff (fuel self : Nat) (ar : AnalysisResult)
    (c : ClassScope) (hc : ar.classes[self]? = some c) (func : Nat) (ar' : AnalysisResult) :
    outputCPPSupportMethodsImplCreate fuel self ar = some (some func, ar') ↔
      (c.getAttribute Attribute.HasConstructor = true ∨
        c.getAttribute Attribute.classNameConstructor = true) ∧
      findConstructor fuel self false ar = some (some func, ar') ∧
      ∃ fs c1, ar'.functions[func]? = some fs ∧ ar'.classes[self]? = some c1 ∧
        fs.m_abstract = false ∧ c1.isInterface = false := by
  unfold outputCPPSupportMethodsImplCreate
  rw [hc]
  simp only
  by_cases hattr : (c.getAttribute Attribute.HasConstructor ||
      c.getAttribute Attribute.classNameConstructor) = true
  · rw [if_pos hattr]
    have hattr' : c.getAttribute Attribute.HasConstructor = true ∨
        c.getAttribute Attribute.classNameConstructor = true := by
      simpa [Bool.or_eq_true] using hattr
    cases hfc : findConstructor fuel self false ar with
    | none =>
      simp only
      constructor
      · intro h; cases h
      · rintro ⟨_, h, _⟩; cases h
    | some q =>
      obtain ⟨r, a1⟩ := q
      cases r with
      | none =>
        simp only
        constructor
        · intro h
          simp only [Option.some.injEq, Prod.mk.injEq] at h
          cases h.1
        · rintro ⟨_, h, _⟩
          simp only [Option.some.injEq, Prod.mk.injEq] at h
          cases h.1
      | some f =>
        simp only
        cases hfs : a1.functions[f]? with
        | none =>
          simp only
          constructor
          · intro h; cases h
          · rintro ⟨_, h, fs, c1, h1, _⟩
            simp only [Option.some.injEq, Prod.mk.injEq] at h
            obtain ⟨e1, e2⟩ := h
            cases e1
            subst e2
            rw [hfs] at h1
            cases h1
        | some fs =>
          cases hc1 : a1.classes[self]? with
          | none =>
            simp only
            constructor
            · intro h; cases h
            · rintro ⟨_, h, fs', c1, _, h2, _⟩
              simp only [Option.some.injEq, Prod.mk.injEq] at h
              obtain ⟨e1, e2⟩ := h
              subst e2
              rw [hc1] at h2
              cases h2
          | some c1 =>
            simp only
            by_cases hok : (!fs.m_abstract && !c1.isInterface) = true
            · rw [if_pos hok]
              have hok' : fs.m_abstract = false ∧ c1.isInterface = false := by
                simpa using hok
              constructor
              · intro h
                simp only [Option.some.injEq, Prod.mk.injEq] at h
                obtain ⟨e1, e2⟩ := h
                cases e1
                subst e2
                exact ⟨hattr', rfl, fs, c1, hfs, hc1, hok'.1, hok'.2⟩
              · rintro ⟨_, h, _⟩
                exact h
            · rw [if_neg hok]
              constructor
              · intro h
                simp only [Option.some.injEq, Prod.mk.injEq] at h
                cases h.1
              · rintro ⟨_, h, fs', c1', h1, h2, h3, h4⟩
                simp only [Option.some.injEq, Prod.mk.injEq] at h
                obtain ⟨e1, e2⟩ := h
                cases e1
                subst e2
                rw [hfs] at h1
                cases h1
                rw [hc1] at h2
                cases h2
                exact absurd (by simp [h3, h4]) hok
  · rw [if_neg hattr]
    have hattr' : ¬ (c.getAttribute Attribute.HasConstructor = true ∨
        c.getAttribute Attribute.classNameConstructor = true) := by
      simpa [Bool.or_eq_true] using hattr
    constructor
    · intro h
      simp only [Option.some.injEq, Prod.mk.injEq] at h
      cases h.1
    · rintro ⟨h, _⟩
      exact absurd h hattr'

theorem outputCPPSupportMethodsImplCreate_iff_witness :
    outputCPPSupportMethodsImplCreate 1 0 abstractRegistry =
        some (some 0, abstractRegistry) ↔
      ((((ClassScope.create KindOf.KindOfAbstractClass "a" "" [] false false 0).setAttribute
          Attribute.HasConstructor).getAttribute Attribute.HasConstructor = true ∨
        ((ClassScope.create KindOf.KindOfAbstractClass "a" "" [] false false 0).setAttribute
          Attribute.HasConstructor).getAttribute Attribute.classNameConstructor = true) ∧
      findConstructor 1 0 false abstractRegistry = some (some 0, abstractRegistry) ∧
      ∃ fs c1, abstractRegistry.functions[0]? = some fs ∧
        abstractRegistry.classes[0]? = some c1 ∧
        fs.m_abstract = false ∧ c1.isInterface = false) :=
  outputCPPSupportMethodsImplCreate_iff 1 0 abstractRegistry
    { (ClassScope.create KindOf.KindOfAbstractClass "a" "" [] false false 0).setAttribute
        Attribute.HasConstructor with
      m_functions := [("__construct", [0])] } (by decide) 0 abstractRegistry

/-! ## The class itself along the walk of collectMethods -/

/-- One step of the walk of `collectMethods` on an acyclic hierarchy: the class itself is
changed by the body of the walk only (`baseStepClass`), an unresolved base records its
error, and the two findings are those of the class the base resolves to. -/
theorem collectMethodsBase_self (rank : String → Nat)
    (rec : Nat → CollectState → Option CollectState)
    (hrecG : ∀ cls st st', rec cls st = some st' → Grows st st')
    (hrecH : ∀ cls st st' d, rec cls st = some st' → st.ar.classes[cls]? = some d →
      Acyclic rank st.ar → HighUnchanged rank (rank d.m_name + 1) st.ar st'.ar)
    {self i : Nat} {s s' : CollectState} {c : ClassScope} {base : String}
    (hc : s.ar.classes[self]? = some c) (hb : c.m_bases[i]? = some base)
    (hac : Acyclic rank s.ar) (h : collectMethodsBase rec false self i s = some s') :
    ∃ red der : Bool,
      s'.ar.classes[self]? =
        some (baseStepClass i c base (findClass s.ar base).isSome red der) ∧
      (∃ new, s'.ar.errors = s.ar.errors ++ new ∧
        (findClass s.ar base = none →
          new = [⟨ErrorType.UnknownBaseClass, c.m_stmt, base⟩])) ∧
      ∀ super sup, findClass s.ar base = some super → s.ar.classes[super]? = some sup →
        red = sup.isRedeclaring ∧
        (sup.isRedeclaring = false →
          ∃ sup2, s'.ar.classes[super]? = some sup2 ∧ der = sup2.derivesFromRedeclaringB) := by
  have hgrow := (collectMethodsBase_grows rec hrecG h).1
  have herr : ∃ new, s'.ar.errors = s.ar.errors ++ new := by
    obtain ⟨new, hn, _⟩ := hgrow.errors
    exact ⟨new, hn⟩
  have hrank : rank base < rank c.m_name := hac self c hc base (List.getElem?_mem hb)
  have hself : ∀ a1 : AnalysisResult, HighUnchanged rank (rank base + 1) s.ar a1 →
      a1.classes[self]? = some c := fun a1 h1 => h1 self c hc hrank
  unfold collectMethodsBase at h
  rw [hc] at h
  simp only at h
  rw [hb] at h
  simp only [Bool.false_and, Bool.false_eq_true, if_false] at h
  cases hf : findClass s.ar base with
  | none =>
    rw [hf] at h
    simp only [beq_iff_eq] at h
    refine ⟨false, false, ?_, ?_, fun super sup h1 => by cases h1⟩
    · simp only [Option.isSome_none, baseStepClass, Bool.false_eq_true, if_false]
      split at h
      · rename_i hp
        simp only [Option.some.injEq] at h
        rw [← h, if_pos hp]
        exact @getElem?_updateClass_self _ _ c _ hc
      · rename_i hp
        simp only [Option.some.injEq] at h
        rw [← h, if_neg hp]
        exact @getElem?_updateClass_self _ _ c _ hc
    · refine ⟨[⟨ErrorType.UnknownBaseClass, c.m_stmt, base⟩], ?_, fun _ => rfl⟩
      split at h
      · simp only [Option.some.injEq] at h
        rw [← h]
        rfl
      · simp only [Option.some.injEq] at h
        rw [← h]
        rfl
  | some super =>
    rw [hf] at h
    simp only at h
    obtain ⟨csup, hcsup, hsupname⟩ := findClass_some hf
    rw [hcsup] at h
    simp only at h
    have hne : self ≠ super := by
      intro e
      rw [e, hcsup] at hc
      cases hc
      rw [hsupname] at hrank
      exact absurd hrank (Nat.lt_irrefl _)
    have hq1 : Quiet [base] s.ar
        (if c.m_derivedByDynamic = true then
          updateClass s.ar super (fun d => { d with m_derivedByDynamic := true })
        else s.ar) := by
      split
      · apply Quiet.updateClass_quiet _ _ _ FlagOnly.setDerivedByDynamic_flagOnly
        intro x hx
        rw [hcsup] at hx
        cases hx
        simp [hsupname]
      · exact Quiet.refl_quiet _ _
    have hh1 : HighUnchanged rank (rank base + 1) s.ar
        (if c.m_derivedByDynamic = true then
          updateClass s.ar super (fun d => { d with m_derivedByDynamic := true })
        else s.ar) := hq1.high (by simp)
    have hc1 := hself _ hh1
    simp only [Option.isSome_some, baseStepClass, if_true]
    by_cases hred : csup.isRedeclaring = true
    · rw [if_pos hred] at h
      refine ⟨true, false, ?_, ?_, ?_⟩
      · simp only [if_true]
        split at h
        · rename_i hp
          have hp' : base = c.m_parent := by simpa using hp
          rw [if_pos hp']
          cases hr : collectRedeclared rec s.funcs
              (findRedeclaredClasses
                (if c.m_derivedByDynamic = true then
                  updateClass s.ar super (fun d => { d with m_derivedByDynamic := true })
                else s.ar) c.m_parent)
              ⟨if c.m_derivedByDynamic = true then
                  updateClass s.ar super (fun d => { d with m_derivedByDynamic := true })
                else s.ar, s.funcs⟩ with
          | none => rw [hr] at h; simp at h
          | some s2 =>
            rw [hr] at h
            simp only [Option.some.injEq] at h
            rw [← h]
            have h2 := collectRedeclared_high rank rec hrecG hrecH s.funcs base
              (findRedeclaredClasses _ c.m_parent) ⟨_, s.funcs⟩ s2
              (by intro p hp1; rw [hp']; exact hp1) (hac.mono_acyclic hq1.grows) hr
            exact getElem?_updateClass_self _ (hself _ (hh1.trans_highUnchanged h2))
        · rename_i hp
          have hp' : ¬ base = c.m_parent := by simpa using hp
          rw [if_neg hp']
          split at h
          · rename_i hi
            simp only [Option.some.injEq] at h
            rw [← h, if_pos hi]
            exact getElem?_updateClass_self _ hc1
          · rename_i hi
            simp only [Option.some.injEq] at h
            rw [← h, if_neg hi]
            exact hc1
      · obtain ⟨new, hn⟩ := herr
        exact ⟨new, hn, fun h0 => by cases h0⟩
      · intro super' sup h1 h2
        cases h1
        rw [hcsup] at h2
        cases h2
        exact ⟨hred.symm, fun h3 => by rw [h3] at hred; cases hred⟩
    · rw [if_neg hred] at h
      have hred' : csup.isRedeclaring = false := by simpa using hred
      cases hr : rec super
          ⟨if c.m_derivedByDynamic = true then
              updateClass s.ar super (fun d => { d with m_derivedByDynamic := true })
            else s.ar, s.funcs⟩ with
      | none => rw [hr] at h; simp at h
      | some s2 =>
        rw [hr] at h
        simp only at h
        obtain ⟨csup1, hcsup1, hgsup⟩ := hq1.grows.classes.2 super csup hcsup
        have h2 := hrecH super _ s2 _ hr hcsup1 (hac.mono_acyclic hq1.grows)
        rw [hgsup.name, hsupname] at h2
        have hc2 := hself _ (hh1.trans_highUnchanged h2)
        cases hs2 : s2.ar.classes[super]? with
        | none => rw [hs2] at h; simp at h
        | some sup2 =>
          rw [hs2] at h
          simp only at h
          have hsuper : ∀ g : ClassScope → ClassScope,
              (updateClass s2.ar self g).classes[super]? = some sup2 := by
            intro g
            rw [getElem?_updateClass, if_neg hne]
            exact hs2
          refine ⟨false, sup2.derivesFromRedeclaringB, ?_, ?_, ?_⟩
          · simp only [Bool.false_eq_true, if_false]
            by_cases hd : sup2.derivesFromRedeclaringB = true
            · rw [if_pos hd] at h
              rw [if_pos hd]
              split at h
              · rename_i hp
                have hp' : base = c.m_parent := by simpa using hp
                simp only [Option.some.injEq] at h
                rw [← h, if_pos hp']
                exact getElem?_updateClass_self _ hc2
              · rename_i hp
                have hp' : ¬ base = c.m_parent := by simpa using hp
                rw [if_neg hp']
                split at h
                · rename_i hi
                  simp only [Option.some.injEq] at h
                  rw [← h, if_pos hi]
                  exact getElem?_updateClass_self _ hc2
                · rename_i hi
                  simp only [Option.some.injEq] at h
                  rw [← h, if_neg hi]
                  exact hc2
            · rw [if_neg hd] at h
              rw [if_neg hd]
              simp only [Option.some.injEq] at h
              rw [← h]
              exact hc2
          · obtain ⟨new, hn⟩ := herr
            exact ⟨new, hn, fun h0 => by cases h0⟩
          · intro super' sup h1 h2'
            cases h1
            rw [hcsup] at h2'
            cases h2'
            refine ⟨hred'.symm, fun _ => ⟨sup2, ?_, rfl⟩⟩
            by_cases hd : sup2.derivesFromRedeclaringB = true
            · rw [if_pos hd] at h
              split at h
              · simp only [Option.some.injEq] at h
                rw [← h]
                exact hsuper _
              · split at h
                · simp only [Option.some.injEq] at h
                  rw [← h]
                  exact hsuper _
                · simp only [Option.some.injEq] at h
                  rw [← h]
                  exact hs2
            · rw [if_neg hd] at h
              simp only [Option.some.injEq] at h
              rw [← h]
              exact hs2

theorem baseStepClass_fields (i : Nat) (c : ClassScope) (base : String)
    (res red der : Bool) :
    (baseStepClass i c base res red der).m_parent = c.m_parent ∧
    (baseStepClass i c base res red der).m_stmt = c.m_stmt ∧
    (baseStepClass i c base res red der).m_name = c.m_name ∧
    (baseStepClass i c base res red der).m_kindOf = c.m_kindOf := by
  unfold baseStepClass markDirect markIndirect dropUnknownBase
  refine ⟨?_, ?_, ?_, ?_⟩ <;> (repeat' split) <;> rfl

theorem baseStepClass_bases_keep (i : Nat) (c : ClassScope) (base : String)
    (res red der : Bool) (h : res = true ∨ base = c.m_parent) :
    (baseStepClass i c base res red der).m_bases = c.m_bases := by
  unfold baseStepClass markDirect markIndirect
  rcases h with h | h
  · rw [if_pos h]
    (repeat' split) <;> rfl
  · (repeat' split) <;> rfl

theorem baseStepClass_bases_drop (i : Nat) (c : ClassScope) (base : String)
    (red der : Bool) (h : base ≠ c.m_parent) :
    (baseStepClass i c base false red der).m_bases = c.m_bases.eraseIdx i := by
  unfold baseStepClass dropUnknownBase
  simp only [Bool.false_eq_true, if_false]
  rw [if_neg h]

theorem stepsFold_congr {a a' : AnalysisResult} {flags flags' : Nat → Bool × Bool}
    (hf : ∀ b, findClass a' b = findClass a b) :
    ∀ (n : Nat) (c : ClassScope), (∀ j, j < n → flags' j = flags j) →
      stepsFold a' flags' n c = stepsFold a flags n c := by
  intro n
  induction n with
  | zero => intro c _; rfl
  | succ j ih =>
    intro c h
    unfold stepsFold
    rw [h j (Nat.lt_succ_self _)]
    simp only [hf]
    exact ih _ (fun k hk => h k (Nat.lt_succ_of_lt hk))

theorem take_succ_reverse_of_getElem? {α : Type} {l : List α} {i : Nat} {x : α}
    (h : l[i]? = some x) : (l.take (i + 1)).reverse = x :: (l.take i).reverse := by
  rw [take_succ_of_getElem? h, List.reverse_append]
  rfl

/-- The walk of `collectMethods` over the bases on an acyclic hierarchy: the class itself is
changed by the steps of the walk only (`stepsFold`), every unresolved base records its own
error, and the findings of every step are those of the class the base resolves to. -/
theorem collectMethodsBases_self (rank : String → Nat)
    (rec : Nat → CollectState → Option CollectState)
    (hrecG : ∀ cls st st', rec cls st = some st' → Grows st st')
    (hrecH : ∀ cls st st' d, rec cls st = some st' → st.ar.classes[cls]? = some d →
      Acyclic rank st.ar → HighUnchanged rank (rank d.m_name + 1) st.ar st'.ar)
    (self : Nat) :
    ∀ (n : Nat) (s s' : CollectState) (c : ClassScope), s.ar.classes[self]? = some c →
      n ≤ c.m_bases.length → Acyclic rank s.ar →
      collectMethodsBases rec false self n s = some s' →
      ∃ flags : Nat → Bool × Bool,
        s'.ar.classes[self]? = some (stepsFold s.ar flags n c) ∧
        (∃ new, s'.ar.errors = s.ar.errors ++ new ∧
          (ownUnknownRecords s.ar c n).Sublist new) ∧
        ∀ (j : Nat) (base : String) (super : Nat) (sup : ClassScope), j < n →
          c.m_bases[j]? = some base → findClass s.ar base = some super →
          s.ar.classes[super]? = some sup →
          (flags j).1 = sup.isRedeclaring ∧
          (sup.isRedeclaring = false →
            (sup.m_derivesFromRedeclaring ≠ Derivation.FromNormal → (flags j).2 = true) ∧
            (∀ sup', s'.ar.classes[super]? = some sup' →
              sup'.m_derivesFromRedeclaring = Derivation.FromNormal →
              (flags j).2 = false)) := by
  intro n
  induction n with
  | zero =>
    intro s s' c hc _ _ h
    simp only [collectMethodsBases, Option.some.injEq] at h
    subst h
    refine ⟨fun _ => (false, false), hc, ⟨[], by simp, ?_⟩, ?_⟩
    · simp [ownUnknownRecords]
    · intro j _ _ _ hj
      omega
  | succ i ih =>
    intro s s' c hc hn hac h
    simp only [collectMethodsBases] at h
    cases hs : collectMethodsBase rec false self i s with
    | none => rw [hs] at h; simp at h
    | some s1 =>
      rw [hs] at h
      simp only at h
      have hi : i < c.m_bases.length := hn
      have hb : c.m_bases[i]? = some c.m_bases[i] := List.getElem?_eq_getElem hi
      obtain ⟨red, der, hc1, ⟨new1, hnew1, hnew1'⟩, hflag⟩ :=
        collectMethodsBase_self rank rec hrecG hrecH hc hb hac hs
      have hg1 := (collectMethodsBase_grows rec hrecG hs).1
      have hfc : ∀ b, findClass s1.ar b = findClass s.ar b := hg1.findClass
      obtain ⟨hpar, hstmt, _, _⟩ := baseStepClass_fields i c c.m_bases[i]
        (findClass s.ar c.m_bases[i]).isSome red der
      have htake : (baseStepClass i c c.m_bases[i]
          (findClass s.ar c.m_bases[i]).isSome red der).m_bases.take i = c.m_bases.take i := by
        by_cases hk : (findClass s.ar c.m_bases[i]).isSome = true ∨ c.m_bases[i] = c.m_parent
        · rw [baseStepClass_bases_keep _ _ _ _ _ _ hk]
        · have h1 : (findClass s.ar c.m_bases[i]).isSome = false := by
            cases hx : (findClass s.ar c.m_bases[i]).isSome with
            | false => rfl
            | true => exact absurd (Or.inl hx) hk
          rw [h1, baseStepClass_bases_drop _ _ _ _ _ (fun e => hk (Or.inr e)),
            take_eraseIdx_self]
      have hlen : i ≤ (baseStepClass i c c.m_bases[i]
          (findClass s.ar c.m_bases[i]).isSome red der).m_bases.length := by
        have := congrArg List.length htake
        rw [List.length_take, List.length_take] at this
        omega
      obtain ⟨flags', hc', ⟨new2, hnew2, hsub2⟩, hflags'⟩ :=
        ih s1 s' _ hc1 hlen (hac.mono_acyclic hg1) h
      have hg2 := (collectMethodsBases_grows rec hrecG false self i s1 s' h).1
      refine ⟨fun j => if j = i then (red, der) else flags' j, ?_, ?_, ?_⟩
      · rw [hc']
        congr 1
        rw [stepsFold]
        rw [hb]
        simp only [if_true]
        apply stepsFold_congr hfc
        intro j hj
        rw [if_neg (by omega)]
      · refine ⟨new1 ++ new2, by rw [hnew2, hnew1, List.append_assoc], ?_⟩
        have hown : ownUnknownRecords s1.ar (baseStepClass i c c.m_bases[i]
            (findClass s.ar c.m_bases[i]).isSome red der) i = ownUnknownRecords s.ar c i := by
          unfold ownUnknownRecords
          rw [htake, hstmt]
          simp only [hfc]
        rw [hown] at hsub2
        unfold ownUnknownRecords at hsub2 ⊢
        rw [take_succ_reverse_of_getElem? hb, List.filter_cons]
        cases hf : findClass s.ar c.m_bases[i] with
        | none =>
          simp only [Option.isNone_none, if_true, List.map_cons]
          rw [hnew1' hf]
          exact List.Sublist.cons₂ _ hsub2
        | some super =>
          simp only [Option.isNone_some, Bool.false_eq_true, if_false]
          exact hsub2.trans (List.sublist_append_right _ _)
      · intro j base super sup hj hbj hfj hsj
        by_cases hji : j = i
        · subst hji
          rw [hb] at hbj
          cases hbj
          simp only [if_true]
          obtain ⟨hr, hd⟩ := hflag super sup hfj hsj
          refine ⟨hr, fun hnr => ?_⟩
          obtain ⟨sup2, hsup2, hder⟩ := hd hnr
          obtain ⟨sup2', hsup2', hgs⟩ := hg1.classes.2 super sup hsj
          rw [hsup2] at hsup2'
          cases hsup2'
          constructor
          · intro hne
            rw [hder]
            unfold ClassScope.derivesFromRedeclaringB
            simpa using hgs.derives hne
          · intro sup' hsup' hfn
            obtain ⟨sup3, hsup3, hgs3⟩ := hg2.classes.2 super sup2 hsup2
            rw [hsup'] at hsup3
            cases hsup3
            rw [hder]
            unfold ClassScope.derivesFromRedeclaringB
            cases hx : sup2.m_derivesFromRedeclaring with
            | FromNormal => simp
            | DirectFromRedeclared =>
              exact absurd hfn (hgs3.derives (by rw [hx]; decide))
            | IndirectFromRedeclared =>
              exact absurd hfn (hgs3.derives (by rw [hx]; decide))
        · have hj' : j < i := by omega
          simp only [if_neg hji]
          obtain ⟨sup1, hsup1, hgs⟩ := hg1.classes.2 super sup hsj
          have hbj1 : (baseStepClass i c c.m_bases[i]
              (findClass s.ar c.m_bases[i]).isSome red der).m_bases[j]? = some base := by
            have e1 : ((baseStepClass i c c.m_bases[i]
                (findClass s.ar c.m_bases[i]).isSome red der).m_bases.take i)[j]? =
                (c.m_bases.take i)[j]? := by rw [htake]
            rw [List.getElem?_take_of_lt hj', List.getElem?_take_of_lt hj'] at e1
            rw [e1]
            exact hbj
          obtain ⟨hr, hd⟩ := hflags' j base super sup1 hj' hbj1 (by rw [hfc]; exact hfj) hsup1
          have hred : sup1.isRedeclaring = sup.isRedeclaring := by
            unfold ClassScope.isRedeclaring
            rw [hgs.redeclaring]
          rw [hred] at hr hd
          refine ⟨hr, fun hnr => ?_⟩
          obtain ⟨hd1, hd2⟩ := hd hnr
          exact ⟨fun hne => hd1 (hgs.derives hne), hd2⟩

theorem stepsFold_fields (a : AnalysisResult) (flags : Nat → Bool × Bool) :
    ∀ (n : Nat) (c : ClassScope),
      (stepsFold a flags n c).m_parent = c.m_parent ∧
      (stepsFold a flags n c).m_stmt = c.m_stmt ∧
      (stepsFold a flags n c).m_name = c.m_name ∧
      (stepsFold a flags n c).m_kindOf = c.m_kindOf := by
  intro n
  induction n with
  | zero => intro c; exact ⟨rfl, rfl, rfl, rfl⟩
  | succ j ih =>
    intro c
    rw [stepsFold]
    cases hb : c.m_bases[j]? with
    | none => exact ih c
    | some base =>
      simp only
      obtain ⟨h1, h2, h3, h4⟩ := ih (baseStepClass j c base (findClass a base).isSome
        (flags j).1 (flags j).2)
      obtain ⟨g1, g2, g3, g4⟩ := baseStepClass_fields j c base (findClass a base).isSome
        (flags j).1 (flags j).2
      exact ⟨h1.trans g1, h2.trans g2, h3.trans g3, h4.trans g4⟩

/-- The bases after the steps of the walk: of the first `n` bases those stay that are the
parent or resolve to a class. -/
theorem stepsFold_bases (a : AnalysisResult) (flags : Nat → Bool × Bool) :
    ∀ (n : Nat) (c : ClassScope), n ≤ c.m_bases.length →
      (stepsFold a flags n c).m_bases =
        (c.m_bases.take n).filter
          (fun b => decide (b = c.m_parent) || (findClass a b).isSome) ++ c.m_bases.drop n := by
  intro n
  induction n with
  | zero => intro c _; simp [stepsFold]
  | succ j ih =>
    intro c hn
    have hj : j < c.m_bases.length := hn
    have hb : c.m_bases[j]? = some c.m_bases[j] := List.getElem?_eq_getElem hj
    rw [stepsFold, hb]
    simp only
    have hpar := (baseStepClass_fields j c c.m_bases[j] (findClass a c.m_bases[j]).isSome
      (flags j).1 (flags j).2).1
    have htk : c.m_bases.take (j + 1) = c.m_bases.take j ++ [c.m_bases[j]] := by
      rw [List.take_succ, hb]
      rfl
    by_cases hk : (findClass a c.m_bases[j]).isSome = true ∨ c.m_bases[j] = c.m_parent
    · have hbs := baseStepClass_bases_keep j c c.m_bases[j] (findClass a c.m_bases[j]).isSome
        (flags j).1 (flags j).2 hk
      rw [ih _ (by rw [hbs]; omega), hbs, hpar, htk, List.filter_append,
        List.append_assoc]
      congr 1
      have hkeep : (decide (c.m_bases[j] = c.m_parent) || (findClass a c.m_bases[j]).isSome) =
          true := by
        rcases hk with h | h
        · rw [h, Bool.or_true]
        · rw [decide_eq_true h, Bool.true_or]
      rw [List.filter_cons, if_pos hkeep, List.filter_nil, drop_of_getElem? hb]
      rfl
    · have h1 : (findClass a c.m_bases[j]).isSome = false := by
        cases hx : (findClass a c.m_bases[j]).isSome with
        | false => rfl
        | true => exact absurd (Or.inl hx) hk
      have h2 : c.m_bases[j] ≠ c.m_parent := fun e => hk (Or.inr e)
      rw [h1] at hpar ⊢
      have hbs := baseStepClass_bases_drop j c c.m_bases[j] (flags j).1 (flags j).2 h2
      rw [ih _ (by rw [hbs, List.length_eraseIdx]; split <;> omega), hbs, hpar,
        take_eraseIdx_self, drop_eraseIdx_self, htk, List.filter_append]
      congr 1
      have hkeep : (decide (c.m_bases[j] = c.m_parent) || (findClass a c.m_bases[j]).isSome) =
          false := by
        rw [h1, decide_eq_false h2]
        rfl
      rw [List.filter_cons, if_neg (by rw [hkeep]; decide), List.filter_nil, List.append_nil]

/-- The walk over all bases and the two loops before it, seen from the class itself. -/
theorem collectMethods_self (rank : String → Nat) (fuel : Nat) (e : Nat) (c : ClassScope)
    (collectPrivate : Bool) (s s' : CollectState) (hc : s.ar.classes[e]? = some c)
    (hac : Acyclic rank s.ar)
    (h : collectMethods fuel e collectPrivate false s = some s') :
    ∃ flags : Nat → Bool × Bool,
      s'.ar.classes[e]? = some (stepsFold s.ar flags c.m_bases.length c) ∧
      (∃ new, s'.ar.errors = s.ar.errors ++ new ∧
        (ownUnknownRecords s.ar c c.m_bases.length).Sublist new) ∧
      ∀ (j : Nat) (base : String) (super : Nat) (sup : ClassScope),
        c.m_bases[j]? = some base → findClass s.ar base = some super →
        s.ar.classes[super]? = some sup →
        (flags j).1 = sup.isRedeclaring ∧
        (sup.isRedeclaring = false →
          (sup.m_derivesFromRedeclaring ≠ Derivation.FromNormal → (flags j).2 = true) ∧
          (∀ sup', s'.ar.classes[super]? = some sup' →
            sup'.m_derivesFromRedeclaring = Derivation.FromNormal →
            (flags j).2 = false)) := by
  cases fuel with
  | zero => simp [collectMethods] at h
  | succ fuel =>
    simp only [collectMethods, hc] at h
    split at h
    · simp at h
    · rename_i sown hown
      have h1 := collectOwn_grows collectPrivate _ _ _ hown
      have h2 := collectMissing_grows c.m_missingMethods sown
      have hfo := h1.2.trans_functionsOnly h2.2
      have hg12 := (h1.1.trans_grows h2.1).1
      have hc2 : (collectMissing c.m_missingMethods sown).ar.classes[e]? = some c := by
        rw [hfo.1]
        exact hc
      obtain ⟨flags, hself, ⟨new, hnew, hsub⟩, hfl⟩ := collectMethodsBases_self rank _
        (fun cls st st' hr => collectMethods_grows _ _ _ _ _ _ hr)
        (fun cls st st' d hr hd hacs => collectMethods_high rank _ cls false false st st' d hr
          hd hacs)
        e c.m_bases.length _ s' c hc2 (Nat.le_refl _) (hac.mono_acyclic hg12) h
      have hfc : ∀ b, findClass (collectMissing c.m_missingMethods sown).ar b =
          findClass s.ar b := hg12.findClass
      refine ⟨flags, ?_, ⟨new, ?_, ?_⟩, ?_⟩
      · rw [hself]
        congr 1
        exact stepsFold_congr hfc _ _ (fun _ _ => rfl)
      · rw [hnew, hfo.2.1]
      · have : ownUnknownRecords (collectMissing c.m_missingMethods sown).ar c
            c.m_bases.length = ownUnknownRecords s.ar c c.m_bases.length := by
          unfold ownUnknownRecords
          simp only [hfc]
        rw [← this]
        exact hsub
      · intro j base super sup hbj hfj hsj
        have hj : j < c.m_bases.length := (List.getElem?_eq_some.1 hbj).1
        exact hfl j base super sup hj hbj (by rw [hfc]; exact hfj) (by rw [hfo.1]; exact hsj)

theorem baseStepClass_take (i : Nat) (c : ClassScope) (base : String) (res red der : Bool) :
    (baseStepClass i c base res red der).m_bases.take i = c.m_bases.take i := by
  by_cases hk : res = true ∨ base = c.m_parent
  · rw [baseStepClass_bases_keep _ _ _ _ _ _ hk]
  · have h1 : res = false := by
      cases res with
      | false => rfl
      | true => exact absurd (Or.inl rfl) hk
    subst h1
    rw [baseStepClass_bases_drop _ _ _ _ _ (fun e => hk (Or.inr e)), take_eraseIdx_self]

theorem baseStepClass_bases_subset (i : Nat) (c : ClassScope) (base : String)
    (res red der : Bool) :
    ∀ b ∈ (baseStepClass i c base res red der).m_bases, b ∈ c.m_bases := by
  intro b hb
  by_cases hk : res = true ∨ base = c.m_parent
  · rw [baseStepClass_bases_keep _ _ _ _ _ _ hk] at hb
    exact hb
  · have h1 : res = false := by
      cases res with
      | false => rfl
      | true => exact absurd (Or.inl rfl) hk
    subst h1
    rw [baseStepClass_bases_drop _ _ _ _ _ (fun e => hk (Or.inr e))] at hb
    exact (List.eraseIdx_sublist _ _).subset hb

/-- A step for a base that is not the parent leaves `m_volatile` and the variable table. -/
theorem baseStepClass_edge (i : Nat) (c : ClassScope) (base : String) (res red der : Bool)
    (h : base ≠ c.m_parent) :
    (baseStepClass i c base res red der).m_volatile = c.m_volatile ∧
    (baseStepClass i c base res red der).m_variables = c.m_variables := by
  unfold baseStepClass dropUnknownBase
  simp only [if_neg h]
  (repeat' split) <;> exact ⟨rfl, rfl⟩

/-- A step of an interface for a resolved, not redeclaring base that is not the parent. -/
theorem baseStepClass_resolved_edge (i : Nat) (c : ClassScope) (base : String) (der : Bool)
    (h : base ≠ c.m_parent) (hint : c.isInterface = true) :
    baseStepClass i c base true false der =
      if der then { c with m_derivesFromRedeclaring := Derivation.IndirectFromRedeclared }
      else c := by
  unfold baseStepClass
  simp only [if_neg h, hint, if_true, Bool.false_eq_true, if_false]

theorem stepsFold_edge (a : AnalysisResult) (flags : Nat → Bool × Bool) :
    ∀ (n : Nat) (c : ClassScope), (∀ b ∈ c.m_bases, b ≠ c.m_parent) →
      (stepsFold a flags n c).m_volatile = c.m_volatile ∧
      (stepsFold a flags n c).m_variables = c.m_variables := by
  intro n
  induction n with
  | zero => intro c _; exact ⟨rfl, rfl⟩
  | succ j ih =>
    intro c hnp
    rw [stepsFold]
    cases hb : c.m_bases[j]? with
    | none => exact ih c hnp
    | some base =>
      simp only
      have hne : base ≠ c.m_parent := hnp base (List.getElem?_mem hb)
      obtain ⟨g1, g2⟩ := baseStepClass_edge j c base (findClass a base).isSome
        (flags j).1 (flags j).2 hne
      have hpar := (baseStepClass_fields j c base (findClass a base).isSome
        (flags j).1 (flags j).2).1
      obtain ⟨h1, h2⟩ := ih (baseStepClass j c base (findClass a base).isSome
        (flags j).1 (flags j).2) (by
          intro b hbm
          rw [hpar]
          exact hnp b (baseStepClass_bases_subset _ _ _ _ _ _ b hbm))
      exact ⟨h1.trans g1, h2.trans g2⟩

/-- Steps of an interface over resolved, not redeclaring bases that are not the parent keep
`IndirectFromRedeclared`. -/
theorem stepsFold_keeps_indirect (a : AnalysisResult) (flags : Nat → Bool × Bool) :
    ∀ (n : Nat) (c : ClassScope), c.isInterface = true → (∀ b ∈ c.m_bases, b ≠ c.m_parent) →
      (∀ (j : Nat) (b : String), j < n → c.m_bases[j]? = some b →
        (findClass a b).isSome = true ∧ (flags j).1 = false) →
      c.m_derivesFromRedeclaring = Derivation.IndirectFromRedeclared →
      (stepsFold a flags n c).m_derivesFromRedeclaring = Derivation.IndirectFromRedeclared := by
  intro n
  induction n with
  | zero => intro c _ _ _ h; exact h
  | succ j ih =>
    intro c hint hnp hres hd
    rw [stepsFold]
    cases hb : c.m_bases[j]? with
    | none => exact ih c hint hnp (fun k b hk hkb => hres k b (by omega) hkb) hd
    | some base =>
      simp only
      have hne : base ≠ c.m_parent := hnp base (List.getElem?_mem hb)
      obtain ⟨hr1, hr2⟩ := hres j base (Nat.lt_succ_self _) hb
      rw [hr1, hr2, baseStepClass_resolved_edge j c base _ hne hint]
      cases (flags j).2 with
      | false =>
        simp only [Bool.false_eq_true, if_false]
        exact ih c hint hnp (fun k b hk hkb => hres k b (by omega) hkb) hd
      | true =>
        simp only [if_true]
        exact ih _ hint hnp (fun k b hk hkb => hres k b (by omega) hkb) rfl

/-- Steps of an interface: a resolved, not redeclaring base at the index `i` that is not the
parent and derives from a redeclared class leaves the interface `IndirectFromRedeclared`,
when the bases at the lower indices resolve to classes that are not redeclaring. -/
theorem stepsFold_indirect (a : AnalysisResult) (flags : Nat → Bool × Bool) (i : Nat)
    (hi2 : (flags i).2 = true) :
    ∀ (n : Nat) (c : ClassScope), c.isInterface = true → (∀ b ∈ c.m_bases, b ≠ c.m_parent) →
      (∀ (j : Nat) (b : String), j ≤ i → c.m_bases[j]? = some b →
        (findClass a b).isSome = true ∧ (flags j).1 = false) →
      i < n → n ≤ c.m_bases.length →
      (stepsFold a flags n c).m_derivesFromRedeclaring = Derivation.IndirectFromRedeclared := by
  intro n
  induction n with
  | zero => intro c _ _ _ h; omega
  | succ j ih =>
    intro c hint hnp hres hin hn
    have hj : j < c.m_bases.length := hn
    have hb : c.m_bases[j]? = some c.m_bases[j] := List.getElem?_eq_getElem hj
    have hne : c.m_bases[j] ≠ c.m_parent := hnp _ (List.getElem?_mem hb)
    rw [stepsFold, hb]
    simp only
    by_cases hji : j = i
    · subst hji
      obtain ⟨hr1, hr2⟩ := hres j _ (Nat.le_refl _) hb
      rw [hr1, hr2, hi2, baseStepClass_resolved_edge j c _ _ hne hint]
      simp only [if_true]
      exact stepsFold_keeps_indirect a flags j _ hint hnp
        (fun k b hk hkb => hres k b (by omega) hkb) rfl
    · have hfields := baseStepClass_fields j c c.m_bases[j] (findClass a c.m_bases[j]).isSome
        (flags j).1 (flags j).2
      have htake := baseStepClass_take j c c.m_bases[j] (findClass a c.m_bases[j]).isSome
        (flags j).1 (flags j).2
      apply ih
      · unfold ClassScope.isInterface at hint ⊢
        rw [hfields.2.2.2]
        exact hint
      · intro b hbm
        rw [hfields.1]
        exact hnp b (baseStepClass_bases_subset _ _ _ _ _ _ b hbm)
      · intro k b hk hkb
        have hkj : k < j := by omega
        have e1 := congrArg (fun l => l[k]?) htake
        simp only [List.getElem?_take_of_lt hkj] at e1
        rw [e1] at hkb
        exact hres k b hk hkb
      · omega
      · have := congrArg List.length htake
        rw [List.length_take, List.length_take] at this
        omega

/-- Counterexample to C29 as stated: `c extends ghost implements i`, where `ghost` is not
declared; after `collectMethods` on `c` the unresolved parent name is still among the bases
of `c`. -/
theorem collectMethods_keeps_unknown_parent :
    findClass ghostRegistry "ghost" = none ∧
    (collectMethods 2 0 true false ⟨ghostRegistry, []⟩).map
        (fun s => s.ar.classes.map (fun c => c.m_bases)) = some [["ghost", "i"], []] := by
  decide

/-- C29 (amended): on an acyclic hierarchy `collectMethods` without `forInvoke` returns, and
afterwards the bases of the class are its previous bases without the names that are not the
parent and resolve to no class (an unresolved parent name stays), names resolve as before,
and the newly recorded errors contain one `UnknownBaseClass` error of the class for every
unresolved base, the parent included, in the order of the walk. -/
theorem collectMethods_drops_unresolved (rank : String → Nat) (ar : AnalysisResult) (e : Nat)
    (c : ClassScope) (collectPrivate : Bool) (funcs : List (String × Nat))
    (hc : ar.classes[e]? = some c) (hac : Acyclic rank ar) (hwf : WellFormedFunctions ar) :
    (∃ s', collectMethods (rank c.m_name + 1) e collectPrivate false ⟨ar, funcs⟩ = some s') ∧
    ∀ (fuel : Nat) (s' : CollectState),
      collectMethods fuel e collectPrivate false ⟨ar, funcs⟩ = some s' →
      (∀ b, findClass s'.ar b = findClass ar b) ∧
      ∃ c' new, s'.ar.classes[e]? = some c' ∧
        c'.m_bases = c.m_bases.filter
          (fun b => decide (b = c.m_parent) || (findClass ar b).isSome) ∧
        s'.ar.errors = ar.errors ++ new ∧
        ((c.m_bases.reverse.filter (fun b => (findClass ar b).isNone)).map
          (fun b => (⟨ErrorType.UnknownBaseClass, c.m_stmt, b⟩ : ErrorRecord))).Sublist new := by
  refine ⟨collectMethods_total rank _ e collectPrivate false ⟨ar, funcs⟩ c hc hac hwf
    (Nat.lt_succ_self _), ?_⟩
  intro fuel s' h
  obtain ⟨flags, hself, ⟨new, hnew, hsub⟩, _⟩ :=
    collectMethods_self rank fuel e c collectPrivate ⟨ar, funcs⟩ s' hc hac h
  refine ⟨(collectMethods_grows _ _ _ _ _ _ h).1.findClass, _, new, hself, ?_, hnew, ?_⟩
  · rw [stepsFold_bases ar flags _ c (Nat.le_refl _)]
    simp
  · unfold ownUnknownRecords at hsub
    rw [List.take_length] at hsub
    exact hsub

/-- Witness for C29 (amended): `c extends ghost implements ghosti, i`, where only `i` is
declared. -/
theorem collectMethods_drops_unresolved_witness :
    (collectMethods 2 0 true false ⟨unknownEdgesRegistry, []⟩).map
        (fun s => (s.ar.classes.map (fun c => c.m_bases), s.ar.errors)) =
      some ([["ghost", "i"], []],
        [⟨ErrorType.UnknownBaseClass, 0, "ghosti"⟩, ⟨ErrorType.UnknownBaseClass, 0, "ghost"⟩]) ∧
    ((∃ s', collectMethods (exampleRank "c" + 1) 0 true false ⟨unknownEdgesRegistry, []⟩ =
      some s') ∧
    ∀ (fuel : Nat) (s' : CollectState),
      collectMethods fuel 0 true false ⟨unknownEdgesRegistry, []⟩ = some s' →
      (∀ b, findClass s'.ar b = findClass unknownEdgesRegistry b) ∧
      ∃ c' new, s'.ar.classes[0]? = some c' ∧
        c'.m_bases = ["ghost", "ghosti", "i"].filter
          (fun b => decide (b = "ghost") || (findClass unknownEdgesRegistry b).isSome) ∧
        s'.ar.errors = [] ++ new ∧
        ((["ghost", "ghosti", "i"].reverse.filter
            (fun b => (findClass unknownEdgesRegistry b).isNone)).map
          (fun b => (⟨ErrorType.UnknownBaseClass, 0, b⟩ : ErrorRecord))).Sublist new) :=
  ⟨by decide,
    collectMethods_drops_unresolved exampleRank unknownEdgesRegistry 0
      (ClassScope.create KindOf.KindOfObjectClass "c" "ghost" ["ghost", "ghosti", "i"]
        false false 0)
      true [] rfl (acyclic_of_forall_mem (by decide))
      (wellFormedFunctions_of_forall_mem (by decide))⟩

/-- Counterexample to C30 as stated: `class c implements i`, where the interface `i` is
declared once and is `DirectFromRedeclared`; after `collectMethods` on the class `c` it is
still `FromNormal`. -/
theorem collectMethods_class_not_upgraded :
    findClass interfaceEdgeRegistry "i" = some 2 ∧
    interfaceEdgeRegistry.classes.map
        (fun c => (c.isInterface, c.isRedeclaring, c.m_derivesFromRedeclaring)) =
      [(false, false, Derivation.FromNormal), (true, false, Derivation.FromNormal),
        (true, false, Derivation.DirectFromRedeclared)] ∧
    (collectMethods 2 0 true false ⟨interfaceEdgeRegistry, []⟩).map
        (fun s => s.ar.classes.map (fun c => c.m_derivesFromRedeclaring)) =
      some [Derivation.FromNormal, Derivation.FromNormal,
        Derivation.DirectFromRedeclared] := by
  decide

/-- C30 (amended): on an acyclic hierarchy, for an interface none of whose bases is its parent
name, which has a base resolving to a class that is not redeclaring and whose
`derivesFromRedeclaring` is not `FromNormal`, and whose bases processed later (at lower
indices) resolve to classes that are not redeclaring, `collectMethods` without `forInvoke`
returns and leaves the interface `IndirectFromRedeclared`, with `m_volatile` and the requests
to the variable table as before. -/
theorem collectMethods_interface_indirect (rank : String → Nat) (ar : AnalysisResult)
    (e i super : Nat) (c sup : ClassScope) (base : String) (collectPrivate : Bool)
    (funcs : List (String × Nat))
    (hc : ar.classes[e]? = some c) (hint : c.isInterface = true)
    (hnp : ∀ b ∈ c.m_bases, b ≠ c.m_parent)
    (hb : c.m_bases[i]? = some base) (hf : findClass ar base = some super)
    (hs : ar.classes[super]? = some sup) (hnr : sup.isRedeclaring = false)
    (hd : sup.m_derivesFromRedeclaring ≠ Derivation.FromNormal)
    (hlater : ∀ (j : Nat) (b : String), j < i → c.m_bases[j]? = some b →
      ∃ k d, findClass ar b = some k ∧ ar.classes[k]? = some d ∧ d.isRedeclaring = false)
    (hac : Acyclic rank ar) (hwf : WellFormedFunctions ar) :
    (∃ s', collectMethods (rank c.m_name + 1) e collectPrivate false ⟨ar, funcs⟩ = some s') ∧
    ∀ (fuel : Nat) (s' : CollectState),
      collectMethods fuel e collectPrivate false ⟨ar, funcs⟩ = some s' →
      ∃ c', s'.ar.classes[e]? = some c' ∧
        c'.m_derivesFromRedeclaring = Derivation.IndirectFromRedeclared ∧
        c'.m_volatile = c.m_volatile ∧ c'.m_variables = c.m_variables := by
  refine ⟨collectMethods_total rank _ e collectPrivate false ⟨ar, funcs⟩ c hc hac hwf
    (Nat.lt_succ_self _), ?_⟩
  intro fuel s' h
  obtain ⟨flags, hself, _, hfl⟩ :=
    collectMethods_self rank fuel e c collectPrivate ⟨ar, funcs⟩ s' hc hac h
  obtain ⟨hv1, hv2⟩ := stepsFold_edge ar flags c.m_bases.length c hnp
  refine ⟨_, hself, ?_, hv1, hv2⟩
  have hi : i < c.m_bases.length := (List.getElem?_eq_some.1 hb).1
  obtain ⟨hfi1, hfi2⟩ := hfl i base super sup hb hf hs
  apply stepsFold_indirect ar flags i ((hfi2 hnr).1 hd) _ c hint hnp _ hi (Nat.le_refl _)
  intro j b hj hjb
  by_cases hji : j = i
  · subst hji
    rw [hb] at hjb
    cases hjb
    rw [hf, hfi1, hnr]
    exact ⟨rfl, rfl⟩
  · obtain ⟨k, d, hk1, hk2, hk3⟩ := hlater j b (by omega) hjb
    rw [hk1, (hfl j b k d hjb hk1 hk2).1, hk3]
    exact ⟨rfl, rfl⟩

/-- Witness for C30 (amended): `interface k extends i`, where the interface `i` is
`DirectFromRedeclared`. -/
theorem collectMethods_interface_indirect_witness :
    (collectMethods 2 1 true false ⟨interfaceEdgeRegistry, []⟩).map
        (fun s => s.ar.classes.map
          (fun c => (c.m_derivesFromRedeclaring, c.m_volatile, c.m_variables))) =
      some [(Derivation.FromNormal, false, ⟨false, false⟩),
        (Derivation.IndirectFromRedeclared, false, ⟨false, false⟩),
        (Derivation.DirectFromRedeclared, false, ⟨false, false⟩)] ∧
    ((∃ s', collectMethods (edgeRank "k" + 1) 1 true false ⟨interfaceEdgeRegistry, []⟩ =
      some s') ∧
    ∀ (fuel : Nat) (s' : CollectState),
      collectMethods fuel 1 true false ⟨interfaceEdgeRegistry, []⟩ = some s' →
      ∃ c', s'.ar.classes[1]? = some c' ∧
        c'.m_derivesFromRedeclaring = Derivation.IndirectFromRedeclared ∧
        c'.m_volatile = false ∧ c'.m_variables = ⟨false, false⟩) :=
  ⟨by decide,
    collectMethods_interface_indirect edgeRank interfaceEdgeRegistry 1 0 2
      (ClassScope.create KindOf.KindOfInterface "k" "" ["i"] false false 1)
      ({ ClassScope.create KindOf.KindOfInterface "i" "" [] false false 2 with
          m_derivesFromRedeclaring := Derivation.DirectFromRedeclared })
      "i" true [] rfl (by decide) (by decide) rfl (by decide) rfl (by decide) (by decide)
      (by intro j b hj; omega)
      (acyclic_of_forall_mem (by decide)) (wellFormedFunctions_of_forall_mem (by decide))⟩

/-- For a nonnegative C `int` the test `len & IsMask` finds exactly the lengths from `2 ^ 29`
on. -/
theorem land_IsMask_eq_zero_iff (n : Nat) (h : n < 2 ^ 31) : n &&& IsMask = 0 ↔ n < 2 ^ 29 := by
  have hmask : ∀ i, IsMask.testBit i = (decide (29 ≤ i) && decide (i < 32)) := by
    intro i
    have e : IsMask = 2 ^ 29 * 7 := by decide
    rw [e, Nat.testBit_mul_pow_two]
    by_cases h29 : 29 ≤ i
    · simp only [h29, decide_True, Bool.true_and]
      by_cases h32 : i < 32
      · have : i - 29 = 0 ∨ i - 29 = 1 ∨ i - 29 = 2 := by omega
        rcases this with e | e | e <;> rw [e] <;> simp only [h32, decide_True] <;> decide
      · simp only [h32, decide_False]
        apply Nat.testBit_lt_two_pow
        calc 7 < 2 ^ 3 := by decide
          _ ≤ 2 ^ (i - 29) := Nat.pow_le_pow_right (by decide) (by omega)
    · simp [h29]
  constructor
  · intro h0
    apply Nat.lt_pow_two_of_testBit
    intro i hi
    by_cases h31 : 31 ≤ i
    · apply Nat.testBit_lt_two_pow
      exact Nat.lt_of_lt_of_le h (Nat.pow_le_pow_right (by decide) h31)
    · have hb : (n &&& IsMask).testBit i = false := by rw [h0]; simp
      rw [Nat.testBit_and, hmask] at hb
      have h1 : decide (29 ≤ i) = true := decide_eq_true hi
      have h2 : decide (i < 32) = true := decide_eq_true (by omega)
      rw [h1, h2] at hb
      simpa using hb
  · intro h0
    apply Nat.eq_of_testBit_eq
    intro i
    rw [Nat.testBit_and, hmask, Nat.zero_testBit]
    by_cases h29 : 29 ≤ i
    · have : n.testBit i = false := by
        apply Nat.testBit_lt_two_pow
        exact Nat.lt_of_lt_of_le h0 (Nat.pow_le_pow_right (by decide) h29)
      rw [this, Bool.false_and]
    · simp [h29]

/-- The length test of `assign` and `append` on a C `int`. -/
theorem invalid_length_iff (len : Int) (hlo : -2 ^ 31 ≤ len) (hhi : len < 2 ^ 31) :
    (len < 0 ∨ intWord len &&& IsMask ≠ 0) ↔ (len < 0 ∨ 2 ^ 29 - 1 < len) := by
  by_cases hneg : len < 0
  · simp [hneg]
  · have h0 : 0 ≤ len := by omega
    obtain ⟨n, rfl⟩ := Int.eq_ofNat_of_zero_le h0
    have hn : n < 2 ^ 31 := by exact_mod_cast hhi
    have hw : intWord (n : Int) = n := by
      unfold intWord
      rw [Int.emod_eq_of_lt h0 (by omega)]
      rfl
    rw [hw]
    have := land_IsMask_eq_zero_iff n hn
    constructor
    · rintro (h | h)
      · exact absurd h hneg
      · right
        have h2 : ¬ n < 2 ^ 29 := fun hc => h (this.2 hc)
        omega
    · rintro (h | h)
      · exact absurd h hneg
      · right
        intro hc
        have := this.1 hc
        omega

/-- C28: for a C `int` `len`, `assign(data, len, mode)` throws `InvalidArgumentException`
exactly when `len < 0` or `len > 2^29 - 1` (a flag bit of `IsMask` is set), and `append(s, len)`
exactly when moreover `len ≠ 0`; `append` with `len = 0` returns without a change; and whenever
one of them throws `InvalidArgumentException` the string (data, length word and cached hash)
is as before. -/
theorem assign_append_invalid_length (sd : StringData) (data : List Nat)
    (s : Option (List Nat)) (len : Int) (mode : StringDataMode)
    (hlo : -2 ^ 31 ≤ len) (hhi : len < 2 ^ 31) :
    ((∃ r l, sd.assign data len mode =
        some (r, some (StringException.InvalidArgumentException l))) ↔
      (len < 0 ∨ 2 ^ 29 - 1 < len)) ∧
    ((∃ r l, sd.append s len =
        some (r, some (StringException.InvalidArgumentException l))) ↔
      (len ≠ 0 ∧ (len < 0 ∨ 2 ^ 29 - 1 < len))) ∧
    (len = 0 → sd.append s len = some (sd, none)) ∧
    (∀ r l, sd.assign data len mode =
        some (r, some (StringException.InvalidArgumentException l)) → r = sd ∧ l = len) ∧
    (∀ r l, sd.append s len =
        some (r, some (StringException.InvalidArgumentException l)) → r = sd ∧ l = len) := by
  have hiff := invalid_length_iff len hlo hhi
  have hassign : ∀ r l, sd.assign data len mode =
      some (r, some (StringException.InvalidArgumentException l)) →
      (len < 0 ∨ intWord len &&& IsMask ≠ 0) ∧ r = sd ∧ l = len := by
    intro r l h
    unfold StringData.assign at h
    split at h
    · rename_i hc
      simp only [Option.some.injEq, Prod.mk.injEq, StringException.InvalidArgumentException.injEq]
        at h
      exact ⟨hc, h.1.symm, h.2.symm⟩
    · exfalso
      simp only at h
      split at h
      · split at h
        · split at h
          · simp at h
          · split at h <;> simp at h
        · simp at h
        · simp at h
      · simp at h
  have hcheck : ∀ (x : StringData) r l, StringData.appendCheck x =
      (r, some (StringException.InvalidArgumentException l)) → False := by
    intro x r l h
    unfold StringData.appendCheck at h
    split at h <;> simp at h
  have happend : ∀ r l, sd.append s len =
      some (r, some (StringException.InvalidArgumentException l)) →
      len ≠ 0 ∧ (len < 0 ∨ intWord len &&& IsMask ≠ 0) ∧ r = sd ∧ l = len := by
    intro r l h
    unfold StringData.append at h
    split at h
    · simp at h
    · rename_i h0
      split at h
      · rename_i hc
        simp only [Option.some.injEq, Prod.mk.injEq,
          StringException.InvalidArgumentException.injEq] at h
        exact ⟨h0, hc, h.1.symm, h.2.symm⟩
      · exfalso
        simp only at h
        split at h
        · split at h
          · simp at h
          · simp only [Option.some.injEq] at h
            exact hcheck _ _ _ h
        · split at h
          · split at h
            · simp at h
            · simp only [Option.some.injEq] at h
              exact hcheck _ _ _ h
          · split at h
            · simp at h
            · split at h
              · simp at h
              · simp only [Option.some.injEq] at h
                exact hcheck _ _ _ h
  refine ⟨⟨?_, ?_⟩, ⟨?_, ?_⟩, ?_, ?_, ?_⟩
  · rintro ⟨r, l, h⟩
    exact hiff.1 (hassign r l h).1
  · intro hc
    refine ⟨sd, len, ?_⟩
    unfold StringData.assign
    rw [if_pos (hiff.2 hc)]
  · rintro ⟨r, l, h⟩
    exact ⟨(happend r l h).1, hiff.1 (happend r l h).2.1⟩
  · rintro ⟨h0, hc⟩
    refine ⟨sd, len, ?_⟩
    unfold StringData.append
    rw [if_neg h0, if_pos (hiff.2 hc)]
  · intro h0
    unfold StringData.append
    rw [if_pos h0]
  · intro r l h
    exact (hassign r l h).2
  · intro r l h
    exact (happend r l h).2.2

/-- Witness for C28: the length `2^29` on the literal string `"ab"`. -/
theorem assign_append_invalid_length_witness :
    literalAb.assign [120, 0] (2 ^ 29) StringDataMode.CopyString =
      some (literalAb, some (StringException.InvalidArgumentException (2 ^ 29))) ∧
    (literalAb.append (some [120, 0]) 1).map (fun r => (r.1.m_data, r.1.m_len, r.2)) =
      some (some [97, 98, 120, 0], 3, none) ∧
    (((∃ r l, literalAb.assign [120, 0] (2 ^ 29) StringDataMode.CopyString =
        some (r, some (StringException.InvalidArgumentException l))) ↔
      ((2 ^ 29 : Int) < 0 ∨ 2 ^ 29 - 1 < (2 ^ 29 : Int))) ∧
    ((∃ r l, literalAb.append (some [120, 0]) (2 ^ 29) =
        some (r, some (StringException.InvalidArgumentException l))) ↔
      ((2 ^ 29 : Int) ≠ 0 ∧ ((2 ^ 29 : Int) < 0 ∨ 2 ^ 29 - 1 < (2 ^ 29 : Int)))) ∧
    ((2 ^ 29 : Int) = 0 → literalAb.append (some [120, 0]) (2 ^ 29) = some (literalAb, none)) ∧
    (∀ r l, literalAb.assign [120, 0] (2 ^ 29) StringDataMode.CopyString =
        some (r, some (StringException.InvalidArgumentException l)) →
      r = literalAb ∧ l = 2 ^ 29) ∧
    (∀ r l, literalAb.append (some [120, 0]) (2 ^ 29) =
        some (r, some (StringException.InvalidArgumentException l)) →
      r = literalAb ∧ l = 2 ^ 29)) :=
  ⟨by decide, by decide,
    assign_append_invalid_length literalAb [120, 0] (some [120, 0]) (2 ^ 29)
      StringDataMode.CopyString (by decide) (by decide)⟩

theorem lookup_of_mem_keys {β : Type} {l : List (String × β)} {k : String}
    (h : k ∈ l.map Prod.fst) : ∃ v, l.lookup k = some v := by
  induction l with
  | nil => simp at h
  | cons kv rest ih =>
    obtain ⟨k', v'⟩ := kv
    rw [List.lookup_cons]
    by_cases hk : (k == k') = true
    · rw [hk]
      exact ⟨v', rfl⟩
    · have hk' : (k == k') = false := by simpa using hk
      rw [hk']
      simp only [List.map_cons, List.mem_cons] at h
      rcases h with h | h
      · exact absurd (by simpa using h) hk
      · exact ih h

theorem hashGuards_append (a b : List Emit) : hashGuards (a ++ b) = hashGuards a ++ hashGuards b := by
  unfold hashGuards
  exact List.filterMap_append _ _ _

theorem openedBlocks_append (a b : List Emit) :
    openedBlocks (a ++ b) = openedBlocks a ++ openedBlocks b := by
  unfold openedBlocks
  exact List.filter_append _ _

/-- Without the method index the guard of an entry is one hash guard with the hash of the
name. -/
theorem invokeTableGuard_hash (env : OutputEnv) (name origName : String) :
    hashGuards (invokeTableGuard env false name origName) = [env.hash_string_i name] ∧
    (openedBlocks (invokeTableGuard env false name origName)).length = 1 := by
  unfold invokeTableGuard
  simp only [Bool.false_eq_true, if_false]
  split
  · exact ⟨by simp [hashGuards, Emit.guardHash], by simp [openedBlocks]⟩
  · exact ⟨by simp [hashGuards, Emit.guardHash], by simp [openedBlocks]⟩

/-- The body of an entry opens no block. -/
theorem invokeTableBody_plain (env : OutputEnv) (self f : Nat) (func : FunctionScope)
    (id lname : String) (fewArgs staticOnly : Bool) (type : TableType) :
    hashGuards (invokeTableBody env self f func id lname fewArgs staticOnly type) = [] ∧
    openedBlocks (invokeTableBody env self f func id lname fewArgs staticOnly type) = [] := by
  unfold invokeTableBody
  cases type <;> cases staticOnly <;> cases fewArgs <;>
    simp [hashGuards, openedBlocks, Emit.guardHash]

/-- The loop of `outputCPPMethodInvokeTable` without the method index and not for few
arguments: it returns, and the table has one block for every key, guarded by the hash of the
key. -/
theorem outputCPPMethodInvokeTableLoop_hash (env : OutputEnv) (ar : AnalysisResult) (self : Nat)
    (funcScopes : List (String × List Nat)) (staticOnly : Bool) (type : TableType) :
    ∀ (keys : List String) (out : List Emit),
      (∀ name ∈ keys, ∃ decls f func cls, funcScopes.lookup name = some decls ∧
        decls.head? = some f ∧ ar.functions[f]? = some func ∧
        ar.classes[env.funcClass f]? = some cls) →
      ∃ table, outputCPPMethodInvokeTableLoop env ar self funcScopes false staticOnly type false
          keys out = some (out ++ table) ∧
        hashGuards table = keys.map env.hash_string_i ∧
        (openedBlocks table).length = keys.length := by
  intro keys
  induction keys with
  | nil =>
    intro out _
    exact ⟨[], by simp [outputCPPMethodInvokeTableLoop], rfl, rfl⟩
  | cons name rest ih =>
    intro out h
    obtain ⟨decls, f, func, cls, h1, h2, h3, h4⟩ := h name (List.mem_cons_self _ _)
    obtain ⟨table, ht, hg, ho⟩ := ih
      (out ++ invokeTableGuard env false name (env.funcOriginalName f) ++
        invokeTableBody env self f func (cls.getId env) (env.formatLabel name) false staticOnly
          type ++ [Emit.indentEnd "\x7d\n"])
      (fun n hn => h n (List.mem_cons_of_mem _ hn))
    refine ⟨invokeTableGuard env false name (env.funcOriginalName f) ++
        invokeTableBody env self f func (cls.getId env) (env.formatLabel name) false staticOnly
          type ++ [Emit.indentEnd "\x7d\n"] ++ table, ?_, ?_, ?_⟩
    · rw [outputCPPMethodInvokeTableLoop]
      simp only [h1, h2, h3, h4, Bool.false_and, Bool.false_eq_true, if_false]
      rw [ht]
      simp only [List.append_assoc]
    · obtain ⟨g1, _⟩ := invokeTableGuard_hash env name (env.funcOriginalName f)
      obtain ⟨b1, _⟩ := invokeTableBody_plain env self f func (cls.getId env)
        (env.formatLabel name) false staticOnly type
      rw [hashGuards_append, hashGuards_append, hashGuards_append, g1, b1, hg]
      simp [hashGuards, Emit.guardHash]
    · obtain ⟨_, g2⟩ := invokeTableGuard_hash env name (env.funcOriginalName f)
      obtain ⟨_, b2⟩ := invokeTableBody_plain env self f func (cls.getId env)
        (env.formatLabel name) false staticOnly type
      rw [openedBlocks_append, openedBlocks_append, openedBlocks_append, b2,
        List.length_append, List.length_append, List.length_append, g2, ho]
      simp [openedBlocks]
      omega

/-- Counterexample to C24 as stated: for the class `c` with the eligible methods `bar` and
`foo`, with the option `UseMethodIndex` the table of type `CallInfo` has no hash guard, its
two blocks are guarded by the overload indices; and for the type `Invoke` nothing is
generated. -/
theorem outputCPPJumpTable_method_index :
    findJumpTableMethods dispatchRegistry 0 false false [] = some ["bar", "foo"] ∧
    (outputCPPJumpTable (exampleEnv true) 0 dispatchRegistry 0 false false TableType.CallInfo
        []).map (fun r => hashGuards r.1) = some [] ∧
    (outputCPPJumpTable (exampleEnv true) 0 dispatchRegistry 0 false false TableType.CallInfo
        []).map (fun r => (openedBlocks r.1).drop 1) =
      some [Emit.indentBegin "if (mi.m_overloadIndex == 0x%x) \x7b \n" [Arg.num 3],
        Emit.indentBegin "if (mi.m_overloadIndex == 0x%x) \x7b \n" [Arg.num 3]] ∧
    (outputCPPJumpTable (exampleEnv false) 0 dispatchRegistry 0 false false TableType.Invoke
        []).map Prod.fst = some [] := by
  decide

/-- C24 (amended): for the table types `Eval` and `CallInfo`, when the method index is not
used, `outputCPPJumpTable` returns; the output is the head of the dispatch function, the
table and the call of the dispatch function of the same kind of the parent (of `ObjectData`
when the class has no parent); and the table has exactly one block for every name found by
`findJumpTableMethods`, in order, guarded by the hash of that name, so no guard carries the
hash of a name outside the set. -/
theorem outputCPPJumpTable_hash_guards (env : OutputEnv) (fuel : Nat) (ar : AnalysisResult)
    (self : Nat) (c : ClassScope) (staticOnly dynamicObject : Bool) (type : TableType)
    (out : List Emit)
    (hc : ar.classes[self]? = some c) (ht : type ≠ TableType.Invoke)
    (hmi : env.UseMethodIndex = false ∨ type ≠ TableType.CallInfo)
    (hwf : ∀ nd ∈ c.m_functions, ∃ f fs, nd.2.head? = some f ∧ ar.functions[f]? = some fs)
    (hcls : ∀ f, ∃ cls, ar.classes[env.funcClass f]? = some cls) :
    ∃ names table parentName parent,
      findJumpTableMethods ar self env.systemcpp
        (if type = TableType.CallInfo then false else staticOnly) [] = some names ∧
      (∀ name, name ∈ names ↔ EntersJumpTable ar c env.systemcpp
        (if type = TableType.CallInfo then false else staticOnly) name) ∧
      jumpTableParent env ar c = some (parentName, parent) ∧
      (c.m_parent = "" → parentName = "ObjectData" ∧ parent = "ObjectData") ∧
      outputCPPJumpTable env fuel ar self staticOnly dynamicObject type out =
        some (out ++ jumpTableHeader env (env.ClassPrefix ++ c.getId env ++ "::") (c.getId env)
            staticOnly type
          ++ (if dynamicObject && staticOnly then [Emit.printDeclareGlobals] else [])
          ++ table
          ++ jumpTableTail
            (jumpTableParentExpr env parentName parent staticOnly dynamicObject type)
            (jumpTableParentExpr env parentName parent staticOnly dynamicObject type)
            (c.getId env) staticOnly type, ar) ∧
      hashGuards table = names.map env.hash_string_i ∧
      (openedBlocks table).length = names.length ∧
      ∀ n, env.hash_string_i n ∉ names.map env.hash_string_i →
        env.hash_string_i n ∉ hashGuards table := by
  obtain ⟨names, hnames, hsub, hiff⟩ := findJumpTableMethodsLoop_spec ar env.systemcpp
    (if type = TableType.CallInfo then false else staticOnly) c.m_functions [] hwf
  rw [List.nil_append] at hnames
  have hfind : findJumpTableMethods ar self env.systemcpp
      (if type = TableType.CallInfo then false else staticOnly) [] = some names := by
    unfold findJumpTableMethods
    rw [hc]
    exact hnames
  have hpar : ∃ parentName parent, jumpTableParent env ar c = some (parentName, parent) ∧
      (c.m_parent = "" → parentName = "ObjectData" ∧ parent = "ObjectData") := by
    unfold jumpTableParent
    by_cases hp : c.m_parent = ""
    · rw [if_pos hp]
      exact ⟨_, _, rfl, fun _ => ⟨rfl, rfl⟩⟩
    · rw [if_neg hp]
      cases hf : findClass ar c.m_parent with
      | none => exact ⟨_, _, rfl, fun h => absurd h hp⟩
      | some k =>
        obtain ⟨cls, hk, _⟩ := findClass_some hf
        simp only [hk]
        exact ⟨_, _, rfl, fun h => absurd h hp⟩
  obtain ⟨parentName, parent, hparent, hobj⟩ := hpar
  have husem : (env.UseMethodIndex && decide (type = TableType.CallInfo)) = false := by
    rcases hmi with h | h
    · rw [h, Bool.false_and]
    · rw [decide_eq_false h, Bool.and_false]
  obtain ⟨table, htable, hg, ho⟩ := outputCPPMethodInvokeTableLoop_hash env ar self
    c.m_functions staticOnly type names
    (out ++ jumpTableHeader env (env.ClassPrefix ++ c.getId env ++ "::") (c.getId env)
      staticOnly type ++
      (if (dynamicObject && staticOnly) = true then [Emit.printDeclareGlobals] else []))
    (by
      intro name hn
      obtain ⟨decls, hl⟩ := lookup_of_mem_keys (hsub.subset hn)
      obtain ⟨f, func, hh, hfn⟩ := hwf (name, decls) (lookup_mem hl)
      obtain ⟨cls, hcl⟩ := hcls f
      exact ⟨decls, f, func, cls, hl, hh, hfn, hcl⟩)
  refine ⟨names, table, parentName, parent, hfind, ?_, hparent, hobj, ?_, hg, ho, ?_⟩
  · intro name
    exact hiff name
  · unfold outputCPPJumpTable
    rw [if_neg ht, hc]
    have hdec : decide (type = TableType.Invoke) = false := decide_eq_false ht
    simp only [hparent, hdec, Bool.false_and, Bool.and_false, Bool.false_eq_true, if_false,
      hfind, if_neg ht]
    unfold outputCPPMethodInvokeTable
    rw [husem, htable]
  · intro n hn
    rw [hg]
    exact hn

/-- Witness for C24 (amended): the class `c` with the eligible methods `bar` and `foo`, the
table of type `Eval`. -/
theorem outputCPPJumpTable_hash_guards_witness :
    (outputCPPJumpTable (exampleEnv false) 0 dispatchRegistry 0 false false TableType.Eval
        []).map (fun r => (hashGuards r.1, r.1.reverse.take 2)) =
      some ([309, 324],
        [Emit.indentEnd "\x7d\n",
          Emit.printf "return %s(s, env, caller, hash, fatal);\n"
            [Arg.str "c_ObjectData::o_invoke_from_eval"]]) ∧
    ∃ names table parentName parent,
      findJumpTableMethods dispatchRegistry 0 (exampleEnv false).systemcpp
        (if TableType.Eval = TableType.CallInfo then false else false) [] = some names ∧
      (∀ name, name ∈ names ↔ EntersJumpTable dispatchRegistry
        { ClassScope.create KindOf.KindOfObjectClass "c" "" [] false false 0 with
          m_functions := [("bar", [0]), ("baz", [1]), ("foo", [2])] }
        (exampleEnv false).systemcpp
        (if TableType.Eval = TableType.CallInfo then false else false) name) ∧
      jumpTableParent (exampleEnv false) dispatchRegistry
        { ClassScope.create KindOf.KindOfObjectClass "c" "" [] false false 0 with
          m_functions := [("bar", [0]), ("baz", [1]), ("foo", [2])] } =
        some (parentName, parent) ∧
      (({ ClassScope.create KindOf.KindOfObjectClass "c" "" [] false false 0 with
          m_functions := [("bar", [0]), ("baz", [1]), ("foo", [2])] } : ClassScope).m_parent =
          "" → parentName = "ObjectData" ∧ parent = "ObjectData") ∧
      outputCPPJumpTable (exampleEnv false) 0 dispatchRegistry 0 false false TableType.Eval [] =
        some ([] ++ jumpTableHeader (exampleEnv false)
            ((exampleEnv false).ClassPrefix ++
              ClassScope.getId (exampleEnv false)
                { ClassScope.create KindOf.KindOfObjectClass "c" "" [] false false 0 with
                  m_functions := [("bar", [0]), ("baz", [1]), ("foo", [2])] } ++ "::")
            (ClassScope.getId (exampleEnv false)
              { ClassScope.create KindOf.KindOfObjectClass "c" "" [] false false 0 with
                m_functions := [("bar", [0]), ("baz", [1]), ("foo", [2])] })
            false TableType.Eval
          ++ (if false && false then [Emit.printDeclareGlobals] else [])
          ++ table
          ++ jumpTableTail
            (jumpTableParentExpr (exampleEnv false) parentName parent false false
              TableType.Eval)
            (jumpTableParentExpr (exampleEnv false) parentName parent false false
              TableType.Eval)
            (ClassScope.getId (exampleEnv false)
              { ClassScope.create KindOf.KindOfObjectClass "c" "" [] false false 0 with
                m_functions := [("bar", [0]), ("baz", [1]), ("foo", [2])] })
            false TableType.Eval, dispatchRegistry) ∧
      hashGuards table = names.map (exampleEnv false).hash_string_i ∧
      (openedBlocks table).length = names.length ∧
      ∀ n, (exampleEnv false).hash_string_i n ∉ names.map (exampleEnv false).hash_string_i →
        (exampleEnv false).hash_string_i n ∉ hashGuards table :=
  ⟨by decide,
    outputCPPJumpTable_hash_guards (exampleEnv false) 0 dispatchRegistry 0
      { ClassScope.create KindOf.KindOfObjectClass "c" "" [] false false 0 with
        m_functions := [("bar", [0]), ("baz", [1]), ("foo", [2])] }
      false false TableType.Eval [] rfl (by decide) (Or.inl rfl)
      (headsValid_of_forall (by decide)) (fun _ => ⟨_, rfl⟩)⟩

/-! ## The seen set of `checkDerivation` -/

/-- C33: for every registry, class scope `e` and seen set `S` that does not hold the name of
`e`, `checkDerivation(e, S)` returns (a nesting depth of one more than the number of declared
classes is enough), and the seen set after every call that returns is `S` again. -/
theorem checkDerivation_restores_seen (ar : AnalysisResult) (e : Nat) (seen : List String)
    (c : ClassScope) (hc : ar.classes[e]? = some c) (hS : c.m_name ∉ seen) :
    (∃ s', checkDerivation (ar.classes.length + 1) e ⟨ar, seen⟩ = some s') ∧
    ∀ (fuel : Nat) (s' : DerivState),
      checkDerivation fuel e ⟨ar, seen⟩ = some s' → s'.seen = seen := by
  refine ⟨checkDerivation_total _ e ⟨ar, seen⟩ c hc (Nat.lt_succ_of_le (unseenCount_le _ _)), ?_⟩
  intro fuel s' h
  obtain ⟨c', hc', _, hseen, _⟩ := checkDerivation_post fuel e ⟨ar, seen⟩ s' h
  simp only at hc' hseen
  rw [hc] at hc'
  cases hc'
  rw [hseen]
  exact setErase_setInsert hS

/-- Witness for C33: the cyclic registry walked from `a` with a seen set that holds `z` only. -/
theorem checkDerivation_restores_seen_witness :
    (checkDerivation 4 0 ⟨cyclicRegistry, ["z"]⟩).map (fun s => s.seen) = some ["z"] ∧
    ((∃ s', checkDerivation (cyclicRegistry.classes.length + 1) 0 ⟨cyclicRegistry, ["z"]⟩ =
      some s') ∧
    ∀ (fuel : Nat) (s' : DerivState),
      checkDerivation fuel 0 ⟨cyclicRegistry, ["z"]⟩ = some s' → s'.seen = ["z"]) :=
  ⟨by decide, checkDerivation_restores_seen cyclicRegistry 0 ["z"]
    (ClassScope.create KindOf.KindOfObjectClass "a" "b" ["b", "i", "i"] false false 0) rfl
    (by decide)⟩

/-! ## The origin of the accumulator entries -/

theorem PublicFn.mono_publicFn {a a' : AnalysisResult} {f : Nat} (h : PublicFn a f)
    (hg : ArGrows a a') : PublicFn a' f :=
  (hg.private_iff f false).1 h

theorem PublicFn.anti_publicFn {a a' : AnalysisResult} {f : Nat} (h : PublicFn a' f)
    (hg : ArGrows a a') : PublicFn a f :=
  (hg.private_iff f false).2 h

theorem mem_mapInsertAll {kf : String × Nat} :
    ∀ (cur m : List (String × Nat)), kf ∈ mapInsertAll m cur → kf ∈ m ∨ kf ∈ cur := by
  intro cur
  induction cur with
  | nil => intro m h; exact Or.inl h
  | cons x rest ih =>
    intro m h
    obtain ⟨k, v⟩ := x
    simp only [mapInsertAll] at h
    split at h
    · rcases ih m h with h1 | h1
      · exact Or.inl h1
      · exact Or.inr (List.mem_cons_of_mem _ h1)
    · rcases ih _ h with h1 | h1
      · rcases List.mem_append.1 h1 with h2 | h2
        · exact Or.inl h2
        · simp only [List.mem_singleton] at h2
          rw [h2]
          exact Or.inr (List.mem_cons_self _ _)
      · exact Or.inr (List.mem_cons_of_mem _ h1)

theorem mem_collectAdd {kf : String × Nat} {name : String} {f : Nat} {s : CollectState}
    (h : kf ∈ (collectAdd name f s).funcs) : kf ∈ s.funcs ∨ kf = (name, f) := by
  unfold collectAdd at h
  split at h
  · simp only [List.mem_append, List.mem_singleton] at h
    exact h
  · exact Or.inl h

theorem collectMissing_funcs :
    ∀ (l : List String) (s : CollectState), (collectMissing l s).funcs = s.funcs := by
  intro l
  induction l with
  | nil => intro s; rfl
  | cons x rest ih =>
    intro s
    simp only [collectMissing]
    split
    · rw [ih]
    · rw [ih]

/-- The entries `collectOwn` adds are last declarations of the method table that pass the
guard of line 219. -/
theorem mem_collectOwn (collectPrivate : Bool) :
    ∀ (l : List (String × List Nat)) (s s' : CollectState),
      collectOwn collectPrivate l s = some s' →
      ∀ kf ∈ s'.funcs, kf ∈ s.funcs ∨
        ((∃ decls, (kf.1, decls) ∈ l ∧ decls.getLast? = some kf.2) ∧
          (collectPrivate = true ∨ PublicFn s'.ar kf.2)) := by
  intro l
  induction l with
  | nil =>
    intro s s' h kf hkf
    simp only [collectOwn, Option.some.injEq] at h
    subst h
    exact Or.inl hkf
  | cons x rest ih =>
    intro s s' h kf hkf
    obtain ⟨name, decls⟩ := x
    simp only [collectOwn] at h
    have hrest : ∀ (s1 : CollectState), collectOwn collectPrivate rest s1 = some s' →
        kf ∈ s1.funcs ∨ ((∃ d, (kf.1, d) ∈ (name, decls) :: rest ∧
          d.getLast? = some kf.2) ∧ (collectPrivate = true ∨ PublicFn s'.ar kf.2)) := by
      intro s1 h1
      rcases ih s1 s' h1 kf hkf with h2 | ⟨⟨d, hd, hl⟩, h3⟩
      · exact Or.inl h2
      · exact Or.inr ⟨⟨d, List.mem_cons_of_mem _ hd, hl⟩, h3⟩
    split at h
    · simp at h
    · rename_i f hlast
      split at h
      · rename_i hcp
        rcases hrest _ h with h1 | h1
        · rcases mem_collectAdd h1 with h2 | h2
          · exact Or.inl h2
          · right
            rw [h2]
            exact ⟨⟨decls, List.mem_cons_self _ _, hlast⟩, Or.inl hcp⟩
        · exact Or.inr h1
      · split at h
        · simp at h
        · rename_i fs hfs
          split at h
          · rcases hrest _ h with h1 | h1
            · exact Or.inl h1
            · exact Or.inr h1
          · rename_i hpriv
            rcases hrest _ h with h1 | h1
            · rcases mem_collectAdd h1 with h2 | h2
              · exact Or.inl h2
              · right
                rw [h2]
                refine ⟨⟨decls, List.mem_cons_self _ _, hlast⟩, Or.inr ?_⟩
                have hp : PublicFn s.ar f := ⟨fs, hfs, by simpa using hpriv⟩
                exact hp.mono_publicFn
                  ((collectAdd_grows name f s).1.1.trans_arGrows
                    (collectOwn_grows collectPrivate _ _ _ h).1.1)
            · exact Or.inr h1

theorem mem_collectRedeclared (rec : Nat → CollectState → Option CollectState)
    (hrecG : ∀ cls st st', rec cls st = some st' → Grows st st')
    (hrec : ∀ cls st st', rec cls st = some st' →
      ∀ kf ∈ st'.funcs, kf ∈ st.funcs ∨ PublicFn st'.ar kf.2)
    (pristine : List (String × Nat)) :
    ∀ (alts : List Nat) (s s' : CollectState),
      collectRedeclared rec pristine alts s = some s' →
      ∀ kf ∈ s'.funcs, kf ∈ s.funcs ∨ kf ∈ pristine ∨ PublicFn s'.ar kf.2 := by
  intro alts
  induction alts with
  | nil =>
    intro s s' h kf hkf
    simp only [collectRedeclared, Option.some.injEq] at h
    subst h
    exact Or.inl hkf
  | cons cls rest ih =>
    intro s s' h kf hkf
    simp only [collectRedeclared] at h
    split at h
    · simp at h
    · rename_i s1 hr
      have hg := collectRedeclared_grows rec hrecG pristine rest _ _ h
      rcases ih _ _ h kf hkf with h1 | h1 | h1
      · rcases mem_mapInsertAll _ _ h1 with h2 | h2
        · exact Or.inl h2
        · rcases hrec _ _ _ hr kf h2 with h3 | h3
          · exact Or.inr (Or.inl h3)
          · exact Or.inr (Or.inr (h3.mono_publicFn hg.1))
      · exact Or.inr (Or.inl h1)
      · exact Or.inr (Or.inr h1)

theorem publicFn_updateClass {a : AnalysisResult} {k : Nat} {g : ClassScope → ClassScope}
    {f : Nat} (h : PublicFn a f) : PublicFn (updateClass a k g) f := h

theorem mem_collectMethodsBase (rec : Nat → CollectState → Option CollectState)
    (hrecG : ∀ cls st st', rec cls st = some st' → Grows st st')
    (hrec : ∀ cls st st', rec cls st = some st' →
      ∀ kf ∈ st'.funcs, kf ∈ st.funcs ∨ PublicFn st'.ar kf.2)
    {forInvoke : Bool} {self i : Nat} {s s' : CollectState}
    (h : collectMethodsBase rec forInvoke self i s = some s') :
    ∀ kf ∈ s'.funcs, kf ∈ s.funcs ∨ PublicFn s'.ar kf.2 := by
  intro kf hkf
  obtain ⟨c, base, hc, hb, hcase⟩ := collectMethodsBase_cases h
  rcases hcase with ⟨hf, _⟩ | ⟨_, _, rfl⟩ | ⟨super, ar1, s2, g, _, _, hr, _, rfl⟩ |
    ⟨ar1, s2, _, _, _, hr, rfl⟩
  · rw [hf] at hkf
    exact Or.inl hkf
  · exact Or.inl hkf
  · rcases hrec _ _ _ hr kf hkf with h1 | h1
    · exact Or.inl h1
    · exact Or.inr h1
  · rcases mem_collectRedeclared rec hrecG hrec _ _ _ _ hr kf hkf with h1 | h1 | h1
    · exact Or.inl h1
    · exact Or.inl h1
    · exact Or.inr h1

theorem mem_collectMethodsBases (rec : Nat → CollectState → Option CollectState)
    (hrecG : ∀ cls st st', rec cls st = some st' → Grows st st')
    (hrec : ∀ cls st st', rec cls st = some st' →
      ∀ kf ∈ st'.funcs, kf ∈ st.funcs ∨ PublicFn st'.ar kf.2)
    (forInvoke : Bool) (self : Nat) :
    ∀ (n : Nat) (s s' : CollectState),
      collectMethodsBases rec forInvoke self n s = some s' →
      ∀ kf ∈ s'.funcs, kf ∈ s.funcs ∨ PublicFn s'.ar kf.2 := by
  intro n
  induction n with
  | zero =>
    intro s s' h kf hkf
    simp only [collectMethodsBases, Option.some.injEq] at h
    subst h
    exact Or.inl hkf
  | succ i ih =>
    intro s s' h kf hkf
    simp only [collectMethodsBases] at h
    split at h
    · simp at h
    · rename_i s1 hs
      rcases ih _ _ h kf hkf with h1 | h1
      · rcases mem_collectMethodsBase rec hrecG hrec hs kf h1 with h2 | h2
        · exact Or.inl h2
        · exact Or.inr (h2.mono_publicFn
            (collectMethodsBases_grows rec hrecG forInvoke self i _ _ h).1)
      · exact Or.inr h1

/-- Every entry of the accumulator after `collectMethods` was there before, or is an own last
declaration collected with `collectPrivate` set, or is not private. -/
theorem mem_collectMethods :
    ∀ (fuel self : Nat) (collectPrivate forInvoke : Bool) (s s' : CollectState),
      collectMethods fuel self collectPrivate forInvoke s = some s' →
      ∀ kf ∈ s'.funcs, kf ∈ s.funcs ∨
        (collectPrivate = true ∧ ∃ c, s.ar.classes[self]? = some c ∧ OwnLast c kf.1 kf.2) ∨
        PublicFn s'.ar kf.2 := by
  intro fuel
  induction fuel with
  | zero =>
    intro self cp fi s s' h
    simp [collectMethods] at h
  | succ fuel ih =>
    intro self cp fi s s' h kf hkf
    simp only [collectMethods] at h
    split at h
    · simp at h
    · rename_i c hc
      split at h
      · simp at h
      · rename_i s1 hown
        have hrecG : ∀ cls st st', collectMethods fuel cls false fi st = some st' →
            Grows st st' := fun cls st st' hr => collectMethods_grows _ _ _ _ _ _ hr
        have hrec : ∀ cls st st', collectMethods fuel cls false fi st = some st' →
            ∀ kf ∈ st'.funcs, kf ∈ st.funcs ∨ PublicFn st'.ar kf.2 := by
          intro cls st st' hr kf hkf
          rcases ih cls false fi st st' hr kf hkf with h1 | ⟨h1, _⟩ | h1
          · exact Or.inl h1
          · cases h1
          · exact Or.inr h1
        have hg3 := collectMethodsBases_grows _ hrecG fi self _ _ _ h
        have hg2 := (collectMissing_grows c.m_missingMethods s1).1
        rcases mem_collectMethodsBases _ hrecG hrec fi self _ _ _ h kf hkf with h1 | h1
        · rw [collectMissing_funcs] at h1
          rcases mem_collectOwn cp _ _ _ hown kf h1 with h2 | ⟨h2, h3⟩
          · exact Or.inl h2
          · rcases h3 with h3 | h3
            · exact Or.inr (Or.inl ⟨h3, c, hc, h2⟩)
            · exact Or.inr (Or.inr (h3.mono_publicFn (hg2.trans_grows hg3).1))
        · exact Or.inr (Or.inr h1)

/-- C31: on an acyclic hierarchy `collectMethods(e, {}, collectPrivate, forInvoke)` returns,
and every entry of the accumulator that is not a last declaration of a method of `e` itself
is a function that is not private; a private function is in the accumulator only as a last
declaration of `e` itself and only when `collectPrivate` is set, so without `collectPrivate`
no entry of the accumulator is private. -/
theorem collectMethods_private_stays (rank : String → Nat) (ar : AnalysisResult) (e : Nat)
    (c : ClassScope) (collectPrivate forInvoke : Bool)
    (hc : ar.classes[e]? = some c) (hac : Acyclic rank ar) (hwf : WellFormedFunctions ar) :
    (∃ s', collectMethods (rank c.m_name + 1) e collectPrivate forInvoke ⟨ar, []⟩ = some s') ∧
    ∀ (fuel : Nat) (s' : CollectState),
      collectMethods fuel e collectPrivate forInvoke ⟨ar, []⟩ = some s' →
      (∀ name f, (name, f) ∈ s'.funcs → ¬ OwnLast c name f → PublicFn ar f) ∧
      (∀ name f fs, (name, f) ∈ s'.funcs → ar.functions[f]? = some fs →
        fs.m_private = true → collectPrivate = true ∧ OwnLast c name f) ∧
      (collectPrivate = false → ∀ name f, (name, f) ∈ s'.funcs → PublicFn ar f) := by
  refine ⟨collectMethods_total rank _ e collectPrivate forInvoke ⟨ar, []⟩ c hc hac hwf
    (Nat.lt_succ_self _), ?_⟩
  intro fuel s' h
  have hg := (collectMethods_grows _ _ _ _ _ _ h).1
  have key : ∀ name f, (name, f) ∈ s'.funcs →
      (collectPrivate = true ∧ OwnLast c name f) ∨ PublicFn ar f := by
    intro name f hm
    rcases mem_collectMethods fuel e collectPrivate forInvoke _ _ h (name, f) hm with
      h1 | ⟨h1, c', hc', h2⟩ | h1
    · simp at h1
    · simp only at hc'
      rw [hc] at hc'
      cases hc'
      exact Or.inl ⟨h1, h2⟩
    · exact Or.inr (h1.anti_publicFn hg)
  refine ⟨?_, ?_, ?_⟩
  · intro name f hm hno
    rcases key name f hm with h1 | h1
    · exact absurd h1.2 hno
    · exact h1
  · intro name f fs hm hfs hp
    rcases key name f hm with h1 | ⟨fs', hfs', hp'⟩
    · exact h1
    · rw [hfs] at hfs'
      cases hfs'
      rw [hp] at hp'
      cases hp'
  · intro hcp name f hm
    rcases key name f hm with h1 | h1
    · rw [hcp] at h1
      cases h1.1
    · exact h1

/-- Witness for C31: the child `c extends p` with the private method `secret`, whose parent is
declared twice, collected with `collectPrivate` set. -/
theorem collectMethods_private_stays_witness :
    (collectMethods 2 0 true false ⟨redeclaredRegistry, []⟩).map (fun s => s.funcs) =
      some [("own", 0), ("secret", 1), ("a", 2), ("b", 3)] ∧
    ((∃ s', collectMethods (exampleRank "c" + 1) 0 true false ⟨redeclaredRegistry, []⟩ =
      some s') ∧
    ∀ (fuel : Nat) (s' : CollectState),
      collectMethods fuel 0 true false ⟨redeclaredRegistry, []⟩ = some s' →
      (∀ name f, (name, f) ∈ s'.funcs →
        ¬ OwnLast { ClassScope.create KindOf.KindOfObjectClass "c" "p" ["p"] false false 0 with
          m_functions := [("own", [0]), ("secret", [1])] } name f →
        PublicFn redeclaredRegistry f) ∧
      (∀ name f fs, (name, f) ∈ s'.funcs → redeclaredRegistry.functions[f]? = some fs →
        fs.m_private = true → true = true ∧
        OwnLast { ClassScope.create KindOf.KindOfObjectClass "c" "p" ["p"] false false 0 with
          m_functions := [("own", [0]), ("secret", [1])] } name f) ∧
      (true = false → ∀ name f, (name, f) ∈ s'.funcs → PublicFn redeclaredRegistry f)) :=
  ⟨by decide,
    collectMethods_private_stays exampleRank redeclaredRegistry 0
      { ClassScope.create KindOf.KindOfObjectClass "c" "p" ["p"] false false 0 with
        m_functions := [("own", [0]), ("secret", [1])] }
      true false rfl (acyclic_of_forall_mem (by decide))
      (wellFormedFunctions_of_forall_mem (by decide))⟩

/-! ## Function scopes that a collection leaves alone -/

theorem setVirtual_getElem?_ne (a : AnalysisResult) {j f : Nat} (h : j ≠ f) :
    (setVirtual a j).functions[f]? = a.functions[f]? := by
  unfold setVirtual
  rw [getElem?_updateFunction, if_neg h]

theorem lookup_some_of_mem {β : Type} {l : List (String × β)} {k : String} {v : β}
    (h : (k, v) ∈ l) : ∃ v', l.lookup k = some v' :=
  lookup_of_mem_keys (List.mem_map.2 ⟨(k, v), h, rfl⟩)

theorem mapInsertAll_lookup {k : String} {v : Nat} :
    ∀ (cur m : List (String × Nat)), m.lookup k = none → cur.lookup k = some v →
      (mapInsertAll m cur).lookup k = some v := by
  intro cur
  induction cur with
  | nil => intro m _ h; simp at h
  | cons x rest ih =>
    intro m hm h
    obtain ⟨k0, v0⟩ := x
    simp only [List.lookup_cons] at h
    simp only [mapInsertAll]
    split at h
    · rename_i hk
      have hk' : k = k0 := by simpa using hk
      subst hk'
      simp only [Option.some.injEq] at h
      subst h
      rw [hm]
      simp only
      apply AccGrows.mapInsertAll
      rw [lookup_append_of_none hm]
      simp [List.lookup]
    · rename_i hk
      have hk' : k ≠ k0 := by simpa using hk
      split
      · exact ih m hm h
      · apply ih _ _ h
        rw [lookup_append_of_none hm]
        simp [List.lookup, hk]

/-- The first loop of `collectMethods` leaves the function scope `f` alone, when `f` is a last
declaration of the method name `m` at most and the accumulator has no entry for `m` as long
as `m` is to come. -/
theorem collectOwn_untouched (collectPrivate : Bool) (f : Nat) (m : String) :
    ∀ (l : List (String × List Nat)) (s s' : CollectState),
      collectOwn collectPrivate l s = some s' → (l.map Prod.fst).Nodup →
      (∀ nd ∈ l, nd.2.getLast? = some f → nd.1 = m) →
      (∀ kf ∈ s.funcs, kf.2 = f → kf.1 = m) →
      (m ∈ l.map Prod.fst → s.funcs.lookup m = none) →
      s'.ar.functions[f]? = s.ar.functions[f]? ∧ (∀ kf ∈ s'.funcs, kf.2 = f → kf.1 = m) := by
  intro l
  induction l with
  | nil =>
    intro s s' h _ _ hacc _
    simp only [collectOwn, Option.some.injEq] at h
    subst h
    exact ⟨rfl, hacc⟩
  | cons x rest ih =>
    intro s s' h hnd hl hacc hm
    obtain ⟨name, decls⟩ := x
    simp only [List.map_cons, List.nodup_cons] at hnd
    have hl' : ∀ nd ∈ rest, nd.2.getLast? = some f → nd.1 = m :=
      fun nd hn => hl nd (List.mem_cons_of_mem _ hn)
    have hskip : collectOwn collectPrivate rest s = some s' →
        s'.ar.functions[f]? = s.ar.functions[f]? ∧ (∀ kf ∈ s'.funcs, kf.2 = f → kf.1 = m) :=
      fun h1 => ih s s' h1 hnd.2 hl' hacc
        (fun hin => hm (by simp only [List.map_cons]; exact List.mem_cons_of_mem _ hin))
    have hadd : ∀ g, decls.getLast? = some g →
        collectOwn collectPrivate rest (collectAdd name g s) = some s' →
        s'.ar.functions[f]? = s.ar.functions[f]? ∧ (∀ kf ∈ s'.funcs, kf.2 = f → kf.1 = m) := by
      intro g hlast h1
      have hgm : g = f → name = m := fun e => hl (name, decls) (List.mem_cons_self _ _)
        (by rw [hlast, e])
      have hmrest : m ∈ rest.map Prod.fst → (collectAdd name g s).funcs.lookup m = none := by
        intro hin
        have hne : name ≠ m := fun e => hnd.1 (by rw [e]; exact hin)
        rw [collectAdd_lookup_ne g s hne]
        exact hm (by simp only [List.map_cons]; exact List.mem_cons_of_mem _ hin)
      have hacc' : ∀ kf ∈ (collectAdd name g s).funcs, kf.2 = f → kf.1 = m := by
        intro kf hkf hv
        rcases mem_collectAdd hkf with h2 | h2
        · exact hacc kf h2 hv
        · rw [h2] at hv ⊢
          exact hgm hv
      obtain ⟨r1, r2⟩ := ih _ s' h1 hnd.2 hl' hacc' hmrest
      refine ⟨?_, r2⟩
      rw [r1]
      unfold collectAdd
      cases hlk : s.funcs.lookup name with
      | none => rfl
      | some v =>
        simp only
        have hnone : name = m → False := by
          intro e
          have := hm (by simp only [List.map_cons]; rw [e]; exact List.mem_cons_self _ _)
          rw [e] at hlk
          rw [this] at hlk
          cases hlk
        have hv : v ≠ f := fun e => hnone (hacc (name, v) (lookup_mem hlk) e)
        have hg : g ≠ f := fun e => hnone (hgm e)
        rw [setVirtual_getElem?_ne _ hg, setVirtual_getElem?_ne _ hv]
    simp only [collectOwn] at h
    split at h
    · simp at h
    · rename_i g hlast
      split at h
      · exact hadd g hlast h
      · split at h
        · simp at h
        · split at h
          · exact hskip h
          · exact hadd g hlast h

/-- The second loop of `collectMethods` leaves the function scope `f` alone, when the
accumulator maps no missing method to `f`. -/
theorem collectMissing_untouched (f : Nat) :
    ∀ (l : List String) (s : CollectState),
      (∀ miss ∈ l, ∀ v, s.funcs.lookup miss = some v → v ≠ f) →
      (collectMissing l s).ar.functions[f]? = s.ar.functions[f]? := by
  intro l
  induction l with
  | nil => intro s _; rfl
  | cons x rest ih =>
    intro s h
    simp only [collectMissing]
    split
    · rename_i g hg
      have e1 := ih { s with ar := setVirtual s.ar g }
        (fun miss hm v hv => h miss (List.mem_cons_of_mem _ hm) v hv)
      rw [e1]
      exact setVirtual_getElem?_ne _ (h x (List.mem_cons_self _ _) g hg)
    · exact ih _ (fun miss hm v hv => h miss (List.mem_cons_of_mem _ hm) v hv)

/-- A call of `collectMethods` on a class without bases is its two loops. -/
theorem collectMethods_leaf {fuel a : Nat} {collectPrivate forInvoke : Bool}
    {s s' : CollectState} {x : ClassScope} (hx : s.ar.classes[a]? = some x)
    (hb : x.m_bases = []) (h : collectMethods fuel a collectPrivate forInvoke s = some s') :
    ∃ s1, collectOwn collectPrivate x.m_functions s = some s1 ∧
      s' = collectMissing x.m_missingMethods s1 := by
  cases fuel with
  | zero => simp [collectMethods] at h
  | succ fuel =>
    simp only [collectMethods, hx] at h
    split at h
    · simp at h
    · rename_i s1 hown
      rw [hb] at h
      simp only [List.length_nil, collectMethodsBases, Option.some.injEq] at h
      exact ⟨s1, hown, h.symm⟩

/-- A call of `collectMethods` on a class without bases, started from an accumulator without
the method name `m`: the function scope `f` is left alone when it is a last declaration of
`m` at most, `m` is not a missing method, and no entry of the accumulator holds `f`. -/
theorem collectMethods_leaf_untouched {fuel a : Nat} {collectPrivate forInvoke : Bool}
    {s s' : CollectState} {x : ClassScope} (f : Nat) (m : String)
    (hx : s.ar.classes[a]? = some x) (hb : x.m_bases = [])
    (hnd : (x.m_functions.map Prod.fst).Nodup)
    (hl : ∀ nd ∈ x.m_functions, nd.2.getLast? = some f → nd.1 = m)
    (hacc : ∀ kf ∈ s.funcs, kf.2 ≠ f) (hm : s.funcs.lookup m = none)
    (hmiss : m ∉ x.m_missingMethods)
    (h : collectMethods fuel a collectPrivate forInvoke s = some s') :
    s'.ar.functions[f]? = s.ar.functions[f]? := by
  obtain ⟨s1, hown, rfl⟩ := collectMethods_leaf hx hb h
  obtain ⟨r1, r2⟩ := collectOwn_untouched collectPrivate f m _ _ _ hown hnd hl
    (fun kf hkf hv => absurd hv (hacc kf hkf)) (fun _ => hm)
  rw [collectMissing_untouched f _ _ ?_, r1]
  intro miss hmi v hv e
  have := r2 (miss, v) (lookup_mem hv) e
  simp only at this
  rw [this] at hmi
  exact hmiss hmi

/-! ## Redeclared parents are collected in isolation -/

/-- Counterexample to C32 as stated: `c extends p implements i`, where `p` is declared twice,
both declarations define the method `m`, and the interface `i` declares `m` as well; the child
and the accumulator do not define `m`. After `collectMethods` on the child the accumulator
maps `m` to the declaration of the interface (function 3), not to the one of the first
alternative (function 1), and the declarations of both alternatives are marked virtual. -/
theorem collectMethods_alternatives_counterexample :
    findRedeclaredClasses isolationInterfaceRegistry "p" = [1, 2] ∧
    (isolationInterfaceRegistry.classes.map (fun c => (c.m_name, c.m_functions))) =
      [("c", [("own", [0])]), ("p", [("m", [1])]), ("p", [("m", [2])]), ("i", [("m", [3])])] ∧
    (isolationInterfaceRegistry.functions.map (fun f => (f.m_private, f.m_virtual))) =
      [(false, false), (false, false), (false, false), (false, false)] ∧
    (collectMethods 2 0 true false ⟨isolationInterfaceRegistry, []⟩).map
        (fun s => (s.funcs.lookup "m", s.ar.functions.map (fun f => f.m_virtual))) =
      some (some 3, [false, true, true, true]) := by
  decide

/-- C32 (amended): for a child whose only base is its parent, whose parent name has the two
alternative declarations `a1` and `a2` (in the order of `findRedeclaredClasses`), both without
bases, the first defining the non-private method `m` with the declaration `f1`, the second
holding the function scope `f2` under no other name than `m`, where `m` is not among their
missing methods, the child and the accumulator do not define `m`, and `f1` and `f2` are
function scopes of their own (no other entry of the method tables and no entry of the
accumulator holds them): after `collectMethods` on the child the accumulator maps `m` to the
declaration of the first alternative, and `f1` and `f2` are as before, so neither declaration
of `m` is marked virtual. On an acyclic well-formed hierarchy the call returns. -/
theorem collectMethods_alternatives_isolated (ar : AnalysisResult) (e : Nat) (c : ClassScope)
    (collectPrivate : Bool) (a1 a2 : Nat) (d1 d2 : ClassScope) (m : String) (f1 f2 : Nat)
    (funcs : List (String × Nat))
    (hc : ar.classes[e]? = some c) (hbases : c.m_bases = [c.m_parent])
    (halts : findRedeclaredClasses ar c.m_parent = [a1, a2])
    (hd1 : ar.classes[a1]? = some d1) (hd2 : ar.classes[a2]? = some d2)
    (hr2 : d2.isRedeclaring = true)
    (hb1 : d1.m_bases = []) (hb2 : d2.m_bases = [])
    (hndc : (c.m_functions.map Prod.fst).Nodup)
    (hnd1 : (d1.m_functions.map Prod.fst).Nodup) (hnd2 : (d2.m_functions.map Prod.fst).Nodup)
    (hm1 : OwnLast d1 m f1) (hp1 : PublicFn ar f1)
    (hcm : ∀ nd ∈ c.m_functions, nd.1 ≠ m) (hfm : funcs.lookup m = none)
    (hmiss1 : m ∉ d1.m_missingMethods) (hmiss2 : m ∉ d2.m_missingMethods)
    (hsepc : ∀ nd ∈ c.m_functions, nd.2.getLast? ≠ some f1 ∧ nd.2.getLast? ≠ some f2)
    (hsep1 : ∀ nd ∈ d1.m_functions,
      (nd.2.getLast? = some f1 → nd.1 = m) ∧ nd.2.getLast? ≠ some f2)
    (hsep2 : ∀ nd ∈ d2.m_functions,
      (nd.2.getLast? = some f2 → nd.1 = m) ∧ nd.2.getLast? ≠ some f1)
    (hacc : ∀ kf ∈ funcs, kf.2 ≠ f1 ∧ kf.2 ≠ f2) :
    (∀ (fuel : Nat) (s' : CollectState),
      collectMethods fuel e collectPrivate false ⟨ar, funcs⟩ = some s' →
      s'.funcs.lookup m = some f1 ∧
      s'.ar.functions[f1]? = ar.functions[f1]? ∧
      s'.ar.functions[f2]? = ar.functions[f2]?) ∧
    (∀ rank : String → Nat, Acyclic rank ar → WellFormedFunctions ar →
      ∃ s', collectMethods (rank c.m_name + 1) e collectPrivate false ⟨ar, funcs⟩ =
        some s') := by
  refine ⟨?_, fun rank hac hwf => collectMethods_total rank _ e collectPrivate false
    ⟨ar, funcs⟩ c hc hac hwf (Nat.lt_succ_self _)⟩
  intro fuel s' h
  cases fuel with
  | zero => simp [collectMethods] at h
  | succ fuel =>
    have hrecG : ∀ cls st st', collectMethods fuel cls false false st = some st' →
        Grows st st' := fun cls st st' hr => collectMethods_grows _ _ _ _ _ _ hr
    simp only [collectMethods, hc] at h
    split at h
    · simp at h
    · rename_i sown hown
      obtain ⟨s2, hs2⟩ : ∃ s2, s2 = collectMissing c.m_missingMethods sown := ⟨_, rfl⟩
      rw [← hs2] at h
      have hG1 := collectOwn_grows collectPrivate _ _ _ hown
      have hG2 := collectMissing_grows c.m_missingMethods sown
      rw [← hs2] at hG2
      have hfo := hG1.2.trans_functionsOnly hG2.2
      have hGa : ArGrows ar s2.ar := (hG1.1.trans_grows hG2.1).1
      have hfuncs2 : s2.funcs = sown.funcs := by rw [hs2, collectMissing_funcs]
      -- the two loops of the child leave both declarations alone
      have hvals : ∀ f, (∀ nd ∈ c.m_functions, nd.2.getLast? ≠ some f) →
          (∀ kf ∈ funcs, kf.2 ≠ f) →
          s2.ar.functions[f]? = ar.functions[f]? ∧ ∀ kf ∈ s2.funcs, kf.2 ≠ f := by
        intro f hlf haf
        obtain ⟨r1, _⟩ := collectOwn_untouched collectPrivate f m _ _ _ hown hndc
          (fun nd hn hl => absurd hl (hlf nd hn)) (fun kf hkf hv => absurd hv (haf kf hkf))
          (fun _ => hfm)
        have hv : ∀ kf ∈ sown.funcs, kf.2 ≠ f := by
          intro kf hkf
          rcases mem_collectOwn collectPrivate _ _ _ hown kf hkf with h1 | ⟨⟨d, hd, hl⟩, _⟩
          · exact haf kf h1
          · intro e1
            exact hlf _ hd (by rw [hl, e1])
        refine ⟨?_, by rw [hfuncs2]; exact hv⟩
        rw [hs2, collectMissing_untouched f _ _ ?_]
        · exact r1
        · intro miss _ v hlv
          exact hv (miss, v) (lookup_mem hlv)
      obtain ⟨hF1, hV1⟩ := hvals f1 (fun nd hn => (hsepc nd hn).1) (fun kf hk => (hacc kf hk).1)
      obtain ⟨hF2, hV2⟩ := hvals f2 (fun nd hn => (hsepc nd hn).2) (fun kf hk => (hacc kf hk).2)
      have hPm : s2.funcs.lookup m = none := by
        cases hl : s2.funcs.lookup m with
        | none => rfl
        | some v =>
          exfalso
          have hmem : (m, v) ∈ sown.funcs := by rw [← hfuncs2]; exact lookup_mem hl
          rcases mem_collectOwn collectPrivate _ _ _ hown _ hmem with h1 | ⟨⟨d, hd, _⟩, _⟩
          · obtain ⟨v', hv'⟩ := lookup_some_of_mem h1
            simp only at hv'
            rw [hfm] at hv'
            cases hv'
          · exact hcm _ hd rfl
      -- the step of the walk for the parent
      rw [hbases] at h
      simp only [List.length_singleton, collectMethodsBases] at h
      split at h
      · simp at h
      · rename_i s3 hs3
        simp only [Option.some.injEq] at h
        subst h
        have hc2 : s2.ar.classes[e]? = some c := by rw [hfo.1]; exact hc
        have hb0 : c.m_bases[0]? = some c.m_parent := by rw [hbases]; rfl
        have hfc : findClasses s2.ar c.m_parent = [a1, a2] := by
          rw [hGa.findClasses]
          exact halts
        have hfind : findClass s2.ar c.m_parent = some a2 := by
          unfold findClass
          rw [hfc]
          rfl
        have hd2s : s2.ar.classes[a2]? = some d2 := by rw [hfo.1]; exact hd2
        simp only [collectMethodsBase, hc2, hb0, bne_self_eq_false, Bool.and_false,
          Bool.false_eq_true, ↓reduceIte, hfind, hd2s, hr2, beq_self_eq_true] at hs3
        have hq1 : ArGrows s2.ar
            (if c.m_derivedByDynamic = true then
              updateClass s2.ar a2 (fun d => { d with m_derivedByDynamic := true })
            else s2.ar) := by
          split
          · exact ArGrows.setDerivedByDynamic_arGrows _ _
          · exact ArGrows.refl_arGrows _
        have hq1f : (if c.m_derivedByDynamic = true then
              updateClass s2.ar a2 (fun d => { d with m_derivedByDynamic := true })
            else s2.ar).functions = s2.ar.functions := by
          split <;> rfl
        have hfr : findRedeclaredClasses
            (if c.m_derivedByDynamic = true then
              updateClass s2.ar a2 (fun d => { d with m_derivedByDynamic := true })
            else s2.ar) c.m_parent = [a1, a2] := by
          unfold findRedeclaredClasses
          rw [hq1.findClasses]
          exact hfc
        rw [hfr] at hs3
        simp only [collectRedeclared] at hs3
        split at hs3
        · simp at hs3
        · rename_i s4 hs4
          simp only [Option.some.injEq] at hs3
          subst hs3
          split at hs4
          · simp at hs4
          · rename_i sa hra
            split at hs4
            · simp at hs4
            · rename_i sb hrb
              simp only [Option.some.injEq] at hs4
              subst hs4
              have hGra := hrecG _ _ _ hra
              have hA1 : ArGrows ar
                  (updateClass
                    (if c.m_derivedByDynamic = true then
                      updateClass s2.ar a2 (fun d => { d with m_derivedByDynamic := true })
                    else s2.ar) a1 (fun d => { d with m_derivedByDynamic := true })) :=
                (hGa.trans_arGrows hq1).trans_arGrows (ArGrows.setDerivedByDynamic_arGrows _ _)
              have hA2 : ArGrows ar sa.ar := hA1.trans_arGrows hGra.1
              have hA3 : ArGrows ar
                  (updateClass sa.ar a2 (fun d => { d with m_derivedByDynamic := true })) :=
                hA2.trans_arGrows (ArGrows.setDerivedByDynamic_arGrows _ _)
              obtain ⟨x1, hx1, hgx1⟩ := hA1.classes.2 a1 d1 hd1
              obtain ⟨x2, hx2, hgx2⟩ := hA3.classes.2 a2 d2 hd2
              have hbx1 : x1.m_bases = [] := by
                have := hgx1.bases
                rw [hb1] at this
                exact List.eq_nil_of_sublist_nil this
              have hbx2 : x2.m_bases = [] := by
                have := hgx2.bases
                rw [hb2] at this
                exact List.eq_nil_of_sublist_nil this
              have hndx1 : (x1.m_functions.map Prod.fst).Nodup := by
                rw [hgx1.functions]; exact hnd1
              have hndx2 : (x2.m_functions.map Prod.fst).Nodup := by
                rw [hgx2.functions]; exact hnd2
              -- the first alternative
              have hU11 : sa.ar.functions[f1]? = s2.ar.functions[f1]? := by
                rw [collectMethods_leaf_untouched (s := ⟨_, _⟩) f1 m hx1 hbx1 hndx1
                  (by rw [hgx1.functions]; exact fun nd hn => (hsep1 nd hn).1)
                  hV1 hPm (by rw [hgx1.missing]; exact hmiss1) hra]
                show (if c.m_derivedByDynamic = true then
                    updateClass s2.ar a2 (fun d => { d with m_derivedByDynamic := true })
                  else s2.ar).functions[f1]? = _
                rw [hq1f]
              have hU12 : sa.ar.functions[f2]? = s2.ar.functions[f2]? := by
                rw [collectMethods_leaf_untouched (s := ⟨_, _⟩) f2 m hx1 hbx1 hndx1
                  (by rw [hgx1.functions]
                      exact fun nd hn hl => absurd hl (hsep1 nd hn).2)
                  hV2 hPm (by rw [hgx1.missing]; exact hmiss1) hra]
                show (if c.m_derivedByDynamic = true then
                    updateClass s2.ar a2 (fun d => { d with m_derivedByDynamic := true })
                  else s2.ar).functions[f2]? = _
                rw [hq1f]
              have hlk : sa.funcs.lookup m = some f1 := by
                obtain ⟨s1, hown1, hsa⟩ := collectMethods_leaf hx1 hbx1 hra
                rw [hsa, collectMissing_funcs]
                obtain ⟨decls, hmem, hlast⟩ := hm1
                refine (collectOwn_spec false m f1 x1.m_functions _ s1 hown1 hndx1
                  ⟨decls, by rw [hgx1.functions]; exact hmem, hlast⟩
                  (Or.inr (hp1.mono_publicFn hA1))).2 hPm
              -- the second alternative
              have hU21 : sb.ar.functions[f1]? = sa.ar.functions[f1]? := by
                rw [collectMethods_leaf_untouched (s := ⟨_, _⟩) f1 m hx2 hbx2 hndx2
                  (by rw [hgx2.functions]
                      exact fun nd hn hl => absurd hl (hsep2 nd hn).2)
                  hV1 hPm (by rw [hgx2.missing]; exact hmiss2) hrb]
              have hU22 : sb.ar.functions[f2]? = sa.ar.functions[f2]? := by
                rw [collectMethods_leaf_untouched (s := ⟨_, _⟩) f2 m hx2 hbx2 hndx2
                  (by rw [hgx2.functions]; exact fun nd hn => (hsep2 nd hn).1)
                  hV2 hPm (by rw [hgx2.missing]; exact hmiss2) hrb]
              refine ⟨?_, ?_, ?_⟩
              · exact AccGrows.mapInsertAll _ _ _ _ (mapInsertAll_lookup _ _ hPm hlk)
              · show sb.ar.functions[f1]? = _
                rw [hU21, hU11, hF1]
              · show sb.ar.functions[f2]? = _
                rw [hU22, hU12, hF2]

/-- Witness for C32 (amended): the child `c extends p` of the twice declared `p`, both
declarations with a method `m`. -/
theorem collectMethods_alternatives_isolated_witness :
    (collectMethods 2 0 true false ⟨isolationRegistry, []⟩).map
        (fun s => (s.funcs, s.ar.functions.map (fun f => f.m_virtual))) =
      some ([("own", 0), ("m", 1)], [false, false, false]) ∧
    ((∀ (fuel : Nat) (s' : CollectState),
      collectMethods fuel 0 true false ⟨isolationRegistry, []⟩ = some s' →
      s'.funcs.lookup "m" = some 1 ∧
      s'.ar.functions[1]? = isolationRegistry.functions[1]? ∧
      s'.ar.functions[2]? = isolationRegistry.functions[2]?) ∧
    (∀ rank : String → Nat, Acyclic rank isolationRegistry →
      WellFormedFunctions isolationRegistry →
      ∃ s', collectMethods (rank "c" + 1) 0 true false ⟨isolationRegistry, []⟩ = some s')) :=
  ⟨by decide,
    collectMethods_alternatives_isolated isolationRegistry 0
      { ClassScope.create KindOf.KindOfObjectClass "c" "p" ["p"] false false 0 with
        m_functions := [("own", [0])] }
      true 1 2
      { ClassScope.create KindOf.KindOfObjectClass "p" "" [] false false 1 with
        m_functions := [("m", [1])], m_redeclaring := 0, m_volatile := true }
      { ClassScope.create KindOf.KindOfObjectClass "p" "" [] false false 2 with
        m_functions := [("m", [2])], m_redeclaring := 1, m_volatile := true }
      "m" 1 2 [] rfl rfl (by decide) rfl rfl (by decide) rfl rfl (by decide) (by decide)
      (by decide) ⟨[1], by decide, rfl⟩ ⟨_, rfl, rfl⟩
      (by decide) rfl (by decide) (by decide) (by decide) (by decide) (by decide)
      (by intro kf hkf; cases hkf)⟩

/-! ## The order of the bases in `collectMethods` and `findFunction` -/

/-- The own method `name` of the class `d` in a call of `collectMethods` on `d`: a key of the
accumulator keeps its function and both functions are marked virtual; a new key is mapped to
the last declaration. -/
theorem collectMethods_own {fuel p : Nat} {collectPrivate forInvoke : Bool}
    {st st' : CollectState} {d : ClassScope} {name : String} {f : Nat}
    (h : collectMethods fuel p collectPrivate forInvoke st = some st')
    (hd : st.ar.classes[p]? = some d) (hnd : (d.m_functions.map Prod.fst).Nodup)
    (hcol : Collected st.ar d collectPrivate name f) :
    (∀ g, st.funcs.lookup name = some g →
      st'.funcs.lookup name = some g ∧ IsVirtual st'.ar g ∧ IsVirtual st'.ar f) ∧
    (st.funcs.lookup name = none → st'.funcs.lookup name = some f) := by
  cases fuel with
  | zero => simp [collectMethods] at h
  | succ fuel =>
    simp only [collectMethods, hd] at h
    split at h
    · simp at h
    · rename_i s1 hown
      have hspec := collectOwn_spec collectPrivate name f d.m_functions st s1 hown
        hnd hcol.1 hcol.2
      have h2 := (collectMissing_grows d.m_missingMethods s1).1
      have h3 := collectMethodsBases_grows _
        (fun cls st st' hr => collectMethods_grows fuel cls false forInvoke st st' hr)
        forInvoke p _ _ _ h
      have h23 := h2.trans_grows h3
      constructor
      · intro g hg
        obtain ⟨r1, r2, r3⟩ := hspec.1 g hg
        exact ⟨h23.2 _ _ r1, r2.mono_isVirtual h23.1, r3.mono_isVirtual h23.1⟩
      · intro hn
        exact h23.2 _ _ (hspec.2 hn)

/-- The step of the walk of `collectMethods` for a base that resolves to a class that is not
redeclaring: the recursive call on that class, then at most flags of the class itself. -/
theorem collectMethodsBase_resolved {rec : Nat → CollectState → Option CollectState}
    {self i : Nat} {s s' : CollectState} {c : ClassScope} {base : String} {super : Nat}
    {sup : ClassScope} (hc : s.ar.classes[self]? = some c) (hb : c.m_bases[i]? = some base)
    (hf : findClass s.ar base = some super) (hs : s.ar.classes[super]? = some sup)
    (hr : sup.isRedeclaring = false)
    (h : collectMethodsBase rec false self i s = some s') :
    ∃ ar1 s2, ArGrows s.ar ar1 ∧ rec super ⟨ar1, s.funcs⟩ = some s2 ∧
      s'.funcs = s2.funcs ∧ s'.ar.functions = s2.ar.functions := by
  unfold collectMethodsBase at h
  rw [hc] at h
  simp only at h
  rw [hb] at h
  simp only [Bool.false_and, Bool.false_eq_true, if_false] at h
  rw [hf] at h
  simp only at h
  rw [hs] at h
  simp only [hr, Bool.false_eq_true, if_false] at h
  have hq1 : ArGrows s.ar
      (if c.m_derivedByDynamic = true then
        updateClass s.ar super (fun d => { d with m_derivedByDynamic := true })
      else s.ar) := by
    split
    · exact ArGrows.setDerivedByDynamic_arGrows _ _
    · exact ArGrows.refl_arGrows _
  split at h
  · simp at h
  · rename_i s2 hrec
    refine ⟨_, s2, hq1, hrec, ?_⟩
    split at h
    · simp at h
    · (repeat' split at h) <;>
        (simp only [Option.some.injEq] at h; subst h; exact ⟨rfl, rfl⟩)

/-- C35: for a class `C` without an own method `n` and with the bases `[P, I]`, which both
resolve to classes that are not redeclaring and declare a non-private `n`: on an acyclic
hierarchy `collectMethods(C, empty accumulator, _, forInvoke = false)` returns, maps `n` to the declaration
of `I` (the base processed first is the last one) and marks both declarations virtual, whereas
`findFunction(C, n, recursive = true)` returns the declaration of `P`, the first base, and
leaves the analysis result as it is. -/
theorem collectMethods_findFunction_orders (rank : String → Nat) (ar : AnalysisResult)
    (e p i : Nat) (c dp di : ClassScope) (bp bi n : String) (fP fI : Nat)
    (declsP declsI : List Nat) (collectPrivate : Bool)
    (hc : ar.classes[e]? = some c) (hbases : c.m_bases = [bp, bi])
    (hcn : c.m_functions.lookup n = none)
    (hfp : findClass ar bp = some p) (hdp : ar.classes[p]? = some dp)
    (hrp : dp.isRedeclaring = false)
    (hfi : findClass ar bi = some i) (hdi : ar.classes[i]? = some di)
    (hri : di.isRedeclaring = false)
    (hndp : (dp.m_functions.map Prod.fst).Nodup) (hndi : (di.m_functions.map Prod.fst).Nodup)
    (hP : dp.m_functions.lookup n = some declsP) (hlP : declsP.getLast? = some fP)
    (hpubP : PublicFn ar fP)
    (hI : di.m_functions.lookup n = some declsI) (hlI : declsI.getLast? = some fI)
    (hpubI : PublicFn ar fI)
    (hac : Acyclic rank ar) (hwf : WellFormedFunctions ar) :
    (∃ s', collectMethods (rank c.m_name + 1) e collectPrivate false ⟨ar, []⟩ = some s') ∧
    (∀ (fuel : Nat) (s' : CollectState),
      collectMethods fuel e collectPrivate false ⟨ar, []⟩ = some s' →
      s'.funcs.lookup n = some fI ∧
      (∃ fs, s'.ar.functions[fI]? = some fs ∧ fs.m_virtual = true) ∧
      (∃ fs, s'.ar.functions[fP]? = some fs ∧ fs.m_virtual = true)) ∧
    ∀ fuel : Nat, findFunction (fuel + 2) e n true false ar = some (some fP, ar) := by
  refine ⟨collectMethods_total rank _ e collectPrivate false ⟨ar, []⟩ c hc hac hwf
    (Nat.lt_succ_self _), ?_, ?_⟩
  · intro fuel s' h
    have hGall := (collectMethods_grows _ _ _ _ _ _ h).1
    cases fuel with
    | zero => simp [collectMethods] at h
    | succ fuel =>
      have hrecG : ∀ cls st st', collectMethods fuel cls false false st = some st' →
          Grows st st' := fun cls st st' hr => collectMethods_grows _ _ _ _ _ _ hr
      have hrecH : ∀ cls st st' d, collectMethods fuel cls false false st = some st' →
          st.ar.classes[cls]? = some d → Acyclic rank st.ar →
          HighUnchanged rank (rank d.m_name + 1) st.ar st'.ar :=
        fun cls st st' d hr hd hacs => collectMethods_high rank _ cls false false st st' d hr
          hd hacs
      simp only [collectMethods, hc] at h
      split at h
      · simp at h
      · rename_i sown hown
        obtain ⟨s2, hs2⟩ : ∃ s2, s2 = collectMissing c.m_missingMethods sown := ⟨_, rfl⟩
        rw [← hs2] at h
        have hG1 := collectOwn_grows collectPrivate _ _ _ hown
        have hG2 := collectMissing_grows c.m_missingMethods sown
        rw [← hs2] at hG2
        have hfo := hG1.2.trans_functionsOnly hG2.2
        have hGa : ArGrows ar s2.ar := (hG1.1.trans_grows hG2.1).1
        have hfuncs2 : s2.funcs = sown.funcs := by rw [hs2, collectMissing_funcs]
        have hn2 : s2.funcs.lookup n = none := by
          cases hl : s2.funcs.lookup n with
          | none => rfl
          | some v =>
            exfalso
            have hmem : (n, v) ∈ sown.funcs := by rw [← hfuncs2]; exact lookup_mem hl
            rcases mem_collectOwn collectPrivate _ _ _ hown _ hmem with h1 | ⟨⟨d, hd, _⟩, _⟩
            · simp at h1
            · obtain ⟨v', hv'⟩ := lookup_some_of_mem hd
              simp only at hv'
              rw [hcn] at hv'
              cases hv'
        have hlen : c.m_bases.length = 1 + 1 := by rw [hbases]; rfl
        rw [hlen] at h
        simp only [collectMethodsBases] at h
        split at h
        · simp at h
        · rename_i s3 hs3
          split at h
          · simp at h
          · rename_i s4 hs4
            simp only [Option.some.injEq] at h
            subst h
            -- the step for the base `I`
            have hc2 : s2.ar.classes[e]? = some c := by rw [hfo.1]; exact hc
            have hb1 : c.m_bases[1]? = some bi := by rw [hbases]; rfl
            have hfi2 : findClass s2.ar bi = some i := by rw [hGa.findClass]; exact hfi
            have hdi2 : s2.ar.classes[i]? = some di := by rw [hfo.1]; exact hdi
            obtain ⟨ar1, sI, hq, hrecI, hf3, _⟩ :=
              collectMethodsBase_resolved hc2 hb1 hfi2 hdi2 hri hs3
            obtain ⟨xi, hxi, hgxi⟩ := (hGa.trans_arGrows hq).classes.2 i di hdi
            have hcolI : Collected ar1 xi false n fI :=
              ⟨⟨declsI, by rw [hgxi.functions]; exact lookup_mem hI, hlI⟩,
                Or.inr (hpubI.mono_publicFn (hGa.trans_arGrows hq))⟩
            have hlk3 : s3.funcs.lookup n = some fI := by
              rw [hf3]
              exact (collectMethods_own hrecI hxi (by rw [hgxi.functions]; exact hndi)
                hcolI).2 hn2
            -- the step for the base `P`
            obtain ⟨red, der, hself, _, _⟩ := collectMethodsBase_self rank _ hrecG hrecH hc2 hb1
              (hac.mono_acyclic hGa) hs3
            have hkeep := baseStepClass_bases_keep 1 c bi (findClass s2.ar bi).isSome red der
              (Or.inl (by rw [hfi2]; rfl))
            have hb0 : (baseStepClass 1 c bi (findClass s2.ar bi).isSome red der).m_bases[0]? =
                some bp := by rw [hkeep, hbases]; rfl
            have hG3 := (collectMethodsBase_grows _ hrecG hs3).1
            have hfp3 : findClass s3.ar bp = some p := by
              rw [(hGa.trans_arGrows hG3).findClass]; exact hfp
            obtain ⟨xp, hxp, hgxp⟩ := (hGa.trans_arGrows hG3).classes.2 p dp hdp
            have hrxp : xp.isRedeclaring = false := by
              unfold ClassScope.isRedeclaring
              rw [hgxp.redeclaring]
              exact hrp
            obtain ⟨ar1', sP, hq', hrecP, hf4, hfn4⟩ :=
              collectMethodsBase_resolved hself hb0 hfp3 hxp hrxp hs4
            obtain ⟨xp', hxp', hgxp'⟩ := hq'.classes.2 p xp hxp
            have hcolP : Collected ar1' xp' false n fP :=
              ⟨⟨declsP, by rw [hgxp'.functions, hgxp.functions]; exact lookup_mem hP, hlP⟩,
                Or.inr (hpubP.mono_publicFn ((hGa.trans_arGrows hG3).trans_arGrows hq'))⟩
            obtain ⟨r1, r2, r3⟩ := (collectMethods_own hrecP hxp'
              (by rw [hgxp'.functions, hgxp.functions]; exact hndp) hcolP).1 fI hlk3
            refine ⟨by rw [hf4]; exact r1, ?_, ?_⟩
            · obtain ⟨fs, hfs, _⟩ := hpubI.mono_publicFn hGall
              refine ⟨fs, hfs, ?_⟩
              rw [hfn4] at hfs
              exact r2 fs hfs
            · obtain ⟨fs, hfs, _⟩ := hpubP.mono_publicFn hGall
              refine ⟨fs, hfs, ?_⟩
              rw [hfn4] at hfs
              exact r3 fs hfs
  · intro fuel
    have hinner : findFunction (fuel + 1) p n true false ar = some (some fP, ar) := by
      rw [findFunction, hdp]
      simp only [hP, hlP]
    rw [findFunction, hc]
    simp only [hcn, if_true, hbases, findFunctionBases, hfp, hdp, Bool.false_and,
      Bool.false_eq_true, if_false, hrp, hinner]

/-- Witness for C35: `c extends p implements i`, where `p` and `i` both declare `n`. -/
theorem collectMethods_findFunction_orders_witness :
    (collectMethods 2 0 true false ⟨orderRegistry, []⟩).map
        (fun s => (s.funcs, s.ar.functions.map (fun f => f.m_virtual))) =
      some ([("n", 1)], [true, true]) ∧
    (findFunction 2 0 "n" true false orderRegistry).map Prod.fst = some (some 0) ∧
    ((∃ s', collectMethods (exampleRank "c" + 1) 0 true false ⟨orderRegistry, []⟩ = some s') ∧
    (∀ (fuel : Nat) (s' : CollectState),
      collectMethods fuel 0 true false ⟨orderRegistry, []⟩ = some s' →
      s'.funcs.lookup "n" = some 1 ∧
      (∃ fs, s'.ar.functions[1]? = some fs ∧ fs.m_virtual = true) ∧
      (∃ fs, s'.ar.functions[0]? = some fs ∧ fs.m_virtual = true)) ∧
    ∀ fuel : Nat, findFunction (fuel + 2) 0 "n" true false orderRegistry =
      some (some 0, orderRegistry)) :=
  ⟨by decide, by decide,
    collectMethods_findFunction_orders exampleRank orderRegistry 0 1 2
      (ClassScope.create KindOf.KindOfObjectClass "c" "p" ["p", "i"] false false 0)
      { ClassScope.create KindOf.KindOfObjectClass "p" "" [] false false 1 with
        m_functions := [("n", [0])] }
      { ClassScope.create KindOf.KindOfInterface "i" "" [] false false 2 with
        m_functions := [("n", [1])] }
      "p" "i" "n" 0 1 [0] [1] true rfl rfl rfl (by decide) rfl (by decide) (by decide) rfl
      (by decide) (by decide) (by decide) rfl rfl ⟨_, rfl, rfl⟩ rfl rfl ⟨_, rfl, rfl⟩
      (acyclic_of_forall_mem (by decide)) (wellFormedFunctions_of_forall_mem (by decide))⟩

/-! ## `DirectFromRedeclared` is overwritten by the parent edge -/

theorem setDynamic_classes (fuel e : Nat) (name : String) (ar ar' : AnalysisResult)
    (h : setDynamic fuel e name ar = some ar') : ar'.classes = ar.classes := by
  rw [setDynamic_eq_fold] at h
  cases hl : dynamicTargets fuel ar e name with
  | none => rw [hl] at h; cases h
  | some l =>
    rw [hl] at h
    simp only [Option.map_some', Option.some.injEq] at h
    rw [← h]
    exact (foldl_setFunctionDynamic l ar).1.1

theorem findFallback_classes (fuel self : Nat) (name : String) (ar : AnalysisResult)
    (r : Option Nat) (ar' : AnalysisResult) (h : findFallback fuel self name ar = some (r, ar')) :
    ar'.classes = ar.classes := by
  unfold findFallback at h
  cases hc : ar.classes[self]? with
  | none => rw [hc] at h; cases h
  | some c =>
    rw [hc] at h
    simp only at h
    split at h
    · cases hs : setDynamic fuel self name ar with
      | none => rw [hs] at h; cases h
      | some a1 =>
        rw [hs] at h
        simp only [Option.some.injEq, Prod.mk.injEq] at h
        rw [← h.2]
        exact setDynamic_classes fuel self name ar a1 hs
    · simp only [Option.some.injEq, Prod.mk.injEq] at h
      rw [← h.2]

theorem findConstructor_classes :
    ∀ (fuel self : Nat) (recursive : Bool) (ar : AnalysisResult) (r : Option Nat)
      (ar' : AnalysisResult),
      findConstructor fuel self recursive ar = some (r, ar') → ar'.classes = ar.classes := by
  intro fuel
  induction fuel with
  | zero => intro self _ ar r ar' h; simp [findConstructor] at h
  | succ fuel ih =>
    intro self recursive ar r ar' h
    rw [findConstructor] at h
    cases hc : ar.classes[self]? with
    | none => rw [hc] at h; cases h
    | some c =>
      rw [hc] at h
      simp only at h
      cases hl : c.m_functions.lookup c.constructorName with
      | some decls =>
        rw [hl] at h
        simp only at h
        cases hg : decls.getLast? with
        | none => rw [hg] at h; cases h
        | some f =>
          rw [hg] at h
          simp only [Option.some.injEq, Prod.mk.injEq] at h
          rw [← h.2]
      | none =>
        rw [hl] at h
        simp only at h
        split at h
        · cases hf : findClass ar c.m_parent with
          | none =>
            rw [hf] at h
            exact findFallback_classes fuel self _ ar r ar' h
          | some p =>
            rw [hf] at h
            simp only at h
            cases hr : findConstructor fuel p true ar with
            | none => rw [hr] at h; cases h
            | some q =>
              obtain ⟨r1, a1⟩ := q
              rw [hr] at h
              have h1 := ih p true ar r1 a1 hr
              cases r1 with
              | none =>
                simp only at h
                exact (findFallback_classes fuel self _ a1 r ar' h).trans h1
              | some f =>
                simp only [Option.some.injEq, Prod.mk.injEq] at h
                rw [← h.2]
                exact h1
        · exact findFallback_classes fuel self _ ar r ar' h

/-- In a class that is not `DirectFromRedeclared` and has no own declaration of the name,
`setDynamic` is the call on the class the parent name resolves to. -/
theorem setDynamic_unique_parent {a : AnalysisResult} {e p : Nat} {c : ClassScope}
    (hc : a.classes[e]? = some c) (hp : c.m_parent ≠ "")
    (hd : c.m_derivesFromRedeclaring ≠ Derivation.DirectFromRedeclared)
    (hf : findClass a c.m_parent = some p) (k : Nat) (name : String)
    (hl : c.m_functions.lookup name = none) :
    setDynamic (k + 1) e name a = setDynamic k p name a := by
  rw [setDynamic, hc]
  simp only [hl]
  rw [if_pos (by simpa using hp), if_neg (by simpa using hd), hf]

/-- In a class that is not `DirectFromRedeclared` and has no own constructor, the recursive
`findConstructor` is the call on the class the parent name resolves to. -/
theorem findConstructor_unique_parent {a : AnalysisResult} {e p : Nat} {c : ClassScope}
    (hc : a.classes[e]? = some c)
    (hd : c.m_derivesFromRedeclaring ≠ Derivation.DirectFromRedeclared)
    (hf : findClass a c.m_parent = some p) (k : Nat)
    (hl : c.m_functions.lookup c.constructorName = none) :
    findConstructor (k + 1) e true a = findConstructor k p true a := by
  rw [findConstructor, hc]
  simp only [hl, Bool.true_and]
  rw [if_pos (by simpa using hd), hf]
  simp only
  cases hr : findConstructor k p true a with
  | none => rfl
  | some q =>
    obtain ⟨r1, a1⟩ := q
    cases r1 with
    | some f => rfl
    | none =>
      simp only
      have hcl := findConstructor_classes k p true a none a1 hr
      have hc1 : a1.classes[e]? = some c := by rw [hcl]; exact hc
      unfold findFallback
      rw [hc1]
      simp only
      rw [if_neg (by simpa using hd)]

/-- C36: for a class that is `DirectFromRedeclared` and whose parent name resolves to a class
that is not redeclaring and derives from a redeclared class, `collectMethods` returns on an
acyclic hierarchy and leaves the class `IndirectFromRedeclared`; in the state it leaves,
`setDynamic` for a name the class does not declare is the call on the class the parent name
resolves to, and so is the recursive `findConstructor` when the class declares no
constructor: neither goes to the declarations of a redeclared parent. -/
theorem collectMethods_direct_not_sticky (rank : String → Nat) (ar : AnalysisResult)
    (e p : Nat) (c dp : ClassScope) (collectPrivate forInvoke : Bool)
    (funcs : List (String × Nat))
    (hc : ar.classes[e]? = some c) (hp : c.m_parent ≠ "") (hinv : c.parentInvariant)
    (hdir : c.m_derivesFromRedeclaring = Derivation.DirectFromRedeclared)
    (hfp : findClass ar c.m_parent = some p) (hdp : ar.classes[p]? = some dp)
    (hrp : dp.isRedeclaring = false)
    (hder : dp.m_derivesFromRedeclaring ≠ Derivation.FromNormal)
    (hac : Acyclic rank ar) (hwf : WellFormedFunctions ar) :
    (∃ s', collectMethods (rank c.m_name + 1) e collectPrivate forInvoke ⟨ar, funcs⟩ =
      some s') ∧
    ∀ (fuel : Nat) (s' : CollectState),
      collectMethods fuel e collectPrivate forInvoke ⟨ar, funcs⟩ = some s' →
      ∃ c', s'.ar.classes[e]? = some c' ∧
        c'.m_derivesFromRedeclaring = Derivation.IndirectFromRedeclared ∧
        c'.m_derivesFromRedeclaring ≠ c.m_derivesFromRedeclaring ∧
        c'.m_parent = c.m_parent ∧ c'.m_functions = c.m_functions ∧
        findClass s'.ar c'.m_parent = some p ∧
        (∀ (k : Nat) (name : String), c'.m_functions.lookup name = none →
          setDynamic (k + 1) e name s'.ar = setDynamic k p name s'.ar) ∧
        (∀ k : Nat, c'.m_functions.lookup c'.constructorName = none →
          findConstructor (k + 1) e true s'.ar = findConstructor k p true s'.ar) := by
  refine ⟨collectMethods_total rank _ e collectPrivate forInvoke ⟨ar, funcs⟩ c hc hac hwf
    (Nat.lt_succ_self _), ?_⟩
  intro fuel s' h
  have hGall := (collectMethods_grows _ _ _ _ _ _ h).1
  have main : ∃ c', s'.ar.classes[e]? = some c' ∧
      c'.m_derivesFromRedeclaring = Derivation.IndirectFromRedeclared := by
    cases fuel with
    | zero => simp [collectMethods] at h
    | succ fuel =>
      have hrecG : ∀ cls st st', collectMethods fuel cls false forInvoke st = some st' →
          Grows st st' := fun cls st st' hr => collectMethods_grows _ _ _ _ _ _ hr
      simp only [collectMethods, hc] at h
      split at h
      · simp at h
      · rename_i sown hown
        have hG1 := (collectOwn_grows collectPrivate _ _ _ hown).1
        have hG2 := (collectMissing_grows c.m_missingMethods sown).1
        have hhead : c.m_bases.head? = some c.m_parent := by
          rcases hinv with h0 | h0
          · exact absurd h0 hp
          · exact h0
        obtain ⟨n, hn⟩ : ∃ n, c.m_bases.length = n + 1 := by
          cases hl : c.m_bases with
          | nil => rw [hl] at hhead; simp at hhead
          | cons x rest => exact ⟨rest.length, rfl⟩
        rw [hn] at h
        obtain ⟨s1, hG3, hlast⟩ := collectMethodsBases_last_grows _ hrecG forInvoke e n _ s' h
        have hGa : ArGrows ar s1.ar := ((hG1.trans_grows hG2).trans_grows hG3).1
        obtain ⟨c1, hc1, hgr⟩ := hGa.classes.2 e c hc
        have hb0 : c1.m_bases[0]? = some c1.m_parent := by
          have h1 := hgr.inv hinv
          rw [← List.head?_eq_getElem?]
          rcases h1 with h0 | h0
          · rw [hgr.parent] at h0
            exact absurd h0 hp
          · exact h0
        have hfind : findClass s1.ar c1.m_parent = some p := by
          rw [hgr.parent, hGa.findClass]
          exact hfp
        obtain ⟨xp, hxp, hgxp⟩ := hGa.classes.2 p dp hdp
        have hrxp : xp.isRedeclaring = false := by
          unfold ClassScope.isRedeclaring
          rw [hgxp.redeclaring]
          exact hrp
        simp only [collectMethodsBase, hc1, hb0, bne_self_eq_false, Bool.and_false,
          Bool.false_eq_true, ↓reduceIte, hfind, hxp, hrxp, beq_self_eq_true] at hlast
        have hq1 : ArGrows s1.ar
            (if c1.m_derivedByDynamic = true then
              updateClass s1.ar p (fun d => { d with m_derivedByDynamic := true })
            else s1.ar) := by
          split
          · exact ArGrows.setDerivedByDynamic_arGrows _ _
          · exact ArGrows.refl_arGrows _
        split at hlast
        · simp at hlast
        · rename_i s2 hrec
          have hG4 := (hrecG _ _ _ hrec).1
          have hA : ArGrows ar s2.ar := (hGa.trans_arGrows hq1).trans_arGrows hG4
          obtain ⟨xp2, hxp2, hgxp2⟩ := hA.classes.2 p dp hdp
          obtain ⟨c2, hc2, _⟩ := hA.classes.2 e c hc
          have hderB : xp2.derivesFromRedeclaringB = true := by
            unfold ClassScope.derivesFromRedeclaringB
            simpa using hgxp2.derives hder
          simp only [hxp2, hderB, if_true, Option.some.injEq] at hlast
          subst hlast
          exact ⟨markIndirect c2, getElem?_updateClass_self markIndirect hc2, rfl⟩
  obtain ⟨c', hc', hind⟩ := main
  obtain ⟨c'', hc'', hgr⟩ := hGall.classes.2 e c hc
  rw [hc'] at hc''
  cases hc''
  have hnd : c'.m_derivesFromRedeclaring ≠ Derivation.DirectFromRedeclared := by
    rw [hind]
    decide
  have hf' : findClass s'.ar c'.m_parent = some p := by
    rw [hgr.parent, hGall.findClass]
    exact hfp
  refine ⟨c', hc', hind, by rw [hind, hdir]; decide, hgr.parent, hgr.functions, hf', ?_, ?_⟩
  · intro k name hl
    exact setDynamic_unique_parent hc' (by rw [hgr.parent]; exact hp) hnd hf' k name hl
  · intro k hl
    exact findConstructor_unique_parent hc' hnd hf' k hl

/-- Witness for C36: `c extends p`, where `c` is `DirectFromRedeclared` and `p` is declared
once and is `DirectFromRedeclared` itself. -/
theorem collectMethods_direct_not_sticky_witness :
    (collectMethods 2 0 true false ⟨stickyRegistry, []⟩).map
        (fun s => (s.ar.classes.map (fun c => c.m_derivesFromRedeclaring),
          (findConstructor 2 0 true s.ar).map Prod.fst)) =
      some ([Derivation.IndirectFromRedeclared, Derivation.DirectFromRedeclared],
        some (some 0)) ∧
    ((stickyRegistry.classes[0]?).map (fun c => c.m_derivesFromRedeclaring) =
      some Derivation.DirectFromRedeclared) ∧
    (∃ s', collectMethods (exampleRank "c" + 1) 0 true false ⟨stickyRegistry, []⟩ = some s') ∧
    ∀ (fuel : Nat) (s' : CollectState),
      collectMethods fuel 0 true false ⟨stickyRegistry, []⟩ = some s' →
      ∃ c', s'.ar.classes[0]? = some c' ∧
        c'.m_derivesFromRedeclaring = Derivation.IndirectFromRedeclared ∧
        c'.m_derivesFromRedeclaring ≠ Derivation.DirectFromRedeclared ∧
        c'.m_parent = "p" ∧ c'.m_functions = [] ∧
        findClass s'.ar c'.m_parent = some 1 ∧
        (∀ (k : Nat) (name : String), c'.m_functions.lookup name = none →
          setDynamic (k + 1) 0 name s'.ar = setDynamic k 1 name s'.ar) ∧
        (∀ k : Nat, c'.m_functions.lookup c'.constructorName = none →
          findConstructor (k + 1) 0 true s'.ar = findConstructor k 1 true s'.ar) :=
  ⟨by decide, by decide,
    collectMethods_direct_not_sticky exampleRank stickyRegistry 0 1
      { ClassScope.create KindOf.KindOfObjectClass "c" "p" ["p"] false false 0 with
        m_derivesFromRedeclaring := Derivation.DirectFromRedeclared }
      { ClassScope.create KindOf.KindOfObjectClass "p" "" [] false false 1 with
        m_derivesFromRedeclaring := Derivation.DirectFromRedeclared,
        m_functions := [("__construct", [0])] }
      true false [] rfl (by decide) (by decide) rfl (by decide) rfl (by decide) (by decide)
      (acyclic_of_forall_mem (by decide)) (wellFormedFunctions_of_forall_mem (by decide))⟩

/-! ## `findCommonParent` on resolved hierarchies -/

theorem findCommonParentInner_spec (rec : String → String → Option String) (base1 : String)
    (Q : String → String → Prop) :
    ∀ (bases2 : List String),
      (∀ b2 ∈ bases2, ∃ r, rec base1 b2 = some r ∧ (r ≠ "" → Q b2 r)) →
      ∃ r, findCommonParentInner rec base1 bases2 = some r ∧
        (r ≠ "" → ∃ b2 ∈ bases2, Q b2 r) := by
  intro bases2
  induction bases2 with
  | nil => intro _; exact ⟨"", rfl, fun h => absurd rfl h⟩
  | cons b rest ih =>
    intro h
    obtain ⟨r, hr, hq⟩ := h b (List.mem_cons_self _ _)
    obtain ⟨r', hr', hq'⟩ := ih (fun b2 hb2 => h b2 (List.mem_cons_of_mem _ hb2))
    simp only [findCommonParentInner, hr]
    by_cases he : r = ""
    · rw [if_neg (by simpa using he)]
      refine ⟨r', hr', fun hne => ?_⟩
      obtain ⟨b2, hb2, hQ⟩ := hq' hne
      exact ⟨b2, List.mem_cons_of_mem _ hb2, hQ⟩
    · rw [if_pos (by simpa using he)]
      exact ⟨r, rfl, fun _ => ⟨b, List.mem_cons_self _ _, hq he⟩⟩

theorem findCommonParentOuter_spec (rec : String → String → Option String)
    (bases2 : List String) (Q : String → String → String → Prop) :
    ∀ (bases1 : List String),
      (∀ b1 ∈ bases1, ∀ b2 ∈ bases2, ∃ r, rec b1 b2 = some r ∧ (r ≠ "" → Q b1 b2 r)) →
      ∃ r, findCommonParentOuter rec bases2 bases1 = some r ∧
        (r ≠ "" → ∃ b1 ∈ bases1, ∃ b2 ∈ bases2, Q b1 b2 r) := by
  intro bases1
  induction bases1 with
  | nil => intro _; exact ⟨"", rfl, fun h => absurd rfl h⟩
  | cons b rest ih =>
    intro h
    obtain ⟨r, hr, hq⟩ := findCommonParentInner_spec rec b (Q b) bases2
      (fun b2 hb2 => h b (List.mem_cons_self _ _) b2 hb2)
    obtain ⟨r', hr', hq'⟩ := ih (fun b1 hb1 => h b1 (List.mem_cons_of_mem _ hb1))
    simp only [findCommonParentOuter, hr]
    by_cases he : r = ""
    · rw [if_neg (by simpa using he)]
      refine ⟨r', hr', fun hne => ?_⟩
      obtain ⟨b1, hb1, hQ⟩ := hq' hne
      exact ⟨b1, List.mem_cons_of_mem _ hb1, hQ⟩
    · rw [if_pos (by simpa using he)]
      exact ⟨r, rfl, fun _ => ⟨b, List.mem_cons_self _ _, hq he⟩⟩

/-- A class derives from what a class of one of its bases is or derives from. -/
theorem derivesFromName_of_base {ar : AnalysisResult} {k j : Nat} {c : ClassScope}
    {b r : String} (hc : ar.classes[k]? = some c) (hb : b ∈ c.m_bases)
    (hj : findClass ar b = some j) (h : r = b ∨ DerivesFromName ar j r) :
    DerivesFromName ar k r := by
  rcases h with h | ⟨y, hchain, hbase⟩
  · rw [h]
    exact ⟨k, Relation.ReflTransGen.refl, c, hc, hb⟩
  · exact ⟨y, Relation.ReflTransGen.head (derivesEdge_of_base hc hb hj) hchain, hbase⟩

/-- C34: on an acyclic registry in which every base name resolves and no class is redeclaring,
for all known names `n1` and `n2` the call `findCommonParent(n1, n2)` returns (with a nesting
depth above the rank of `n1`), and when the name `r` it returns is not empty, `r` is `n1` or
the class of `n1` derives from `r`, and `r` is `n2` or the class of `n2` derives from `r`. -/
theorem findCommonParent_sound (rank : String → Nat) (ar : AnalysisResult)
    (hac : Acyclic rank ar)
    (hres : ∀ (k : Nat) (c : ClassScope), ar.classes[k]? = some c →
      ∀ b ∈ c.m_bases, findClass ar b ≠ none)
    (hplain : ∀ (k : Nat) (c : ClassScope), ar.classes[k]? = some c → c.isRedeclaring = false)
    (dfuel : Nat) :
    ∀ (fuel : Nat) (n1 n2 : String) (k1 k2 : Nat), findClass ar n1 = some k1 →
      findClass ar n2 = some k2 → rank n1 < fuel → rank n1 < dfuel → rank n2 < dfuel →
      ∃ r, findCommonParent fuel dfuel ar n1 n2 = some r ∧
        (r ≠ "" → (r = n1 ∨ DerivesFromName ar k1 r) ∧ (r = n2 ∨ DerivesFromName ar k2 r)) := by
  intro fuel
  induction fuel with
  | zero => intro n1 n2 k1 k2 _ _ h; omega
  | succ fuel ih =>
    intro n1 n2 k1 k2 h1 h2 hfuel hd1 hd2
    obtain ⟨c1, hc1, hn1⟩ := findClass_some h1
    obtain ⟨c2, hc2, hn2⟩ := findClass_some h2
    obtain ⟨r1, hr1, hs1⟩ := derivesFrom_spec hac n2 true false dfuel k1 c1 hc1
      (by rw [hn1]; exact hd1)
    obtain ⟨r2, hr2, hs2⟩ := derivesFrom_spec hac n1 true false dfuel k2 c2 hc2
      (by rw [hn2]; exact hd2)
    rw [findCommonParent, h1]
    simp only [hr1]
    cases r1 with
    | true =>
      refine ⟨n2, rfl, fun _ => ⟨Or.inr ?_, Or.inl rfl⟩⟩
      exact (derivesSpec_plain hplain n2 true false k1).1 (hs1.1 rfl)
    | false =>
      simp only [h2, hr2]
      cases r2 with
      | true =>
        refine ⟨n1, rfl, fun _ => ⟨Or.inl rfl, Or.inr ?_⟩⟩
        exact (derivesSpec_plain hplain n1 true false k2).1 (hs2.1 rfl)
      | false =>
        simp only [hc1, hc2]
        obtain ⟨r, hr, hq⟩ := findCommonParentOuter_spec
          (fun base1 base2 => findCommonParent fuel dfuel ar base1 base2) c2.m_bases
          (fun b1 b2 r => ∃ j1 j2, findClass ar b1 = some j1 ∧ findClass ar b2 = some j2 ∧
            (r = b1 ∨ DerivesFromName ar j1 r) ∧ (r = b2 ∨ DerivesFromName ar j2 r))
          c1.m_bases
          (by
            intro b1 hb1 b2 hb2
            have hrk1 : rank b1 < rank n1 := by rw [← hn1]; exact hac k1 c1 hc1 b1 hb1
            have hrk2 : rank b2 < rank n2 := by rw [← hn2]; exact hac k2 c2 hc2 b2 hb2
            obtain ⟨j1, hj1⟩ := Option.ne_none_iff_exists'.1 (hres k1 c1 hc1 b1 hb1)
            obtain ⟨j2, hj2⟩ := Option.ne_none_iff_exists'.1 (hres k2 c2 hc2 b2 hb2)
            obtain ⟨r, hr, hq⟩ := ih b1 b2 j1 j2 hj1 hj2 (by omega) (by omega) (by omega)
            exact ⟨r, hr, fun hne => ⟨j1, j2, hj1, hj2, hq hne⟩⟩)
        refine ⟨r, hr, fun hne => ?_⟩
        obtain ⟨b1, hb1, b2, hb2, j1, j2, hj1, hj2, hq1, hq2⟩ := hq hne
        exact ⟨Or.inr (derivesFromName_of_base hc1 hb1 hj1 hq1),
          Or.inr (derivesFromName_of_base hc2 hb2 hj2 hq2)⟩

/-- Witness for C34: the cousins `d` (a child of `b`) and `c`, whose common parent is `a`. -/
theorem findCommonParent_sound_witness :
    findCommonParent 3 3 cousinRegistry "d" "c" = some "a" ∧
    ∃ r, findCommonParent 3 3 cousinRegistry "d" "c" = some r ∧
      (r ≠ "" → (r = "d" ∨ DerivesFromName cousinRegistry 3 r) ∧
        (r = "c" ∨ DerivesFromName cousinRegistry 2 r)) :=
  ⟨by decide,
    findCommonParent_sound cousinRank cousinRegistry (acyclic_of_forall_mem (by decide))
      (forall_getElem?_of_forall_mem (by decide)) (forall_getElem?_of_forall_mem (by decide))
      3 3 "d" "c" 3 2 (by decide) (by decide) (by decide) (by decide) (by decide)⟩

/-! ## The table type `Invoke` -/

theorem invokeTableGuard_isIfdef (env : OutputEnv) (useMethodIndex : Bool)
    (name origName : String) :
    (invokeTableGuard env useMethodIndex name origName).filter Emit.isIfdef = [] := by
  unfold invokeTableGuard
  (repeat' split) <;> rfl

theorem invokeTableBody_isIfdef (env : OutputEnv) (self f : Nat) (func : FunctionScope)
    (id lname : String) (fewArgs staticOnly : Bool) (type : TableType) :
    (invokeTableBody env self f func id lname fewArgs staticOnly type).filter Emit.isIfdef =
      [] := by
  unfold invokeTableBody
  cases type <;> cases staticOnly <;> cases fewArgs <;> simp [Emit.isIfdef]

/-- The loop of `outputCPPMethodInvokeTable` makes no call of `ifdefBegin` or `ifdefEnd`. -/
theorem outputCPPMethodInvokeTableLoop_isIfdef (env : OutputEnv) (ar : AnalysisResult)
    (self : Nat) (funcScopes : List (String × List Nat)) (fewArgs staticOnly : Bool)
    (type : TableType) (useMethodIndex : Bool) :
    ∀ (keys : List String) (out out' : List Emit),
      outputCPPMethodInvokeTableLoop env ar self funcScopes fewArgs staticOnly type
        useMethodIndex keys out = some out' →
      out'.filter Emit.isIfdef = out.filter Emit.isIfdef := by
  intro keys
  induction keys with
  | nil =>
    intro out out' h
    simp only [outputCPPMethodInvokeTableLoop, Option.some.injEq] at h
    rw [h]
  | cons name rest ih =>
    intro out out' h
    rw [outputCPPMethodInvokeTableLoop] at h
    simp only at h
    split at h
    · cases h
    · split at h
      · cases h
      · split at h
        · cases h
        · split at h
          · cases h
          · split at h
            · exact ih _ _ h
            · rw [ih _ _ h]
              simp [List.filter_append, invokeTableGuard_isIfdef, invokeTableBody_isIfdef,
                Emit.isIfdef]

/-- C37: `outputCPPJumpTable` with the table type `Invoke` returns at once, for every class
scope, `staticOnly`, `dynamicObject` and every setting of the options: the output and the
analysis result are as before, so nothing is emitted and no empty jump table is marked.
For every table type the result does not depend on the nesting depth given to
`collectMethods` and `needsInvokeParent`, which are both out of reach (the depth 0 gives the
same result), the analysis result is as before, and the output has no call of `ifdefBegin` or
`ifdefEnd` besides those it had, with which the table of type `Invoke`, flattened or not, and
the table for few arguments begin and end. -/
theorem outputCPPJumpTable_invoke_noop (env : OutputEnv) (fuel : Nat) (ar : AnalysisResult)
    (self : Nat) (staticOnly dynamicObject : Bool) (out : List Emit) :
    outputCPPJumpTable env fuel ar self staticOnly dynamicObject TableType.Invoke out =
      some (out, ar) ∧
    (∀ type : TableType,
      outputCPPJumpTable env fuel ar self staticOnly dynamicObject type out =
        outputCPPJumpTable env 0 ar self staticOnly dynamicObject type out) ∧
    ∀ (type : TableType) (r : List Emit × AnalysisResult),
      outputCPPJumpTable env fuel ar self staticOnly dynamicObject type out = some r →
      r.2 = ar ∧ r.1.filter Emit.isIfdef = out.filter Emit.isIfdef := by
  refine ⟨?_, ?_, ?_⟩
  · unfold outputCPPJumpTable
    rw [if_pos rfl]
  · intro type
    by_cases ht : type = TableType.Invoke
    · unfold outputCPPJumpTable
      rw [if_pos ht, if_pos ht]
    · have hdec : decide (type = TableType.Invoke) = false := decide_eq_false ht
      unfold outputCPPJumpTable
      simp only [if_neg ht, hdec, Bool.false_and, Bool.and_false, Bool.false_eq_true, if_false]
  · intro type r h
    by_cases ht : type = TableType.Invoke
    · unfold outputCPPJumpTable at h
      rw [if_pos ht] at h
      simp only [Option.some.injEq] at h
      rw [← h]
      exact ⟨rfl, rfl⟩
    · have hdec : decide (type = TableType.Invoke) = false := decide_eq_false ht
      unfold outputCPPJumpTable at h
      simp only [if_neg ht, hdec, Bool.false_and, Bool.and_false, Bool.false_eq_true,
        if_false] at h
      split at h
      · cases h
      · split at h
        · cases h
        · split at h
          · cases h
          · split at h
            · cases h
            · rename_i out1 htab
              simp only [Option.some.injEq] at h
              rw [← h]
              refine ⟨rfl, ?_⟩
              unfold outputCPPMethodInvokeTable at htab
              have h1 := outputCPPMethodInvokeTableLoop_isIfdef _ _ _ _ _ _ _ _ _ _ _ htab
              simp only [List.filter_append, h1]
              have hhead : ∀ (scope clsName : String),
                  (jumpTableHeader env scope clsName staticOnly type).filter Emit.isIfdef =
                    [] := by
                intro scope clsName
                unfold jumpTableHeader
                cases type with
                | Invoke => exact absurd rfl ht
                | Eval => cases staticOnly <;> rfl
                | CallInfo => rfl
              have htail : ∀ (base parentExpr clsName : String),
                  (jumpTableTail base parentExpr clsName staticOnly type).filter
                    Emit.isIfdef = [] := by
                intro base parentExpr clsName
                unfold jumpTableTail
                cases type with
                | Invoke => exact absurd rfl ht
                | Eval => cases staticOnly <;> rfl
                | CallInfo => rfl
              rw [hhead, htail]
              cases (dynamicObject && staticOnly) <;> simp [Emit.isIfdef]

/-- Witness for C37: the class `c` of `dispatchRegistry` with the option `FlattenInvoke` set;
the type `Invoke` leaves output and analysis result, the type `Eval` leaves the analysis
result. -/
theorem outputCPPJumpTable_invoke_noop_witness :
    (exampleEnv false).FlattenInvoke = true ∧
    outputCPPJumpTable (exampleEnv false) 5 dispatchRegistry 0 false false TableType.Invoke [] =
      some ([], dispatchRegistry) ∧
    ∃ r, outputCPPJumpTable (exampleEnv false) 5 dispatchRegistry 0 false false TableType.Eval
        [] = some r ∧
      r.2 = dispatchRegistry ∧ r.1.filter Emit.isIfdef = [].filter Emit.isIfdef := by
  refine ⟨rfl, (outputCPPJumpTable_invoke_noop (exampleEnv false) 5 dispatchRegistry 0 false
    false []).1, ?_⟩
  have hs : (outputCPPJumpTable (exampleEnv false) 5 dispatchRegistry 0 false false
      TableType.Eval []).isSome = true := by decide
  obtain ⟨r, hr⟩ := Option.isSome_iff_exists.1 hs
  exact ⟨r, hr, (outputCPPJumpTable_invoke_noop (exampleEnv false) 5 dispatchRegistry 0 false
    false []).2.2 TableType.Eval r hr⟩

/-- The flag-free part of the length word is the word modulo `2 ^ 29`. -/
theorem StringData.size_eq_mod (sd : StringData) : sd.size = sd.m_len % 2 ^ 29 := by
  unfold StringData.size
  have e : 2 ^ 32 - 1 - IsMask = 2 ^ 29 - 1 := by decide
  rw [e, Nat.and_pow_two_sub_one_eq_mod]

/-- The size is below `2 ^ 29`. -/
theorem StringData.size_lt (sd : StringData) : sd.size < 2 ^ 29 := by
  rw [StringData.size_eq_mod]
  exact Nat.mod_lt _ (by decide)

/-- A successful `memcpy` keeps the length of the destination block. -/
theorem memcpy_length {dst : List Nat} {off : Nat} {src : Option (List Nat)} {n : Nat}
    {r : List Nat} (h : memcpy dst off src n = some r) : r.length = dst.length := by
  unfold memcpy at h
  split at h
  · cases h; rfl
  · split at h
    · cases h
    · split at h
      · rename_i b hb
        cases h
        simp only [List.length_append, List.length_take, List.length_drop]
        omega
      · cases h

/-- The immutable branch of `removeChar` writes outside the block it allocated. -/
theorem removeChar_immutable (sd : StringData) (offset : Int)
    (h : sd.isImmutable = true) : sd.removeChar offset = none := by
  unfold StringData.removeChar
  simp only [h, if_true]
  split
  · rfl
  · split
    · rfl
    · rename_i data1 h1
      split
      · rfl
      · rename_i data2 h2
        have l1 : data1.length = sd.size := by
          split at h1
          · rw [memcpy_length h1]; simp [malloc]
          · cases h1; simp [malloc]
        have l2 : data2.length = sd.size := by
          split at h2
          · rw [memcpy_length h2, l1]
          · cases h2; exact l1
        have : poke data2 sd.size 0 = none := by
          unfold poke
          rw [if_neg (by omega)]
        rw [this]

/-- The malloc-owned branch of `removeChar`: the block afterwards. -/
theorem removeChar_malloced (sd : StringData) (offset : Int) (buf : List Nat)
    (himm : sd.isImmutable = false) (hd : sd.m_data = some buf) (hlen : sd.size < buf.length)
    (h0 : 0 ≤ offset) (h1 : offset < sd.size) :
    sd.removeChar offset = some { sd with
      m_len := sd.size - 1
      m_data := some (buf.take offset.toNat ++
        (buf.drop (offset.toNat + 1)).take (sd.size - offset.toNat) ++ buf.drop sd.size)
      m_hash := 0 } := by
  obtain ⟨k, rfl⟩ := Int.eq_ofNat_of_zero_le h0
  have hk : k < sd.size := by exact_mod_cast h1
  have hmask : sd.m_len &&& IsMask = 0 := by
    simpa [StringData.isImmutable] using himm
  have hlt := sd.size_lt
  have hw : intWord ((sd.size : Int) - 1) = sd.size - 1 := by
    unfold intWord
    have e : ((sd.size : Int) - 1) = ((sd.size - 1 : Nat) : Int) := by omega
    rw [e, Int.emod_eq_of_lt (by omega) (by omega)]
    rfl
  have hn : ((sd.size : Int) - (k : Int)) = ((sd.size - k : Nat) : Int) := by omega
  unfold StringData.removeChar
  simp only [himm, hd, hmask, hw, hn, Int.toNat_ofNat, Nat.zero_or]
  rw [if_neg (by omega)]
  simp only [Bool.false_eq_true, if_false]
  unfold memmove
  rw [if_neg (by omega), if_pos (by simp only [Int.toNat_ofNat]; omega)]
  simp only [Int.toNat_ofNat]
  have : k + (sd.size - k) = sd.size := by omega
  rw [this]

/-- C38: `removeChar(offset)` on an immutable (literal, shared or linear) string writes the
terminator at the index `len` of a block of `len` bytes, outside the block, for every string
and every offset; on a malloc-owned string of size `n` whose block holds the terminator, with
`0 ≤ offset < n`, it returns with size `n - 1`, the block as long as before, the content the
original content without the byte at `offset`, the terminator moved down by one, and the
cached hash 0. The write outside the block is reached from `setChar(offset, substring)` with
an empty `substring` and `0 ≤ offset < size()`. -/
theorem removeChar_erases_one_byte (sd : StringData) (offset : Int) :
    (sd.isImmutable = true → sd.removeChar offset = none) ∧
    (sd.isImmutable = true → 0 ≤ offset → offset < sd.size →
      ∀ limit : Int, sd.setChar limit offset [] = none) ∧
    (sd.isImmutable = false → ∀ buf : List Nat, sd.m_data = some buf →
      sd.size < buf.length → 0 ≤ offset → offset < sd.size →
      ∃ sd' buf', sd.removeChar offset = some sd' ∧ sd'.m_data = some buf' ∧
        sd'.size = sd.size - 1 ∧ sd'.isImmutable = false ∧ buf'.length = buf.length ∧
        buf'.take sd'.size = (buf.take sd.size).eraseIdx offset.toNat ∧
        buf'.get? sd'.size = buf.get? sd.size ∧ sd'.m_hash = 0) := by
  refine ⟨removeChar_immutable sd offset, ?_, ?_⟩
  · intro himm h0 h1 limit
    have hne : sd.size ≠ 0 := by
      intro e
      rw [e] at h1
      exact absurd h1 (by omega)
    unfold StringData.setChar
    simp only [h0, h1, hne, if_true, if_false, removeChar_immutable sd offset himm,
      Option.map_none']
  intro himm buf hd hlen h0 h1
  refine ⟨_, _, removeChar_malloced sd offset buf himm hd hlen h0 h1, rfl, ?_⟩
  obtain ⟨k, rfl⟩ := Int.eq_ofNat_of_zero_le h0
  have hk : k < sd.size := by exact_mod_cast h1
  have hlt := sd.size_lt
  have hsz : ({ sd with
      m_len := sd.size - 1
      m_data := some (buf.take (k : Int).toNat ++
        (buf.drop ((k : Int).toNat + 1)).take (sd.size - (k : Int).toNat) ++ buf.drop sd.size)
      m_hash := 0 } : StringData).size = sd.size - 1 := by
    rw [StringData.size_eq_mod]
    show (sd.size - 1) % 2 ^ 29 = sd.size - 1
    exact Nat.mod_eq_of_lt (by omega)
  refine ⟨hsz, ?_, ?_, ?_, ?_, rfl⟩
  · have : (sd.size - 1) &&& IsMask = 0 :=
      (land_IsMask_eq_zero_iff _ (by omega)).2 (by omega)
    simp [StringData.isImmutable, this]
  · simp only [Int.toNat_ofNat, List.length_append, List.length_take, List.length_drop]
    omega
  · rw [hsz]
    simp only [Int.toNat_ofNat]
    apply List.ext_get?
    intro i
    simp only [List.get?_eq_getElem?, List.getElem?_take, List.getElem?_append,
      List.getElem?_eraseIdx, List.length_take, List.length_append, List.length_drop,
      List.getElem?_drop]
    have e1 : k ⊓ buf.length = k := by omega
    have e2 : (sd.size - k) ⊓ (buf.length - (k + 1)) = sd.size - k := by omega
    rw [e1, e2]
    split_ifs <;> first | rfl | omega | (congr 1; omega)
  · rw [hsz]
    simp only [Int.toNat_ofNat]
    simp only [List.get?_eq_getElem?, List.getElem?_take, List.getElem?_append,
      List.length_take, List.length_append, List.length_drop,
      List.getElem?_drop]
    have e1 : k ⊓ buf.length = k := by omega
    have e2 : (sd.size - k) ⊓ (buf.length - (k + 1)) = sd.size - k := by omega
    rw [e1, e2]
    split_ifs <;> first | rfl | omega | (congr 1; omega)

/-- Witness for C38 at the literal `"ab"` (the write outside the block) and at the
malloc-owned `"ab"` (the byte at 0 is removed). -/
theorem removeChar_erases_one_byte_witness :
    literalAb.removeChar 0 = none ∧
    (∀ limit : Int, literalAb.setChar limit 0 [] = none) ∧
    ∃ sd' buf', mallocAb.removeChar 0 = some sd' ∧ sd'.m_data = some buf' ∧
      sd'.size = mallocAb.size - 1 ∧ sd'.isImmutable = false ∧
      buf'.length = [97, 98, 0].length ∧
      buf'.take sd'.size = (List.take mallocAb.size [97, 98, 0]).eraseIdx (0 : Int).toNat ∧
      buf'.get? sd'.size = [97, 98, 0].get? mallocAb.size ∧ sd'.m_hash = 0 :=
  ⟨(removeChar_erases_one_byte literalAb 0).1 (by decide),
   (removeChar_erases_one_byte literalAb 0).2.1 (by decide) (by decide) (by decide),
   (removeChar_erases_one_byte mallocAb 0).2.2 (by decide) [97, 98, 0] rfl (by decide)
     (by decide) (by decide)⟩

/-- After `assign` returns without an exception the cached hash is 0. -/
theorem assign_hash (sd : StringData) (data : List Nat) (len : Int) (mode : StringDataMode)
    (r : StringData) (h : sd.assign data len mode = some (r, none)) : r.m_hash = 0 := by
  unfold StringData.assign at h
  split at h
  · simp at h
  · simp only at h
    split at h
    · split at h
      · split at h
        · simp at h
        · split at h
          · simp at h
          · cases h; rfl
      · cases h; rfl
      · cases h; rfl
    · cases h; rfl

/-- The check at the end of `append` keeps a cached hash of 0. -/
theorem appendCheck_hash (sd : StringData) (h : sd.m_hash = 0) :
    (StringData.appendCheck sd).1.m_hash = 0 := by
  unfold StringData.appendCheck
  split
  · unfold StringData.releaseData
    (repeat' split) <;> rfl
  · exact h

/-- The hash after `releaseData` is 0. -/
theorem releaseData_hash (sd : StringData) : sd.releaseData.m_hash = 0 := by
  unfold StringData.releaseData
  (repeat' split) <;> rfl

/-- After `append` of a valid positive length the cached hash is 0, whether it returns or
throws `FatalErrorException`. -/
theorem append_hash (sd : StringData) (s : Option (List Nat)) (len : Int)
    (r : StringData) (ex : Option StringException) (hpos : 0 < len)
    (hvalid : intWord len &&& IsMask = 0) (h : sd.append s len = some (r, ex)) :
    r.m_hash = 0 := by
  unfold StringData.append at h
  rw [if_neg (by omega), if_neg (by simp [hvalid]; omega)] at h
  simp only at h
  split at h
  · split at h
    · simp at h
    · rename_i buf newlen hc
      simp only [Option.some.injEq] at h
      have := appendCheck_hash { m_data := some buf
                                 m_shared := if sd.isShared then sd.m_shared - 1 else sd.m_shared
                                 m_len := newlen % 2 ^ 32
                                 m_hash := 0 } rfl
      rw [h] at this
      exact this
  · split at h
    · split at h
      · simp at h
      · rename_i buf newlen hc
        simp only [Option.some.injEq] at h
        have := appendCheck_hash
          { sd.releaseData with m_data := some buf, m_len := newlen % 2 ^ 32 }
          (releaseData_hash sd)
        rw [h] at this
        exact this
    · split at h
      · simp at h
      · split at h
        · simp at h
        · rename_i buf hb buf1 hb1
          simp only [Option.some.injEq] at h
          have := appendCheck_hash
            { sd with m_len := (len.toNat + sd.size) % 2 ^ 32, m_data := some buf1, m_hash := 0 }
            rfl
          rw [h] at this
          exact this

/-- After `escalate` the cached hash is 0. -/
theorem escalate_hash (sd r : StringData) (h : sd.escalate = some r) : r.m_hash = 0 := by
  unfold StringData.escalate at h
  simp only at h
  (repeat' split at h) <;>
    first
    | (simp only [Option.some.injEq] at h; rw [← h])
    | simp at h

/-- After `removeChar` the cached hash is 0. -/
theorem removeChar_hash (sd : StringData) (offset : Int) (r : StringData)
    (h : sd.removeChar offset = some r) : r.m_hash = 0 := by
  by_cases himm : sd.isImmutable = true
  · rw [removeChar_immutable sd offset himm] at h
    cases h
  · have himm1 : sd.isImmutable = false := by simpa using himm
    unfold StringData.removeChar at h
    simp only [himm1, Bool.false_eq_true, if_false] at h
    split at h
    · simp at h
    · split at h
      · simp at h
      · split at h
        · simp at h
        · cases h; rfl

/-- The hash `setChar(offset, ch)` leaves: 0 when it had to escalate, and the hash from before
otherwise. -/
theorem setChar_ch_hash (sd : StringData) (offset : Int) (ch : Nat) (r : StringData)
    (h : sd.setChar_ch offset ch = some r) :
    r.m_hash = if sd.isImmutable then 0 else sd.m_hash := by
  unfold StringData.setChar_ch at h
  split at h
  · simp at h
  · rename_i sd1 h1
    have e1 : sd1.m_hash = if sd.isImmutable then 0 else sd.m_hash := by
      split at h1
      · rename_i hi
        simp only [hi, if_true]
        exact escalate_hash sd sd1 h1
      · rename_i hi
        simp only [hi]
        cases h1
        rfl
    split at h
    · simp at h
    · split at h
      · simp at h
      · rename_i buf hb
        simp only [Option.map_eq_some'] at h
        obtain ⟨b, _, rfl⟩ := h
        exact e1

/-- The loop of `negate` leaves the hash alone: `negate` returns the string with another block
only. -/
theorem negate_hash (sd r : StringData) (h : sd.negate = some r) : r.m_hash = sd.m_hash := by
  unfold StringData.negate at h
  split at h
  · cases h; rfl
  · split at h
    · simp at h
    · simp only [Option.map_eq_some'] at h
      obtain ⟨b, _, rfl⟩ := h
      rfl

/-- After `inc` on a non-empty immutable string the cached hash is 0. -/
theorem inc_hash_immutable
    (f : List Nat → Nat → Option (List Nat × Option (List Nat))) (sd r : StringData)
    (he : sd.empty = false) (himm : sd.isImmutable = true)
    (h : sd.inc f = some (r, none)) : r.m_hash = 0 := by
  unfold StringData.inc at h
  simp only [he, himm, Bool.false_eq_true, if_false, if_true] at h
  split at h
  · simp at h
  · rename_i sd1 h1
    have e1 := escalate_hash sd sd1 h1
    split at h
    · simp at h
    · split at h
      · simp at h
      · cases h; exact e1
      · split at h
        · simp at h
        · exact assign_hash _ _ _ _ _ h

/-- C39: the cached hash is 0 after `assign`, after `append` of a valid positive length
(whether it returns or throws `FatalErrorException`), after `removeChar`, after `escalate`,
and after `setChar(offset, ch)` and `inc` on a non-empty immutable string, which escalate
first. But `setChar(offset, ch)` on a malloc-owned string, `negate`, `inc` on an empty string
and `inc` on a malloc-owned string whose number does not grow by a digit change the content
and leave the cached hash as it was: on the malloc-owned `"ab"` with the cached hash 5,
`setChar(0, 'x')`, `negate()` and an increment of the last byte give `"xb"`, the complemented
bytes and `"ac"`, each still with the hash 5. -/
theorem cached_hash_after_mutation :
    (∀ (sd : StringData) data len mode r,
      sd.assign data len mode = some (r, none) → r.m_hash = 0) ∧
    (∀ (sd : StringData) s len r ex, 0 < len → intWord len &&& IsMask = 0 →
      sd.append s len = some (r, ex) → r.m_hash = 0) ∧
    (∀ (sd : StringData) offset r, sd.removeChar offset = some r → r.m_hash = 0) ∧
    (∀ (sd : StringData) r, sd.escalate = some r → r.m_hash = 0) ∧
    (∀ (sd : StringData) offset ch r, sd.setChar_ch offset ch = some r →
      r.m_hash = if sd.isImmutable then 0 else sd.m_hash) ∧
    (∀ (sd : StringData) r, sd.negate = some r → r.m_hash = sd.m_hash) ∧
    (∀ f (sd : StringData) r, sd.empty = false → sd.isImmutable = true →
      sd.inc f = some (r, none) → r.m_hash = 0) ∧
    (∀ f (sd : StringData), sd.empty = true →
      sd.inc f = some ({ sd with m_len := IsLiteral ||| 1, m_data := some [49, 0] }, none)) ∧
    (∀ f (sd : StringData) buf buf1, sd.empty = false → sd.isImmutable = false →
      sd.m_data = some buf → f buf sd.size = some (buf1, none) →
      sd.inc f = some ({ sd with m_data := some buf1 }, none)) ∧
    mallocAb.setChar_ch 0 120 =
      some { m_data := some [120, 98, 0], m_len := 2, m_hash := 5, m_shared := 0 } ∧
    mallocAb.negate =
      some { m_data := some [158, 157, 0], m_len := 2, m_hash := 5, m_shared := 0 } ∧
    mallocAb.inc incrementLast =
      some ({ m_data := some [97, 99, 0], m_len := 2, m_hash := 5, m_shared := 0 }, none) ∧
    literalEmpty.inc incrementLast =
      some ({ m_data := some [49, 0], m_len := IsLiteral ||| 1, m_hash := 5, m_shared := 0 },
        none) ∧
    mallocAb.assign [120, 0] 1 StringDataMode.CopyString =
      some ({ m_data := some [120, 0], m_len := 1, m_hash := 0, m_shared := 0 }, none) ∧
    mallocAb.append (some [99]) 1 =
      some ({ m_data := some [97, 98, 99, 0], m_len := 3, m_hash := 0, m_shared := 0 }, none) ∧
    mallocAb.removeChar 0 =
      some { m_data := some [98, 0, 0], m_len := 1, m_hash := 0, m_shared := 0 } ∧
    literalAb.escalate =
      some { m_data := some [97, 98, 0], m_len := 2, m_hash := 0, m_shared := 0 } ∧
    literalAb.setChar_ch 0 120 =
      some { m_data := some [120, 98, 0], m_len := 2, m_hash := 0, m_shared := 0 } := by
  refine ⟨assign_hash, ?_, removeChar_hash, escalate_hash, setChar_ch_hash, negate_hash,
    inc_hash_immutable, ?_, ?_, by decide, by decide, by decide, by decide, by decide,
    by decide, by decide, by decide, by decide⟩
  · intro sd s len r ex hpos hvalid h
    exact append_hash sd s len r ex hpos hvalid h
  · intro f sd he
    unfold StringData.inc
    rw [if_pos he]
  · intro f sd buf buf1 he himm hd hf
    unfold StringData.inc
    simp only [he, himm, hd, hf, Bool.false_eq_true, if_false]

/-- A `memcpy` inside the two blocks. -/
theorem memcpy_eq (dst : List Nat) (off : Nat) (b : List Nat) (n : Nat)
    (h1 : n ≤ b.length) (h2 : off + n ≤ dst.length) :
    memcpy dst off (some b) n = some (dst.take off ++ b.take n ++ dst.drop (off + n)) := by
  unfold memcpy
  by_cases hn : n = 0
  · subst hn
    simp
  · rw [if_neg hn]
    simp only
    rw [if_pos ⟨h1, h2⟩]

/-- The block `string_concat` returns. -/
theorem string_concat_eq (buf block : List Nat) (n m : Nat)
    (hn : n ≤ buf.length) (hm : m ≤ block.length) :
    string_concat (some buf) n (some block) m =
      some (buf.take n ++ block.take m ++ [0], n + m) := by
  unfold string_concat
  rw [memcpy_eq _ _ _ _ hn (by simp [malloc]; omega)]
  simp only
  rw [memcpy_eq _ _ _ _ hm (by simp [malloc]; omega)]
  simp only
  unfold poke
  rw [if_pos (by simp [malloc]; omega)]
  simp only [Option.map_some', Option.some.injEq, Prod.mk.injEq, and_true]
  apply List.ext_get?
  intro i
  simp only [List.get?_eq_getElem?, List.getElem?_set, List.getElem?_take,
    List.getElem?_append, List.length_take, List.length_append, List.length_drop,
    List.getElem?_drop, malloc, List.getElem?_replicate, List.length_replicate,
    List.take_zero, List.nil_append, List.length_nil, List.length_cons, List.take_append_eq_append_take]
  have e1 : n ⊓ buf.length = n := by omega
  have e2 : m ⊓ block.length = m := by omega
  simp only [e1, e2, Nat.min_self, Nat.sub_self, Nat.zero_min, Nat.add_zero, Nat.zero_add]
  by_cases h1 : n + m = i
  · subst h1
    simp
    omega
  · rw [if_neg h1]
    by_cases h2 : i < n + m
    · simp only [h2, if_true]
      split_ifs <;> rfl
    · have h3 : i - (n + m) = (i - (n + m) - 1) + 1 := by omega
      have hr : [0][i - (n + m)]? = none := by rw [h3]; rfl
      rw [if_neg h2, if_neg h2, hr]
      split_ifs <;> first | rfl | omega

/-- The block after the `realloc`, the `memcpy` and the terminator of the third branch of
`append`. -/
theorem realloc_memcpy_eq (buf block : List Nat) (n m : Nat)
    (hn : n ≤ buf.length) (hm : m ≤ block.length) :
    ∃ b, memcpy (realloc (some buf) (n + m + 1)) n (some block) m = some b ∧
      poke b (n + m) 0 = some (buf.take n ++ block.take m ++ [0]) := by
  have hl : (realloc (some buf) (n + m + 1)).length = n + m + 1 := by
    simp only [realloc, List.length_append, List.length_take, List.length_replicate]
    omega
  refine ⟨_, memcpy_eq _ _ _ _ hm (by omega), ?_⟩
  unfold poke
  rw [if_pos (by
    simp only [List.length_append, List.length_take, List.length_drop, hl]
    omega)]
  simp only [Option.some.injEq]
  apply List.ext_get?
  intro i
  simp only [List.get?_eq_getElem?, List.getElem?_set, List.getElem?_take,
    List.getElem?_append, List.length_take, List.length_append, List.length_drop,
    List.getElem?_drop, realloc, List.getElem?_replicate, List.length_replicate,
    List.length_nil, List.length_cons]
  have e1 : n ⊓ buf.length = n := by omega
  have e2 : m ⊓ block.length = m := by omega
  have e3 : n ⊓ ((n + m + 1) ⊓ buf.length + (n + m + 1 - buf.length)) = n := by omega
  simp only [e1, e2, e3]
  by_cases h1 : n + m = i
  · subst h1
    simp
    omega
  · rw [if_neg h1]
    by_cases h2 : i < n + m
    · simp only [h2, if_true]
      split_ifs <;> first | rfl | omega
    · have h3 : i - (n + m) = (i - (n + m) - 1) + 1 := by omega
      have hr : [0][i - (n + m)]? = none := by rw [h3]; rfl
      rw [if_neg h2, if_neg h2, hr]
      split_ifs <;> first | rfl | omega

/-- The length word after `releaseData` is the one from before. -/
theorem releaseData_len (sd : StringData) : sd.releaseData.m_len = sd.m_len := by
  unfold StringData.releaseData
  (repeat' split) <;> rfl

/-- The check at the end of `append` on a length word below `2 ^ 31`. -/
theorem appendCheck_eq (sd : StringData) (h : sd.m_len < 2 ^ 31) :
    StringData.appendCheck sd =
      if sd.m_len < 2 ^ 29 then (sd, none)
      else ({ ({ sd with m_len := sd.m_len &&& (2 ^ 32 - 1 - IsMask) }).releaseData with
                m_data := none },
            some (StringException.FatalErrorException (Int.ofNat sd.m_len))) := by
  unfold StringData.appendCheck
  have := land_IsMask_eq_zero_iff sd.m_len h
  by_cases hc : sd.m_len < 2 ^ 29
  · rw [if_neg (by rw [ne_eq, not_not]; exact this.2 hc), if_pos hc]
  · rw [if_pos (fun e => hc (this.1 e)), if_neg hc]

/-- C40: let a string of size `n` hold its content in its block, and let `s` be another block
with at least `len` bytes, `0 < len ≤ 2^29 - 1`. If `n + len ≤ 2^29 - 1`, `append(s, len)`
returns, the block is the content followed by the first `len` bytes of `s` and a terminator,
the size is `n + len` and the flag bits are clear; if `n + len > 2^29 - 1`, it throws
`FatalErrorException` with the number `n + len`, and the string is left without a block, with
the flag bits clear and the cached hash 0. -/
theorem append_within_limit (sd : StringData) (buf block : List Nat) (len : Int)
    (hd : sd.m_data = some buf) (hn : sd.size ≤ buf.length)
    (hpos : 0 < len) (hmax : len ≤ 2 ^ 29 - 1) (hb : len.toNat ≤ block.length) :
    ((sd.size : Int) + len ≤ 2 ^ 29 - 1 →
      ∃ sd', sd.append (some block) len = some (sd', none) ∧
        sd'.m_data = some (buf.take sd.size ++ block.take len.toNat ++ [0]) ∧
        sd'.size = sd.size + len.toNat ∧ sd'.m_len &&& IsMask = 0 ∧
        sd'.isMalloced = true ∧ sd'.m_hash = 0) ∧
    (2 ^ 29 - 1 < (sd.size : Int) + len →
      ∃ sd', sd.append (some block) len =
          some (sd', some (StringException.FatalErrorException ((sd.size : Int) + len))) ∧
        sd'.m_data = none ∧ sd'.m_len &&& IsMask = 0 ∧ sd'.m_hash = 0) := by
  obtain ⟨m, rfl⟩ := Int.eq_ofNat_of_zero_le (le_of_lt hpos)
  have hm0 : 0 < m := by exact_mod_cast hpos
  have hm : m < 2 ^ 29 := by
    have : (m : Int) < 2 ^ 29 := by omega
    exact_mod_cast this
  simp only [Int.toNat_ofNat] at hb ⊢
  have hlt := sd.size_lt
  have hw : intWord (m : Int) = m := by
    unfold intWord
    rw [Int.emod_eq_of_lt (by omega) (by omega)]
    rfl
  have hvalid : intWord (m : Int) &&& IsMask = 0 := by
    rw [hw]
    exact (land_IsMask_eq_zero_iff m (by omega)).2 hm
  have hmod : (sd.size + m) % 2 ^ 32 = sd.size + m := Nat.mod_eq_of_lt (by omega)
  have hmod2 : (m + sd.size) % 2 ^ 32 = sd.size + m := by
    rw [Nat.add_comm]; exact hmod
  -- the string before the final check, in the three branches
  have key : ∃ sd1 : StringData, sd.append (some block) (m : Int) =
      some (StringData.appendCheck sd1) ∧ sd1.m_len = sd.size + m ∧
      sd1.m_data = some (buf.take sd.size ++ block.take m ++ [0]) ∧ sd1.m_hash = 0 := by
    unfold StringData.append
    rw [if_neg (by omega), if_neg (by simp [hvalid])]
    simp only [Int.toNat_ofNat, StringData.data, hd, Option.isNone_some, Bool.false_eq_true,
      if_false]
    by_cases hmal : sd.isMalloced = true
    · simp only [hmal, Bool.not_true, Bool.false_eq_true, if_false]
      obtain ⟨b, hb1, hb2⟩ := realloc_memcpy_eq buf block sd.size m hn hb
      rw [hmod2, hb1]
      simp only
      rw [hb2]
      exact ⟨_, rfl, rfl, rfl, rfl⟩
    · have hmal1 : sd.isMalloced = false := by simpa using hmal
      simp only [hmal1, Bool.not_false, if_true]
      rw [string_concat_eq buf block sd.size m hn hb]
      simp only
      rw [hmod]
      exact ⟨_, rfl, rfl, rfl, rfl⟩
  obtain ⟨sd1, happ, hl1, hd1, hh1⟩ := key
  rw [happ, appendCheck_eq sd1 (by omega), hl1]
  constructor
  · intro hle
    have hle1 : sd.size + m < 2 ^ 29 := by omega
    rw [if_pos hle1]
    refine ⟨sd1, rfl, hd1, ?_, ?_, ?_, hh1⟩
    · rw [StringData.size_eq_mod, hl1]
      exact Nat.mod_eq_of_lt hle1
    · rw [hl1]
      exact (land_IsMask_eq_zero_iff _ (by omega)).2 hle1
    · unfold StringData.isMalloced
      rw [hl1, (land_IsMask_eq_zero_iff _ (by omega)).2 hle1]
      rfl
  · intro hgt
    have hgt1 : ¬ sd.size + m < 2 ^ 29 := by omega
    rw [if_neg hgt1]
    have hcast : Int.ofNat (sd.size + m) = (sd.size : Int) + (m : Int) := by
      rfl
    rw [hcast]
    refine ⟨_, rfl, rfl, ?_, ?_⟩
    · show ({ sd1 with m_len := (sd.size + m) &&& (2 ^ 32 - 1 - IsMask) } :
        StringData).releaseData.m_len &&& IsMask = 0
      rw [releaseData_len]
      show ((sd.size + m) &&& (2 ^ 32 - 1 - IsMask)) &&& IsMask = 0
      have e : 2 ^ 32 - 1 - IsMask = 2 ^ 29 - 1 := by decide
      rw [e, Nat.and_pow_two_sub_one_eq_mod]
      have := Nat.mod_lt (sd.size + m) (show 0 < 2 ^ 29 by decide)
      exact (land_IsMask_eq_zero_iff _ (by omega)).2 this
    · exact releaseData_hash _

/-- Witness for C40: appending `"c"` to the literal `"ab"`, and to a string of `2^29 - 1`
bytes. -/
theorem append_within_limit_witness :
    (∃ sd', literalAb.append (some [99, 0]) 1 = some (sd', none) ∧
      sd'.m_data = some (List.take literalAb.size [97, 98, 0] ++
        List.take (1 : Int).toNat [99, 0] ++ [0]) ∧
      sd'.size = literalAb.size + (1 : Int).toNat ∧ sd'.m_len &&& IsMask = 0 ∧
      sd'.isMalloced = true ∧ sd'.m_hash = 0) ∧
    (∃ sd', nearLimit.append (some [99, 0]) 1 =
        some (sd', some (StringException.FatalErrorException ((nearLimit.size : Int) + 1))) ∧
      sd'.m_data = none ∧ sd'.m_len &&& IsMask = 0 ∧ sd'.m_hash = 0) :=
  ⟨(append_within_limit literalAb [97, 98, 0] [99, 0] 1 rfl (by decide) (by decide)
      (by decide) (by decide)).1 (by decide),
   (append_within_limit nearLimit (List.replicate (2 ^ 29 - 1) 97 ++ [0]) [99, 0] 1 rfl
      (by rw [List.length_append, List.length_replicate]; decide) (by decide) (by decide) (by decide)).2
      (by decide)⟩

end HPHP
